import Mathlib

/-!
# Bit-level register kernel of the square-root simulator (`word_library.h`)

A shallow embedding of the register type `struct word_header` and of its
operations, followed by theorems about them.

Conventions of the embedding.

* A register is its bit array (least-significant bit first, one `Bool` per
  `unsigned char` cell, every writer of the library stores `0` or `1`) together
  with the three header flags.  The header field `length` is the length of the bit
  array; it is an `unsigned short` in the source, so a register that the program
  can hold has fewer than `65536` bits.
* An operation that the source leaves through `perror(...); return` (after a failed
  `assert`) yields `none`: the call reported an error and touched no register.
  Functions returning a pointer yield `none` for `NULL`.
* `for`/`while` loops whose exit depends on a computed value run on a fuel
  counter; running out of fuel also yields `none`, and the theorems show that
  enough fuel always gives `some` result.
* `int` and `unsigned int` are 32 bits wide.  Where the source shifts an `int` by
  a count outside `0..31` the count is reduced modulo 32 (the behaviour of the x86
  shift instructions); no theorem below depends on that choice except where it
  says so.
-/

namespace WordLib

/-! ## Part 1: definitions -/

/-- Register: the bit array of a `struct word_header` (little-endian) and its
flags `overflow`, `underflow`, `is_signed`. -/
structure Word where
  bits : List Bool
  overflow : Bool
  underflow : Bool
  is_signed : Bool
deriving DecidableEq

/-- Header field `length`. -/
def Word.length (w : Word) : Nat := w.bits.length

/-- Read access `BITS(word)[i]`. -/
def BITS (w : Word) (i : Nat) : Bool := w.bits.getD i false

/-- Write access `BITS(word)[i] = b`. -/
def Word.store (w : Word) (i : Nat) (b : Bool) : Word :=
  { w with bits := w.bits.set i b }

/-- Positional (unsigned) value of a little-endian bit list. -/
def uval : List Bool → Nat
  | [] => 0
  | b :: bs => b.toNat + 2 * uval bs

/-- Two's-complement value of a little-endian bit list: the last bit weighs
`-2^(length-1)`. -/
def sval (bs : List Bool) : Int :=
  (uval bs : Int) - (if bs.getD (bs.length - 1) false then (2 : Int) ^ bs.length else 0)

/-- Integer value of a register: two's complement if `is_signed`, positional
otherwise. -/
def Word.value (w : Word) : Int :=
  if w.is_signed then sval w.bits else (uval w.bits : Int)

/-- The function `create_word`: a register of the given width, all bits zero,
unsigned, flags clear (`memset` of header and bit array). -/
def create_word (length : Nat) : Word :=
  { bits := List.replicate length false, overflow := false, underflow := false,
    is_signed := false }

/-- The function `create_word_duplicate`: `NULL` for a zero-width source, else a
copy of header and bit array (`memcpy`). -/
def create_word_duplicate (source : Word) : Option Word :=
  if source.length = 0 then none else some source

/-- Body of the `for` loop of `word_op_rightshift`, `n` iterations from index `i`
upwards. -/
def rightshift_loop (bitcount : Nat) (sign : Bool) : Nat → Nat → Word → Word
  | 0, _, w => w
  | n + 1, i, w =>
    let source_bit := if i + bitcount < w.length then BITS w (i + bitcount) else sign
    let w1 := if i < bitcount ∧ BITS w i ≠ false then { w with underflow := true } else w
    rightshift_loop bitcount sign n (i + 1) (w1.store i source_bit)

/-- The function `word_op_rightshift`. -/
def word_op_rightshift (word : Word) (bitcount : Nat) : Option Word :=
  if word.length = 0 then none
  else
    let sign := if word.is_signed then BITS word (word.length - 1) else false
    some (rightshift_loop bitcount sign word.length 0 word)

/-- Body of the `for` loop of `word_op_leftshift`: the index runs from `n - 1` down
to `0`; `top` is `word->length - 1 - sign_bit`. -/
def leftshift_loop (bitcount : Nat) (sign : Bool) (top : Nat) : Nat → Word → Word
  | 0, w => w
  | i + 1, w =>
    let source_bit := if bitcount ≤ i then BITS w (i - bitcount) else false
    let w1 := if top - i < bitcount ∧ BITS w i ≠ sign then { w with overflow := true } else w
    leftshift_loop bitcount sign top i (w1.store i source_bit)

/-- The function `word_op_leftshift`.  The loop starts at index
`length - 1 - sign_bit`, so it runs `length - sign_bit` times. -/
def word_op_leftshift (word : Word) (bitcount : Nat) : Option Word :=
  if word.length = 0 then none
  else
    let sign_bit := if word.is_signed then 1 else 0
    let sign := if word.is_signed then BITS word (word.length - 1) else false
    some (leftshift_loop bitcount sign (word.length - 1 - sign_bit)
      (word.length - sign_bit) word)

/-- Body of the comparison loop shared by `word_op_compare` and
`word_op_compare_constant`: the index runs from `n - 1` down to `0`, the two
functions give `source_bit1` and `source_bit2` at an index. -/
def compare_loop (bit1 bit2 : Nat → Bool) : Nat → Int
  | 0 => 0
  | i + 1 =>
    if bit1 i && !bit2 i then 1
    else if !bit1 i && bit2 i then -1
    else compare_loop bit1 bit2 i

/-- The function `word_op_compare`; `2` is the error value. -/
def word_op_compare (word1 word2 : Word) : Int :=
  if word1.length = 0 ∨ word2.length = 0 then 2
  else
    let sign1 : Bool := !word1.is_signed || !BITS word1 (word1.length - 1)
    let sign2 : Bool := !word2.is_signed || !BITS word2 (word2.length - 1)
    if sign1 && !sign2 then 1
    else if !sign1 && sign2 then -1
    else
      let size := if word1.length > word2.length then word1.length else word2.length
      compare_loop
        (fun i => if i < word1.length then BITS word1 i else !sign1)
        (fun i => if i < word2.length then BITS word2 i else !sign2)
        size

/-- Bit `i` of a 32-bit `int`, `1 & (constant >> i)` with an arithmetic right
shift. -/
def int_bit (constant : Int) (i : Nat) : Bool := decide ((constant / 2 ^ i) % 2 = 1)

/-- The function `word_op_compare_constant`; `2` is the error value. -/
def word_op_compare_constant (word : Word) (constant : Int) : Int :=
  if word.length = 0 then 2
  else
    let sign1 : Bool := !word.is_signed || !BITS word (word.length - 1)
    let sign2 : Bool := decide (constant ≥ 0)
    if sign1 && !sign2 then 1
    else if !sign1 && sign2 then -1
    else
      let size := if word.length > 32 then word.length else 32
      compare_loop
        (fun i => if i < word.length then BITS word i else !sign1)
        (fun i => if i < 32 then int_bit constant i else !sign2)
        size

/-- Body of the `for` loop of `word_op_negate`, `n` iterations from index `i`
upwards; `sum` is the running `int sum` (never negative here). -/
def negate_loop (final_sign : Bool) : Nat → Nat → Nat → Word → Word
  | 0, _, _, w => w
  | n + 1, i, sum, w =>
    let source_bit := if i < w.length then BITS w i else BITS w (w.length - 1)
    let sum1 := sum + (if source_bit then 0 else 1)
    let w1 := if i = w.length - 1 ∧ decide (sum1 % 2 = 1) ≠ final_sign
      then { w with overflow := true } else w
    let w2 := if i < w.length - 1 then w1.store i (decide (sum1 % 2 = 1))
      else if i = w.length - 1 then w1.store i final_sign else w1
    negate_loop final_sign n (i + 1) (sum1 / 2) w2

/-- The function `word_op_negate`. -/
def word_op_negate (word : Word) : Option Word :=
  if word.length = 0 then none
  else if !word.is_signed then none
  else
    let final_sign := !BITS word (word.length - 1)
    some (negate_loop final_sign word.length 0 1 word)

/-- Body of the `for` loop of `word_op_abs`, `n` iterations from index `i` upwards. -/
def abs_loop : Nat → Nat → Nat → Word → Word
  | 0, _, _, w => w
  | n + 1, i, sum, w =>
    let source_bit := if i < w.length - 1 then BITS w i else true
    let sum1 := sum + (if source_bit then 0 else 1)
    abs_loop n (i + 1) (sum1 / 2) (w.store i (decide (sum1 % 2 = 1)))

/-- The function `word_op_abs`: a duplicate of the register (header included), two's
complemented when the register is signed and negative. -/
def word_op_abs (word : Word) : Option Word :=
  if word.length = 0 then none
  else
    match create_word_duplicate word with
    | none => none
    | some result =>
      if result.is_signed && BITS result (result.length - 1) then
        let result1 := result.store (result.length - 1) false
        some (abs_loop result1.length 0 1 result1)
      else some result

/-- Inner loop of `word_makelist` for digit `i`: `n` iterations from `k` upwards,
`digit_value += (BITS(amplitude)[i * bits_per_digit + k] << k)` on an
`unsigned int`; the loop breaks past the end of the register. -/
def makelist_digit_loop (amplitude : Word) (bits_per_digit i : Nat) : Nat → Nat → Nat → Nat
  | 0, _, digit_value => digit_value
  | n + 1, k, digit_value =>
    if i * bits_per_digit + k ≥ amplitude.length then digit_value
    else
      makelist_digit_loop amplitude bits_per_digit i n (k + 1)
        ((digit_value + (BITS amplitude (i * bits_per_digit + k)).toNat * 2 ^ (k % 32)) % 2 ^ 32)

/-- Value of digit `i` (counted from the least-significant end) as computed by the
body of the outer loop of `word_makelist`. -/
def makelist_digit (amplitude : Word) (bits_per_digit i : Nat) : Nat :=
  makelist_digit_loop amplitude bits_per_digit i (bits_per_digit - 1) 1
    (BITS amplitude (i * bits_per_digit)).toNat

/-- Outer loop of `word_makelist`: `n` iterations from digit `i` upwards, digit `i`
is written to `storage[digit_count - i]`. -/
def makelist_loop (amplitude : Word) (bits_per_digit digit_count : Nat) :
    Nat → Nat → List Nat → List Nat
  | 0, _, storage => storage
  | n + 1, i, storage =>
    makelist_loop amplitude bits_per_digit digit_count n (i + 1)
      (storage.set (digit_count - i) (makelist_digit amplitude bits_per_digit i))

/-- The function `word_makelist`.  The digit count `ceil((double) length /
bits_per_digit)` is the rounded-up quotient (both operands are integers below
`2^16`, for which the floating-point quotient rounds up to the same integer). -/
def word_makelist (word : Word) (bits_per_digit : Nat) : Option (List Nat) :=
  if word.length = 0 then none
  else if bits_per_digit = 0 then none
  else
    let digit_count := (word.length + bits_per_digit - 1) / bits_per_digit
    match word_op_abs word with
    | none => none
    | some amplitude =>
      some (makelist_loop amplitude bits_per_digit digit_count digit_count 0
        (digit_count :: List.replicate digit_count 0))

/-- The expression `1 << c` on a 32-bit `int`, the count taken modulo 32. -/
def int_shl_one (c : Nat) : Int :=
  if c % 32 = 31 then -(2 : Int) ^ 31 else (2 : Int) ^ (c % 32)

/-- Body of the `for` loop of `word_op_add`; `sum` is the running `int sum`, `i`
indexes the added value and `j` the result. -/
def add_loop (result_sign added_value_sign : Bool) (sign : Int) (added_value : Word) :
    Nat → Nat → Nat → Int → Word → Option Word
  | 0, _, _, _, _ => none
  | fuel + 1, i, j, sum, result =>
    if ¬ (i < added_value.length ∨ sum ≠ 0) then some result
    else if i ≥ added_value.length ∧ j ≥ result.length ∧ (sum = 0 ∨ sum = -1) then some result
    else
      let source := if j < result.length then BITS result j else result_sign
      let added_bit := if i < added_value.length then BITS added_value i else added_value_sign
      let sum1 := if sign = 1 then sum + (source.toNat : Int) + (added_bit.toNat : Int) else sum
      let sum2 := if sign = -1 then sum1 + (source.toNat : Int) - (added_bit.toNat : Int)
        else sum1
      let result1 := if j < result.length then result.store j (decide (sum2 % 2 = 1)) else result
      let sum3 := sum2 / 2
      if j ≥ result.length - 1 ∧ sum3 ≠ 0 ∧ sum3 ≠ -1 ∧
          (result_sign = false ∨
            sum3 ≠ int_shl_one (Int.toNat ((((result.length : Int) - 1) - (j : Int)) % 2 ^ 32)))
      then some { result1 with overflow := true }
      else add_loop result_sign added_value_sign sign added_value fuel (i + 1) (j + 1) sum3 result1

/-- The function `word_op_add`. -/
def word_op_add (fuel : Nat) (result added_value : Word) (sign : Int) (position : Nat) :
    Option Word :=
  if result.length = 0 ∨ added_value.length = 0 then none
  else if sign ≠ 1 ∧ sign ≠ -1 then none
  else
    let result_sign := result.is_signed && BITS result (result.length - 1)
    let added_value_sign := added_value.is_signed && BITS added_value (added_value.length - 1)
    add_loop result_sign added_value_sign sign added_value fuel 0 position 0 result

/-- Inner loop of `word_op_multiply`: `n` iterations, `alpha` ascending and `beta`
descending (both `unsigned short`), accumulating into the `unsigned int sum`. -/
def multiply_column (multiplier_copy multiplicand_copy : Word) : Nat → Nat → Nat → Nat → Nat
  | 0, _, _, sum => sum
  | n + 1, alpha, beta, sum =>
    multiply_column multiplier_copy multiplicand_copy n ((alpha + 1) % 65536)
      ((beta + 65535) % 65536)
      ((sum + (if BITS multiplier_copy alpha then (BITS multiplicand_copy beta).toNat else 0))
        % 2 ^ 32)

/-- Outer loop of `word_op_multiply`, one column of the product per iteration. -/
def multiply_loop (na nb : Nat) (multiplier_copy multiplicand_copy : Word) :
    Nat → Nat → Nat → Word → Option Word
  | 0, _, _, _ => none
  | fuel + 1, i, sum, result =>
    if ¬ (i < na + nb - 1 ∨ sum ≠ 0) then some result
    else
      let alpha := if i < nb then 0 else (i - nb + 1) % 65536
      let beta := if i < nb then i else nb - 1
      let n1 := if i < nb ∧ i < na then i + 1 else 0
      let n2 := if i < nb ∧ i ≥ na then na else n1
      let n3 := if i ≥ nb ∧ i < na then nb else n2
      let no_of_bits := if i ≥ nb ∧ i ≥ na ∧ i < na + nb - 1 then (na + nb - 1) - i else n3
      let sum1 := multiply_column multiplier_copy multiplicand_copy no_of_bits alpha beta sum
      let result1 := if result.is_signed = true ∧ i ≥ result.length - 1 ∧ sum1 ≠ 0
        then { result with overflow := true } else result
      if i ≥ result.length ∧ sum1 ≠ 0 then some { result1 with overflow := true }
      else
        let result2 := if i < result.length then result1.store i (decide (sum1 % 2 = 1))
          else result1
        multiply_loop na nb multiplier_copy multiplicand_copy fuel (i + 1) (sum1 / 2) result2

/-- The function `word_op_multiply`. -/
def word_op_multiply (fuel : Nat) (result multiplier multiplicand : Word) : Option Word :=
  if result.length = 0 then none
  else if multiplier.length = 0 then none
  else if multiplicand.length = 0 then none
  else
    let sign1 := multiplier.is_signed && BITS multiplier (multiplier.length - 1)
    let sign2 := multiplicand.is_signed && BITS multiplicand (multiplicand.length - 1)
    if sign1 ≠ sign2 ∧ result.is_signed = false then none
    else
      match word_op_abs multiplier, word_op_abs multiplicand with
      | some multiplier_copy, some multiplicand_copy =>
        match multiply_loop multiplier.length multiplicand.length multiplier_copy
            multiplicand_copy fuel 0 0 result with
        | none => none
        | some result1 => if sign1 ≠ sign2 then word_op_negate result1 else some result1
      | _, _ => none

/-- First loop of `word_op_isqrt`: `while (1 == word_op_compare(bit, remainder))
word_op_rightshift(bit, 2)`; returns the final `bit`. -/
def isqrt_loop1 (remainder : Word) : Nat → Word → Option Word
  | 0, _ => none
  | fuel + 1, bit =>
    if word_op_compare bit remainder = 1 then
      match word_op_rightshift bit 2 with
      | none => none
      | some bit1 => isqrt_loop1 remainder fuel bit1
    else some bit

/-- Second loop of `word_op_isqrt`: `while (0 != word_op_compare_constant(bit, 0))`;
returns the final `result`. -/
def isqrt_loop2 (addfuel : Nat) : Nat → Word → Word → Word → Option Word
  | 0, _, _, _ => none
  | fuel + 1, bit, result, remainder =>
    if word_op_compare_constant bit 0 = 0 then some result
    else
      match create_word_duplicate result with
      | none => none
      | some update_term0 =>
        match word_op_add addfuel update_term0 bit 1 0 with
        | none => none
        | some update_term =>
          if word_op_compare remainder update_term ≥ 0 then
            match word_op_add addfuel remainder update_term (-1) 0,
                word_op_rightshift result 1 with
            | some remainder1, some result1 =>
              match word_op_add addfuel result1 bit 1 0, word_op_rightshift bit 2 with
              | some result2, some bit1 => isqrt_loop2 addfuel fuel bit1 result2 remainder1
              | _, _ => none
            | _, _ => none
          else
            match word_op_rightshift result 1, word_op_rightshift bit 2 with
            | some result1, some bit1 => isqrt_loop2 addfuel fuel bit1 result1 remainder
            | _, _ => none

/-- The function `word_op_isqrt`.  The start index of the trial bit,
`~((int)1) & (length - 1)`, is `length - 1` with its lowest bit cleared. -/
def word_op_isqrt (fuel : Nat) (radicand : Word) : Option Word :=
  if radicand.length = 0 then none
  else
    match create_word_duplicate radicand with
    | none => none
    | some remainder =>
      let bit := (create_word radicand.length).store ((radicand.length - 1) / 2 * 2) true
      let result := create_word radicand.length
      match isqrt_loop1 remainder fuel bit with
      | none => none
      | some bit1 => isqrt_loop2 fuel fuel bit1 result remainder

/-- Column `i` of the schoolbook product of two bit arrays: the number of index
pairs `(α, i - α)` at which both registers hold a one. -/
def column_sum (a b : Word) (i : Nat) : Nat :=
  ∑ α ∈ Finset.range (i + 1), (BITS a α).toNat * (BITS b (i - α)).toNat

/-- Weighted sum of the first `n` columns of the schoolbook product. -/
def columns_value (a b : Word) (n : Nat) : Nat :=
  ∑ i ∈ Finset.range n, column_sum a b i * 2 ^ i

/-- The copy loop of `word_op_load`: `for (i = position, j = 0; i < position +
value->length; ++i, ++j)`.  The first argument counts the remaining iterations.  A
source bit that falls beyond the destination and differs from `sign1` sets `overflow`
and returns at once; a bit inside the destination is copied. -/
def load_loop (sign1 : Bool) (value : Word) : Nat → Nat → Nat → Word → Word
  | 0, _, _, word => word
  | n + 1, i, j, word =>
    if i ≥ word.length ∧ BITS value j ≠ sign1 then { word with overflow := true }
    else
      load_loop sign1 value n (i + 1) (j + 1)
        (if i < word.length then word.store i (BITS value j) else word)

/-- `word_op_load(word, value, position)`: `none` on the two error returns (an invalid
register, or `sign1 != sign2` where each sign is `is_signed && top bit`). -/
def word_op_load (word value : Word) (position : Nat) : Option Word :=
  if word.length = 0 ∨ value.length = 0 then none
  else
    let sign1 := word.is_signed && BITS word (word.length - 1)
    let sign2 := value.is_signed && BITS value (value.length - 1)
    if sign1 ≠ sign2 then none
    else some (load_loop sign1 value value.length position 0 word)

/-- Body of the `for` loop of `word_op_bitinvert`, `n` iterations from index `i`
upwards. -/
def bitinvert_loop : Nat → Nat → Word → Word
  | 0, _, word => word
  | n + 1, i, word => bitinvert_loop n (i + 1) (word.store i (!BITS word i))

/-- The function `word_op_bitinvert`. -/
def word_op_bitinvert (word : Word) : Option Word :=
  if word.length = 0 then none
  else some (bitinvert_loop word.length 0 word)

/-- Body of the `for` loop of `word_op_extract`: `for (int i = position, j = 0;
j < sample->length; ++i, ++j)`; the first argument counts the remaining iterations.
The register `word` is only read. -/
def extract_loop (word : Word) : Nat → Int → Nat → Word → Word
  | 0, _, _, sample => sample
  | n + 1, i, j, sample =>
    let sign := word.is_signed && BITS word (word.length - 1)
    let source :=
      if i ≥ 0 ∧ i < (word.length : Int) then BITS word i.toNat
      else if i ≥ (word.length : Int) then sign
      else false
    extract_loop word n (i + 1) (j + 1) (sample.store j source)

/-- The function `word_op_extract(word, sample, position)`; the result is the new
content of `sample`.  The parameter `position` is a `short`. -/
def word_op_extract (word sample : Word) (position : Int) : Option Word :=
  if word.length = 0 ∨ sample.length = 0 then none
  else some (extract_loop word sample.length position 0 sample)

/-- Body of the `for` loop of `word_op_load_constant`: `for (i = position;
i < position + bitcount; ++i)` with `value >>= 1` at the end of each round; the first
argument counts the remaining iterations. -/
def load_constant_loop (sign : Bool) : Nat → Nat → Nat → Word → Word
  | 0, _, _, word => word
  | n + 1, i, value, word =>
    if i ≥ word.length ∧ decide (value % 2 = 1) ≠ sign then { word with overflow := true }
    else
      load_constant_loop sign n (i + 1) (value / 2)
        (if i < word.length then word.store i (decide (value % 2 = 1)) else word)

/-- The function `word_op_load_constant(word, value, position, bitcount)`.  The
parameter `value` is an `unsigned int`: an argument is reduced modulo `2^32`, and
`(signed int) value < 0` means that bit 31 is set. -/
def word_op_load_constant (word : Word) (value position bitcount : Nat) : Option Word :=
  if word.length = 0 then none
  else if bitcount > 32 then none
  else
    let sign := word.is_signed && decide (value % 2 ^ 32 ≥ 2 ^ 31)
    some (load_constant_loop sign bitcount position (value % 2 ^ 32) word)

/-- The loop `do previous_bit = random_bit(); while (random_bit() == previous_bit);`
of `word_randomize`.  The random source is a stream `rnd` of bits read at the running
index `k`; the result is `previous_bit` and the index of the next unread bit. -/
def randomize_first (rnd : Nat → Bool) : Nat → Nat → Option (Bool × Nat)
  | 0, _ => none
  | fuel + 1, k =>
    let previous_bit := rnd k
    if rnd (k + 1) = previous_bit then randomize_first rnd fuel (k + 2)
    else some (previous_bit, k + 2)

/-- Write `BITS(word)[i] = b` for an `int` index.  A negative index, which
`word_randomize` reaches only on a register of width one, lies outside the bit array
and is left out of the model. -/
def store_int (word : Word) (i : Int) (b : Bool) : Word :=
  if i ≥ 0 then word.store i.toNat b else word

/-- The loop `while (i >= 0) BITS(word)[i--] = random_bit();` of `word_randomize`;
the first argument bounds the number of iterations. -/
def randomize_fill (rnd : Nat → Bool) : Nat → Int → Nat → Word → Word × Nat
  | 0, _, k, word => (word, k)
  | n + 1, i, k, word =>
    if i ≥ 0 then randomize_fill rnd n (i - 1) (k + 1) (word.store i.toNat (rnd k))
    else (word, k)

/-- The function `word_randomize` over the random stream `rnd`; the result is the
register and the index of the next unread random bit. -/
def word_randomize (rnd : Nat → Bool) (fuel : Nat) (word : Word) : Option (Word × Nat) :=
  if word.length = 0 then none
  else
    match randomize_first rnd fuel 0 with
    | none => none
    | some (previous_bit, k) =>
      let i : Int := (word.length : Int) - 1
      if word.is_signed then
        let word1 := store_int word i previous_bit
        let word2 := store_int word1 (i - 1) (!previous_bit)
        some (randomize_fill rnd word.length (i - 2) k word2)
      else
        let word1 := store_int word i true
        if previous_bit then
          some (randomize_fill rnd word.length (i - 2) k (store_int word1 (i - 1) false))
        else some (randomize_fill rnd word.length (i - 1) k word1)

/-! ### The two main programs: `main.VERY-BASIC.c` and `main.c` -/

/-- An unsigned register of the given width holding the low bits of `v` (used to write
down seed registers). -/
def word_of_nat (width v : Nat) : Word :=
  { bits := (List.range width).map (fun i => v.testBit i), overflow := false,
    underflow := false, is_signed := false }

/-- The operands that both programs build from the two seeds: `A = seed1^2`,
`B = seed2^2` and the exact root `S = seed1 * seed2`. -/
structure Operands where
  A : Word
  B : Word
  S : Word
deriving DecidableEq

/-- Construction of the operands at the start of `main`, in both `main.VERY-BASIC.c` and
`main.c`; the `return 0` exits on a fault flag and on an odd `processor_size` give
`none`. -/
def make_operands (processor_size fuel : Nat) (random_seed1 random_seed2 : Word) :
    Option Operands := do
  if processor_size % 2 ≠ 0 then none
  let A ← word_op_multiply fuel (create_word processor_size) random_seed1 random_seed1
  let B ← word_op_multiply fuel (create_word processor_size) random_seed2 random_seed2
  if A.overflow || A.underflow || B.overflow || B.underflow then none
  let S ← word_op_multiply fuel (create_word processor_size) random_seed1 random_seed2
  if S.overflow || S.underflow then none
  some { A := A, B := B, S := S }

/-- The partial-product term of one round of `main.c`. -/
def partial_product (algorithm_m register_W_size fuel : Nat)
    (digit_multiplier_B register_A : Word) : Option Word := do
  let partial_product_term := create_word register_W_size
  let partial_product_term ←
    word_op_multiply fuel partial_product_term digit_multiplier_B register_A
  word_op_leftshift partial_product_term algorithm_m

/-- The theoretical linear-quadratic term of one round of `main.c`. -/
def linearquadratic (algorithm_m algorithm_n algorithm_Z register_W_size fuel s_digit : Nat)
    (digit_multiplier_S register_S : Word) : Option Word := do
  let linearquadratic_term := create_word register_W_size
  let linearquadratic_term ← word_op_load linearquadratic_term register_S (algorithm_m + 1)
  let linearquadratic_term ←
    word_op_load_constant linearquadratic_term s_digit 0 algorithm_m
  let linearquadratic_term ←
    word_op_multiply fuel linearquadratic_term digit_multiplier_S linearquadratic_term
  word_op_leftshift linearquadratic_term (algorithm_m * (algorithm_n + 1) + 2 * algorithm_Z)

/-- Update of a residual register in one round of `main.c`: shift by `2m`, add the
partial-product term, subtract the linear-quadratic term.  (The source interleaves the
updates of the two residual registers; they do not touch each other.) -/
def residual_update (algorithm_m fuel : Nat) (register_W partial_product_term
    linearquadratic_term : Word) : Option Word := do
  let register_W ← word_op_leftshift register_W (algorithm_m * 2)
  let register_W ← word_op_add fuel register_W partial_product_term 1 0
  word_op_add fuel register_W linearquadratic_term (-1) 0

/-- Update of the theoretical result register `{S}` in a round of `main.c`. -/
def result_update (algorithm_m s_digit : Nat) (register_S : Word) : Option Word := do
  let register_S ← word_op_leftshift register_S algorithm_m
  word_op_load_constant register_S s_digit 0 algorithm_m

/-- The hardware registers of `main.VERY-BASIC.c` that live across iterations of the
recurrence loop. -/
structure BasicRegisters where
  register_S : Word
  register_A : Word
  register_W : Word
  digit_multiplier_B : Word
  digit_multiplier_S : Word
deriving DecidableEq

/-- One round of the recurrence loop of `main.VERY-BASIC.c` (the statements that change
registers; the printing code is left out).  The source shifts `register_W` first and
adds the two terms after they are formed; nothing touches `register_W` in between.  A
kernel call that takes its error return ends the run with `none`. -/
def basic_iteration (algorithm_m algorithm_n algorithm_Z overhead_iterations
    register_W_size fuel : Nat) (B_digits S_prime_digits : List Nat) (iteration : Nat)
    (regs : BasicRegisters) : Option BasicRegisters := do
  -- load the next multiplier digit and the current delayed root digit
  let digit_multiplier_B ←
    (if iteration < B_digits.getD 0 0 then
      word_op_load_constant regs.digit_multiplier_B (B_digits.getD (iteration + 1) 0) 0
        algorithm_m
    else word_op_load_constant regs.digit_multiplier_B 0 0 algorithm_m)
  let digit_multiplier_S ←
    word_op_load_constant regs.digit_multiplier_S (S_prime_digits.getD iteration 0) 0
      algorithm_m
  -- construct the partial product term and the linear-quadratic term
  let partial_product_term ←
    partial_product algorithm_m register_W_size fuel digit_multiplier_B regs.register_A
  let linearquadratic_term ←
    linearquadratic algorithm_m algorithm_n algorithm_Z register_W_size fuel
      (S_prime_digits.getD iteration 0) digit_multiplier_S regs.register_S
  -- update the residual register {W}
  let register_W ←
    residual_update algorithm_m fuel regs.register_W partial_product_term
      linearquadratic_term
  -- update the result register {S}
  let register_S ←
    result_update algorithm_m (S_prime_digits.getD iteration 0) regs.register_S
  -- update the multiplicand register {A}
  let register_A ←
    (if iteration < algorithm_n + overhead_iterations then
      word_op_leftshift regs.register_A algorithm_m
    else some regs.register_A)
  some { register_S := register_S, register_A := register_A, register_W := register_W,
         digit_multiplier_B := digit_multiplier_B, digit_multiplier_S := digit_multiplier_S }

/-- The recurrence loop `for (iteration = 1; iteration <= algorithm_n +
overhead_iterations; ++iteration)`; the first argument counts the remaining rounds. -/
def basic_loop (algorithm_m algorithm_n algorithm_Z overhead_iterations
    register_W_size fuel : Nat) (B_digits S_prime_digits : List Nat) :
    Nat → Nat → BasicRegisters → Option BasicRegisters
  | 0, _, regs => some regs
  | k + 1, iteration, regs =>
    match basic_iteration algorithm_m algorithm_n algorithm_Z overhead_iterations
        register_W_size fuel B_digits S_prime_digits iteration regs with
    | none => none
    | some regs1 =>
      basic_loop algorithm_m algorithm_n algorithm_Z overhead_iterations register_W_size
        fuel B_digits S_prime_digits k (iteration + 1) regs1

/-- The digit lists of `main.VERY-BASIC.c`: the digits of the delayed root
`S' = S * 2^excess_bits` and of the multiplier `B`; `none` if the digit count of `S'`
is not `algorithm_n + overhead_iterations` (the `return 0` exit). -/
def basic_digits (algorithm_m algorithm_n overhead_iterations excess_bits : Nat)
    (operands : Operands) : Option (List Nat × List Nat) := do
  let S_prime ←
    word_op_load (create_word (algorithm_m * algorithm_n + algorithm_m * overhead_iterations))
      operands.S excess_bits
  let S_prime_digits ← word_makelist S_prime algorithm_m
  if S_prime_digits.getD 0 0 ≠ algorithm_n + overhead_iterations then none
  let B_digits ← word_makelist operands.B algorithm_m
  some (S_prime_digits, B_digits)

/-- The registers of `main.VERY-BASIC.c` after the initialization step: `{A} = A`,
`{W} = b1 * A` in a signed register, everything else zero. -/
def basic_init (algorithm_m algorithm_n algorithm_Z overhead_iterations excess_bits
    fuel : Nat) (B_digits : List Nat) (A : Word) : Option BasicRegisters := do
  let register_S_size := algorithm_m * (algorithm_n + (if excess_bits > 0 then 1 else 0))
  let register_A_size := algorithm_m * (2 * algorithm_n + overhead_iterations - 1)
  let register_W_size :=
    2 * algorithm_m * (algorithm_n + 1) + 2 * algorithm_Z + excess_bits + 1
  let register_A ← word_op_load (create_word register_A_size) A 0
  let digit_multiplier_B ←
    word_op_load_constant (create_word algorithm_m) (B_digits.getD 1 0) 0 algorithm_m
  let register_W ←
    word_op_multiply fuel { create_word register_W_size with is_signed := true }
      digit_multiplier_B A
  some { register_S := create_word register_S_size, register_A := register_A,
         register_W := register_W, digit_multiplier_B := digit_multiplier_B,
         digit_multiplier_S := create_word algorithm_m }

/-- What the terminal checks of `main.VERY-BASIC.c` look at: the final residual
register, the root register after the final right shift, and the two comparison
results (`0` means "residual eliminated" and "square root recovered"). -/
structure BasicOutcome where
  register_W : Word
  register_S : Word
  residual_compare : Int
  root_compare : Int
deriving DecidableEq

/-- The terminal checks of `main.VERY-BASIC.c`. -/
def basic_checks (excess_bits : Nat) (S : Word) (regs : BasicRegisters) :
    Option BasicOutcome := do
  let residual_compare := word_op_compare_constant regs.register_W 0
  let register_S ← word_op_rightshift regs.register_S excess_bits
  let root_compare := word_op_compare register_S S
  some { register_W := regs.register_W, register_S := register_S,
         residual_compare := residual_compare, root_compare := root_compare }

/-- The program `main.VERY-BASIC.c` from the two seed registers onwards, for the system
parameters `algorithm_m`, `algorithm_n`, `algorithm_Z` (the source fixes them to 9, 8
and 11).  The early `return 0` exits and an error return of a kernel call give `none`. -/
def basic_mode (algorithm_m algorithm_n algorithm_Z fuel : Nat)
    (random_seed1 random_seed2 : Word) : Option BasicOutcome := do
  let overhead_iterations := (algorithm_Z + algorithm_m - 1) / algorithm_m
  let excess_bits :=
    if algorithm_Z % algorithm_m ≠ 0 then algorithm_m - algorithm_Z % algorithm_m else 0
  let register_W_size :=
    2 * algorithm_m * (algorithm_n + 1) + 2 * algorithm_Z + excess_bits + 1
  let operands ← make_operands (algorithm_m * algorithm_n) fuel random_seed1 random_seed2
  let digit_lists ←
    basic_digits algorithm_m algorithm_n overhead_iterations excess_bits operands
  let regs0 ←
    basic_init algorithm_m algorithm_n algorithm_Z overhead_iterations excess_bits fuel
      digit_lists.2 operands.A
  let regs ←
    basic_loop algorithm_m algorithm_n algorithm_Z overhead_iterations register_W_size
      fuel digit_lists.2 digit_lists.1 (algorithm_n + overhead_iterations) 1 regs0
  basic_checks excess_bits operands.S regs

/-- System parameter `algorithm_alpha` of `main.c`. -/
def algorithm_alpha : Int := 3

/-- System parameter `algorithm_beta` of `main.c`. -/
def algorithm_beta : Int := 3

/-- System parameter `algorithm_ns` of `main.c`. -/
def algorithm_ns : Nat := 3

/-- System parameter `algorithm_np` of `main.c`. -/
def algorithm_np : Nat := 5

/-- System parameter `algorithm_np_fractional` of `main.c`. -/
def algorithm_np_fractional : Nat := 2

/-- System parameter `algorithm_table_unsigned` of `main.c`. -/
def algorithm_table_unsigned : Bool := true

/-- The array `const short SRT_table[][5]` of `main.c`: 33 rows of five cells, of which
the initialiser lists give four; the fifth cell of every row is zero. -/
def SRT_table : List (List Int) :=
  [[4, 4, 4, 3, 0], [4, 4, 4, 3, 0], [4, 4, 4, 3, 0], [4, 4, 4, 3, 0],
   [4, 4, 3, 3, 0], [4, 4, 3, 3, 0], [4, 4, 3, 3, 0], [4, 4, 3, 3, 0],
   [4, 3, 3, 3, 0], [4, 3, 3, 3, 0], [4, 3, 3, 3, 0], [4, 3, 3, 3, 0],
   [3, 3, 3, 3, 0], [3, 3, 3, 2, 0], [3, 3, 3, 2, 0], [3, 3, 3, 2, 0],
   [3, 3, 3, 2, 0], [3, 3, 2, 2, 0], [3, 3, 2, 2, 0], [3, 2, 2, 2, 0],
   [3, 2, 2, 2, 0], [3, 2, 2, 1, 0], [2, 2, 2, 1, 0], [2, 2, 2, 1, 0],
   [2, 2, 2, 1, 0], [2, 1, 1, 1, 0], [2, 1, 1, 1, 0], [1, 1, 1, 1, 0],
   [1, 1, 1, 1, 0], [1, 0, 0, 0, 0], [1, 0, 0, 0, 0], [0, 0, 0, 0, 0],
   [0, 0, 0, 0, 0]]

/-- The array `SRT_table_dimensions` of `main.c`: number of rows, number of columns. -/
def SRT_table_dimensions : List Nat := [33, 4]

/-- The constant `SRT_table_p0 = 8 << algorithm_np_fractional`. -/
def SRT_table_p0 : Nat := 8 * 2 ^ algorithm_np_fractional

/-- Read of the table cell `SRT_table[row][column]`. -/
def SRT_table_cell (row column : Nat) : Int :=
  (SRT_table.getD row []).getD column 0

/-- The digit range check of the look-up (`signed_digit < -algorithm_alpha ||
signed_digit > +algorithm_beta` is the fatal exit, here `none`). -/
def digit_range_check (signed_digit : Int) : Option Int :=
  if signed_digit < -algorithm_alpha ∨ signed_digit > algorithm_beta then none
  else some signed_digit

/-- The actual look-up of `main.c` once the indices are known: the index range check,
the read of the cell, the sign change of a symmetric table and the digit range check. -/
def SRT_table_digit (row column : Nat) (inverted : Bool) : Option Int :=
  if row ≥ SRT_table_dimensions.getD 0 0 ∨ column ≥ SRT_table_dimensions.getD 1 0 then none
  else
    let signed_digit := SRT_table_cell row column
    let signed_digit :=
      if algorithm_table_unsigned && inverted then -signed_digit else signed_digit
    digit_range_check signed_digit

/-- The loop `for (i = ...; i >= loose_bit_signal; --i) { Sregion_index <<= 1;
Sregion_index += BITS(Sdot)[i]; }` on the `unsigned int Sregion_index`; the first
argument bounds the number of rounds. -/
def Sregion_loop (Sdot : Word) (loose_bit_signal : Int) : Nat → Int → Nat → Nat
  | 0, _, Sregion_index => Sregion_index
  | k + 1, i, Sregion_index =>
    if i ≥ loose_bit_signal then
      Sregion_loop Sdot loose_bit_signal k (i - 1)
        ((Sregion_index * 2 % 2 ^ 32 + (BITS Sdot i.toNat).toNat) % 2 ^ 32)
    else Sregion_index

/-- The loop `for (i = algorithm_np + loose_bit_signal; i >= loose_bit_signal; --i)`
that forms the signed value `Pregion`: the first bit read is the sign bit. -/
def Pregion_loop (P : Word) (loose_bit_signal : Int) : Nat → Int → Int → Int
  | 0, _, Pregion => Pregion
  | k + 1, i, Pregion =>
    if i ≥ loose_bit_signal then
      Pregion_loop P loose_bit_signal k (i - 1)
        (if i = (algorithm_np : Int) + loose_bit_signal
          then Pregion * 2 - ((BITS P i.toNat).toNat : Int)
          else Pregion * 2 + ((BITS P i.toNat).toNat : Int))
    else Pregion

/-- The loose-bit signal `BITS(Sdot)[algorithm_ns]` of the look-up. -/
def loose_bit_signal (Sdot : Word) : Int := ((BITS Sdot algorithm_ns).toNat : Int)

/-- The column index `Sregion_index` that the look-up of `main.c` forms from the sample
`Sdot`.  (`SRT_table_mappings_count` is zero, so the loop of custom mappings does not
run.) -/
def Sregion_index (Sdot : Word) : Nat :=
  Sregion_loop Sdot (loose_bit_signal Sdot) algorithm_ns
    ((algorithm_ns : Int) - 1 - (1 - loose_bit_signal Sdot)) 0

/-- The signed region `Pregion` that the look-up of `main.c` forms from the sample `P`,
before the step for symmetric tables. -/
def Pregion (P Sdot : Word) : Int :=
  Pregion_loop P (loose_bit_signal Sdot) (algorithm_np + 1)
    ((algorithm_np : Int) + loose_bit_signal Sdot) 0

/-- The flag `was_inverted` of the look-up: the region was negative and the table is
symmetric. -/
def was_inverted (P Sdot : Word) : Bool :=
  algorithm_table_unsigned && decide (Pregion P Sdot < 0)

/-- The row index `Pregion_index = SRT_table_p0 - Pregion` (an `unsigned int`), taken
after the step for symmetric tables. -/
def Pregion_index (P Sdot : Word) : Nat :=
  Int.toNat (((SRT_table_p0 : Int) -
    (if algorithm_table_unsigned ∧ Pregion P Sdot < 0 then -Pregion P Sdot
      else Pregion P Sdot)) % 2 ^ 32)

/-- The table look-up of `main.c` for an iteration after `delta`, from the samples `P`
and `Sdot`; `none` is one of the two fatal exits. -/
def SRT_lookup (P Sdot : Word) : Option Int :=
  SRT_table_digit (Pregion_index P Sdot) (Sregion_index Sdot) (was_inverted P Sdot)

/-- The first-digit selector of `main.c` (iteration `delta`): a 3-bit sample of the
practical residual chooses a digit from `{1, 2, 3}`. -/
def first_digit_selector (algorithm_m algorithm_n algorithm_Z : Nat)
    (register_W_practical : Word) : Option Int := do
  let W_sample ←
    word_op_extract register_W_practical (create_word 3)
      (((algorithm_m * (algorithm_n + 1) + 2 * algorithm_Z : Nat) : Int) - 3)
  if word_op_compare_constant W_sample 2 = 1 then some 3
  else if word_op_compare_constant W_sample 0 = 1 then some 2
  else some 1

/-- Conversion of an `int` argument to the `unsigned int` parameter of
`word_op_load_constant`. -/
def to_unsigned (x : Int) : Nat := Int.toNat (x % 2 ^ 32)

/-- The registers and selectors of `main.c` that live across iterations of the
recurrence loop. -/
structure PracticalRegisters where
  register_S : Word
  register_A : Word
  register_W : Word
  register_S_practical : Word
  register_S_m1 : Word
  register_2S : Word
  register_2S_m1 : Word
  register_W_practical : Word
  P_mask : Word
  P : Word
  Sdot : Word
  P_cursor : Nat
  digit_multiplier_B : Word
  digit_multiplier_S : Word
  digit_multiplier_S_practical : Word
  onthefly_appended_digit : Word
  onthefly_appended_digit_m1 : Word
  onthefly_appended_digit_t2 : Word
  onthefly_appended_digit_t2m1 : Word
  onthefly_select : Nat
  onthefly_select_m1 : Nat
deriving DecidableEq

/-- Digit selection of one round of `main.c`: the first-digit selector at iteration
`delta`, the table look-up after it, and the digit zero before it. -/
def select_digit (algorithm_m algorithm_n algorithm_Z delta iteration : Nat)
    (register_W_practical P Sdot : Word) : Option Int :=
  if iteration = delta then
    first_digit_selector algorithm_m algorithm_n algorithm_Z register_W_practical
  else if iteration > delta then SRT_lookup P Sdot
  else some 0

/-- The digit registers and the two selectors written by the look-up and by part 1 of
the on-the-fly conversion. -/
structure OntheflyDigits where
  digit_multiplier_S_practical : Word
  onthefly_appended_digit : Word
  onthefly_appended_digit_m1 : Word
  onthefly_appended_digit_t2 : Word
  onthefly_appended_digit_t2m1 : Word
  onthefly_select : Nat
  onthefly_select_m1 : Nat
deriving DecidableEq

/-- Part 1 of the on-the-fly conversion of `main.c`, preceded by the load of the signed
digit into `digit_multiplier_S_practical`: the unsigned digits to append to `S`,
`S - 1`, `2S` and `2S - 1`, and the two selectors. -/
def onthefly_part1 (algorithm_m : Nat) (signed_digit : Int) (regs : PracticalRegisters) :
    Option OntheflyDigits := do
  let digit_multiplier_S_practical ←
    word_op_load_constant regs.digit_multiplier_S_practical (to_unsigned signed_digit) 0
      (algorithm_m + 1)
  let onthefly_select := if signed_digit ≥ 0 then 0 else 1
  let onthefly_appended_digit ←
    (if signed_digit ≥ 0 then
      word_op_load_constant regs.onthefly_appended_digit (to_unsigned signed_digit) 0
        algorithm_m
    else
      word_op_load_constant regs.onthefly_appended_digit
        (to_unsigned (2 ^ algorithm_m + signed_digit)) 0 algorithm_m)
  let onthefly_appended_digit_t2 ←
    (if signed_digit ≥ 0 then
      word_op_load_constant regs.onthefly_appended_digit_t2
        (to_unsigned (signed_digit * 2)) 0 (algorithm_m + 1)
    else
      word_op_load_constant regs.onthefly_appended_digit_t2
        (to_unsigned ((2 ^ algorithm_m + signed_digit) * 2)) 0 (algorithm_m + 1))
  let onthefly_select_m1 := if signed_digit > 0 then 0 else 1
  let onthefly_appended_digit_m1 ←
    (if signed_digit > 0 then
      word_op_load_constant regs.onthefly_appended_digit_m1
        (to_unsigned (signed_digit - 1)) 0 algorithm_m
    else
      word_op_load_constant regs.onthefly_appended_digit_m1
        (to_unsigned (2 ^ algorithm_m + signed_digit - 1)) 0 algorithm_m)
  let onthefly_appended_digit_t2m1 ←
    (if signed_digit > 0 then
      word_op_load_constant regs.onthefly_appended_digit_t2m1
        (to_unsigned ((signed_digit - 1) * 2 + 1)) 0 (algorithm_m + 1)
    else
      word_op_load_constant regs.onthefly_appended_digit_t2m1
        (to_unsigned ((2 ^ algorithm_m + signed_digit - 1) * 2 + 1)) 0 (algorithm_m + 1))
  some { digit_multiplier_S_practical := digit_multiplier_S_practical,
         onthefly_appended_digit := onthefly_appended_digit,
         onthefly_appended_digit_m1 := onthefly_appended_digit_m1,
         onthefly_appended_digit_t2 := onthefly_appended_digit_t2,
         onthefly_appended_digit_t2m1 := onthefly_appended_digit_t2m1,
         onthefly_select := onthefly_select, onthefly_select_m1 := onthefly_select_m1 }

/-- Part 2 of the on-the-fly conversion of `main.c`: the value `[2S | s]` formed in the
fresh register `S0s`. -/
def onthefly_part2 (algorithm_m algorithm_n : Nat) (digits : OntheflyDigits)
    (regs : PracticalRegisters) : Option Word := do
  let S0s := create_word (algorithm_m * (algorithm_n + 1))
  let S0s ←
    word_op_load S0s
      (if digits.onthefly_select = 0 then regs.register_2S else regs.register_2S_m1)
      algorithm_m
  word_op_load S0s digits.onthefly_appended_digit 0

/-- The practical linear-quadratic term of one round of `main.c`: a signed register. -/
def linearquadratic_practical (algorithm_m algorithm_n algorithm_Z register_W_size
    fuel : Nat) (digit_multiplier_S_practical S0s : Word) : Option Word := do
  let linearquadratic_term_practical :=
    { create_word register_W_size with is_signed := true }
  let linearquadratic_term_practical ←
    word_op_multiply fuel linearquadratic_term_practical digit_multiplier_S_practical S0s
  word_op_leftshift linearquadratic_term_practical
    (algorithm_m * (algorithm_n + 1) + 2 * algorithm_Z)

/-- The four root registers `S`, `S - 1`, `2S`, `2S - 1` of the on-the-fly conversion. -/
structure OntheflyRoots where
  register_S_practical : Word
  register_S_m1 : Word
  register_2S : Word
  register_2S_m1 : Word
deriving DecidableEq

/-- Part 3 of the on-the-fly conversion of `main.c`: selection of the source registers,
then shift and load of the appended digits. -/
def onthefly_part3 (algorithm_m : Nat) (digits : OntheflyDigits) (regs : PracticalRegisters) :
    Option OntheflyRoots := do
  let register_S_practical ←
    (if digits.onthefly_select = 1 then
      word_op_load regs.register_S_practical regs.register_S_m1 0
    else some regs.register_S_practical)
  let register_2S ←
    (if digits.onthefly_select = 1 then word_op_load regs.register_2S regs.register_S_m1 0
    else word_op_load regs.register_2S register_S_practical 0)
  let register_S_m1 ←
    (if digits.onthefly_select_m1 = 0 then
      word_op_load regs.register_S_m1 register_S_practical 0
    else some regs.register_S_m1)
  let register_2S_m1 ←
    (if digits.onthefly_select_m1 = 0 then
      word_op_load regs.register_2S_m1 register_S_practical 0
    else word_op_load regs.register_2S_m1 register_S_m1 0)
  let register_S_practical ← word_op_leftshift register_S_practical algorithm_m
  let register_S_m1 ← word_op_leftshift register_S_m1 algorithm_m
  let register_S_practical ←
    word_op_load register_S_practical digits.onthefly_appended_digit 0
  let register_S_m1 ← word_op_load register_S_m1 digits.onthefly_appended_digit_m1 0
  let register_2S ← word_op_leftshift register_2S (algorithm_m + 1)
  let register_2S_m1 ← word_op_leftshift register_2S_m1 (algorithm_m + 1)
  let register_2S ← word_op_load register_2S digits.onthefly_appended_digit_t2 0
  let register_2S_m1 ← word_op_load register_2S_m1 digits.onthefly_appended_digit_t2m1 0
  some { register_S_practical := register_S_practical, register_S_m1 := register_S_m1,
         register_2S := register_2S, register_2S_m1 := register_2S_m1 }

/-- The precomputed root digit of a round: `iteration <= S_prime_digits[0] ?
S_prime_digits[iteration] : 0`. -/
def precomputed_digit (S_prime_digits : List Nat) (iteration : Nat) : Nat :=
  if iteration ≤ S_prime_digits.getD 0 0 then S_prime_digits.getD iteration 0 else 0

/-- What the first statements of a round of `main.c` produce: the two samples, the two
digit registers of the theoretical recurrence, and the selected signed digit. -/
structure PracticalSelection where
  P : Word
  Sdot : Word
  digit_multiplier_B : Word
  digit_multiplier_S : Word
  signed_digit : Int
deriving DecidableEq

/-- First part of a round of `main.c`: extraction of the samples `P` and `Sdot`, load
of the next multiplier digit and of the precomputed root digit, digit selection. -/
def practical_selection (algorithm_m algorithm_n algorithm_Z delta : Nat)
    (B_digits S_prime_digits : List Nat) (iteration : Nat) (regs : PracticalRegisters) :
    Option PracticalSelection := do
  let P ← word_op_extract regs.register_W_practical regs.P regs.P_cursor
  let Sdot ←
    word_op_extract regs.register_S_practical regs.Sdot
      (((iteration : Int) - 1) * algorithm_m - algorithm_Z - algorithm_ns - 1)
  let digit_multiplier_B ←
    (if iteration < B_digits.getD 0 0 then
      word_op_load_constant regs.digit_multiplier_B (B_digits.getD (iteration + 1) 0) 0
        algorithm_m
    else word_op_load_constant regs.digit_multiplier_B 0 0 algorithm_m)
  let digit_multiplier_S ←
    word_op_load_constant regs.digit_multiplier_S
      (precomputed_digit S_prime_digits iteration) 0 algorithm_m
  let signed_digit ←
    select_digit algorithm_m algorithm_n algorithm_Z delta iteration
      regs.register_W_practical P Sdot
  some { P := P, Sdot := Sdot, digit_multiplier_B := digit_multiplier_B,
         digit_multiplier_S := digit_multiplier_S, signed_digit := signed_digit }

/-- The three terms of a round of `main.c`. -/
structure PracticalTerms where
  partial_product_term : Word
  linearquadratic_term : Word
  linearquadratic_term_practical : Word
deriving DecidableEq

/-- Part 2 of the on-the-fly conversion and the construction of the partial-product
term and of the two linear-quadratic terms. -/
def practical_terms (algorithm_m algorithm_n algorithm_Z register_W_size fuel : Nat)
    (S_prime_digits : List Nat) (iteration : Nat) (selection : PracticalSelection)
    (digits : OntheflyDigits) (regs : PracticalRegisters) : Option PracticalTerms := do
  let S0s ← onthefly_part2 algorithm_m algorithm_n digits regs
  let partial_product_term ←
    partial_product algorithm_m register_W_size fuel selection.digit_multiplier_B
      regs.register_A
  let linearquadratic_term ←
    linearquadratic algorithm_m algorithm_n algorithm_Z register_W_size fuel
      (precomputed_digit S_prime_digits iteration) selection.digit_multiplier_S
      regs.register_S
  let linearquadratic_term_practical ←
    linearquadratic_practical algorithm_m algorithm_n algorithm_Z register_W_size fuel
      digits.digit_multiplier_S_practical S0s
  some { partial_product_term := partial_product_term,
         linearquadratic_term := linearquadratic_term,
         linearquadratic_term_practical := linearquadratic_term_practical }

/-- One round of the recurrence loop of `main.c` (the statements that change the
registers; the printing code works on temporaries and is left out).  A fatal exit of
the look-up or an error return of a kernel call ends the run with `none`. -/
def practical_iteration (algorithm_m algorithm_n algorithm_Z iterations delta
    register_W_size fuel : Nat) (B_digits S_prime_digits : List Nat) (iteration : Nat)
    (regs : PracticalRegisters) : Option PracticalRegisters := do
  let selection ←
    practical_selection algorithm_m algorithm_n algorithm_Z delta B_digits S_prime_digits
      iteration regs
  let digits ← onthefly_part1 algorithm_m selection.signed_digit regs
  let terms ←
    practical_terms algorithm_m algorithm_n algorithm_Z register_W_size fuel S_prime_digits
      iteration selection digits regs
  -- update of the two residual registers
  let register_W ←
    residual_update algorithm_m fuel regs.register_W terms.partial_product_term
      terms.linearquadratic_term
  let register_W_practical ←
    residual_update algorithm_m fuel regs.register_W_practical terms.partial_product_term
      terms.linearquadratic_term_practical
  -- update of the theoretical result register and of the on-the-fly registers
  let register_S ←
    result_update algorithm_m (precomputed_digit S_prime_digits iteration) regs.register_S
  let roots ← onthefly_part3 algorithm_m digits regs
  -- update of the multiplicand register {A}
  let register_A ←
    (if iteration < iterations then word_op_leftshift regs.register_A algorithm_m
    else some regs.register_A)
  -- update of the P mask and cursor
  let P_mask ← word_op_leftshift regs.P_mask algorithm_m
  some { register_S := register_S, register_A := register_A, register_W := register_W,
         register_S_practical := roots.register_S_practical,
         register_S_m1 := roots.register_S_m1,
         register_2S := roots.register_2S, register_2S_m1 := roots.register_2S_m1,
         register_W_practical := register_W_practical, P_mask := P_mask,
         P := selection.P, Sdot := selection.Sdot,
         P_cursor := (regs.P_cursor + algorithm_m) % 65536,
         digit_multiplier_B := selection.digit_multiplier_B,
         digit_multiplier_S := selection.digit_multiplier_S,
         digit_multiplier_S_practical := digits.digit_multiplier_S_practical,
         onthefly_appended_digit := digits.onthefly_appended_digit,
         onthefly_appended_digit_m1 := digits.onthefly_appended_digit_m1,
         onthefly_appended_digit_t2 := digits.onthefly_appended_digit_t2,
         onthefly_appended_digit_t2m1 := digits.onthefly_appended_digit_t2m1,
         onthefly_select := digits.onthefly_select,
         onthefly_select_m1 := digits.onthefly_select_m1 }

/-- The recurrence loop `for (iteration = 1; iteration <= iterations; ++iteration)` of
`main.c`; the first argument counts the remaining rounds. -/
def practical_loop (algorithm_m algorithm_n algorithm_Z iterations delta
    register_W_size fuel : Nat) (B_digits S_prime_digits : List Nat) :
    Nat → Nat → PracticalRegisters → Option PracticalRegisters
  | 0, _, regs => some regs
  | k + 1, iteration, regs =>
    match practical_iteration algorithm_m algorithm_n algorithm_Z iterations delta
        register_W_size fuel B_digits S_prime_digits iteration regs with
    | none => none
    | some regs1 =>
      practical_loop algorithm_m algorithm_n algorithm_Z iterations delta register_W_size
        fuel B_digits S_prime_digits k (iteration + 1) regs1

/-- The digit lists of `main.c`: the digits of the delayed root `S'` (the root `S`
loaded at offset `mb` into a register of `Z + m n + mb` bits) and of the multiplier
`B`. -/
def practical_digits (algorithm_m algorithm_n algorithm_Z mb : Nat) (operands : Operands) :
    Option (List Nat × List Nat) := do
  let S_prime ←
    word_op_load (create_word (algorithm_Z + algorithm_m * algorithm_n + mb)) operands.S mb
  let S_prime_digits ← word_makelist S_prime algorithm_m
  let B_digits ← word_makelist operands.B algorithm_m
  some (S_prime_digits, B_digits)

/-- The registers of `main.c` after the initialization step.  The `return 0` exit for
`algorithm_Z < algorithm_m` gives `none`. -/
def practical_init (algorithm_m algorithm_n algorithm_Z iterations fuel : Nat)
    (B_digits : List Nat) (A : Word) : Option PracticalRegisters := do
  let register_S_size := algorithm_m * iterations - algorithm_Z
  let register_A_size := algorithm_m * (iterations + algorithm_n - 2)
  let register_W_size := algorithm_m * (iterations + algorithm_n + 2) + algorithm_Z + 1
  let P_cursor := (algorithm_m * algorithm_n + algorithm_Z) - algorithm_np_fractional - 1
  let P_mask ←
    word_op_load_constant (create_word register_W_size) (2 ^ 32 - 1) P_cursor
      (algorithm_np + 1 + 1)
  if algorithm_Z < algorithm_m then none
  let register_A ← word_op_load (create_word register_A_size) A 0
  let digit_multiplier_B ←
    word_op_load_constant (create_word algorithm_m) (B_digits.getD 1 0) 0 algorithm_m
  let register_W ←
    word_op_multiply fuel { create_word register_W_size with is_signed := true }
      digit_multiplier_B A
  let register_W_practical ←
    word_op_multiply fuel { create_word register_W_size with is_signed := true }
      digit_multiplier_B A
  some { register_S := create_word register_S_size, register_A := register_A,
         register_W := register_W,
         register_S_practical := create_word register_S_size,
         register_S_m1 := create_word register_S_size,
         register_2S := create_word (register_S_size + 1),
         register_2S_m1 := create_word (register_S_size + 1),
         register_W_practical := register_W_practical, P_mask := P_mask,
         P := { create_word (algorithm_np + 1 + 1) with is_signed := true },
         Sdot := create_word (algorithm_ns + 1), P_cursor := P_cursor,
         digit_multiplier_B := digit_multiplier_B,
         digit_multiplier_S := create_word algorithm_m,
         digit_multiplier_S_practical :=
           { create_word (algorithm_m + 1) with is_signed := true },
         onthefly_appended_digit := create_word algorithm_m,
         onthefly_appended_digit_m1 := create_word algorithm_m,
         onthefly_appended_digit_t2 := create_word (algorithm_m + 1),
         onthefly_appended_digit_t2m1 := create_word (algorithm_m + 1),
         onthefly_select := 0, onthefly_select_m1 := 0 }

/-- The final state of `main.c`: all registers of the loop, the exact root `S`, and the
theoretical root register after the final right shift with the two comparison results
of the terminal checks. -/
structure PracticalOutcome where
  regs : PracticalRegisters
  S : Word
  register_S : Word
  residual_compare : Int
  root_compare : Int
deriving DecidableEq

/-- The terminal checks of `main.c`. -/
def practical_checks (mb : Nat) (S : Word) (regs : PracticalRegisters) :
    Option PracticalOutcome := do
  let residual_compare := word_op_compare_constant regs.register_W 0
  let register_S ← word_op_rightshift regs.register_S mb
  let root_compare := word_op_compare register_S S
  some { regs := regs, S := S, register_S := register_S,
         residual_compare := residual_compare, root_compare := root_compare }

/-- The program `main.c` from the two seed registers onwards, for the system parameters
`algorithm_m`, `algorithm_n`, `algorithm_Z` (the source fixes them to 2, 10 and 4).  The
early `return 0` exits and an error return of a kernel call give `none`. -/
def practical_mode (algorithm_m algorithm_n algorithm_Z fuel : Nat)
    (random_seed1 random_seed2 : Word) : Option PracticalOutcome := do
  let iterations := algorithm_n + (algorithm_Z + 2 + algorithm_m - 1) / algorithm_m
  let delta := algorithm_Z / algorithm_m + 1
  let mb := algorithm_m * ((algorithm_Z + algorithm_m - 1) / algorithm_m) - algorithm_Z
  let register_W_size := algorithm_m * (iterations + algorithm_n + 2) + algorithm_Z + 1
  let operands ← make_operands (algorithm_m * algorithm_n) fuel random_seed1 random_seed2
  let digit_lists ← practical_digits algorithm_m algorithm_n algorithm_Z mb operands
  let regs0 ←
    practical_init algorithm_m algorithm_n algorithm_Z iterations fuel digit_lists.2
      operands.A
  let regs ←
    practical_loop algorithm_m algorithm_n algorithm_Z iterations delta register_W_size fuel
      digit_lists.2 digit_lists.1 iterations 1 regs0
  practical_checks mb operands.S regs

/-! ## Part 2: theorems -/

/-! ### Bit arrays and their values -/

theorem length_store (w : Word) (i : Nat) (b : Bool) : (w.store i b).length = w.length := by
  simp [Word.store, Word.length]

theorem BITS_store (w : Word) (i j : Nat) (b : Bool) :
    BITS (w.store i b) j = if j = i ∧ i < w.length then b else BITS w j := by
  unfold BITS Word.store Word.length
  simp only [List.getD_eq_getElem?_getD, List.getElem?_set]
  by_cases h : i = j
  · subst h
    by_cases h2 : i < w.bits.length
    · simp [h2]
    · simp [h2]
      have : w.bits[i]? = none := by simp; omega
      simp [this]
  · have h' : ¬ (j = i) := fun e => h e.symm
    simp [h, h']

theorem testBit_uval (bs : List Bool) (j : Nat) : (uval bs).testBit j = bs.getD j false := by
  induction bs generalizing j with
  | nil => simp [uval]
  | cons b bs ih =>
    cases j with
    | zero =>
      simp [uval, Nat.testBit_zero]
      cases b <;> simp
    | succ j =>
      rw [Nat.testBit_succ]
      have : (uval (b :: bs)) / 2 = uval bs := by
        cases b
        · simp [uval]
        · simp [uval]; omega
      rw [this, ih]; simp

theorem uval_lt (bs : List Bool) : uval bs < 2 ^ bs.length := by
  induction bs with
  | nil => simp [uval]
  | cons b bs ih =>
    simp [uval, pow_succ]
    cases b <;> simp <;> omega

/-! ### The shift loops -/

theorem BITS_uf (w : Word) (j : Nat) : BITS { w with underflow := true } j = BITS w j := rfl
theorem BITS_of (w : Word) (j : Nat) : BITS { w with overflow := true } j = BITS w j := rfl

theorem rightshift_loop_spec (k : Nat) (sign : Bool) :
    ∀ (n i : Nat) (w : Word), i + n ≤ w.length →
      (rightshift_loop k sign n i w).length = w.length ∧
      (rightshift_loop k sign n i w).is_signed = w.is_signed ∧
      (rightshift_loop k sign n i w).overflow = w.overflow ∧
      ((rightshift_loop k sign n i w).underflow = true ↔
        (w.underflow = true ∨ ∃ j, i ≤ j ∧ j < i + n ∧ j < k ∧ BITS w j = true)) ∧
      (∀ j, BITS (rightshift_loop k sign n i w) j =
        if i ≤ j ∧ j < i + n then (if j + k < w.length then BITS w (j + k) else sign)
        else BITS w j) := by
  intro n
  induction n with
  | zero =>
    intro i w _
    simp only [rightshift_loop]
    refine ⟨trivial, trivial, trivial, ?_, ?_⟩
    · constructor
      · intro h; exact Or.inl h
      · rintro (h | ⟨j, h1, h2, _⟩)
        · exact h
        · omega
    · intro j
      have : ¬ (i ≤ j ∧ j < i + 0) := by omega
      rw [if_neg this]
  | succ n ih =>
    intro i w hle
    simp only [rightshift_loop]
    set src := (if i + k < w.length then BITS w (i + k) else sign) with hsrc
    set w1 := (if i < k ∧ BITS w i ≠ false then { w with underflow := true } else w) with hw1
    have hlen1 : w1.length = w.length := by
      rw [hw1]; split <;> rfl
    have hb1 : ∀ j, BITS w1 j = BITS w j := by
      intro j; rw [hw1]; split <;> rfl
    have hs1 : w1.is_signed = w.is_signed := by rw [hw1]; split <;> rfl
    have ho1 : w1.overflow = w.overflow := by rw [hw1]; split <;> rfl
    have hu1 : w1.underflow = true ↔ (w.underflow = true ∨ (i < k ∧ BITS w i = true)) := by
      rw [hw1]; split
      · rename_i h; simp at h; simp [h]
      · rename_i h; simp at h
        constructor
        · intro h'; exact Or.inl h'
        · rintro (h' | ⟨h1, h2⟩)
          · exact h'
          · exact absurd h2 (by simp [h h1])
    have hlen2 : (w1.store i src).length = w.length := by rw [length_store, hlen1]
    obtain ⟨h1, h2, h3, h4, h5⟩ := ih (i + 1) (w1.store i src) (by rw [hlen2]; omega)
    refine ⟨by rw [h1, hlen2], by rw [h2]; exact hs1, by rw [h3]; exact ho1, ?_, ?_⟩
    · rw [h4]
      have : (w1.store i src).underflow = w1.underflow := rfl
      rw [this, hu1]
      constructor
      · rintro ((h | ⟨ha, hb⟩) | ⟨j, ha, hb, hc, hd⟩)
        · exact Or.inl h
        · exact Or.inr ⟨i, le_refl _, by omega, ha, hb⟩
        · refine Or.inr ⟨j, by omega, by omega, hc, ?_⟩
          rw [BITS_store, hb1] at hd
          have : ¬ (j = i ∧ i < w1.length) := by omega
          simpa [this] using hd
      · rintro (h | ⟨j, ha, hb, hc, hd⟩)
        · exact Or.inl (Or.inl h)
        · by_cases hji : j = i
          · subst hji; exact Or.inl (Or.inr ⟨hc, hd⟩)
          · refine Or.inr ⟨j, by omega, by omega, hc, ?_⟩
            rw [BITS_store, hb1]
            have : ¬ (j = i ∧ i < w1.length) := by omega
            simpa [this] using hd
    · intro j
      rw [h5, hlen2]
      by_cases hj : i + 1 ≤ j ∧ j < i + 1 + n
      · have hj' : i ≤ j ∧ j < i + (n + 1) := by omega
        rw [if_pos hj, if_pos hj']
        rw [BITS_store, hb1]
        have : ¬ (j + k = i ∧ i < w1.length) := by omega
        rw [if_neg this]
      · rw [if_neg hj, BITS_store, hb1, hlen1]
        by_cases hji : j = i
        · subst hji
          have : j ≤ j ∧ j < j + (n + 1) := by omega
          rw [if_pos this]
          have h0 : j = j ∧ j < w.length := by omega
          rw [if_pos h0]
        · have h1 : ¬ (j = i ∧ i < w.length) := by omega
          have h2 : ¬ (i ≤ j ∧ j < i + (n + 1)) := by omega
          rw [if_neg h1, if_neg h2]

theorem leftshift_loop_spec (k : Nat) (sign : Bool) (top : Nat) :
    ∀ (n : Nat) (w : Word), n ≤ w.length →
      (leftshift_loop k sign top n w).length = w.length ∧
      (leftshift_loop k sign top n w).is_signed = w.is_signed ∧
      (leftshift_loop k sign top n w).underflow = w.underflow ∧
      ((leftshift_loop k sign top n w).overflow = true ↔
        (w.overflow = true ∨ ∃ j, j < n ∧ top - j < k ∧ BITS w j ≠ sign)) ∧
      (∀ j, BITS (leftshift_loop k sign top n w) j =
        if j < n then (if k ≤ j then BITS w (j - k) else false)
        else BITS w j) := by
  intro n
  induction n with
  | zero =>
    intro w _
    simp [leftshift_loop]
  | succ n ih =>
    intro w hle
    simp only [leftshift_loop]
    set src := (if k ≤ n then BITS w (n - k) else false) with hsrc
    set w1 := (if top - n < k ∧ BITS w n ≠ sign then { w with overflow := true } else w) with hw1
    have hlen1 : w1.length = w.length := by
      rw [hw1]; split <;> rfl
    have hb1 : ∀ j, BITS w1 j = BITS w j := by
      intro j; rw [hw1]; split <;> rfl
    have hs1 : w1.is_signed = w.is_signed := by rw [hw1]; split <;> rfl
    have hu1 : w1.underflow = w.underflow := by rw [hw1]; split <;> rfl
    have ho1 : w1.overflow = true ↔ (w.overflow = true ∨ (top - n < k ∧ BITS w n ≠ sign)) := by
      rw [hw1]; split
      · rename_i h; simp [h]
      · rename_i h
        constructor
        · intro h'; exact Or.inl h'
        · rintro (h' | h')
          · exact h'
          · exact absurd h' h
    have hlen2 : (w1.store n src).length = w.length := by rw [length_store, hlen1]
    obtain ⟨h1, h2, h3, h4, h5⟩ := ih (w1.store n src) (by rw [hlen2]; omega)
    refine ⟨by rw [h1, hlen2], by rw [h2]; exact hs1, by rw [h3]; exact hu1, ?_, ?_⟩
    · rw [h4]
      have : (w1.store n src).overflow = w1.overflow := rfl
      rw [this, ho1]
      constructor
      · rintro ((h | ⟨ha, hb⟩) | ⟨j, ha, hb, hc⟩)
        · exact Or.inl h
        · exact Or.inr ⟨n, by omega, ha, hb⟩
        · refine Or.inr ⟨j, by omega, hb, ?_⟩
          rw [BITS_store, hb1] at hc
          have : ¬ (j = n ∧ n < w1.length) := by omega
          simpa [this] using hc
      · rintro (h | ⟨j, ha, hb, hc⟩)
        · exact Or.inl (Or.inl h)
        · by_cases hji : j = n
          · subst hji; exact Or.inl (Or.inr ⟨hb, hc⟩)
          · refine Or.inr ⟨j, by omega, hb, ?_⟩
            rw [BITS_store, hb1]
            have : ¬ (j = n ∧ n < w1.length) := by omega
            simpa [this] using hc
    · intro j
      rw [h5]
      by_cases hj : j < n
      · have hj2 : j < n + 1 := by omega
        rw [if_pos hj, if_pos hj2]
        by_cases hk : k ≤ j
        · rw [if_pos hk, if_pos hk, BITS_store, hb1]
          have : ¬ (j - k = n ∧ n < w1.length) := by omega
          rw [if_neg this]
        · rw [if_neg hk, if_neg hk]
      · rw [if_neg hj, BITS_store, hb1, hlen1]
        by_cases hji : j = n
        · subst hji
          have h1 : j = j ∧ j < w.length := by omega
          have h2 : j < j + 1 := by omega
          rw [if_pos h1, if_pos h2]
        · have h1 : ¬ (j = n ∧ n < w.length) := by omega
          have h2 : ¬ (j < n + 1) := by omega
          rw [if_neg h1, if_neg h2]

/-! ### Values after a shift -/

theorem BITS_eq_testBit (w : Word) (j : Nat) : BITS w j = (uval w.bits).testBit j := by
  rw [testBit_uval]; rfl

theorem BITS_of_length_le (w : Word) (j : Nat) (h : w.length ≤ j) : BITS w j = false := by
  unfold BITS Word.length at *
  simp [List.getD_eq_getElem?_getD, List.getElem?_eq_none h]

theorem bits_ext (a b : List Bool) (hl : a.length = b.length)
    (h : ∀ j, j < a.length → a.getD j false = b.getD j false) : a = b := by
  apply List.ext_getElem hl
  intro n h1 h2
  have := h n h1
  simpa [List.getD_eq_getElem?_getD, List.getElem?_eq_getElem h1, List.getElem?_eq_getElem h2]
    using this

theorem high_bits_zero_iff (x n m : Nat) (hx : x < 2 ^ n) :
    (∀ j, m ≤ j → j < n → x.testBit j = false) ↔ x < 2 ^ m := by
  constructor
  · intro h
    apply Nat.lt_pow_two_of_testBit
    intro i hi
    by_cases hin : i < n
    · exact h i hi hin
    · apply Nat.testBit_lt_two_pow
      exact lt_of_lt_of_le hx (Nat.pow_le_pow_right (by norm_num) (by omega))
  · intro h j hj _
    apply Nat.testBit_lt_two_pow
    exact lt_of_lt_of_le h (Nat.pow_le_pow_right (by norm_num) hj)

theorem word_op_leftshift_unsigned_eq (r : Word) (k : Nat) (hlen : 0 < r.length)
    (hu : r.is_signed = false) :
    word_op_leftshift r k = some (leftshift_loop k false (r.length - 1) r.length r) := by
  unfold word_op_leftshift
  have : r.length ≠ 0 := by omega
  simp [this, hu]

theorem word_op_rightshift_unsigned_eq (r : Word) (k : Nat) (hlen : 0 < r.length)
    (hu : r.is_signed = false) :
    word_op_rightshift r k = some (rightshift_loop k false r.length 0 r) := by
  unfold word_op_rightshift
  have : r.length ≠ 0 := by omega
  simp [this, hu]

/-- Claim C10: for an unsigned register `r` of width `w` with `overflow` clear and any
shift count `k`, `word_op_leftshift` leaves the value `(value(r) * 2^k) mod 2^w`, and
it sets `overflow` exactly when one of the top `min(k, w)` bits of `r` was one, which
is the same as `value(r) * 2^k ≥ 2^w`. -/
theorem leftshift_unsigned_value (r : Word) (k : Nat) (hlen : 0 < r.length)
    (hu : r.is_signed = false) (ho : r.overflow = false) :
    ∃ r', word_op_leftshift r k = some r' ∧ r'.length = r.length ∧
      uval r'.bits = (uval r.bits * 2 ^ k) % 2 ^ r.length ∧
      (r'.overflow = true ↔
        ∃ j, r.length - min k r.length ≤ j ∧ j < r.length ∧ BITS r j = true) ∧
      (r'.overflow = true ↔ 2 ^ r.length ≤ uval r.bits * 2 ^ k) := by
  refine ⟨_, word_op_leftshift_unsigned_eq r k hlen hu, ?_⟩
  obtain ⟨h1, _, _, h4, h5⟩ := leftshift_loop_spec k false (r.length - 1) r.length r (le_refl _)
  have hov : (leftshift_loop k false (r.length - 1) r.length r).overflow = true ↔
      ∃ j, r.length - min k r.length ≤ j ∧ j < r.length ∧ BITS r j = true := by
    rw [h4]
    constructor
    · rintro (h | ⟨j, ha, hb, hc⟩)
      · rw [ho] at h; exact absurd h (by simp)
      · refine ⟨j, by omega, ha, by simpa using hc⟩
    · rintro ⟨j, ha, hb, hc⟩
      exact Or.inr ⟨j, hb, by omega, by simp [hc]⟩
  refine ⟨h1, ?_, hov, ?_⟩
  · apply Nat.eq_of_testBit_eq
    intro j
    rw [← BITS_eq_testBit, h5, Nat.testBit_mod_two_pow, mul_comm, Nat.testBit_mul_pow_two,
      ← BITS_eq_testBit]
    by_cases hj : j < r.length
    · simp [hj]
    · simp [hj, BITS_of_length_le r j (by omega)]
  · rw [hov]
    constructor
    · rintro ⟨j, ha, hb, hc⟩
      rw [BITS_eq_testBit] at hc
      have h2 := Nat.testBit_implies_ge hc
      calc 2 ^ r.length ≤ 2 ^ (j + k) := Nat.pow_le_pow_right (by norm_num) (by omega)
        _ = 2 ^ j * 2 ^ k := by rw [pow_add]
        _ ≤ uval r.bits * 2 ^ k := Nat.mul_le_mul_right _ h2
    · intro h
      by_contra hne
      have hall : ∀ j, r.length - min k r.length ≤ j → j < r.length →
          (uval r.bits).testBit j = false := by
        intro j ha hb
        rw [← BITS_eq_testBit]
        by_contra hc
        exact hne ⟨j, ha, hb, by simpa using hc⟩
      have hlt := (high_bits_zero_iff _ r.length _ (uval_lt r.bits)).mp hall
      have : uval r.bits * 2 ^ k < 2 ^ r.length := by
        by_cases hk : k ≤ r.length
        · have e : r.length = (r.length - min k r.length) + k := by omega
          calc uval r.bits * 2 ^ k < 2 ^ (r.length - min k r.length) * 2 ^ k :=
                Nat.mul_lt_mul_of_pos_right hlt (by positivity)
            _ = 2 ^ r.length := by rw [← pow_add, ← e]
        · have e : r.length - min k r.length = 0 := by omega
          rw [e] at hlt
          have : uval r.bits = 0 := by omega
          rw [this]; simp
      omega

theorem leftshift_unsigned_value_witness :
    0 < (Word.mk [true, false, true, true] false false false).length ∧
    ∃ r', word_op_leftshift ⟨[true, false, true, true], false, false, false⟩ 2 = some r' ∧
      r'.length = 4 ∧ uval r'.bits = (uval [true, false, true, true] * 2 ^ 2) % 2 ^ 4 ∧
      (r'.overflow = true ↔ ∃ j, 4 - min 2 4 ≤ j ∧ j < 4 ∧
        BITS ⟨[true, false, true, true], false, false, false⟩ j = true) ∧
      (r'.overflow = true ↔ 2 ^ 4 ≤ uval [true, false, true, true] * 2 ^ 2) :=
  ⟨by decide,
    leftshift_unsigned_value ⟨[true, false, true, true], false, false, false⟩ 2 (by decide)
      rfl rfl⟩

/-- Claim C8: for an unsigned register `r` with both fault flags clear whose top `k`
bits are zero, `word_op_leftshift(r, k)` followed by `word_op_rightshift(r, k)` gives
back exactly `r`: the original bits, with `overflow` and `underflow` still clear. -/
theorem shift_roundtrip (r : Word) (k : Nat) (hlen : 0 < r.length)
    (hu : r.is_signed = false) (ho : r.overflow = false) (hun : r.underflow = false)
    (htop : ∀ j, r.length - k ≤ j → j < r.length → BITS r j = false) :
    ∃ r1, word_op_leftshift r k = some r1 ∧ word_op_rightshift r1 k = some r := by
  refine ⟨_, word_op_leftshift_unsigned_eq r k hlen hu, ?_⟩
  obtain ⟨h1, h2, h3, h4, h5⟩ :=
    leftshift_loop_spec k false (r.length - 1) r.length r (le_refl _)
  set r1 := leftshift_loop k false (r.length - 1) r.length r with hr1
  rw [word_op_rightshift_unsigned_eq r1 k (by omega) (by rw [h2, hu])]
  obtain ⟨g1, g2, g3, g4, g5⟩ := rightshift_loop_spec k false r1.length 0 r1 (by omega)
  set r2 := rightshift_loop k false r1.length 0 r1 with hr2
  have hl2 : r2.bits.length = r.bits.length := by
    have : r2.length = r.length := by rw [g1, h1]
    exact this
  have hbits : r2.bits = r.bits := by
    apply bits_ext _ _ hl2
    · intro j hj
      have hj' : j < r.length := by
        show j < r.bits.length
        omega
      show BITS r2 j = BITS r j
      rw [g5, h1]
      have : 0 ≤ j ∧ j < 0 + r.length := by omega
      rw [if_pos this]
      by_cases hjk : j + k < r.length
      · rw [if_pos hjk, h5, if_pos hjk, if_pos (by omega)]
        congr 1; omega
      · rw [if_neg hjk]
        exact (htop j (by omega) hj').symm
  have hov : r2.overflow = false := by
    rw [g3]
    by_contra hc
    have hc' : r1.overflow = true := by simpa using hc
    rw [h4] at hc'
    rcases hc' with h | ⟨j, ha, hb, hc⟩
    · rw [ho] at h; exact absurd h (by simp)
    · exact hc (htop j (by omega) ha)
  have hunf : r2.underflow = false := by
    by_contra hc
    have hc' : r2.underflow = true := by simpa using hc
    rw [g4] at hc'
    rcases hc' with h | ⟨j, _, hb, hc, hd⟩
    · rw [h3, hun] at h; exact absurd h (by simp)
    · rw [h5] at hd
      by_cases hj : j < r.length
      · rw [if_pos hj, if_neg (by omega)] at hd; exact absurd hd (by simp)
      · rw [if_neg hj, BITS_of_length_le r j (by omega)] at hd; exact absurd hd (by simp)
  have hs : r2.is_signed = r.is_signed := by rw [g2, h2]
  congr 1
  cases hr : r2 with
  | mk b o u s =>
    cases hr' : r with
    | mk b' o' u' s' =>
      rw [hr] at hbits hov hunf hs
      rw [hr'] at hbits ho hun hs
      simp at hbits hov hunf hs ho hun
      simp [hbits, hov, hunf, hs, ho, hun]

theorem shift_roundtrip_witness :
    (∀ j, 4 - 2 ≤ j → j < 4 → BITS ⟨[true, true, false, false], false, false, false⟩ j = false) ∧
    ∃ r1, word_op_leftshift ⟨[true, true, false, false], false, false, false⟩ 2 = some r1 ∧
      word_op_rightshift r1 2 = some ⟨[true, true, false, false], false, false, false⟩ :=
  ⟨by decide,
    shift_roundtrip ⟨[true, true, false, false], false, false, false⟩ 2 (by decide) rfl rfl rfl
      (by decide)⟩

theorem uval_split (bs : List Bool) (n : Nat) (h : bs.length = n + 1) :
    uval bs = uval bs % 2 ^ n + (if bs.getD n false then 2 ^ n else 0) := by
  have hlt := uval_lt bs
  rw [h, pow_succ] at hlt
  have hdm := Nat.div_add_mod (uval bs) (2 ^ n)
  have hq : uval bs / 2 ^ n < 2 := Nat.div_lt_of_lt_mul hlt
  have ht := @Nat.testBit_to_div_mod n (uval bs)
  rw [testBit_uval] at ht
  rw [ht]
  generalize uval bs / 2 ^ n = q at hdm hq
  generalize uval bs % 2 ^ n = m at hdm
  generalize 2 ^ n = p at hdm
  have hcases : q = 0 ∨ q = 1 := by omega
  rcases hcases with h0 | h1
  · subst h0; simp at hdm ⊢; omega
  · subst h1; simp at hdm ⊢; omega

theorem sval_eq (bs : List Bool) (n : Nat) (h : bs.length = n + 1) :
    sval bs = ((uval bs % 2 ^ n : Nat) : Int) - (if bs.getD n false then (2 : Int) ^ n else 0) := by
  unfold sval
  have hs := uval_split bs n h
  have e : bs.length - 1 = n := by omega
  rw [e, h]
  generalize uval bs % 2 ^ n = m at hs
  by_cases hb : bs.getD n false = true
  · simp only [hb, if_true] at hs ⊢
    rw [hs, pow_succ]; push_cast; ring
  · simp only [hb] at hs ⊢
    simp at hs ⊢
    omega

theorem word_op_leftshift_signed_eq (r : Word) (k : Nat) (hlen : 0 < r.length)
    (hs : r.is_signed = true) :
    word_op_leftshift r k = some (leftshift_loop k (BITS r (r.length - 1))
      (r.length - 1 - 1) (r.length - 1) r) := by
  unfold word_op_leftshift
  have : r.length ≠ 0 := by omega
  simp [this, hs]

theorem Word.value_signed (r : Word) (n : Nat) (hs : r.is_signed = true)
    (hn : r.length = n + 1) :
    r.value = ((uval r.bits % 2 ^ n : Nat) : Int) - (if BITS r n then (2 : Int) ^ n else 0) := by
  unfold Word.value
  rw [if_pos hs, sval_eq r.bits n hn]; rfl

theorem leftshift_signed_aux (r : Word) (k n : Nat) (hn : r.length = n + 1)
    (hs : r.is_signed = true) (ho : r.overflow = false) (hk : k ≤ n) :
    ∃ r', word_op_leftshift r k = some r' ∧ r'.length = r.length ∧ r'.is_signed = true ∧
      (r'.overflow = true ↔
        ¬ (-(2 : Int) ^ n ≤ r.value * 2 ^ k ∧ r.value * 2 ^ k < 2 ^ n)) ∧
      (r'.overflow = false → r'.value = r.value * 2 ^ k) := by
  have hlen : 0 < r.length := by omega
  have e1 : r.length - 1 = n := by omega
  refine ⟨_, word_op_leftshift_signed_eq r k hlen hs, ?_⟩
  rw [e1]
  obtain ⟨h1, h2, _, h4, h5⟩ := leftshift_loop_spec k (BITS r n) (n - 1) n r (by omega)
  set r' := leftshift_loop k (BITS r n) (n - 1) n r with hr'
  have hLlt : uval r.bits % 2 ^ n < 2 ^ n := Nat.mod_lt _ (by positivity)
  have hLbit : ∀ j, j < n → (uval r.bits % 2 ^ n).testBit j = BITS r j := by
    intro j hj
    rw [Nat.testBit_mod_two_pow, ← BITS_eq_testBit]; simp [hj]
  have hL' : uval r'.bits % 2 ^ n = (uval r.bits % 2 ^ n * 2 ^ k) % 2 ^ n := by
    apply Nat.eq_of_testBit_eq
    intro j
    rw [Nat.testBit_mod_two_pow, Nat.testBit_mod_two_pow, ← BITS_eq_testBit, h5, mul_comm,
      Nat.testBit_mul_pow_two]
    by_cases hj : j < n
    · by_cases hkj : k ≤ j
      · simp [hj, hkj, hLbit (j - k) (by omega)]
      · simp [hj, hkj]
    · simp [hj]
  have hsign : BITS r' n = BITS r n := by rw [h5, if_neg (by omega)]
  have hv : r.value = ((uval r.bits % 2 ^ n : Nat) : Int) - (if BITS r n then (2 : Int) ^ n else 0) :=
    Word.value_signed r n hs hn
  have hv' : r'.value = ((uval r'.bits % 2 ^ n : Nat) : Int) -
      (if BITS r n then (2 : Int) ^ n else 0) := by
    rw [Word.value_signed r' n (by rw [h2, hs]) (by rw [h1, hn]), hsign]
  have hno : r'.overflow = false ↔ ∀ j, n - k ≤ j → j < n → BITS r j = BITS r n := by
    constructor
    · intro h j ha hb
      by_contra hc
      have : r'.overflow = true := h4.mpr (Or.inr ⟨j, hb, by omega, hc⟩)
      rw [h] at this; exact absurd this (by simp)
    · intro h
      by_contra hc
      have hc' : r'.overflow = true := by simpa using hc
      rcases h4.mp hc' with h' | ⟨j, ha, hb, hc⟩
      · rw [ho] at h'; exact absurd h' (by simp)
      · exact hc (h j (by omega) ha)
  have hpq : (2 : Nat) ^ n = 2 ^ (n - k) * 2 ^ k := by
    rw [← pow_add]; congr 1; omega
  generalize hLdef : uval r.bits % 2 ^ n = L at *
  generalize hL'def : uval r'.bits % 2 ^ n = L' at *
  have hQpos : 0 < (2 : Nat) ^ k := by positivity
  by_cases hsg : BITS r n = true
  · -- negative register
    rw [hsg] at hv hv' hno
    simp only [if_true] at hv hv'
    obtain ⟨M, hM⟩ : ∃ M, M + 1 + L = 2 ^ n := ⟨2 ^ n - (L + 1), by omega⟩
    have hMeq : M = 2 ^ n - (L + 1) := by omega
    have hMlt : M < 2 ^ n := by omega
    have hMbit : ∀ j, j < n → M.testBit j = !BITS r j := by
      intro j hj
      rw [hMeq, Nat.testBit_two_pow_sub_succ hLlt, hLbit j hj]; simp [hj]
    have hno2 : r'.overflow = false ↔ M < 2 ^ (n - k) := by
      rw [hno, ← high_bits_zero_iff M n (n - k) hMlt]
      constructor
      · intro h j ha hb; rw [hMbit j hb, h j ha hb]; rfl
      · intro h j ha hb
        have := h j ha hb
        rw [hMbit j hb] at this
        simpa using this
    have hvM : r.value = -((M : Int) + 1) := by
      rw [hv]
      have : ((2 : Nat) ^ n : Int) = (M : Int) + 1 + L := by exact_mod_cast hM.symm
      push_cast at this
      rw [this]; ring
    refine ⟨h1, by rw [h2, hs], ?_, ?_⟩
    · have hiff : r'.overflow = true ↔ ¬ (M < 2 ^ (n - k)) := by
        rw [← hno2]; simp
      rw [hiff, hvM]
      have hcast : ((2 : Int) ^ n) = ((2 ^ (n - k) * 2 ^ k : Nat) : Int) := by
        rw [← hpq]; push_cast; rfl
      constructor
      · intro h hrep
        apply h
        have h1' := hrep.1
        rw [hcast] at h1'
        have h2' : ((M + 1) * 2 ^ k : Nat) ≤ 2 ^ (n - k) * 2 ^ k := by
          have : (((M + 1) * 2 ^ k : Nat) : Int) ≤ ((2 ^ (n - k) * 2 ^ k : Nat) : Int) := by
            push_cast at h1' ⊢; linarith
          exact_mod_cast this
        have := Nat.le_of_mul_le_mul_right h2' hQpos
        omega
      · intro hrep h
        apply hrep
        have h2' : (M + 1) * 2 ^ k ≤ 2 ^ (n - k) * 2 ^ k :=
          Nat.mul_le_mul_right _ (by omega)
        have h3' : (((M + 1) * 2 ^ k : Nat) : Int) ≤ ((2 ^ (n - k) * 2 ^ k : Nat) : Int) := by
          exact_mod_cast h2'
        rw [hcast]
        have hpos : (0 : Int) < 2 ^ k := by positivity
        constructor
        · push_cast at h3' ⊢; linarith
        · push_cast at h3' ⊢
          have : (0 : Int) < 2 ^ (n - k) * 2 ^ k := by positivity
          nlinarith
    · intro hclear
      have hMP : M + 1 ≤ 2 ^ (n - k) := by
        have := hno2.mp hclear; omega
      have h2' : (M + 1) * 2 ^ k ≤ 2 ^ n := by
        rw [hpq]; exact Nat.mul_le_mul_right _ hMP
      have hpos : 0 < (M + 1) * 2 ^ k := by positivity
      have hLQ : L * 2 ^ k = (2 ^ n - (M + 1) * 2 ^ k) + 2 ^ n * (2 ^ k - 1) := by
        have hL : L = 2 ^ n - (M + 1) := by omega
        have e3 : L * 2 ^ k + (M + 1) * 2 ^ k = 2 ^ n * 2 ^ k := by
          rw [← Nat.add_mul]; congr 1; omega
        have e4 : 2 ^ n * (2 ^ k - 1) + 2 ^ n = 2 ^ n * 2 ^ k := by
          rw [← Nat.mul_succ]; congr 1; omega
        omega
      have hL'' : L' = 2 ^ n - (M + 1) * 2 ^ k := by
        rw [hL', hLQ, Nat.add_mul_mod_self_left]
        apply Nat.mod_eq_of_lt; omega
      rw [hv', hvM, hL'']
      have : (((2 ^ n - (M + 1) * 2 ^ k : Nat)) : Int) = (2 : Int) ^ n - ((M : Int) + 1) * 2 ^ k := by
        rw [Nat.cast_sub h2']; push_cast; ring
      rw [this]; ring
  · -- non-negative register
    have hsg' : BITS r n = false := by simpa using hsg
    rw [hsg'] at hv hv' hno
    simp only [Bool.false_eq_true, if_false, sub_zero] at hv hv'
    have hno2 : r'.overflow = false ↔ L < 2 ^ (n - k) := by
      rw [hno, ← high_bits_zero_iff L n (n - k) hLlt]
      constructor
      · intro h j ha hb; rw [hLbit j hb, h j ha hb]
      · intro h j ha hb; rw [← hLbit j hb, h j ha hb]
    refine ⟨h1, by rw [h2, hs], ?_, ?_⟩
    · have hiff : r'.overflow = true ↔ ¬ (L < 2 ^ (n - k)) := by
        rw [← hno2]; simp
      rw [hiff, hv]
      constructor
      · intro h hrep
        apply h
        have h2' : L * 2 ^ k < 2 ^ (n - k) * 2 ^ k := by
          rw [← hpq]; exact_mod_cast hrep.2
        exact Nat.lt_of_mul_lt_mul_right h2'
      · intro hrep h
        apply hrep
        have h2' : L * 2 ^ k < 2 ^ n := by
          rw [hpq]; exact Nat.mul_lt_mul_of_pos_right h hQpos
        constructor
        · have : (0 : Int) ≤ (L : Int) * 2 ^ k := by positivity
          have h3 : (0 : Int) < 2 ^ n := by positivity
          linarith
        · exact_mod_cast h2'
    · intro hclear
      have h2' : L * 2 ^ k < 2 ^ n := by
        rw [hpq]; exact Nat.mul_lt_mul_of_pos_right (hno2.mp hclear) hQpos
      rw [hv', hv, hL', Nat.mod_eq_of_lt h2']
      push_cast; ring

theorem leftshift_loop_saturate (k k' : Nat) (sign : Bool) (top : Nat) :
    ∀ (i : Nat) (w : Word), i ≤ k → i ≤ k' → (top < k ∧ top < k') ∨ i = 0 →
      leftshift_loop k sign top i w = leftshift_loop k' sign top i w := by
  intro i
  induction i with
  | zero => intro w _ _ _; rfl
  | succ i ih =>
    intro w h1 h2 h3
    have ht : top < k ∧ top < k' := by
      rcases h3 with h | h
      · exact h
      · omega
    simp only [leftshift_loop]
    have e1 : ¬ (k ≤ i) := by omega
    have e2 : ¬ (k' ≤ i) := by omega
    have e3 : top - i < k := by omega
    have e4 : top - i < k' := by omega
    simp only [if_neg e1, if_neg e2, e3, e4, true_and]
    exact ih _ (by omega) (by omega) (Or.inl ht)

theorem word_op_leftshift_saturate (r : Word) (k : Nat) (hlen : 0 < r.length)
    (hs : r.is_signed = true) (hk : r.length - 1 ≤ k) :
    word_op_leftshift r k = word_op_leftshift r (r.length - 1) := by
  rw [word_op_leftshift_signed_eq r k hlen hs, word_op_leftshift_signed_eq r _ hlen hs]
  congr 1
  apply leftshift_loop_saturate _ _ _ _ _ _ hk (le_refl _)
  by_cases h : r.length - 1 = 0
  · exact Or.inr h
  · left; omega

/-- Claim C9, amended: for a signed register `r` of width `w` with `overflow` clear
and any shift count `k`, unless `r` holds `-1` (all bits one) and `k ≥ w`:
`word_op_leftshift` sets `overflow` exactly when `value(r) * 2^k` is not a `w`-bit
two's-complement number, and when `overflow` stays clear the new two's-complement
value is `value(r) * 2^k`.  When `r` holds `-1` and `k ≥ w`, `overflow` stays clear and
the register holds `-2^(w-1)`. -/
theorem leftshift_signed_value (r : Word) (k : Nat) (hlen : 0 < r.length)
    (hs : r.is_signed = true) (ho : r.overflow = false) :
    ∃ r', word_op_leftshift r k = some r' ∧ r'.length = r.length ∧ r'.is_signed = true ∧
      ((k < r.length ∨ r.value ≠ -1) →
        (r'.overflow = true ↔
          ¬ (-(2 : Int) ^ (r.length - 1) ≤ r.value * 2 ^ k ∧
            r.value * 2 ^ k < 2 ^ (r.length - 1))) ∧
        (r'.overflow = false → r'.value = r.value * 2 ^ k)) ∧
      ((r.length ≤ k ∧ r.value = -1) →
        r'.overflow = false ∧ r'.value = -(2 : Int) ^ (r.length - 1)) := by
  by_cases hk : k < r.length
  · obtain ⟨r', h1, h2, h3, h4, h5⟩ :=
      leftshift_signed_aux r k (r.length - 1) (by omega) hs ho (by omega)
    exact ⟨r', h1, h2, h3, fun _ => ⟨h4, h5⟩, fun h => by omega⟩
  · obtain ⟨r', h1, h2, h3, h4, h5⟩ :=
      leftshift_signed_aux r (r.length - 1) (r.length - 1) (by omega) hs ho (le_refl _)
    rw [← word_op_leftshift_saturate r k hlen hs (by omega)] at h1
    have hp : (0 : Int) < 2 ^ (r.length - 1) := by positivity
    have hkk : (2 : Int) ^ k = 2 ^ (r.length - 1) * 2 ^ (k - (r.length - 1)) := by
      rw [← pow_add]; congr 1; omega
    have hq : (2 : Int) ≤ 2 ^ (k - (r.length - 1)) := by
      have : (2 : Int) ^ 1 ≤ 2 ^ (k - (r.length - 1)) :=
        pow_le_pow_right₀ (by norm_num) (by omega)
      simpa using this
    generalize (2 : Int) ^ (r.length - 1) = P at *
    generalize (2 : Int) ^ (k - (r.length - 1)) = Q at *
    refine ⟨r', h1, h2, h3, ?_, ?_⟩
    · intro hv
      have hv' : r.value ≠ -1 := by
        rcases hv with h | h
        · omega
        · exact h
      have key : (-P ≤ r.value * P ∧ r.value * P < P) ↔
          (-P ≤ r.value * 2 ^ k ∧ r.value * 2 ^ k < P) := by
        rw [hkk]
        constructor
        · rintro ⟨a, b⟩
          have hv0 : r.value = 0 := by
            have h1' : r.value < 1 := by nlinarith
            have h2' : -1 ≤ r.value := by nlinarith
            omega
          rw [hv0]; constructor <;> nlinarith
        · rintro ⟨a, b⟩
          have hv0 : r.value = 0 := by
            by_contra hne
            have hPQ : 2 * P ≤ P * Q := by nlinarith
            have hPQpos : 0 ≤ P * Q := by nlinarith
            rcases lt_or_gt_of_ne hne with hneg | hpos
            · have h2 : r.value ≤ -2 := by omega
              have := mul_le_mul_of_nonneg_right h2 hPQpos
              linarith
            · have h2 : 1 ≤ r.value := by omega
              have := mul_le_mul_of_nonneg_right h2 hPQpos
              linarith
          rw [hv0]; constructor <;> nlinarith
      refine ⟨by rw [h4, key], ?_⟩
      intro hclear
      have hrep : -P ≤ r.value * P ∧ r.value * P < P := by
        by_contra hc
        have := h4.mpr hc
        rw [hclear] at this; exact absurd this (by simp)
      have hv0 : r.value = 0 := by
        have h1' : r.value < 1 := by nlinarith
        have h2' : -1 ≤ r.value := by nlinarith
        omega
      rw [h5 hclear, hv0]; simp
    · rintro ⟨_, hv⟩
      have hrep : -P ≤ r.value * P ∧ r.value * P < P := by
        rw [hv]; constructor <;> linarith
      have hclear : r'.overflow = false := by
        by_contra hc
        have hc' : r'.overflow = true := by simpa using hc
        exact (h4.mp hc') hrep
      refine ⟨hclear, ?_⟩
      rw [h5 hclear, hv]; ring

theorem leftshift_signed_value_witness :
    0 < (Word.mk [true, false, true, true] false false true).length ∧
    ∃ r', word_op_leftshift ⟨[true, false, true, true], false, false, true⟩ 2 = some r' ∧
      r'.length = 4 ∧ r'.is_signed = true ∧
      ((2 < 4 ∨ (Word.mk [true, false, true, true] false false true).value ≠ -1) →
        (r'.overflow = true ↔
          ¬ (-(2 : Int) ^ (4 - 1) ≤
              (Word.mk [true, false, true, true] false false true).value * 2 ^ 2 ∧
            (Word.mk [true, false, true, true] false false true).value * 2 ^ 2 < 2 ^ (4 - 1))) ∧
        (r'.overflow = false →
          r'.value = (Word.mk [true, false, true, true] false false true).value * 2 ^ 2)) ∧
      ((4 ≤ 2 ∧ (Word.mk [true, false, true, true] false false true).value = -1) →
        r'.overflow = false ∧ r'.value = -(2 : Int) ^ (4 - 1)) :=
  ⟨by decide,
    leftshift_signed_value ⟨[true, false, true, true], false, false, true⟩ 2 (by decide) rfl rfl⟩

/-- Claim C9 as stated fails for shift counts of `w` and more: shifting the 4-bit
signed register `1111` (minus one) left by four keeps the sign bit and clears the
three bits below it, so the register holds `-8` with `overflow` clear, although
`-1 * 2^4 = -16` is not a 4-bit two's-complement number. -/
theorem leftshift_signed_overshift :
    ∃ r', word_op_leftshift ⟨[true, true, true, true], false, false, true⟩ 4 = some r' ∧
      r'.overflow = false ∧
      ¬ (-(2 : Int) ^ (4 - 1) ≤
          (Word.mk [true, true, true, true] false false true).value * 2 ^ 4 ∧
        (Word.mk [true, true, true, true] false false true).value * 2 ^ 4 < 2 ^ (4 - 1)) ∧
      r'.value ≠ (Word.mk [true, true, true, true] false false true).value * 2 ^ 4 :=
  ⟨⟨[false, false, false, true], false, false, true⟩, by decide, rfl, by decide, by decide⟩

/-! ### Comparison -/

theorem compare_loop_testBit (f g : Nat → Bool) (x y : Nat) :
    ∀ n, (∀ i, i < n → f i = x.testBit i) → (∀ i, i < n → g i = y.testBit i) →
      compare_loop f g n =
        if x % 2 ^ n < y % 2 ^ n then -1 else if x % 2 ^ n = y % 2 ^ n then 0 else 1 := by
  intro n
  induction n with
  | zero => intro _ _; simp [compare_loop, Nat.mod_one]
  | succ n ih =>
    intro hf hg
    have ih' := ih (fun i hi => hf i (by omega)) (fun i hi => hg i (by omega))
    simp only [compare_loop]
    rw [hf n (by omega), hg n (by omega), ih']
    have hx := Nat.mod_pow_succ (x := x) (b := 2) (k := n)
    have hy := Nat.mod_pow_succ (x := y) (b := 2) (k := n)
    have hxb := @Nat.testBit_to_div_mod n x
    have hyb := @Nat.testBit_to_div_mod n y
    have hxl : x % 2 ^ n < 2 ^ n := Nat.mod_lt _ (by positivity)
    have hyl : y % 2 ^ n < 2 ^ n := Nat.mod_lt _ (by positivity)
    rw [hx, hy, hxb, hyb]
    have hx2 : x / 2 ^ n % 2 < 2 := Nat.mod_lt _ (by norm_num)
    have hy2 : y / 2 ^ n % 2 < 2 := Nat.mod_lt _ (by norm_num)
    generalize x / 2 ^ n % 2 = p at *
    generalize y / 2 ^ n % 2 = q at *
    generalize x % 2 ^ n = a at *
    generalize y % 2 ^ n = b at *
    generalize 2 ^ n = P at *
    have hp : p = 0 ∨ p = 1 := by omega
    have hq : q = 0 ∨ q = 1 := by omega
    rcases hp with rfl | rfl <;> rcases hq with rfl | rfl <;> simp <;>
      (try split_ifs) <;> first | rfl | omega

theorem ext_nonneg_testBit (w : Word) (i : Nat) :
    (if i < w.length then BITS w i else false) = (uval w.bits).testBit i := by
  rw [← BITS_eq_testBit]
  by_cases h : i < w.length
  · rw [if_pos h]
  · rw [if_neg h, BITS_of_length_le w i (by omega)]

theorem ext_neg_testBit (w : Word) (size i : Nat) (h : w.length ≤ size) (hi : i < size) :
    (if i < w.length then BITS w i else true) =
      (2 ^ size - (2 ^ w.length - (uval w.bits + 1) + 1)).testBit i := by
  have hU : uval w.bits < 2 ^ w.length := uval_lt w.bits
  have hle : 2 ^ w.length ≤ 2 ^ size := Nat.pow_le_pow_right (by norm_num) h
  have hY : 2 ^ w.length - (uval w.bits + 1) < 2 ^ size := by
    have : 0 < 2 ^ w.length := by positivity
    show 2 ^ w.length - (uval w.bits + 1) < 2 ^ size
    omega
  rw [Nat.testBit_two_pow_sub_succ hY, Nat.testBit_two_pow_sub_succ hU, ← BITS_eq_testBit]
  by_cases h1 : i < w.length
  · simp [h1, hi]
  · simp [h1, hi]

theorem ext_neg_eq (w : Word) (size : Nat) (h : w.length ≤ size) :
    ((2 ^ size - (2 ^ w.length - (uval w.bits + 1) + 1) : Nat) : Int) =
      (2 : Int) ^ size + ((uval w.bits : Int) - 2 ^ w.length) := by
  have hU := uval_lt w.bits
  have hle : 2 ^ w.length ≤ 2 ^ size := Nat.pow_le_pow_right (by norm_num) h
  have hU' : uval w.bits < 2 ^ w.length := hU
  have e : 2 ^ size - (2 ^ w.length - (uval w.bits + 1) + 1) + 2 ^ w.length =
      2 ^ size + uval w.bits := by omega
  have e' : ((2 ^ size - (2 ^ w.length - (uval w.bits + 1) + 1) : Nat) : Int) +
      ((2 ^ w.length : Nat) : Int) = ((2 ^ size : Nat) : Int) + (uval w.bits : Int) := by
    exact_mod_cast e
  push_cast at e' ⊢
  linarith

theorem Word.value_of_nonneg (w : Word)
    (h : (!w.is_signed || !BITS w (w.length - 1)) = true) : w.value = (uval w.bits : Int) := by
  unfold Word.value
  by_cases hs : w.is_signed = true
  · rw [if_pos hs]
    rw [hs] at h
    simp at h
    unfold sval
    have : w.bits.getD (w.bits.length - 1) false = false := h
    rw [this]; simp
  · rw [if_neg hs]

theorem Word.value_of_neg (w : Word)
    (h : (!w.is_signed || !BITS w (w.length - 1)) = false) :
    w.value = (uval w.bits : Int) - 2 ^ w.length := by
  simp at h
  unfold Word.value
  rw [if_pos h.1]
  unfold sval
  have : w.bits.getD (w.bits.length - 1) false = true := h.2
  rw [this]; simp [Word.length]

theorem uval_int_lt (w : Word) : (uval w.bits : Int) < 2 ^ w.length := by
  have := uval_lt w.bits
  exact_mod_cast this

/-- Value of `word_op_compare` on two registers of nonzero width. -/
theorem word_op_compare_value (a b : Word) (ha : 0 < a.length) (hb : 0 < b.length) :
    word_op_compare a b =
      if a.value < b.value then -1 else if a.value = b.value then 0 else 1 := by
  unfold word_op_compare
  have h0 : ¬ (a.length = 0 ∨ b.length = 0) := by omega
  rw [if_neg h0]
  simp only []
  set size := (if a.length > b.length then a.length else b.length) with hsize
  have hsa : a.length ≤ size := by rw [hsize]; split <;> omega
  have hsb : b.length ≤ size := by rw [hsize]; split <;> omega
  have hUa := uval_int_lt a
  have hUb := uval_int_lt b
  have hUa0 : (0 : Int) ≤ (uval a.bits : Int) := by positivity
  have hUb0 : (0 : Int) ≤ (uval b.bits : Int) := by positivity
  have hpa : (2 : Int) ^ a.length ≤ 2 ^ size := pow_le_pow_right₀ (by norm_num) hsa
  have hpb : (2 : Int) ^ b.length ≤ 2 ^ size := pow_le_pow_right₀ (by norm_num) hsb
  cases h1 : (!a.is_signed || !BITS a (a.length - 1)) <;>
    cases h2 : (!b.is_signed || !BITS b (b.length - 1))
  · -- both negative
    simp only [Bool.not_false, Bool.false_and, Bool.and_false, Bool.false_eq_true, if_false,
      Bool.not_true, Bool.and_true]
    rw [compare_loop_testBit _ _ _ _ size
      (fun i hi => ext_neg_testBit a size i hsa hi) (fun i hi => ext_neg_testBit b size i hsb hi)]
    have hva := Word.value_of_neg a h1
    have hvb := Word.value_of_neg b h2
    have ea := ext_neg_eq a size hsa
    have eb := ext_neg_eq b size hsb
    have hxa : 2 ^ size - (2 ^ a.length - (uval a.bits + 1) + 1) < 2 ^ size := by
      have : 0 < 2 ^ size := by positivity
      omega
    have hxb : 2 ^ size - (2 ^ b.length - (uval b.bits + 1) + 1) < 2 ^ size := by
      have : 0 < 2 ^ size := by positivity
      omega
    rw [Nat.mod_eq_of_lt hxa, Nat.mod_eq_of_lt hxb]
    generalize 2 ^ size - (2 ^ a.length - (uval a.bits + 1) + 1) = X at *
    generalize 2 ^ size - (2 ^ b.length - (uval b.bits + 1) + 1) = Y at *
    have hlt : X < Y ↔ a.value < b.value := by
      rw [hva, hvb]; constructor
      · intro h; have : (X : Int) < Y := by exact_mod_cast h
        linarith
      · intro h; have : (X : Int) < Y := by linarith
        exact_mod_cast this
    have heq : X = Y ↔ a.value = b.value := by
      rw [hva, hvb]; constructor
      · intro h; have : (X : Int) = Y := by exact_mod_cast h
        linarith
      · intro h; have : (X : Int) = Y := by linarith
        exact_mod_cast this
    simp only [hlt, heq]
  · -- a negative, b non-negative
    simp only [Bool.not_false, Bool.not_true, Bool.false_and, Bool.and_false, Bool.and_true,
      Bool.true_and, Bool.false_eq_true, if_false, if_true]
    have hva := Word.value_of_neg a h1
    have hvb := Word.value_of_nonneg b h2
    have : a.value < b.value := by rw [hva, hvb]; linarith
    simp [this]
  · -- a non-negative, b negative
    simp only [Bool.not_false, Bool.not_true, Bool.false_and, Bool.and_false, Bool.and_true,
      Bool.true_and, Bool.false_eq_true, if_false, if_true]
    have hva := Word.value_of_nonneg a h1
    have hvb := Word.value_of_neg b h2
    have h3 : ¬ (a.value < b.value) := by rw [hva, hvb]; linarith
    have h4 : ¬ (a.value = b.value) := by rw [hva, hvb]; intro h; linarith
    simp [h3, h4]
  · -- both non-negative
    simp only [Bool.not_false, Bool.not_true, Bool.false_and, Bool.and_false, Bool.and_true,
      Bool.true_and, Bool.false_eq_true, if_false, if_true]
    rw [compare_loop_testBit _ _ _ _ size
      (fun i _ => ext_nonneg_testBit a i) (fun i _ => ext_nonneg_testBit b i)]
    have hva := Word.value_of_nonneg a h1
    have hvb := Word.value_of_nonneg b h2
    have hxa : uval a.bits < 2 ^ size :=
      lt_of_lt_of_le (uval_lt a.bits) (Nat.pow_le_pow_right (by norm_num) hsa)
    have hxb : uval b.bits < 2 ^ size :=
      lt_of_lt_of_le (uval_lt b.bits) (Nat.pow_le_pow_right (by norm_num) hsb)
    rw [Nat.mod_eq_of_lt hxa, Nat.mod_eq_of_lt hxb, hva, hvb]
    simp only [Nat.cast_lt, Nat.cast_inj]

/-- Claim C5: for registers `a` and `b` of nonzero width, of any widths and any mix of
signed and unsigned, `word_op_compare(a, b)` returns `-1`, `0` or `+1` according to
whether the integer value of `a` (two's complement if signed, positional if unsigned)
is less than, equal to, or greater than the integer value of `b`. -/
theorem word_op_compare_correct (a b : Word) (ha : 0 < a.length) (hb : 0 < b.length) :
    word_op_compare a b =
      if a.value < b.value then -1 else if a.value = b.value then 0 else 1 :=
  word_op_compare_value a b ha hb

theorem word_op_compare_correct_witness :
    0 < (Word.mk [true, false, true, true] false false true).length ∧
    0 < (Word.mk [true, true] false false false).length ∧
    word_op_compare ⟨[true, false, true, true], false, false, true⟩
        ⟨[true, true], false, false, false⟩ =
      if (Word.mk [true, false, true, true] false false true).value <
          (Word.mk [true, true] false false false).value then -1
      else if (Word.mk [true, false, true, true] false false true).value =
          (Word.mk [true, true] false false false).value then 0 else 1 :=
  ⟨by decide, by decide,
    word_op_compare_correct ⟨[true, false, true, true], false, false, true⟩
      ⟨[true, true], false, false, false⟩ (by decide) (by decide)⟩

theorem int_bit_natCast (m i : Nat) : int_bit (m : Int) i = m.testBit i := by
  unfold int_bit
  rw [Nat.testBit_to_div_mod]
  have : ((m : Int) / 2 ^ i) % 2 = ((m / 2 ^ i % 2 : Nat) : Int) := by
    push_cast; rfl
  rw [this]
  simp only [decide_eq_decide]
  constructor
  · intro h; exact_mod_cast h
  · intro h; exact_mod_cast h

theorem int_bit_negSucc (m i : Nat) : int_bit (Int.negSucc m) i = !m.testBit i := by
  unfold int_bit
  rw [Nat.testBit_to_div_mod]
  have hpos : (0 : Int) < 2 ^ i := by positivity
  rw [Int.negSucc_ediv m hpos]
  have : (Int.ediv (m : Int) (2 ^ i)) = ((m / 2 ^ i : Nat) : Int) := by
    push_cast; rfl
  rw [this]
  generalize m / 2 ^ i = q
  have h2 : q % 2 = 0 ∨ q % 2 = 1 := by omega
  rcases h2 with h | h
  · have : (-((q : Int) + 1)) % 2 = 1 := by omega
    rw [this, h]; rfl
  · have : (-((q : Int) + 1)) % 2 = 0 := by omega
    rw [this, h]; rfl

/-- Value of `word_op_compare_constant` on a register of nonzero width and a 32-bit
constant. -/
theorem word_op_compare_constant_value (a : Word) (k : Int) (ha : 0 < a.length)
    (hk1 : -(2 : Int) ^ 31 ≤ k) (hk2 : k < 2 ^ 31) :
    word_op_compare_constant a k =
      if a.value < k then -1 else if a.value = k then 0 else 1 := by
  unfold word_op_compare_constant
  have h0 : ¬ (a.length = 0) := by omega
  rw [if_neg h0]
  simp only []
  set size := (if a.length > 32 then a.length else 32) with hsize
  have hsa : a.length ≤ size := by rw [hsize]; split <;> omega
  have hsb : 32 ≤ size := by rw [hsize]; split <;> omega
  have hUa := uval_int_lt a
  have hUa0 : (0 : Int) ≤ (uval a.bits : Int) := by positivity
  have hpa : (2 : Int) ^ a.length ≤ 2 ^ size := pow_le_pow_right₀ (by norm_num) hsa
  have hp32 : (2 : Nat) ^ 32 ≤ 2 ^ size := Nat.pow_le_pow_right (by norm_num) hsb
  by_cases hk : 0 ≤ k
  · obtain ⟨m, rfl⟩ := Int.eq_ofNat_of_zero_le hk
    have hm : m < 2 ^ 31 := by exact_mod_cast hk2
    have hbits : ∀ i, i < size →
        (if i < 32 then int_bit (m : Int) i else !decide ((m : Int) ≥ 0)) = m.testBit i := by
      intro i _
      by_cases hi : i < 32
      · rw [if_pos hi, int_bit_natCast]
      · rw [if_neg hi]
        have : m < 2 ^ i := lt_of_lt_of_le hm (Nat.pow_le_pow_right (by norm_num) (by omega))
        rw [Nat.testBit_lt_two_pow this]; simp
    have hd : decide ((m : Int) ≥ 0) = true := by simp
    cases h1 : (!a.is_signed || !BITS a (a.length - 1))
    · have hva := Word.value_of_neg a h1
      have : a.value < (m : Int) := by rw [hva]; linarith
      simp [this]
    · have hva := Word.value_of_nonneg a h1
      simp only [hd, Bool.not_true, Bool.and_false, Bool.false_and, Bool.false_eq_true,
        if_false]
      rw [compare_loop_testBit _ _ (uval a.bits) m size
        (fun i _ => ext_nonneg_testBit a i) (fun i hi => by
          have := hbits i hi
          simp only [hd, Bool.not_true] at this
          exact this)]
      have hxa : uval a.bits < 2 ^ size :=
        lt_of_lt_of_le (uval_lt a.bits) (Nat.pow_le_pow_right (by norm_num) hsa)
      have hxm : m < 2 ^ size := by omega
      rw [Nat.mod_eq_of_lt hxa, Nat.mod_eq_of_lt hxm, hva]
      simp only [Nat.cast_lt, Nat.cast_inj]
  · obtain ⟨m, rfl⟩ := Int.eq_negSucc_of_lt_zero (by omega : k < 0)
    have hm : m < 2 ^ 31 := by
      have : -(2 : Int) ^ 31 ≤ -((m : Int) + 1) := by
        rw [Int.negSucc_eq] at hk1; exact hk1
      have : (m : Int) < 2 ^ 31 := by linarith
      exact_mod_cast this
    have hmsz : m < 2 ^ size := by omega
    have hd : decide (Int.negSucc m ≥ 0) = false := by
      simp only [decide_eq_false_iff_not]; exact hk
    have hbits : ∀ i, i < size →
        (if i < 32 then int_bit (Int.negSucc m) i else true) =
          (2 ^ size - (m + 1)).testBit i := by
      intro i his
      rw [Nat.testBit_two_pow_sub_succ hmsz]
      by_cases hi : i < 32
      · rw [if_pos hi, int_bit_negSucc]; simp [his]
      · rw [if_neg hi]
        have : m < 2 ^ i := lt_of_lt_of_le hm (Nat.pow_le_pow_right (by norm_num) (by omega))
        rw [Nat.testBit_lt_two_pow this]; simp [his]
    have hX2 : ((2 ^ size - (m + 1) : Nat) : Int) = (2 : Int) ^ size + Int.negSucc m := by
      rw [Nat.cast_sub (by omega), Int.negSucc_eq]; push_cast; ring
    cases h1 : (!a.is_signed || !BITS a (a.length - 1))
    · have hva := Word.value_of_neg a h1
      simp only [hd, Bool.not_false, Bool.and_true, Bool.false_and, Bool.false_eq_true,
        if_false, Bool.and_false]
      rw [compare_loop_testBit _ _ _ (2 ^ size - (m + 1)) size
        (fun i hi => ext_neg_testBit a size i hsa hi) hbits]
      have ea := ext_neg_eq a size hsa
      have hxa : 2 ^ size - (2 ^ a.length - (uval a.bits + 1) + 1) < 2 ^ size := by
        have : 0 < 2 ^ size := by positivity
        omega
      have hxb : 2 ^ size - (m + 1) < 2 ^ size := by
        have : 0 < 2 ^ size := by positivity
        omega
      rw [Nat.mod_eq_of_lt hxa, Nat.mod_eq_of_lt hxb]
      generalize 2 ^ size - (2 ^ a.length - (uval a.bits + 1) + 1) = X at *
      generalize 2 ^ size - (m + 1) = Y at *
      have hlt : X < Y ↔ a.value < Int.negSucc m := by
        rw [hva]; constructor
        · intro h; have : (X : Int) < Y := by exact_mod_cast h
          linarith
        · intro h; have : (X : Int) < Y := by linarith
          exact_mod_cast this
      have heq : X = Y ↔ a.value = Int.negSucc m := by
        rw [hva]; constructor
        · intro h; have : (X : Int) = Y := by exact_mod_cast h
          linarith
        · intro h; have : (X : Int) = Y := by linarith
          exact_mod_cast this
      simp only [hlt, heq]
    · have hva := Word.value_of_nonneg a h1
      have h3 : ¬ (a.value < Int.negSucc m) := by rw [hva]; omega
      have h4 : ¬ (a.value = Int.negSucc m) := by rw [hva]; omega
      simp [h3, h4, hd]

/-- Claim C6: for a register `a` of nonzero width and a 32-bit signed integer `k`,
`word_op_compare_constant(a, k)` returns `-1`, `0` or `+1` according to whether the
integer value of `a` is less than, equal to, or greater than `k`. -/
theorem word_op_compare_constant_correct (a : Word) (k : Int) (ha : 0 < a.length)
    (hk1 : -(2 : Int) ^ 31 ≤ k) (hk2 : k < 2 ^ 31) :
    word_op_compare_constant a k =
      if a.value < k then -1 else if a.value = k then 0 else 1 :=
  word_op_compare_constant_value a k ha hk1 hk2

theorem word_op_compare_constant_correct_witness :
    0 < (Word.mk [true, false, true, true] false false true).length ∧
    -(2 : Int) ^ 31 ≤ -7 ∧ (-7 : Int) < 2 ^ 31 ∧
    word_op_compare_constant ⟨[true, false, true, true], false, false, true⟩ (-7) =
      if (Word.mk [true, false, true, true] false false true).value < -7 then -1
      else if (Word.mk [true, false, true, true] false false true).value = -7 then 0 else 1 :=
  ⟨by decide, by decide, by decide,
    word_op_compare_constant_correct ⟨[true, false, true, true], false, false, true⟩ (-7)
      (by decide) (by decide) (by decide)⟩

/-- Claim C7: for every register `r` of nonzero width, `create_word_duplicate(r)`
succeeds and `word_op_compare(r, create_word_duplicate(r))` returns `0` (equal). -/
theorem compare_duplicate (r : Word) (hr : 0 < r.length) :
    ∃ d, create_word_duplicate r = some d ∧ word_op_compare r d = 0 := by
  refine ⟨r, ?_, ?_⟩
  · unfold create_word_duplicate
    rw [if_neg (by omega)]
  · rw [word_op_compare_value r r hr hr]; simp

theorem compare_duplicate_witness :
    0 < (Word.mk [true, false, true, true] false true true).length ∧
    ∃ d, create_word_duplicate ⟨[true, false, true, true], false, true, true⟩ = some d ∧
      word_op_compare ⟨[true, false, true, true], false, true, true⟩ d = 0 :=
  ⟨by decide, compare_duplicate ⟨[true, false, true, true], false, true, true⟩ (by decide)⟩

/-! ### Digit lists -/

theorem abs_loop_length : ∀ (n i sum : Nat) (w : Word), (abs_loop n i sum w).length = w.length := by
  intro n
  induction n with
  | zero => intro i sum w; rfl
  | succ n ih =>
    intro i sum w
    simp only [abs_loop]
    rw [ih, length_store]

theorem word_op_abs_length (r : Word) (hr : 0 < r.length) :
    ∃ amp, word_op_abs r = some amp ∧ amp.length = r.length := by
  unfold word_op_abs create_word_duplicate
  have h0 : ¬ (r.length = 0) := by omega
  simp only [if_neg h0]
  split
  · exact ⟨_, rfl, by rw [abs_loop_length, length_store]⟩
  · exact ⟨_, rfl, rfl⟩

theorem makelist_loop_length (amp : Word) (bpd dc : Nat) :
    ∀ (n i : Nat) (st : List Nat), (makelist_loop amp bpd dc n i st).length = st.length := by
  intro n
  induction n with
  | zero => intro i st; rfl
  | succ n ih =>
    intro i st
    simp only [makelist_loop]
    rw [ih, List.length_set]

theorem getD_set_nat (l : List Nat) (i j a : Nat) :
    (l.set i a).getD j 0 = if j = i ∧ i < l.length then a else l.getD j 0 := by
  simp only [List.getD_eq_getElem?_getD, List.getElem?_set]
  by_cases h : i = j
  · subst h
    by_cases h2 : i < l.length
    · simp [h2]
    · simp [h2]
      have : l[i]? = none := by simp; omega
      simp [this]
  · have h' : ¬ (j = i) := fun e => h e.symm
    simp [h, h']

theorem makelist_loop_getD (amp : Word) (bpd dc : Nat) :
    ∀ (n i : Nat) (st : List Nat), st.length = dc + 1 → i + n ≤ dc → ∀ j,
      (makelist_loop amp bpd dc n i st).getD j 0 =
        if 1 ≤ j ∧ j ≤ dc ∧ i ≤ dc - j ∧ dc - j < i + n then makelist_digit amp bpd (dc - j)
        else st.getD j 0 := by
  intro n
  induction n with
  | zero =>
    intro i st _ _ j
    simp only [makelist_loop]
    have : ¬ (1 ≤ j ∧ j ≤ dc ∧ i ≤ dc - j ∧ dc - j < i + 0) := by omega
    rw [if_neg this]
  | succ n ih =>
    intro i st hst hle j
    simp only [makelist_loop]
    rw [ih (i + 1) _ (by rw [List.length_set, hst]) (by omega) j, getD_set_nat, hst]
    by_cases h1 : 1 ≤ j ∧ j ≤ dc ∧ i + 1 ≤ dc - j ∧ dc - j < i + 1 + n
    · have h2 : 1 ≤ j ∧ j ≤ dc ∧ i ≤ dc - j ∧ dc - j < i + (n + 1) := by omega
      rw [if_pos h1, if_pos h2]
    · rw [if_neg h1]
      by_cases h3 : j = dc - i ∧ dc - i < dc + 1
      · have h2 : 1 ≤ j ∧ j ≤ dc ∧ i ≤ dc - j ∧ dc - j < i + (n + 1) := by omega
        rw [if_pos h3, if_pos h2]
        congr 1; omega
      · have h2 : ¬ (1 ≤ j ∧ j ≤ dc ∧ i ≤ dc - j ∧ dc - j < i + (n + 1)) := by omega
        rw [if_neg h3, if_neg h2]

theorem makelist_digit_loop_lt (amp : Word) (bpd i : Nat) :
    ∀ (n k dv : Nat), dv < 2 ^ 32 → makelist_digit_loop amp bpd i n k dv < 2 ^ 32 := by
  intro n
  induction n with
  | zero => intro k dv h; exact h
  | succ n ih =>
    intro k dv h
    simp only [makelist_digit_loop]
    split
    · exact h
    · exact ih _ _ (Nat.mod_lt _ (by norm_num))

theorem toNat_testBit_eq (x k : Nat) : (x.testBit k).toNat = x / 2 ^ k % 2 := by
  rw [Nat.testBit_to_div_mod]
  have : x / 2 ^ k % 2 < 2 := Nat.mod_lt _ (by norm_num)
  generalize x / 2 ^ k % 2 = q at *
  have hq : q = 0 ∨ q = 1 := by omega
  rcases hq with rfl | rfl <;> simp

theorem testBit_div_two_pow (x a k : Nat) : (x / 2 ^ a).testBit k = x.testBit (a + k) := by
  rw [← Nat.shiftRight_eq_div_pow, Nat.testBit_shiftRight]

theorem makelist_digit_loop_eq (amp : Word) (bpd i : Nat)
    (hb : bpd ≤ 32 ∨ amp.length ≤ 32) :
    ∀ (n k dv : Nat), k + n = bpd → dv = (uval amp.bits / 2 ^ (i * bpd)) % 2 ^ k →
      makelist_digit_loop amp bpd i n k dv = (uval amp.bits / 2 ^ (i * bpd)) % 2 ^ bpd := by
  intro n
  induction n with
  | zero =>
    intro k dv hk hdv
    simp only [makelist_digit_loop]
    have : k = bpd := by omega
    subst this; exact hdv
  | succ n ih =>
    intro k dv hk hdv
    simp only [makelist_digit_loop]
    split
    · rename_i hbrk
      have hU : uval amp.bits < 2 ^ amp.length := uval_lt amp.bits
      have hX : uval amp.bits / 2 ^ (i * bpd) < 2 ^ k := by
        rw [Nat.div_lt_iff_lt_mul (by positivity), ← pow_add]
        exact lt_of_lt_of_le hU (Nat.pow_le_pow_right (by norm_num) (by omega))
      rw [hdv, Nat.mod_eq_of_lt hX, Nat.mod_eq_of_lt]
      exact lt_of_lt_of_le hX (Nat.pow_le_pow_right (by norm_num) (by omega))
    · rename_i hgo
      have hk31 : k < 32 := by
        have := Nat.le_add_left k (i * bpd)
        rcases hb with h | h <;> omega
      apply ih (k + 1) _ (by omega)
      have hk32 : k % 32 = k := Nat.mod_eq_of_lt hk31
      rw [hk32, BITS_eq_testBit, ← testBit_div_two_pow, toNat_testBit_eq, hdv]
      generalize uval amp.bits / 2 ^ (i * bpd) = X
      have hms := Nat.mod_pow_succ (x := X) (b := 2) (k := k)
      rw [hms]
      have h1 : X % 2 ^ (k + 1) < 2 ^ (k + 1) := Nat.mod_lt _ (by positivity)
      have h2 : 2 ^ (k + 1) ≤ 2 ^ 32 := Nat.pow_le_pow_right (by norm_num) (by omega)
      rw [hms] at h1
      rw [Nat.mul_comm (X / 2 ^ k % 2) (2 ^ k)]
      exact Nat.mod_eq_of_lt (by omega)

theorem makelist_digit_eq (amp : Word) (bpd i : Nat) (hb0 : 0 < bpd)
    (hb : bpd ≤ 32 ∨ amp.length ≤ 32) :
    makelist_digit amp bpd i = (uval amp.bits / 2 ^ (i * bpd)) % 2 ^ bpd := by
  unfold makelist_digit
  apply makelist_digit_loop_eq amp bpd i hb _ _ _ (by omega)
  have := testBit_div_two_pow (uval amp.bits) (i * bpd) 0
  rw [add_zero] at this
  rw [BITS_eq_testBit, ← this, toNat_testBit_eq]
  simp

theorem makelist_digit_lt (amp : Word) (bpd i : Nat) (hb0 : 0 < bpd) :
    makelist_digit amp bpd i < 2 ^ bpd := by
  by_cases hb : bpd ≤ 32
  · rw [makelist_digit_eq amp bpd i hb0 (Or.inl hb)]
    exact Nat.mod_lt _ (by positivity)
  · have h1 : makelist_digit amp bpd i < 2 ^ 32 := by
      unfold makelist_digit
      apply makelist_digit_loop_lt
      cases BITS amp (i * bpd) <;> simp
    exact lt_of_lt_of_le h1 (Nat.pow_le_pow_right (by norm_num) (by omega))

theorem digits_sum (U B : Nat) :
    ∀ n, ∑ i ∈ Finset.range n, (U / B ^ i % B) * B ^ i = U % B ^ n := by
  intro n
  induction n with
  | zero => simp [Nat.mod_one]
  | succ n ih =>
    rw [Finset.sum_range_succ, ih, Nat.mod_pow_succ]
    ring

theorem sum_Icc_reflect (f : Nat → Nat) (n : Nat) :
    ∑ j ∈ Finset.Icc 1 n, f (n - j) = ∑ i ∈ Finset.range n, f i := by
  apply Finset.sum_nbij' (fun j => n - j) (fun i => n - i)
  · intro a ha
    simp only [Finset.mem_Icc] at ha
    simp only [Finset.mem_range]; omega
  · intro a ha
    simp only [Finset.mem_range] at ha
    simp only [Finset.mem_Icc]; omega
  · intro a ha
    simp only [Finset.mem_Icc] at ha
    show n - (n - a) = a
    omega
  · intro a ha
    simp only [Finset.mem_range] at ha
    show n - (n - a) = a
    omega
  · intro a _; rfl

theorem word_makelist_eq (r amp : Word) (bpd : Nat) (hr : 0 < r.length) (hb : 0 < bpd)
    (ha : word_op_abs r = some amp) :
    word_makelist r bpd = some (makelist_loop amp bpd ((r.length + bpd - 1) / bpd)
      ((r.length + bpd - 1) / bpd) 0
      (((r.length + bpd - 1) / bpd) :: List.replicate ((r.length + bpd - 1) / bpd) 0)) := by
  unfold word_makelist
  have h0 : ¬ (r.length = 0) := by omega
  have h1 : ¬ (bpd = 0) := by omega
  simp only [if_neg h0, if_neg h1, ha]

theorem ceil_div_bounds (len bpd : Nat) (hl : 0 < len) (hb : 0 < bpd) :
    bpd * ((len + bpd - 1) / bpd - 1) < len ∧ len ≤ bpd * ((len + bpd - 1) / bpd) := by
  have h1 := Nat.div_add_mod (len + bpd - 1) bpd
  have h2 := Nat.mod_lt (len + bpd - 1) hb
  have h3 : 1 ≤ (len + bpd - 1) / bpd := by
    rw [Nat.le_div_iff_mul_le hb]; omega
  generalize (len + bpd - 1) / bpd = q at *
  generalize (len + bpd - 1) % bpd = m at *
  obtain ⟨q', rfl⟩ : ∃ q', q = q' + 1 := ⟨q - 1, by omega⟩
  simp only [Nat.add_sub_cancel]
  rw [Nat.mul_succ] at h1 ⊢
  generalize bpd * q' = t at *
  omega

/-- Claim C4: for a register `r` of nonzero width and `bits_per_digit ≥ 1`,
`word_makelist` returns a list `d` whose header `d[0]` is `ceil(length(r) /
bits_per_digit)` (the least count of digits covering the width), followed by exactly
`d[0]` digits, most-significant first (`d[j]` is the digit read from the bit block
number `d[0] - j` of `word_op_abs(r)`, counted from the least-significant end), each
digit strictly below `2^bits_per_digit`. -/
theorem makelist_structure (r : Word) (bpd : Nat) (hr : 0 < r.length) (hb : 1 ≤ bpd) :
    ∃ amp d, word_op_abs r = some amp ∧ word_makelist r bpd = some d ∧
      bpd * (d.getD 0 0 - 1) < r.length ∧ r.length ≤ bpd * d.getD 0 0 ∧
      d.length = d.getD 0 0 + 1 ∧
      ∀ j, 1 ≤ j → j ≤ d.getD 0 0 →
        d.getD j 0 < 2 ^ bpd ∧
        d.getD j 0 = makelist_digit amp bpd (d.getD 0 0 - j) ∧
        (bpd ≤ 32 → d.getD j 0 = uval amp.bits / 2 ^ (bpd * (d.getD 0 0 - j)) % 2 ^ bpd) := by
  obtain ⟨amp, ha, _⟩ := word_op_abs_length r hr
  refine ⟨amp, _, ha, word_makelist_eq r amp bpd hr hb ha, ?_⟩
  set dc := (r.length + bpd - 1) / bpd with hdc
  have hst : (dc :: List.replicate dc 0).length = dc + 1 := by simp
  have hget := makelist_loop_getD amp bpd dc dc 0 (dc :: List.replicate dc 0) hst (by omega)
  have h0 : (makelist_loop amp bpd dc dc 0 (dc :: List.replicate dc 0)).getD 0 0 = dc := by
    rw [hget 0, if_neg (by omega)]; rfl
  rw [h0]
  obtain ⟨hc1, hc2⟩ := ceil_div_bounds r.length bpd hr hb
  refine ⟨hc1, hc2, by rw [makelist_loop_length, hst], ?_⟩
  intro j hj1 hj2
  have hj : (makelist_loop amp bpd dc dc 0 (dc :: List.replicate dc 0)).getD j 0 =
      makelist_digit amp bpd (dc - j) := by
    rw [hget j, if_pos (by omega)]
  rw [hj]
  refine ⟨makelist_digit_lt amp bpd _ hb, rfl, ?_⟩
  intro hb32
  rw [makelist_digit_eq amp bpd _ hb (Or.inl hb32), Nat.mul_comm]

theorem makelist_structure_witness :
    0 < (Word.mk [true, false, true, true, false] false false false).length ∧ 1 ≤ 2 ∧
    ∃ amp d, word_op_abs ⟨[true, false, true, true, false], false, false, false⟩ = some amp ∧
      word_makelist ⟨[true, false, true, true, false], false, false, false⟩ 2 = some d ∧
      2 * (d.getD 0 0 - 1) < 5 ∧ 5 ≤ 2 * d.getD 0 0 ∧
      d.length = d.getD 0 0 + 1 ∧
      ∀ j, 1 ≤ j → j ≤ d.getD 0 0 →
        d.getD j 0 < 2 ^ 2 ∧
        d.getD j 0 = makelist_digit amp 2 (d.getD 0 0 - j) ∧
        (2 ≤ 32 → d.getD j 0 = uval amp.bits / 2 ^ (2 * (d.getD 0 0 - j)) % 2 ^ 2) :=
  ⟨by decide, by decide,
    makelist_structure ⟨[true, false, true, true, false], false, false, false⟩ 2 (by decide)
      (by decide)⟩

/-- Claim C3, amended: for a register `r` of nonzero width (signed or unsigned) and
`bits_per_digit ≥ 1`, where `bits_per_digit ≤ 32` or the width of `r` is at most `32`
(so that every digit fits the `unsigned int` that holds it), the list
`d = word_makelist(r, bits_per_digit)` satisfies: the sum over `i` in `1..d[0]` of
`d[i] * 2^(bits_per_digit * (d[0] - i))` equals the positional value of the bits of
`word_op_abs(r)`. -/
theorem makelist_value (r : Word) (bpd : Nat) (hr : 0 < r.length) (hb : 1 ≤ bpd)
    (hb32 : bpd ≤ 32 ∨ r.length ≤ 32) :
    ∃ amp d, word_op_abs r = some amp ∧ word_makelist r bpd = some d ∧
      ∑ i ∈ Finset.Icc 1 (d.getD 0 0), d.getD i 0 * 2 ^ (bpd * (d.getD 0 0 - i)) =
        uval amp.bits := by
  obtain ⟨amp, ha, hal⟩ := word_op_abs_length r hr
  refine ⟨amp, _, ha, word_makelist_eq r amp bpd hr hb ha, ?_⟩
  set dc := (r.length + bpd - 1) / bpd with hdc
  have hst : (dc :: List.replicate dc 0).length = dc + 1 := by simp
  have hget := makelist_loop_getD amp bpd dc dc 0 (dc :: List.replicate dc 0) hst (by omega)
  have h0 : (makelist_loop amp bpd dc dc 0 (dc :: List.replicate dc 0)).getD 0 0 = dc := by
    rw [hget 0, if_neg (by omega)]; rfl
  rw [h0]
  have hstep : ∀ j ∈ Finset.Icc 1 dc,
      (makelist_loop amp bpd dc dc 0 (dc :: List.replicate dc 0)).getD j 0 *
        2 ^ (bpd * (dc - j)) =
      (fun i => (uval amp.bits / (2 ^ bpd) ^ i % 2 ^ bpd) * (2 ^ bpd) ^ i) (dc - j) := by
    intro j hj
    simp only [Finset.mem_Icc] at hj
    rw [hget j, if_pos (by omega), makelist_digit_eq amp bpd _ hb (by rw [hal]; exact hb32)]
    simp only [← pow_mul, Nat.mul_comm]
  rw [Finset.sum_congr rfl hstep,
    sum_Icc_reflect (fun i => (uval amp.bits / (2 ^ bpd) ^ i % 2 ^ bpd) * (2 ^ bpd) ^ i) dc,
    digits_sum]
  apply Nat.mod_eq_of_lt
  obtain ⟨_, hc2⟩ := ceil_div_bounds r.length bpd hr hb
  rw [← pow_mul]
  exact lt_of_lt_of_le (uval_lt amp.bits)
    (Nat.pow_le_pow_right (by norm_num) (by show amp.length ≤ _; rw [hal]; exact hc2))

theorem makelist_value_witness :
    0 < (Word.mk [true, false, true, true, false] false false true).length ∧ 1 ≤ 2 ∧
    (2 ≤ 32 ∨ (Word.mk [true, false, true, true, false] false false true).length ≤ 32) ∧
    ∃ amp d, word_op_abs ⟨[true, false, true, true, false], false, false, true⟩ = some amp ∧
      word_makelist ⟨[true, false, true, true, false], false, false, true⟩ 2 = some d ∧
      ∑ i ∈ Finset.Icc 1 (d.getD 0 0), d.getD i 0 * 2 ^ (2 * (d.getD 0 0 - i)) =
        uval amp.bits :=
  ⟨by decide, by decide, by decide,
    makelist_value ⟨[true, false, true, true, false], false, false, true⟩ 2 (by decide)
      (by decide) (by decide)⟩

/-- Claim C3 as stated fails for digits wider than an `unsigned int`: on the 33-bit
unsigned register holding `2^32` and `bits_per_digit = 33` the list has the single
digit `1`, so the weighted sum is `1` and not `2^32`.  (Whatever the shift by 32 gives,
a digit is a 32-bit `unsigned int` and cannot hold `2^32`.) -/
theorem makelist_value_wide_digit :
    ∃ amp d,
      word_op_abs ⟨List.replicate 32 false ++ [true], false, false, false⟩ = some amp ∧
      word_makelist ⟨List.replicate 32 false ++ [true], false, false, false⟩ 33 = some d ∧
      ∑ i ∈ Finset.Icc 1 (d.getD 0 0), d.getD i 0 * 2 ^ (33 * (d.getD 0 0 - i)) ≠
        uval amp.bits := by
  refine ⟨⟨List.replicate 32 false ++ [true], false, false, false⟩, [1, 1], by decide,
    by decide, ?_⟩
  decide

/-! ### Multiplication -/

theorem uval_eq_sum (bs : List Bool) :
    uval bs = ∑ i ∈ Finset.range bs.length, (bs.getD i false).toNat * 2 ^ i := by
  induction bs with
  | nil => simp [uval]
  | cons b bs ih =>
    rw [List.length_cons, Finset.sum_range_succ', uval, ih, Finset.mul_sum]
    simp only [List.getD_cons_succ, List.getD_cons_zero, pow_zero, mul_one, pow_succ]
    rw [add_comm]
    congr 1
    apply Finset.sum_congr rfl
    intro i _; ring

theorem bit_toNat_le (b : Bool) : b.toNat ≤ 1 := by cases b <;> simp

/-- Closed form of the inner loop of `word_op_multiply` when nothing wraps. -/
theorem multiply_column_eq (a b : Word) :
    ∀ (n alpha beta sum : Nat), alpha + n ≤ 65536 → sum + n < 2 ^ 32 → n ≤ beta + 1 →
      beta < 65536 →
      multiply_column a b n alpha beta sum =
        sum + ∑ j ∈ Finset.range n,
          (if BITS a (alpha + j) then (BITS b (beta - j)).toNat else 0) := by
  intro n
  induction n with
  | zero => intro alpha beta sum _ _ _ _; simp [multiply_column]
  | succ n ih =>
    intro alpha beta sum h1 h2 h3 h4
    simp only [multiply_column]
    have hterm : (if BITS a alpha then (BITS b beta).toNat else 0) ≤ 1 := by
      split
      · exact bit_toNat_le _
      · omega
    by_cases hn : n = 0
    · subst hn
      simp only [multiply_column, Finset.sum_range_one, add_zero, Nat.sub_zero]
      exact Nat.mod_eq_of_lt (by omega)
    · have ha : (alpha + 1) % 65536 = alpha + 1 := Nat.mod_eq_of_lt (by omega)
      have hs : (sum + (if BITS a alpha then (BITS b beta).toNat else 0)) % 2 ^ 32 =
          sum + (if BITS a alpha then (BITS b beta).toNat else 0) :=
        Nat.mod_eq_of_lt (by omega)
      have hbm : (beta + 65535) % 65536 = beta - 1 := by omega
      rw [ha, hs, hbm, ih (alpha + 1) (beta - 1) _ (by omega) (by omega) (by omega) (by omega),
        Finset.sum_range_succ']
      simp only [add_zero, Nat.sub_zero]
      have : ∀ j, (if BITS a (alpha + 1 + j) then (BITS b (beta - 1 - j)).toNat else 0) =
          (if BITS a (alpha + (j + 1)) then (BITS b (beta - (j + 1))).toNat else 0) := by
        intro j
        have e1 : alpha + 1 + j = alpha + (j + 1) := by omega
        have e2 : beta - 1 - j = beta - (j + 1) := by omega
        rw [e1, e2]
      simp only [this]
      omega

theorem sum_range_window (f : Nat → Nat) (a0 e n : Nat) (h1 : a0 ≤ e) (h2 : e ≤ n)
    (hlow : ∀ x, x < a0 → f x = 0) (hhigh : ∀ x, e ≤ x → x < n → f x = 0) :
    ∑ x ∈ Finset.range n, f x = ∑ j ∈ Finset.range (e - a0), f (a0 + j) := by
  rw [Finset.range_eq_Ico, ← Finset.sum_Ico_consecutive f (Nat.zero_le a0) (le_trans h1 h2),
    ← Finset.sum_Ico_consecutive f h1 h2]
  have z1 : ∑ x ∈ Finset.Ico 0 a0, f x = 0 := by
    apply Finset.sum_eq_zero
    intro x hx; simp only [Finset.mem_Ico] at hx; exact hlow x hx.2
  have z2 : ∑ x ∈ Finset.Ico e n, f x = 0 := by
    apply Finset.sum_eq_zero
    intro x hx; simp only [Finset.mem_Ico] at hx; exact hhigh x hx.1 hx.2
  rw [z1, z2, Finset.sum_Ico_eq_sum_range]
  simp

theorem toNat_mul_eq_ite (x y : Bool) : x.toNat * y.toNat = if x then y.toNat else 0 := by
  cases x <;> simp

/-- The inner loop of `word_op_multiply` adds column `i` of the product to `sum`. -/
theorem multiply_column_code (a b : Word) (i sum : Nat) (ha : 0 < a.length)
    (hb : 0 < b.length) (ha16 : a.length ≤ 65536) (hb16 : b.length ≤ 65536)
    (hs : sum + a.length < 2 ^ 32) :
    multiply_column a b
      (if i ≥ b.length ∧ i ≥ a.length ∧ i < a.length + b.length - 1
        then (a.length + b.length - 1) - i
        else if i ≥ b.length ∧ i < a.length then b.length
        else if i < b.length ∧ i ≥ a.length then a.length
        else if i < b.length ∧ i < a.length then i + 1 else 0)
      (if i < b.length then 0 else (i - b.length + 1) % 65536)
      (if i < b.length then i else b.length - 1) sum = sum + column_sum a b i := by
  have hA : ∀ x, a.length ≤ x → BITS a x = false := fun x hx => BITS_of_length_le a x hx
  have hB : ∀ x, b.length ≤ x → BITS b x = false := fun x hx => BITS_of_length_le b x hx
  unfold column_sum
  by_cases hbig : i < a.length + b.length - 1
  · -- a genuine column
    have hmod : (i - b.length + 1) % 65536 = i - b.length + 1 :=
      Nat.mod_eq_of_lt (by omega)
    rw [hmod]
    set a0 := (if i < b.length then 0 else i - b.length + 1) with ha0
    set b0 := (if i < b.length then i else b.length - 1) with hb0
    set nob := (if i ≥ b.length ∧ i ≥ a.length ∧ i < a.length + b.length - 1
        then (a.length + b.length - 1) - i
        else if i ≥ b.length ∧ i < a.length then b.length
        else if i < b.length ∧ i ≥ a.length then a.length
        else if i < b.length ∧ i < a.length then i + 1 else 0) with hnob
    have hnobv : a0 + nob = min (i + 1) a.length ∧ a0 + b0 = i ∧ nob ≤ b0 + 1 ∧
        nob ≤ a.length := by
      rw [ha0, hb0, hnob]
      split_ifs <;> omega
    obtain ⟨h1, h2, h3, h4⟩ := hnobv
    have hb0lt : b0 < 65536 := by
      rw [hb0]; split_ifs <;> omega
    rw [multiply_column_eq a b nob a0 b0 sum (by omega) (by omega) h3 hb0lt]
    congr 1
    rw [sum_range_window (fun x => (BITS a x).toNat * (BITS b (i - x)).toNat) a0 (a0 + nob)
      (i + 1) (by omega) (by omega)]
    · rw [Nat.add_sub_cancel_left]
      apply Finset.sum_congr rfl
      intro j hj
      simp only [Finset.mem_range] at hj
      have : b0 - j = i - (a0 + j) := by omega
      rw [this, toNat_mul_eq_ite]
    · intro x hx
      have : b.length ≤ i - x := by
        rw [ha0] at hx; split_ifs at hx <;> omega
      show (BITS a x).toNat * (BITS b (i - x)).toNat = 0
      rw [hB _ this]; simp
    · intro x hx1 hx2
      show (BITS a x).toNat * (BITS b (i - x)).toNat = 0
      rw [hA x (by omega)]; simp
  · -- past the last column: nothing is added
    have hn : (if i ≥ b.length ∧ i ≥ a.length ∧ i < a.length + b.length - 1
        then (a.length + b.length - 1) - i
        else if i ≥ b.length ∧ i < a.length then b.length
        else if i < b.length ∧ i ≥ a.length then a.length
        else if i < b.length ∧ i < a.length then i + 1 else 0) = 0 := by
      split_ifs <;> omega
    rw [hn]
    simp only [multiply_column]
    have : ∑ α ∈ Finset.range (i + 1), (BITS a α).toNat * (BITS b (i - α)).toNat = 0 := by
      apply Finset.sum_eq_zero
      intro x hx
      simp only [Finset.mem_range] at hx
      by_cases hxa : x < a.length
      · rw [hB (i - x) (by omega)]; simp
      · rw [hA x (by omega)]; simp
    rw [this]; rfl

/-- The columns of the schoolbook product add up to the product of the values. -/
theorem columns_value_eq_mul (a b : Word) (n : Nat) (hn : a.length + b.length - 1 ≤ n)
    (ha : 0 < a.length) (hb : 0 < b.length) :
    columns_value a b n = uval a.bits * uval b.bits := by
  have hA : ∀ x, a.length ≤ x → BITS a x = false := fun x hx => BITS_of_length_le a x hx
  have hB : ∀ x, b.length ≤ x → BITS b x = false := fun x hx => BITS_of_length_le b x hx
  unfold columns_value column_sum
  simp only [Finset.sum_mul]
  have hswap : ∑ x ∈ Finset.range n, ∑ i ∈ Finset.range (x + 1),
        (BITS a i).toNat * (BITS b (x - i)).toNat * 2 ^ x =
      ∑ y ∈ Finset.range n, ∑ x ∈ Finset.Ico y n,
        (BITS a y).toNat * (BITS b (x - y)).toNat * 2 ^ x :=
    Finset.sum_comm' (by intro x y; simp only [Finset.mem_range, Finset.mem_Ico]; omega)
  rw [hswap]
  have hinner : ∀ y ∈ Finset.range n,
      ∑ x ∈ Finset.Ico y n, (BITS a y).toNat * (BITS b (x - y)).toNat * 2 ^ x =
        (BITS a y).toNat * 2 ^ y * uval b.bits := by
    intro y hy
    simp only [Finset.mem_range] at hy
    by_cases hya : y < a.length
    · rw [Finset.sum_Ico_eq_sum_range, uval_eq_sum, Finset.mul_sum]
      have hsub : Finset.range b.bits.length ⊆ Finset.range (n - y) := by
        intro t ht; simp only [Finset.mem_range] at ht ⊢
        have : b.bits.length = b.length := rfl
        omega
      rw [← Finset.sum_subset hsub]
      · apply Finset.sum_congr rfl
        intro t _
        rw [Nat.add_sub_cancel_left, pow_add]
        show (BITS a y).toNat * (BITS b t).toNat * (2 ^ y * 2 ^ t) =
          (BITS a y).toNat * 2 ^ y * ((BITS b t).toNat * 2 ^ t)
        ring
      · intro t _ ht
        simp only [Finset.mem_range, not_lt] at ht
        rw [Nat.add_sub_cancel_left, hB t ht]; simp
    · rw [hA y (by omega)]; simp
  rw [Finset.sum_congr rfl hinner, ← Finset.sum_mul]
  congr 1
  rw [uval_eq_sum]
  by_cases hna : a.length ≤ n
  · have hsub : Finset.range a.bits.length ⊆ Finset.range n := by
      intro t ht; simp only [Finset.mem_range] at ht ⊢
      have : a.bits.length = a.length := rfl
      omega
    rw [← Finset.sum_subset hsub]
    · rfl
    · intro t _ ht
      simp only [Finset.mem_range, not_lt] at ht
      rw [hA t ht]; simp
  · omega

theorem uval_set_of_false (bs : List Bool) :
    ∀ (i : Nat) (b : Bool), i < bs.length → bs.getD i false = false →
      uval (bs.set i b) = uval bs + b.toNat * 2 ^ i := by
  induction bs with
  | nil => intro i b h; simp at h
  | cons x xs ih =>
    intro i b hi hx
    cases i with
    | zero =>
      simp only [List.getD_cons_zero] at hx
      subst hx
      simp only [List.set_cons_zero, uval, pow_zero, mul_one, Bool.toNat_false, zero_add]
      omega
    | succ k =>
      simp only [List.getD_cons_succ] at hx
      simp only [List.set_cons_succ, uval]
      rw [ih k b (by simpa using hi) hx, pow_succ]
      ring

theorem uval_store_of_false (w : Word) (i : Nat) (b : Bool) (hi : i < w.length)
    (h : BITS w i = false) : uval (w.store i b).bits = uval w.bits + b.toNat * 2 ^ i :=
  uval_set_of_false w.bits i b hi h

theorem column_sum_le (a b : Word) (i : Nat) : column_sum a b i ≤ a.length := by
  unfold column_sum
  by_cases h : i + 1 ≤ a.length
  · calc ∑ α ∈ Finset.range (i + 1), (BITS a α).toNat * (BITS b (i - α)).toNat
        ≤ ∑ _α ∈ Finset.range (i + 1), 1 := by
          apply Finset.sum_le_sum
          intro x _
          have h1 := bit_toNat_le (BITS a x)
          have h2 := bit_toNat_le (BITS b (i - x))
          calc (BITS a x).toNat * (BITS b (i - x)).toNat ≤ 1 * 1 := Nat.mul_le_mul h1 h2
            _ = 1 := rfl
      _ = i + 1 := by simp
      _ ≤ a.length := h
  · rw [sum_range_window (fun x => (BITS a x).toNat * (BITS b (i - x)).toNat) 0 a.length (i + 1)
      (Nat.zero_le _) (by omega) (by intro x hx; omega)
      (by intro x hx _; show (BITS a x).toNat * _ = 0; rw [BITS_of_length_le a x hx]; simp)]
    calc ∑ j ∈ Finset.range (a.length - 0), (BITS a (0 + j)).toNat * (BITS b (i - (0 + j))).toNat
        ≤ ∑ _j ∈ Finset.range (a.length - 0), 1 := by
          apply Finset.sum_le_sum
          intro x _
          have h1 := bit_toNat_le (BITS a (0 + x))
          have h2 := bit_toNat_le (BITS b (i - (0 + x)))
          calc (BITS a (0 + x)).toNat * (BITS b (i - (0 + x))).toNat ≤ 1 * 1 :=
                Nat.mul_le_mul h1 h2
            _ = 1 := rfl
      _ = a.length := by simp

theorem columns_value_succ (a b : Word) (n : Nat) :
    columns_value a b (n + 1) = columns_value a b n + column_sum a b n * 2 ^ n := by
  unfold columns_value
  rw [Finset.sum_range_succ]

theorem bit_decide_toNat (s : Nat) : (decide (s % 2 = 1)).toNat = s % 2 := by
  have : s % 2 = 0 ∨ s % 2 = 1 := by omega
  rcases this with h | h <;> simp [h]

/-- Run of the outer loop of `word_op_multiply` on an unsigned result register that
is wide enough and still zero from the current column upwards. -/
theorem multiply_loop_run (a b : Word) (w : Nat) (ha : 0 < a.length) (hb : 0 < b.length)
    (ha16 : a.length < 65536) (hb16 : b.length < 65536) (hw : a.length + b.length ≤ w) :
    ∀ (fuel i sum : Nat) (result : Word),
      result.is_signed = false → result.length = w → i ≤ a.length + b.length →
      (∀ j, i ≤ j → BITS result j = false) →
      uval result.bits + sum * 2 ^ i = columns_value a b i → sum ≤ a.length →
      a.length + b.length + 1 ≤ fuel + i →
      ∃ r, multiply_loop a.length b.length a b fuel i sum result = some r ∧
        uval r.bits = uval a.bits * uval b.bits ∧ r.length = w ∧
        r.overflow = result.overflow ∧ r.underflow = result.underflow ∧
        r.is_signed = false := by
  intro fuel
  induction fuel with
  | zero => intro i sum result _ _ hi _ _ _ hf; omega
  | succ fuel ih =>
    intro i sum result hsg hlen hi hz hinv hsum hf
    have hprod : uval a.bits * uval b.bits < 2 ^ (a.length + b.length) := by
      rw [pow_add]
      exact Nat.mul_lt_mul'' (uval_lt a.bits) (uval_lt b.bits)
    unfold multiply_loop
    by_cases hexit : ¬ (i < a.length + b.length - 1 ∨ sum ≠ 0)
    · rw [if_pos hexit]
      have h1 : a.length + b.length - 1 ≤ i := by omega
      have h2 : sum = 0 := by
        by_contra h; exact hexit (Or.inr h)
      refine ⟨result, rfl, ?_, hlen, rfl, rfl, hsg⟩
      rw [← columns_value_eq_mul a b i h1 ha hb, ← hinv, h2]; simp
    · rw [if_neg hexit]
      have hilt : i < a.length + b.length := by
        by_contra hc
        have hie : i = a.length + b.length := by omega
        rw [hie, columns_value_eq_mul a b _ (by omega) ha hb] at hinv
        have hpos : 0 < 2 ^ (a.length + b.length) := by positivity
        have hs0 : sum = 0 := by
          by_contra hne
          have : 2 ^ (a.length + b.length) ≤ sum * 2 ^ (a.length + b.length) :=
            Nat.le_mul_of_pos_left _ (Nat.pos_of_ne_zero hne)
          omega
        apply hexit
        intro hh
        rcases hh with hh | hh
        · omega
        · exact hh hs0
      simp only []
      have hcode := multiply_column_code a b i sum ha hb (by omega) (by omega) (by omega)
      rw [hcode]
      have hcs := column_sum_le a b i
      set sum1 := sum + column_sum a b i with hsum1
      have hnosig : ¬ (result.is_signed = true ∧ i ≥ result.length - 1 ∧ sum1 ≠ 0) := by
        rw [hsg]; simp
      rw [if_neg hnosig]
      have hnoov : ¬ (i ≥ result.length ∧ sum1 ≠ 0) := by
        rw [hlen]; omega
      rw [if_neg hnoov]
      have hil : i < result.length := by rw [hlen]; omega
      rw [if_pos hil]
      obtain ⟨r, hr1, hr2, hr3, hr4, hr5, hr6⟩ :=
        ih (i + 1) (sum1 / 2) (result.store i (decide (sum1 % 2 = 1))) hsg
          (by rw [length_store, hlen]) (by omega)
          (by
            intro j hj
            rw [BITS_store, if_neg (by omega)]
            exact hz j (by omega))
          (by
            rw [uval_store_of_false result i _ hil (hz i (le_refl _)), bit_decide_toNat,
              columns_value_succ, ← hinv, hsum1, pow_succ]
            have hdm := Nat.div_add_mod (sum + column_sum a b i) 2
            generalize (sum + column_sum a b i) / 2 = q at *
            generalize (sum + column_sum a b i) % 2 = m at *
            generalize column_sum a b i = c at *
            have e : sum + c = 2 * q + m := by omega
            have e2 : (sum + c) * 2 ^ i = (2 * q + m) * 2 ^ i := by rw [e]
            have e3 : (sum + c) * 2 ^ i = sum * 2 ^ i + c * 2 ^ i := Nat.add_mul _ _ _
            have e4 : (2 * q + m) * 2 ^ i = q * (2 ^ i * 2) + m * 2 ^ i := by ring
            omega)
          (by omega) (by omega)
      exact ⟨r, hr1, hr2, hr3, hr4, hr5, hr6⟩

theorem create_word_length (n : Nat) : (create_word n).length = n := by
  simp [create_word, Word.length]

theorem create_word_BITS (n j : Nat) : BITS (create_word n) j = false := by
  unfold BITS create_word
  simp only [List.getD_eq_getElem?_getD]
  by_cases h : j < n
  · simp [List.getElem?_replicate, h]
  · simp [List.getElem?_replicate, h]

theorem uval_replicate_false (n : Nat) : uval (List.replicate n false) = 0 := by
  induction n with
  | zero => rfl
  | succ n ih => simp [List.replicate_succ, uval, ih]

theorem create_word_uval (n : Nat) : uval (create_word n).bits = 0 :=
  uval_replicate_false n

theorem word_op_abs_unsigned (r : Word) (hr : 0 < r.length) (hu : r.is_signed = false) :
    word_op_abs r = some r := by
  unfold word_op_abs create_word_duplicate
  have h0 : ¬ (r.length = 0) := by omega
  simp [h0, hu]

/-- Claim C1: for `k ≥ 1` and unsigned registers `a`, `b` of width `k`,
`word_op_multiply` into a freshly created (all-zero, unsigned) result register of
width `2k` terminates and leaves the positional value of the result equal to
`value(a) * value(b)`, with the `overflow` flag of the result clear.  (The width `2k`
of the result is an `unsigned short`, hence below `65536`.) -/
theorem multiply_correct (k fuel : Nat) (a b : Word) (hk : 1 ≤ k) (hk16 : 2 * k < 65536)
    (ha : a.length = k) (hb : b.length = k) (hau : a.is_signed = false)
    (hbu : b.is_signed = false) (hf : 2 * k + 1 ≤ fuel) :
    ∃ r, word_op_multiply fuel (create_word (2 * k)) a b = some r ∧ r.length = 2 * k ∧
      uval r.bits = uval a.bits * uval b.bits ∧ r.overflow = false := by
  obtain ⟨r, h1, h2, h3, h4, _, _⟩ :=
    multiply_loop_run a b (2 * k) (by omega) (by omega) (by omega) (by omega) (by omega) fuel 0 0
      (create_word (2 * k)) rfl (create_word_length _) (by omega)
      (fun j _ => create_word_BITS _ j)
      (by rw [create_word_uval]; simp [columns_value]) (by omega) (by omega)
  refine ⟨r, ?_, h3, h2, by rw [h4]; rfl⟩
  unfold word_op_multiply
  have e1 : ¬ ((create_word (2 * k)).length = 0) := by rw [create_word_length]; omega
  have e2 : ¬ (a.length = 0) := by omega
  have e3 : ¬ (b.length = 0) := by omega
  rw [if_neg e1, if_neg e2, if_neg e3]
  simp only [hau, hbu, Bool.false_and, ne_eq, not_true_eq_false, false_and, if_false]
  rw [word_op_abs_unsigned a (by omega) hau, word_op_abs_unsigned b (by omega) hbu]
  simp only [h1]

theorem multiply_correct_witness :
    1 ≤ 2 ∧ 2 * 2 < 65536 ∧ 2 * 2 + 1 ≤ 5 ∧
    ∃ r, word_op_multiply 5 (create_word (2 * 2)) ⟨[true, true], false, false, false⟩
        ⟨[true, false], false, false, false⟩ = some r ∧ r.length = 2 * 2 ∧
      uval r.bits = uval [true, true] * uval [true, false] ∧ r.overflow = false :=
  ⟨by decide, by decide, by decide,
    multiply_correct 2 5 ⟨[true, true], false, false, false⟩
      ⟨[true, false], false, false, false⟩ (by decide) (by decide) rfl rfl rfl rfl (by decide)⟩

/-! ### Addition -/

theorem uval_set (bs : List Bool) :
    ∀ (i : Nat) (b : Bool), i < bs.length →
      uval (bs.set i b) + (bs.getD i false).toNat * 2 ^ i = uval bs + b.toNat * 2 ^ i := by
  induction bs with
  | nil => intro i b h; simp at h
  | cons x xs ih =>
    intro i b hi
    cases i with
    | zero =>
      simp only [List.set_cons_zero, uval, pow_zero, mul_one, List.getD_cons_zero]
      omega
    | succ k =>
      simp only [List.getD_cons_succ, List.set_cons_succ, uval]
      have := ih k b (by simpa using hi)
      rw [pow_succ]
      have e1 : (xs.getD k false).toNat * (2 ^ k * 2) = 2 * ((xs.getD k false).toNat * 2 ^ k) := by
        ring
      have e2 : b.toNat * (2 ^ k * 2) = 2 * (b.toNat * 2 ^ k) := by ring
      rw [e1, e2]
      omega

theorem uval_store (R : Word) (j : Nat) (b : Bool) (hj : j < R.length) :
    (uval (R.store j b).bits : Int) =
      uval R.bits - ((BITS R j).toNat : Int) * 2 ^ j + (b.toNat : Int) * 2 ^ j := by
  have h := uval_set R.bits j b hj
  have h' : ((uval (R.bits.set j b) + (R.bits.getD j false).toNat * 2 ^ j : Nat) : Int) =
      ((uval R.bits + b.toNat * 2 ^ j : Nat) : Int) := by rw [h]
  push_cast at h'
  show (uval (R.bits.set j b) : Int) = _
  unfold BITS
  linarith

theorem uval_div_succ (A i : Nat) :
    A / 2 ^ i = (A.testBit i).toNat + 2 * (A / 2 ^ (i + 1)) := by
  rw [toNat_testBit_eq, pow_succ, ← Nat.div_div_eq_div_mul]
  omega

theorem int_bit_decide_toNat (s : Int) : ((decide (s % 2 = 1)).toNat : Int) = s % 2 := by
  have : s % 2 = 0 ∨ s % 2 = 1 := Int.emod_two_eq s
  rcases this with h | h <;> simp [h]

theorem uval_div_eq_zero (a : Word) (i : Nat) (h : a.length ≤ i) : uval a.bits / 2 ^ i = 0 := by
  apply Nat.div_eq_of_lt
  exact lt_of_lt_of_le (uval_lt a.bits) (Nat.pow_le_pow_right (by norm_num) h)

/-- Run of the loop of `word_op_add` for an unsigned result and an unsigned added
value that fits below the top of the result: the final register and the carry `c`
out of its top bit account for the exact sum. -/
theorem add_loop_run (a : Word) (s : Int) (w p : Nat) (hs : s = 1 ∨ s = -1)
    (hpa : p + a.length ≤ w) :
    ∀ (fuel i : Nat) (sum : Int) (R : Word), R.length = w → i + p ≤ w →
      (s = 1 → sum = 0 ∨ sum = 1) → (s = -1 → sum = 0 ∨ sum = -1) →
      (i + p = w → sum = 0 ∨ sum = -1) → w + 1 ≤ fuel + (i + p) →
      ∃ (R' : Word) (c : Int), add_loop false false s a fuel i (i + p) sum R = some R' ∧
        R'.length = w ∧ R'.is_signed = R.is_signed ∧ R'.underflow = R.underflow ∧
        (uval R'.bits : Int) + c * 2 ^ w =
          uval R.bits + sum * 2 ^ (i + p) +
            s * ((uval a.bits / 2 ^ i : Nat) : Int) * 2 ^ (i + p) ∧
        (c = 0 ∨ c = 1 ∨ c = -1) ∧ (s = 1 → c ≠ -1) ∧ (s = -1 → c ≠ 1) ∧
        R'.overflow = (R.overflow || decide (c = 1)) := by
  intro fuel
  induction fuel with
  | zero => intro i sum R _ hi _ _ _ hf; omega
  | succ fuel ih =>
    intro i sum R hlen hi hr1 hr2 hend hf
    unfold add_loop
    by_cases hA : ¬ (i < a.length ∨ sum ≠ 0)
    · -- the loop condition fails
      rw [if_pos hA]
      have h1 : a.length ≤ i := by omega
      have h2 : sum = 0 := by
        by_contra h; exact hA (Or.inr h)
      refine ⟨R, 0, rfl, hlen, rfl, rfl, ?_, Or.inl rfl, by intro _; norm_num,
        by intro _; norm_num, by simp⟩
      rw [uval_div_eq_zero a i h1, h2]; simp
    · rw [if_neg hA]
      by_cases hB : i ≥ a.length ∧ i + p ≥ R.length ∧ (sum = 0 ∨ sum = -1)
      · -- the break
        rw [if_pos hB]
        have hj : i + p = w := by omega
        refine ⟨R, sum, rfl, hlen, rfl, rfl, ?_, ?_, ?_, ?_, ?_⟩
        · rw [uval_div_eq_zero a i hB.1, hj]; simp
        · rcases hB.2.2 with h | h
          · exact Or.inl h
          · exact Or.inr (Or.inr h)
        · intro h1
          rcases hr1 h1 with h | h <;> rcases hB.2.2 with h' | h' <;> omega
        · intro _
          rcases hB.2.2 with h' | h' <;> omega
        · have : ¬ (sum = 1) := by rcases hB.2.2 with h' | h' <;> omega
          simp [this]
      · rw [if_neg hB]
        have hjw : i + p < w := by
          by_contra hc
          have hj : i + p = w := by omega
          exact hB ⟨by omega, by omega, hend hj⟩
        have hjl : i + p < R.length := by omega
        simp only [if_pos hjl]
        have hab : (if i < a.length then BITS a i else false) = BITS a i := by
          by_cases h : i < a.length
          · rw [if_pos h]
          · rw [if_neg h, BITS_of_length_le a i (by omega)]
        rw [hab]
        set sum2 : Int := (if s = -1 then
            (if s = 1 then sum + ((BITS R (i + p)).toNat : Int) + ((BITS a i).toNat : Int)
              else sum) + ((BITS R (i + p)).toNat : Int) - ((BITS a i).toNat : Int)
          else (if s = 1 then sum + ((BITS R (i + p)).toNat : Int) + ((BITS a i).toNat : Int)
              else sum)) with hsum2
        have hsum2v : sum2 = sum + ((BITS R (i + p)).toNat : Int) + s * ((BITS a i).toNat : Int) := by
          rw [hsum2]
          rcases hs with h | h
          · subst h; norm_num
          · subst h; norm_num; ring
        have hsrc : ((BITS R (i + p)).toNat : Int) = 0 ∨ ((BITS R (i + p)).toNat : Int) = 1 := by
          cases BITS R (i + p) <;> simp
        have hadd : ((BITS a i).toNat : Int) = 0 ∨ ((BITS a i).toNat : Int) = 1 := by
          cases BITS a i <;> simp
        have hdm := Int.ediv_add_emod sum2 2
        have hm2 := Int.emod_two_eq sum2
        have hstep : (uval (R.store (i + p) (decide (sum2 % 2 = 1))).bits : Int) +
            (sum2 / 2) * 2 ^ (i + 1 + p) +
              s * ((uval a.bits / 2 ^ (i + 1) : Nat) : Int) * 2 ^ (i + 1 + p) =
            uval R.bits + sum * 2 ^ (i + p) +
              s * ((uval a.bits / 2 ^ i : Nat) : Int) * 2 ^ (i + p) := by
          rw [uval_store R (i + p) _ hjl, int_bit_decide_toNat]
          have e1 : i + 1 + p = (i + p) + 1 := by omega
          rw [e1, pow_succ]
          have e2 := uval_div_succ (uval a.bits) i
          rw [← BITS_eq_testBit] at e2
          have e3 : ((uval a.bits / 2 ^ i : Nat) : Int) =
              ((BITS a i).toNat : Int) + 2 * ((uval a.bits / 2 ^ (i + 1) : Nat) : Int) := by
            exact_mod_cast e2
          rw [e3]
          have e4 : sum2 % 2 = sum2 - 2 * (sum2 / 2) := by omega
          rw [e4, hsum2v]
          ring
        have hs3 : (s = 1 → sum2 / 2 = 0 ∨ sum2 / 2 = 1) ∧
            (s = -1 → sum2 / 2 = 0 ∨ sum2 / 2 = -1) := by
          constructor
          · intro h1
            have := hr1 h1
            rw [h1] at hsum2v
            omega
          · intro h1
            have := hr2 h1
            rw [h1] at hsum2v
            omega
        by_cases hO : i + p ≥ R.length - 1 ∧ sum2 / 2 ≠ 0 ∧ sum2 / 2 ≠ -1 ∧
            (True ∨ sum2 / 2 ≠
              int_shl_one (Int.toNat ((((R.length : Int) - 1) - ((i + p : Nat) : Int)) % 2 ^ 32)))
        · -- a carry leaves the top bit
          rw [if_pos hO]
          have hj : i + p = w - 1 := by omega
          have hc1 : sum2 / 2 = 1 := by
            rcases hs with h | h
            · rcases hs3.1 h with h' | h'
              · exact absurd h' hO.2.1
              · exact h'
            · rcases hs3.2 h with h' | h'
              · exact absurd h' hO.2.1
              · exact absurd h' hO.2.2.1
          have hs1 : s = 1 := by
            rcases hs with h | h
            · exact h
            · rcases hs3.2 h with h' | h' <;> omega
          refine ⟨{ (R.store (i + p) (decide (sum2 % 2 = 1))) with overflow := true }, 1, rfl,
            by show (R.store _ _).length = w; rw [length_store, hlen], rfl, rfl, ?_,
            Or.inr (Or.inl rfl), by intro _; norm_num, by intro h; omega, by simp⟩
          have e5 : i + 1 + p = w := by omega
          have hz := uval_div_eq_zero a (i + 1) (by omega)
          rw [hc1, hz, e5] at hstep
          show (uval (R.store (i + p) (decide (sum2 % 2 = 1))).bits : Int) + 1 * 2 ^ w = _
          rw [← hstep]; simp
        · rw [if_neg hO]
          have hnext : i + 1 + p = w → sum2 / 2 = 0 ∨ sum2 / 2 = -1 := by
            intro hj
            by_contra hc
            push_neg at hc
            exact hO ⟨by omega, hc.1, hc.2, Or.inl trivial⟩
          obtain ⟨R', c, g1, g2, g3, g4, g5, g6, g7, g8, g9⟩ :=
            ih (i + 1) (sum2 / 2) (R.store (i + p) (decide (sum2 % 2 = 1)))
              (by rw [length_store, hlen]) (by omega) hs3.1 hs3.2 hnext (by omega)
          have e6 : i + p + 1 = i + 1 + p := by omega
          rw [e6]
          exact ⟨R', c, g1, g2, g3, g4, by rw [g5, hstep], g6, g7, g8, g9⟩

/-- The function `word_op_add` on unsigned registers, the added value fitting below
the top of the result: the result register and the carry `c` out of its top bit
account for the exact sum; `overflow` is raised exactly by a carry of one. -/
theorem word_op_add_unsigned (fuel : Nat) (r a : Word) (s : Int) (p : Nat)
    (hs : s = 1 ∨ s = -1) (hr : r.is_signed = false) (ha : a.is_signed = false)
    (hal : 0 < a.length) (hfit : p + a.length ≤ r.length) (hf : r.length + 1 ≤ fuel + p) :
    ∃ (r' : Word) (c : Int), word_op_add fuel r a s p = some r' ∧ r'.length = r.length ∧
      r'.is_signed = false ∧ r'.underflow = r.underflow ∧
      (uval r'.bits : Int) + c * 2 ^ r.length = uval r.bits + s * (uval a.bits : Int) * 2 ^ p ∧
      (c = 0 ∨ c = 1 ∨ c = -1) ∧ (s = 1 → c ≠ -1) ∧ (s = -1 → c ≠ 1) ∧
      r'.overflow = (r.overflow || decide (c = 1)) := by
  obtain ⟨r', c, h1, h2, h3, h4, h5, h6, h7, h8, h9⟩ :=
    add_loop_run a s r.length p hs hfit fuel 0 0 r rfl (by omega) (fun _ => Or.inl rfl)
      (fun _ => Or.inl rfl) (fun _ => Or.inl rfl) (by omega)
  refine ⟨r', c, ?_, h2, by rw [h3, hr], h4, ?_, h6, h7, h8, h9⟩
  · unfold word_op_add
    have e1 : ¬ (r.length = 0 ∨ a.length = 0) := by omega
    have e2 : ¬ (s ≠ 1 ∧ s ≠ -1) := by
      rcases hs with h | h <;> simp [h]
    rw [if_neg e1, if_neg e2]
    simp only [hr, ha, Bool.false_and]
    rw [Nat.zero_add] at h1
    exact h1
  · rw [h5]; simp

theorem word_op_add_unsigned_plus (fuel : Nat) (r a : Word) (hr : r.is_signed = false)
    (ha : a.is_signed = false) (hal : 0 < a.length) (hfit : a.length ≤ r.length)
    (hf : r.length + 1 ≤ fuel) (hno : uval r.bits + uval a.bits < 2 ^ r.length) :
    ∃ r', word_op_add fuel r a 1 0 = some r' ∧ r'.length = r.length ∧
      r'.is_signed = false ∧ r'.underflow = r.underflow ∧ r'.overflow = r.overflow ∧
      uval r'.bits = uval r.bits + uval a.bits := by
  obtain ⟨r', c, h1, h2, h3, h4, h5, h6, h7, _, h9⟩ :=
    word_op_add_unsigned fuel r a 1 0 (Or.inl rfl) hr ha hal (by omega) (by omega)
  have hno' : ((uval r.bits : Int) + uval a.bits) < 2 ^ r.length := by exact_mod_cast hno
  have hpos : (0 : Int) ≤ (uval r'.bits : Int) := by positivity
  have hpw : (0 : Int) < 2 ^ r.length := by positivity
  have hc : c = 0 := by
    rcases h6 with h | h | h
    · exact h
    · rw [h] at h5; simp at h5; linarith
    · exact absurd h (h7 rfl)
  rw [hc] at h5 h9
  refine ⟨r', h1, h2, h3, h4, by rw [h9]; simp, ?_⟩
  simp at h5
  exact_mod_cast h5

theorem word_op_add_unsigned_minus (fuel : Nat) (r a : Word) (hr : r.is_signed = false)
    (ha : a.is_signed = false) (hal : 0 < a.length) (hfit : a.length ≤ r.length)
    (hf : r.length + 1 ≤ fuel) (hle : uval a.bits ≤ uval r.bits) :
    ∃ r', word_op_add fuel r a (-1) 0 = some r' ∧ r'.length = r.length ∧
      r'.is_signed = false ∧ r'.underflow = r.underflow ∧ r'.overflow = r.overflow ∧
      uval r'.bits + uval a.bits = uval r.bits := by
  obtain ⟨r', c, h1, h2, h3, h4, h5, h6, _, h8, h9⟩ :=
    word_op_add_unsigned fuel r a (-1) 0 (Or.inr rfl) hr ha hal (by omega) (by omega)
  have hle' : (uval a.bits : Int) ≤ uval r.bits := by exact_mod_cast hle
  have hlt : (uval r'.bits : Int) < 2 ^ r.length := by
    have := uval_lt r'.bits
    have e : r'.bits.length = r.length := h2
    rw [e] at this
    exact_mod_cast this
  have hc : c = 0 := by
    rcases h6 with h | h | h
    · exact h
    · exact absurd h (h8 rfl)
    · rw [h] at h5; simp at h5; linarith
  rw [hc] at h5 h9
  refine ⟨r', h1, h2, h3, h4, by rw [h9]; simp, ?_⟩
  simp at h5
  have : ((uval r'.bits + uval a.bits : Nat) : Int) = (uval r.bits : Int) := by
    push_cast; linarith
  exact_mod_cast this

theorem word_op_rightshift_unsigned (r : Word) (k : Nat) (hlen : 0 < r.length)
    (hu : r.is_signed = false) :
    ∃ r', word_op_rightshift r k = some r' ∧ r'.length = r.length ∧ r'.is_signed = false ∧
      r'.overflow = r.overflow ∧ uval r'.bits = uval r.bits / 2 ^ k ∧
      (r'.underflow = true ↔ (r.underflow = true ∨ uval r.bits % 2 ^ k ≠ 0)) := by
  refine ⟨_, word_op_rightshift_unsigned_eq r k hlen hu, ?_⟩
  obtain ⟨g1, g2, g3, g4, g5⟩ := rightshift_loop_spec k false r.length 0 r (by omega)
  refine ⟨g1, by rw [g2, hu], g3, ?_, ?_⟩
  · apply Nat.eq_of_testBit_eq
    intro j
    rw [← BITS_eq_testBit, g5, testBit_div_two_pow, ← BITS_eq_testBit]
    by_cases hj : 0 ≤ j ∧ j < 0 + r.length
    · rw [if_pos hj]
      by_cases hjk : j + k < r.length
      · rw [if_pos hjk, Nat.add_comm]
      · rw [if_neg hjk, BITS_of_length_le r (k + j) (by omega)]
    · rw [if_neg hj, BITS_of_length_le r j (by omega), BITS_of_length_le r (k + j) (by omega)]
  · rw [g4]
    constructor
    · rintro (h | ⟨j, _, _, hjk, hb⟩)
      · exact Or.inl h
      · right
        intro hz
        have : (uval r.bits % 2 ^ k).testBit j = true := by
          rw [Nat.testBit_mod_two_pow, ← BITS_eq_testBit, hb]; simp [hjk]
        rw [hz] at this; simp at this
    · rintro (h | h)
      · exact Or.inl h
      · right
        obtain ⟨j, hj⟩ := Nat.ne_zero_implies_bit_true h
        rw [Nat.testBit_mod_two_pow, ← BITS_eq_testBit] at hj
        simp at hj
        have hjw : j < r.length := by
          by_contra hc
          rw [BITS_of_length_le r j (by omega)] at hj
          exact absurd hj.2 (by simp)
        exact ⟨j, by omega, by omega, hj.1, hj.2⟩

theorem Word.value_unsigned (r : Word) (hu : r.is_signed = false) :
    r.value = (uval r.bits : Int) := by
  unfold Word.value; rw [hu]; simp

theorem word_op_compare_unsigned (a b : Word) (ha : 0 < a.length) (hb : 0 < b.length)
    (hau : a.is_signed = false) (hbu : b.is_signed = false) :
    word_op_compare a b =
      if uval a.bits < uval b.bits then -1 else if uval a.bits = uval b.bits then 0 else 1 := by
  rw [word_op_compare_value a b ha hb, Word.value_unsigned a hau, Word.value_unsigned b hbu]
  simp only [Nat.cast_lt, Nat.cast_inj]

theorem word_op_compare_constant_zero (a : Word) (ha : 0 < a.length)
    (hau : a.is_signed = false) :
    word_op_compare_constant a 0 = 0 ↔ uval a.bits = 0 := by
  rw [word_op_compare_constant_value a 0 ha (by norm_num) (by norm_num),
    Word.value_unsigned a hau]
  have h0 : ¬ ((uval a.bits : Int) < 0) := by
    have : (0 : Int) ≤ (uval a.bits : Int) := by positivity
    omega
  rw [if_neg h0]
  constructor
  · intro h
    by_contra hne
    have : ¬ ((uval a.bits : Int) = 0) := by exact_mod_cast hne
    rw [if_neg this] at h
    exact absurd h (by norm_num)
  · intro h; rw [h]; simp

/-! ### Integer square root -/

theorem isqrt_loop1_stop (rem bit : Word) (fuel : Nat) (hf : 1 ≤ fuel)
    (hb : 0 < bit.length) (hr : 0 < rem.length) (hbu : bit.is_signed = false)
    (hru : rem.is_signed = false) (hle : uval bit.bits ≤ uval rem.bits) :
    isqrt_loop1 rem fuel bit = some bit := by
  obtain ⟨f, rfl⟩ : ∃ f, fuel = f + 1 := ⟨fuel - 1, by omega⟩
  unfold isqrt_loop1
  rw [word_op_compare_unsigned bit rem hb hr hbu hru]
  have : ¬ ((if uval bit.bits < uval rem.bits then (-1 : Int)
      else if uval bit.bits = uval rem.bits then 0 else 1) = 1) := by
    split_ifs <;> first | omega | norm_num
  rw [if_neg this]

theorem four_pow_div (e : Nat) : 4 ^ (e + 1) / 2 ^ 2 = 4 ^ e := by
  rw [pow_succ]; norm_num

/-- First loop of `word_op_isqrt`: the trial bit ends at the largest power of four
not above the radicand, or at zero for a zero radicand. -/
theorem isqrt_loop1_run (rem : Word) (w : Nat) (hrw : rem.length = w) (hw : 0 < w)
    (hru : rem.is_signed = false) :
    ∀ (e fuel : Nat) (bit : Word), bit.length = w → bit.is_signed = false →
      uval bit.bits = 4 ^ e → uval rem.bits < 4 ^ (e + 1) → e + 2 ≤ fuel →
      ∃ (bit' : Word) (n : Nat), isqrt_loop1 rem fuel bit = some bit' ∧ bit'.length = w ∧
        bit'.is_signed = false ∧ uval bit'.bits = (if n = 0 then 0 else 4 ^ (n - 1)) ∧
        (1 ≤ n → 4 ^ (n - 1) ≤ uval rem.bits) ∧ uval rem.bits < 4 ^ n ∧ n ≤ e + 1 := by
  intro e
  induction e with
  | zero =>
    intro fuel bit hbl hbu hbv hlt hf
    by_cases hle : uval bit.bits ≤ uval rem.bits
    · refine ⟨bit, 1, isqrt_loop1_stop rem bit fuel (by omega) (by omega) (by omega) hbu hru hle,
        hbl, hbu, by simpa using hbv, ?_, by simpa using hlt, by omega⟩
      intro _; rw [hbv] at hle; simpa using hle
    · obtain ⟨f, rfl⟩ : ∃ f, fuel = f + 1 := ⟨fuel - 1, by omega⟩
      obtain ⟨b1, s1, s2, s3, _, s5, _⟩ := word_op_rightshift_unsigned bit 2 (by omega) hbu
      have hb1 : uval b1.bits = 0 := by rw [s5, hbv]; norm_num
      have hstop := isqrt_loop1_stop rem b1 f (by omega) (by omega) (by omega) s3 hru
        (by rw [hb1]; omega)
      refine ⟨b1, 0, ?_, by rw [s2, hbl], s3, by simpa using hb1, by intro h; omega,
        by rw [hbv] at hle; simp at hle ⊢; omega, by omega⟩
      unfold isqrt_loop1
      rw [word_op_compare_unsigned bit rem (by omega) (by omega) hbu hru]
      have : (if uval bit.bits < uval rem.bits then (-1 : Int)
          else if uval bit.bits = uval rem.bits then 0 else 1) = 1 := by
        rw [if_neg (by omega), if_neg (by omega)]
      rw [if_pos this, s1]
      exact hstop
  | succ e ih =>
    intro fuel bit hbl hbu hbv hlt hf
    by_cases hle : uval bit.bits ≤ uval rem.bits
    · refine ⟨bit, e + 2, isqrt_loop1_stop rem bit fuel (by omega) (by omega) (by omega) hbu hru hle,
        hbl, hbu, by simpa using hbv, ?_, hlt, by omega⟩
      intro _; rw [hbv] at hle; simpa using hle
    · obtain ⟨f, rfl⟩ : ∃ f, fuel = f + 1 := ⟨fuel - 1, by omega⟩
      obtain ⟨b1, s1, s2, s3, _, s5, _⟩ := word_op_rightshift_unsigned bit 2 (by omega) hbu
      have hb1 : uval b1.bits = 4 ^ e := by rw [s5, hbv, four_pow_div]
      obtain ⟨bit', n, g1, g2, g3, g4, g5, g6, g7⟩ :=
        ih f b1 (by rw [s2, hbl]) s3 hb1 (by rw [hbv] at hle; omega) (by omega)
      refine ⟨bit', n, ?_, g2, g3, g4, g5, g6, by omega⟩
      unfold isqrt_loop1
      rw [word_op_compare_unsigned bit rem (by omega) (by omega) hbu hru]
      have : (if uval bit.bits < uval rem.bits then (-1 : Int)
          else if uval bit.bits = uval rem.bits then 0 else 1) = 1 := by
        rw [if_neg (by omega), if_neg (by omega)]
      rw [if_pos this, s1]
      exact g1

/-- No sum formed in the second loop of `word_op_isqrt` leaves the register. -/
theorem isqrt_no_overflow (R m w num : Nat) (h1 : R * R * 4 ^ (m + 1) ≤ num)
    (h2 : num < 2 ^ w) (hbit : 4 ^ m < 2 ^ w) : R * 4 ^ (m + 1) + 4 ^ m < 2 ^ w := by
  rcases Nat.eq_zero_or_pos R with h0 | hpos
  · subst h0; simpa using hbit
  · have h4 : (4 : Nat) ^ (m + 1) = 2 ^ (2 * (m + 1)) := by
      rw [pow_mul]; norm_num
    have hRR : R ≤ R * R := Nat.le_mul_of_pos_left R hpos
    have h3 : 4 ^ (m + 1) ≤ R * R * 4 ^ (m + 1) := Nat.le_mul_of_pos_left _ (by positivity)
    have h5 : 2 ^ (2 * (m + 1)) < 2 ^ w := by rw [← h4]; omega
    have h6 : 2 * (m + 1) < w := (Nat.pow_lt_pow_iff_right (by norm_num)).mp h5
    obtain ⟨t, ht⟩ : ∃ t, w = t + 2 * (m + 1) := ⟨w - 2 * (m + 1), by omega⟩
    have h7 : 2 ^ w = 2 ^ t * 4 ^ (m + 1) := by rw [ht, pow_add, h4]
    have h8 : R * R < 2 ^ t := by
      have : R * R * 4 ^ (m + 1) < 2 ^ t * 4 ^ (m + 1) := by rw [← h7]; omega
      exact Nat.lt_of_mul_lt_mul_right this
    have h9 : (R + 1) * 4 ^ (m + 1) ≤ 2 ^ t * 4 ^ (m + 1) :=
      Nat.mul_le_mul_right _ (by omega)
    have h10 : (4 : Nat) ^ m < 4 ^ (m + 1) := Nat.pow_lt_pow_right (by norm_num) (by omega)
    rw [h7]
    have h11 : (R + 1) * 4 ^ (m + 1) = R * 4 ^ (m + 1) + 4 ^ (m + 1) := by ring
    omega

theorem compare_ge_zero_iff (a b : Word) (ha : 0 < a.length) (hb : 0 < b.length)
    (hau : a.is_signed = false) (hbu : b.is_signed = false) :
    word_op_compare a b ≥ 0 ↔ uval b.bits ≤ uval a.bits := by
  rw [word_op_compare_unsigned a b ha hb hau hbu]
  split_ifs <;> constructor <;> intro h <;> omega

/-- Second loop of `word_op_isqrt`, started with `n` trial bits to go, the partial
root `R` scaled into `result` and the matching remainder. -/
theorem isqrt_loop2_run (w num addfuel : Nat) (hw : 0 < w) (hnum : num < 2 ^ w)
    (haf : w + 1 ≤ addfuel) :
    ∀ (n fuel : Nat) (bit res rem : Word) (R : Nat),
      bit.length = w → res.length = w → rem.length = w →
      bit.is_signed = false → res.is_signed = false → rem.is_signed = false →
      res.overflow = false → res.underflow = false →
      uval bit.bits = (if n = 0 then 0 else 4 ^ (n - 1)) →
      uval res.bits = R * 4 ^ n →
      uval rem.bits + R * R * 4 ^ n = num →
      num < (R + 1) * (R + 1) * 4 ^ n →
      n + 1 ≤ fuel →
      ∃ res', isqrt_loop2 addfuel fuel bit res rem = some res' ∧ res'.length = w ∧
        res'.is_signed = false ∧ res'.overflow = false ∧ res'.underflow = false ∧
        uval res'.bits * uval res'.bits ≤ num ∧
        num < (uval res'.bits + 1) * (uval res'.bits + 1) := by
  intro n
  induction n with
  | zero =>
    intro fuel bit res rem R hbl hsl hrl hbu hsu hru hso hsun hbv hsv hinv hub hf
    obtain ⟨f, rfl⟩ : ∃ f, fuel = f + 1 := ⟨fuel - 1, by omega⟩
    unfold isqrt_loop2
    have hz : word_op_compare_constant bit 0 = 0 :=
      (word_op_compare_constant_zero bit (by omega) hbu).mpr (by simpa using hbv)
    rw [if_pos hz]
    simp only [pow_zero, mul_one] at hsv hinv hub
    refine ⟨res, rfl, hsl, hsu, hso, hsun, ?_, ?_⟩
    · rw [hsv]; omega
    · rw [hsv]; exact hub
  | succ m ih =>
    intro fuel bit res rem R hbl hsl hrl hbu hsu hru hso hsun hbv hsv hinv hub hf
    obtain ⟨f, rfl⟩ : ∃ f, fuel = f + 1 := ⟨fuel - 1, by omega⟩
    have hbv' : uval bit.bits = 4 ^ m := by simpa using hbv
    have hbpos : 0 < (4 : Nat) ^ m := by positivity
    have h4 : (4 : Nat) ^ (m + 1) = 4 * 4 ^ m := by rw [pow_succ]; ring
    have hbitlt : 4 ^ m < 2 ^ w := by
      have := uval_lt bit.bits
      have e : bit.bits.length = w := hbl
      rw [e, hbv'] at this; exact this
    have hnoov := isqrt_no_overflow R m w num (by omega) hnum hbitlt
    unfold isqrt_loop2
    have hnz : ¬ (word_op_compare_constant bit 0 = 0) := by
      rw [word_op_compare_constant_zero bit (by omega) hbu, hbv']; omega
    rw [if_neg hnz]
    have hdup : create_word_duplicate res = some res := by
      unfold create_word_duplicate; rw [if_neg (by omega)]
    rw [hdup]
    simp only []
    -- update_term = result + bit
    obtain ⟨upd, u1, u2, u3, _, _, u6⟩ :=
      word_op_add_unsigned_plus addfuel res bit hsu hbu (by omega) (by omega) (by omega)
        (by rw [hsv, hbv', hsl]; exact hnoov)
    rw [u1]
    simp only []
    have hupd : uval upd.bits = R * 4 ^ (m + 1) + 4 ^ m := by rw [u6, hsv, hbv']
    -- result >> 1 and bit >> 2
    obtain ⟨res1, r1, r2, r3, r4, r5, r6⟩ := word_op_rightshift_unsigned res 1 (by omega) hsu
    obtain ⟨bit1, b1, b2, b3, _, b5, _⟩ := word_op_rightshift_unsigned bit 2 (by omega) hbu
    have hres1 : uval res1.bits = 2 * R * 4 ^ m := by
      rw [r5, hsv, h4]
      have : R * (4 * 4 ^ m) = 2 * R * 4 ^ m * 2 := by ring
      rw [this]; simp
    have hres1u : res1.underflow = false := by
      by_contra hc
      have hc' : res1.underflow = true := by simpa using hc
      rcases r6.mp hc' with h | h
      · rw [hsun] at h; exact absurd h (by simp)
      · apply h
        rw [hsv, h4]
        have : R * (4 * 4 ^ m) = 2 * (2 * R * 4 ^ m) := by ring
        rw [this]; simp
    have hbit1 : uval bit1.bits = (if m = 0 then 0 else 4 ^ (m - 1)) := by
      rw [b5, hbv']
      by_cases hm : m = 0
      · subst hm; simp
      · obtain ⟨m', rfl⟩ : ∃ m', m = m' + 1 := ⟨m - 1, by omega⟩
        rw [four_pow_div]; simp
    rw [r1, b1]
    simp only []
    by_cases hge : word_op_compare rem upd ≥ 0
    · rw [if_pos hge]
      have hle : uval upd.bits ≤ uval rem.bits :=
        (compare_ge_zero_iff rem upd (by omega) (by omega) hru u3).mp hge
      obtain ⟨rem1, m1, m2, m3, _, _, m6⟩ :=
        word_op_add_unsigned_minus addfuel rem upd hru u3 (by omega) (by omega) (by omega) hle
      rw [m1]
      simp only []
      have hfit : uval res1.bits + uval bit.bits < 2 ^ res1.length := by
        rw [hres1, hbv', r2, hsl]
        have : 2 * R * 4 ^ m ≤ R * 4 ^ (m + 1) := by
          rw [h4]
          have : R * (4 * 4 ^ m) = 2 * (2 * R * 4 ^ m) := by ring
          omega
        omega
      obtain ⟨res2, a1, a2, a3, a4, a5, a6⟩ :=
        word_op_add_unsigned_plus addfuel res1 bit r3 hbu (by omega) (by omega) (by omega) hfit
      rw [a1]
      simp only []
      have e1 : (2 * R + 1) * 4 ^ m = 2 * R * 4 ^ m + 4 ^ m := by ring
      have e2 : (2 * R + 1) * (2 * R + 1) * 4 ^ m =
          R * R * (4 * 4 ^ m) + (R * (4 * 4 ^ m) + 4 ^ m) := by ring
      have e3 : (2 * R + 1 + 1) * (2 * R + 1 + 1) * 4 ^ m = (R + 1) * (R + 1) * (4 * 4 ^ m) := by
        ring
      exact ih f bit1 res2 rem1 (2 * R + 1) (by rw [b2, hbl]) (by rw [a2, r2, hsl])
        (by rw [m2, hrl]) b3 a3 m3 (by rw [a5, r4, hso]) (by rw [a4, hres1u]) hbit1
        (by rw [a6, hres1, hbv', e1])
        (by rw [e2, ← h4, ← hupd]; omega)
        (by rw [e3, ← h4]; exact hub) (by omega)
    · rw [if_neg hge]
      have hlt : uval rem.bits < uval upd.bits := by
        by_contra hc
        exact hge ((compare_ge_zero_iff rem upd (by omega) (by omega) hru u3).mpr (by omega))
      have e2 : 2 * R * (2 * R) * 4 ^ m = R * R * (4 * 4 ^ m) := by ring
      have e3 : (2 * R + 1) * (2 * R + 1) * 4 ^ m =
          R * R * (4 * 4 ^ m) + (R * (4 * 4 ^ m) + 4 ^ m) := by ring
      exact ih f bit1 res1 rem (2 * R) (by rw [b2, hbl]) (by rw [r2, hsl]) hrl b3 r3 hru
        (by rw [r4, hso]) hres1u hbit1 hres1
        (by rw [e2, ← h4]; exact hinv)
        (by rw [e3, ← h4]; rw [hupd] at hlt; omega) (by omega)

/-- Claim C2: for an unsigned register `r` of width `w ≥ 1`, `word_op_isqrt(r)`
terminates (any fuel of at least `w + 1` loop iterations suffices) and returns a
register of the same width whose value `s` satisfies `s * s ≤ value(r) < (s + 1) *
(s + 1)`, with neither `overflow` nor `underflow` set on it. -/
theorem isqrt_correct (r : Word) (fuel : Nat) (hlen : 0 < r.length)
    (hu : r.is_signed = false) (hf : r.length + 1 ≤ fuel) :
    ∃ s, word_op_isqrt fuel r = some s ∧ s.length = r.length ∧
      uval s.bits * uval s.bits ≤ uval r.bits ∧
      uval r.bits < (uval s.bits + 1) * (uval s.bits + 1) ∧
      s.overflow = false ∧ s.underflow = false := by
  set w := r.length with hw
  set e := (w - 1) / 2 with he
  have hidx : e * 2 < w := by omega
  have hbit0 : uval ((create_word w).store (e * 2) true).bits = 4 ^ e := by
    rw [uval_store_of_false _ _ _ (by rw [create_word_length]; exact hidx)
      (create_word_BITS _ _), create_word_uval]
    simp only [Bool.toNat_true, one_mul, zero_add]
    rw [Nat.mul_comm, pow_mul]; norm_num
  have hnum : uval r.bits < 2 ^ w := uval_lt r.bits
  have hnum4 : uval r.bits < 4 ^ (e + 1) := by
    have : (4 : Nat) ^ (e + 1) = 2 ^ (2 * (e + 1)) := by rw [pow_mul]; norm_num
    rw [this]
    exact lt_of_lt_of_le hnum (Nat.pow_le_pow_right (by norm_num) (by omega))
  obtain ⟨bit1, n, g1, g2, g3, g4, _, g6, g7⟩ :=
    isqrt_loop1_run r w rfl hlen hu e fuel ((create_word w).store (e * 2) true)
      (by rw [length_store, create_word_length]) rfl hbit0 hnum4 (by omega)
  obtain ⟨s, s1, s2, _, s4, s5, s6, s7⟩ :=
    isqrt_loop2_run w (uval r.bits) fuel hlen hnum (by omega) n fuel bit1 (create_word w) r 0
      g2 (create_word_length w) rfl g3 rfl hu rfl rfl g4
      (by rw [create_word_uval]; simp) (by simp) (by simpa using g6) (by omega)
  refine ⟨s, ?_, s2, s6, s7, s4, s5⟩
  unfold word_op_isqrt create_word_duplicate
  have h0 : ¬ (r.length = 0) := by omega
  simp only [if_neg h0]
  rw [g1]
  exact s1

theorem isqrt_correct_witness :
    0 < (Word.mk [true, false, true, true] false false false).length ∧
    (Word.mk [true, false, true, true] false false false).length + 1 ≤ 5 ∧
    ∃ s, word_op_isqrt 5 ⟨[true, false, true, true], false, false, false⟩ = some s ∧
      s.length = 4 ∧ uval s.bits * uval s.bits ≤ uval [true, false, true, true] ∧
      uval [true, false, true, true] < (uval s.bits + 1) * (uval s.bits + 1) ∧
      s.overflow = false ∧ s.underflow = false :=
  ⟨by decide, by decide,
    isqrt_correct ⟨[true, false, true, true], false, false, false⟩ 5 (by decide) rfl
      (by decide)⟩

/-! ### Right shift of signed and unsigned registers -/

/-- Bits and flags after `word_op_rightshift`, for either sign mode. -/
theorem word_op_rightshift_spec (r : Word) (k : Nat) (hlen : 0 < r.length) :
    ∃ r', word_op_rightshift r k = some r' ∧ r'.length = r.length ∧
      r'.is_signed = r.is_signed ∧ r'.overflow = r.overflow ∧
      (r'.underflow = true ↔
        (r.underflow = true ∨ ∃ j, j < k ∧ j < r.length ∧ BITS r j = true)) ∧
      (∀ j, BITS r' j =
        if j < r.length then
          (if j + k < r.length then BITS r (j + k)
            else (r.is_signed && BITS r (r.length - 1)))
        else false) := by
  have h0 : ¬ (r.length = 0) := by omega
  have hsign : (if r.is_signed = true then BITS r (r.length - 1) else false) =
      (r.is_signed && BITS r (r.length - 1)) := by
    cases r.is_signed <;> simp
  refine ⟨rightshift_loop k (r.is_signed && BITS r (r.length - 1)) r.length 0 r, ?_, ?_⟩
  · unfold word_op_rightshift
    rw [if_neg h0]
    simp only [hsign]
  · obtain ⟨g1, g2, g3, g4, g5⟩ :=
      rightshift_loop_spec k (r.is_signed && BITS r (r.length - 1)) r.length 0 r (by omega)
    refine ⟨g1, g2, g3, ?_, ?_⟩
    · rw [g4]
      constructor
      · rintro (h | ⟨j, _, hb, hc, hd⟩)
        · exact Or.inl h
        · exact Or.inr ⟨j, hc, by omega, hd⟩
      · rintro (h | ⟨j, hb, hc, hd⟩)
        · exact Or.inl h
        · exact Or.inr ⟨j, by omega, by omega, hb, hd⟩
    · intro j
      rw [g5]
      by_cases hj : j < r.length
      · rw [if_pos (by omega), if_pos hj]
      · rw [if_neg (by omega), if_neg hj, BITS_of_length_le r j (by omega)]

theorem low_bits_nonzero_iff (r : Word) (k : Nat) :
    (∃ j, j < k ∧ j < r.length ∧ BITS r j = true) ↔ uval r.bits % 2 ^ k ≠ 0 := by
  constructor
  · rintro ⟨j, hjk, _, hb⟩ hz
    have : (uval r.bits % 2 ^ k).testBit j = true := by
      rw [Nat.testBit_mod_two_pow, ← BITS_eq_testBit, hb]; simp [hjk]
    rw [hz] at this; simp at this
  · intro h
    obtain ⟨j, hj⟩ := Nat.ne_zero_implies_bit_true h
    rw [Nat.testBit_mod_two_pow, ← BITS_eq_testBit] at hj
    simp at hj
    have hjw : j < r.length := by
      by_contra hc
      rw [BITS_of_length_le r j (by omega)] at hj
      exact absurd hj.2 (by simp)
    exact ⟨j, hj.1, hjw, hj.2⟩

theorem uval_eq_of_BITS (r : Word) (x : Nat) (h : ∀ j, BITS r j = x.testBit j) :
    uval r.bits = x := by
  apply Nat.eq_of_testBit_eq
  intro j
  rw [← BITS_eq_testBit, h]

/-- Divisibility of a register value by `2^k` only depends on the positional value. -/
theorem value_emod_ne_zero_iff (r : Word) (k : Nat) :
    r.value % 2 ^ k ≠ 0 ↔ uval r.bits % 2 ^ k ≠ 0 := by
  have hcast : ((uval r.bits % 2 ^ k : Nat) : Int) = (uval r.bits : Int) % 2 ^ k := by
    push_cast; rfl
  have hnat : uval r.bits % 2 ^ k ≠ 0 ↔ (uval r.bits : Int) % 2 ^ k ≠ 0 := by
    rw [← hcast]
    constructor
    · intro h hc; apply h; exact_mod_cast hc
    · intro h hc; apply h; rw [hc]; rfl
  cases hs : (!r.is_signed || !BITS r (r.length - 1))
  · -- negative
    rw [Word.value_of_neg r hs, hnat]
    have hU := uval_int_lt r
    have hU0 : (0 : Int) ≤ (uval r.bits : Int) := by positivity
    by_cases hk : k ≤ r.length
    · have e : (2 : Int) ^ r.length = 2 ^ k * 2 ^ (r.length - k) := by
        rw [← pow_add]; congr 1; omega
      rw [e, sub_eq_add_neg, Int.add_neg_mul_emod_self_left]
    · have hUpos : (uval r.bits : Int) ≠ 0 := by
        simp at hs
        have hb : BITS r (r.length - 1) = true := hs.2
        rw [BITS_eq_testBit] at hb
        have := Nat.testBit_implies_ge hb
        have hp : 0 < 2 ^ (r.length - 1) := by positivity
        have : 0 < uval r.bits := by omega
        exact_mod_cast (by omega : uval r.bits ≠ 0)
      have hlt : (2 : Int) ^ r.length < 2 ^ k :=
        pow_lt_pow_right₀ (by norm_num) (by omega)
      constructor
      · intro _
        rw [Int.emod_eq_of_lt hU0 (by linarith)]
        exact hUpos
      · intro _ hz
        have hdvd : (2 : Int) ^ k ∣ (uval r.bits : Int) - 2 ^ r.length :=
          Int.dvd_of_emod_eq_zero hz
        have habs : |(uval r.bits : Int) - 2 ^ r.length| < 2 ^ k := by
          rw [abs_lt]; constructor <;> linarith
        have := Int.eq_zero_of_abs_lt_dvd hdvd habs
        linarith
  · rw [Word.value_of_nonneg r hs, hnat]

/-- Value and flags after `word_op_rightshift`, for either sign mode. -/
theorem word_op_rightshift_value (r : Word) (k : Nat) (hlen : 0 < r.length) :
    ∃ r', word_op_rightshift r k = some r' ∧ r'.length = r.length ∧
      r'.is_signed = r.is_signed ∧ r'.overflow = r.overflow ∧
      r'.value = r.value / 2 ^ k ∧
      (r'.underflow = true ↔ (r.underflow = true ∨ r.value % 2 ^ k ≠ 0)) ∧
      (r'.underflow = true ↔
        (r.underflow = true ∨ ∃ j, j < k ∧ j < r.length ∧ BITS r j = true)) := by
  obtain ⟨r', h1, h2, h3, h4, h5, h6⟩ := word_op_rightshift_spec r k hlen
  refine ⟨r', h1, h2, h3, h4, ?_, ?_, h5⟩
  · cases hs : (!r.is_signed || !BITS r (r.length - 1))
    · -- negative register
      have hs' := hs
      simp at hs'
      have hU : uval r.bits < 2 ^ r.length := uval_lt r.bits
      have hMlt : (2 ^ r.length - (uval r.bits + 1)) / 2 ^ k < 2 ^ r.length := by
        apply lt_of_le_of_lt (Nat.div_le_self _ _)
        have : 0 < 2 ^ r.length := by positivity
        omega
      have hU' : uval r'.bits = 2 ^ r.length - ((2 ^ r.length - (uval r.bits + 1)) / 2 ^ k + 1) := by
        apply uval_eq_of_BITS
        intro j
        rw [h6, Nat.testBit_two_pow_sub_succ hMlt, testBit_div_two_pow,
          Nat.testBit_two_pow_sub_succ hU, ← BITS_eq_testBit, hs'.1, hs'.2]
        by_cases hj : j < r.length
        · by_cases hjk : j + k < r.length
          · have : k + j < r.length := by omega
            simp [hj, hjk, this, Nat.add_comm]
          · have : ¬ (k + j < r.length) := by omega
            simp [hj, hjk, this]
        · simp [hj]
      have hneg' : (!r'.is_signed || !BITS r' (r'.length - 1)) = false := by
        rw [h3, hs'.1, h2, h6, if_pos (by omega)]
        by_cases hk : r.length - 1 + k < r.length
        · have : k = 0 := by omega
          subst this
          simp [hs'.2, hs'.1]
        · simp [hk, hs'.1, hs'.2]
      rw [Word.value_of_neg r hs, Word.value_of_neg r' hneg', h2, hU']
      generalize hM : 2 ^ r.length - (uval r.bits + 1) = M at *
      have e1 : (uval r.bits : Int) - 2 ^ r.length = Int.negSucc M := by
        rw [Int.negSucc_eq]
        have : uval r.bits + (M + 1) = 2 ^ r.length := by omega
        have : ((uval r.bits + (M + 1) : Nat) : Int) = ((2 ^ r.length : Nat) : Int) := by
          rw [this]
        push_cast at this
        linarith
      have hpos : (0 : Int) < 2 ^ k := by positivity
      rw [e1, Int.negSucc_ediv M hpos]
      have e2 : Int.ediv (M : Int) (2 ^ k) = ((M / 2 ^ k : Nat) : Int) := by
        push_cast; rfl
      rw [e2, Nat.cast_sub (by omega)]
      push_cast
      ring
    · -- non-negative register
      have hU' : uval r'.bits = uval r.bits / 2 ^ k := by
        apply uval_eq_of_BITS
        intro j
        have hsign : (r.is_signed && BITS r (r.length - 1)) = false := by
          cases h : r.is_signed <;> simp [h] at hs ⊢
          exact hs
        rw [h6, hsign, testBit_div_two_pow, ← BITS_eq_testBit]
        by_cases hj : j < r.length
        · by_cases hjk : j + k < r.length
          · have hkj : k + j < r.length := by omega
            simp [hj, hjk, hkj, Nat.add_comm]
          · simp [hj, hjk, BITS_of_length_le r (k + j) (by omega)]
        · simp [hj, BITS_of_length_le r (k + j) (by omega)]
      have hnn' : (!r'.is_signed || !BITS r' (r'.length - 1)) = true := by
        rw [h3, h2, h6, if_pos (by omega)]
        cases h : r.is_signed
        · simp
        · simp [h] at hs
          by_cases hk : r.length - 1 + k < r.length
          · have : k = 0 := by omega
            subst this
            simp [hs]
          · simp [hk, hs]
      rw [Word.value_of_nonneg r hs, Word.value_of_nonneg r' hnn', hU']
      push_cast; rfl
  · rw [h5, low_bits_nonzero_iff, value_emod_ne_zero_iff]

/-- Claim C11: for every valid register `r` (signed or unsigned) with `underflow` clear
and every shift count `k`, `word_op_rightshift` returns with a register of the same
width and sign mode whose value is `floor(value(r) / 2^k)` (stated both as the quotient
and by the two inequalities that define the floor), and `underflow` is set exactly when
`value(r)` is not a multiple of `2^k`, which is exactly when one of the discarded bits
was one. -/
theorem rightshift_value (r : Word) (k : Nat) (hlen : 0 < r.length)
    (hu : r.underflow = false) :
    ∃ r', word_op_rightshift r k = some r' ∧ r'.length = r.length ∧
      r'.is_signed = r.is_signed ∧
      r'.value = r.value / 2 ^ k ∧
      (r'.value * 2 ^ k ≤ r.value ∧ r.value < (r'.value + 1) * 2 ^ k) ∧
      (r'.underflow = true ↔ r.value % 2 ^ k ≠ 0) ∧
      (r'.underflow = true ↔ ∃ j, j < k ∧ j < r.length ∧ BITS r j = true) := by
  obtain ⟨r', h1, h2, h3, _, h5, h6, h7⟩ := word_op_rightshift_value r k hlen
  have hpos : (0 : Int) < 2 ^ k := by positivity
  refine ⟨r', h1, h2, h3, h5, ⟨?_, ?_⟩, ?_, ?_⟩
  · rw [h5]; exact Int.ediv_mul_le _ (ne_of_gt hpos)
  · rw [h5]; exact Int.lt_ediv_add_one_mul_self _ hpos
  · rw [h6, hu]; simp
  · rw [h7, hu]; simp

theorem rightshift_value_witness :
    0 < (Word.mk [true, true, false, true] false false true).length ∧
    ∃ r', word_op_rightshift ⟨[true, true, false, true], false, false, true⟩ 1 = some r' ∧
      r'.length = 4 ∧ r'.is_signed = true ∧
      r'.value = (Word.mk [true, true, false, true] false false true).value / 2 ^ 1 ∧
      (r'.value * 2 ^ 1 ≤ (Word.mk [true, true, false, true] false false true).value ∧
        (Word.mk [true, true, false, true] false false true).value < (r'.value + 1) * 2 ^ 1) ∧
      (r'.underflow = true ↔
        (Word.mk [true, true, false, true] false false true).value % 2 ^ 1 ≠ 0) ∧
      (r'.underflow = true ↔ ∃ j, j < 1 ∧ j < 4 ∧
        BITS ⟨[true, true, false, true], false, false, true⟩ j = true) :=
  ⟨by decide,
    rightshift_value ⟨[true, true, false, true], false, false, true⟩ 1 (by decide) rfl⟩

/-! ### Negation and absolute value -/

/-- One invariant step shared by the negate and abs loops: inverting bit `i` of `A0`,
adding the carry `sum` and storing the low bit keeps
`uval W + sum * 2^i + 2 * (A0 % 2^i) = A0 + 2^i`. -/
theorem negate_step_inv (W : Word) (A0 i sum : Nat) (hi : i < W.length)
    (hb : BITS W i = A0.testBit i)
    (hI : (uval W.bits : Int) + sum * 2 ^ i + 2 * ((A0 % 2 ^ i : Nat) : Int) = A0 + 2 ^ i) :
    (uval (W.store i (decide ((sum + (if A0.testBit i then 0 else 1)) % 2 = 1))).bits : Int)
        + ((sum + (if A0.testBit i then 0 else 1)) / 2 : Nat) * 2 ^ (i + 1)
        + 2 * ((A0 % 2 ^ (i + 1) : Nat) : Int) = A0 + 2 ^ (i + 1) := by
  set s1 := sum + (if A0.testBit i then 0 else 1) with hs1
  have e1 := uval_store W i (decide (s1 % 2 = 1)) hi
  rw [hb, bit_decide_toNat] at e1
  have e2 : ((A0 % 2 ^ (i + 1) : Nat) : Int) =
      ((A0 % 2 ^ i : Nat) : Int) + 2 ^ i * ((A0.testBit i).toNat : Int) := by
    rw [Nat.mod_pow_succ, ← toNat_testBit_eq]
    push_cast
    ring
  have hdiv : (s1 : Int) = 2 * ((s1 / 2 : Nat) : Int) + ((s1 % 2 : Nat) : Int) := by
    have := Nat.div_add_mod s1 2
    exact_mod_cast this.symm
  have hs1' : (s1 : Int) + ((A0.testBit i).toNat : Int) = sum + 1 := by
    rw [hs1]
    cases A0.testBit i <;> simp
  rw [e1, e2, pow_succ]
  generalize (2 : Int) ^ i = P at *
  generalize ((s1 / 2 : Nat) : Int) = q at *
  generalize ((s1 % 2 : Nat) : Int) = m at *
  generalize ((A0.testBit i).toNat : Int) = t at *
  generalize ((A0 % 2 ^ i : Nat) : Int) = l at *
  generalize (s1 : Int) = S at *
  linear_combination hI + P * hs1' - P * hdiv

theorem negate_loop_low (fs : Bool) (A0 : Nat) : ∀ (n i sum : Nat) (W : Word) (m : Nat),
    i + n ≤ W.length - 1 → sum ≤ 1 →
    (∀ j, i ≤ j → BITS W j = A0.testBit j) →
    (uval W.bits : Int) + sum * 2 ^ i + 2 * ((A0 % 2 ^ i : Nat) : Int) = A0 + 2 ^ i →
    ∃ (sum' : Nat) (W' : Word),
      negate_loop fs (n + m) i sum W = negate_loop fs m (i + n) sum' W' ∧
      W'.length = W.length ∧ W'.is_signed = W.is_signed ∧ W'.overflow = W.overflow ∧
      W'.underflow = W.underflow ∧ sum' ≤ 1 ∧
      (∀ j, i + n ≤ j → BITS W' j = A0.testBit j) ∧
      (uval W'.bits : Int) + sum' * 2 ^ (i + n) + 2 * ((A0 % 2 ^ (i + n) : Nat) : Int)
        = A0 + 2 ^ (i + n) := by
  intro n
  induction n with
  | zero =>
    intro i sum W m _ hs hb hI
    exact ⟨sum, W, by simp, rfl, rfl, rfl, rfl, hs, by simpa using hb, by simpa using hI⟩
  | succ n ih =>
    intro i sum W m hn hs hb hI
    have hi : i < W.length - 1 := by omega
    have hi' : i < W.length := by omega
    have hne : i ≠ W.length - 1 := by omega
    have e : n + 1 + m = (n + m) + 1 := by omega
    rw [e]
    simp only [negate_loop, if_pos hi', if_pos hi, hne, false_and, if_false]
    rw [hb i (le_refl _)]
    set s1 := sum + (if A0.testBit i then 0 else 1) with hs1
    have hs1le : s1 / 2 ≤ 1 := by
      have : s1 ≤ 2 := by
        rw [hs1]; split_ifs <;> omega
      omega
    obtain ⟨sum', W', h1, h2, h3, h4, h5, h6, h7, h8⟩ :=
      ih (i + 1) (s1 / 2) (W.store i (decide (s1 % 2 = 1))) m
        (by rw [length_store]; omega) hs1le
        (by
          intro j hj
          rw [BITS_store, if_neg (by omega)]
          exact hb j (by omega))
        (negate_step_inv W A0 i sum hi' (hb i (le_refl _)) hI)
    refine ⟨sum', W', ?_, ?_, ?_, ?_, ?_, h6, ?_, ?_⟩
    · rw [h1]; congr 1; omega
    · rw [h2, length_store]
    · rw [h3]; rfl
    · rw [h4]; rfl
    · rw [h5]; rfl
    · intro j hj
      exact h7 j (by omega)
    · have e2 : i + 1 + n = i + (n + 1) := by omega
      rw [e2] at h8
      exact h8

theorem abs_loop_low (A0 : Nat) : ∀ (n i sum : Nat) (W : Word) (m : Nat),
    i + n ≤ W.length - 1 → sum ≤ 1 →
    (∀ j, i ≤ j → BITS W j = A0.testBit j) →
    (uval W.bits : Int) + sum * 2 ^ i + 2 * ((A0 % 2 ^ i : Nat) : Int) = A0 + 2 ^ i →
    ∃ (sum' : Nat) (W' : Word),
      abs_loop (n + m) i sum W = abs_loop m (i + n) sum' W' ∧
      W'.length = W.length ∧ W'.is_signed = W.is_signed ∧ W'.overflow = W.overflow ∧
      W'.underflow = W.underflow ∧ sum' ≤ 1 ∧
      (∀ j, i + n ≤ j → BITS W' j = A0.testBit j) ∧
      (uval W'.bits : Int) + sum' * 2 ^ (i + n) + 2 * ((A0 % 2 ^ (i + n) : Nat) : Int)
        = A0 + 2 ^ (i + n) := by
  intro n
  induction n with
  | zero =>
    intro i sum W m _ hs hb hI
    exact ⟨sum, W, by simp, rfl, rfl, rfl, rfl, hs, by simpa using hb, by simpa using hI⟩
  | succ n ih =>
    intro i sum W m hn hs hb hI
    have hi : i < W.length - 1 := by omega
    have hi' : i < W.length := by omega
    have e : n + 1 + m = (n + m) + 1 := by omega
    rw [e]
    simp only [abs_loop, if_pos hi]
    rw [hb i (le_refl _)]
    set s1 := sum + (if A0.testBit i then 0 else 1) with hs1
    have hs1le : s1 / 2 ≤ 1 := by
      have : s1 ≤ 2 := by
        rw [hs1]; split_ifs <;> omega
      omega
    obtain ⟨sum', W', h1, h2, h3, h4, h5, h6, h7, h8⟩ :=
      ih (i + 1) (s1 / 2) (W.store i (decide (s1 % 2 = 1))) m
        (by rw [length_store]; omega) hs1le
        (by
          intro j hj
          rw [BITS_store, if_neg (by omega)]
          exact hb j (by omega))
        (negate_step_inv W A0 i sum hi' (hb i (le_refl _)) hI)
    refine ⟨sum', W', ?_, ?_, ?_, ?_, ?_, h6, ?_, ?_⟩
    · rw [h1]; congr 1; omega
    · rw [h2, length_store]
    · rw [h3]; rfl
    · rw [h4]; rfl
    · rw [h5]; rfl
    · intro j hj
      exact h7 j (by omega)
    · have e2 : i + 1 + n = i + (n + 1) := by omega
      rw [e2] at h8
      exact h8

/-- Storing the top bit leaves the low part of the positional value. -/
theorem uval_store_top_mod (W : Word) (n : Nat) (b : Bool) :
    uval (W.store n b).bits % 2 ^ n = uval W.bits % 2 ^ n := by
  apply Nat.eq_of_testBit_eq
  intro j
  rw [Nat.testBit_mod_two_pow, Nat.testBit_mod_two_pow, ← BITS_eq_testBit, ← BITS_eq_testBit,
    BITS_store]
  by_cases hj : j < n
  · have : j ≠ n := by omega
    simp [hj, this]
  · simp [hj]

/-- What `word_op_negate` does to a signed register: the sign bit is inverted, the bits
below it become the two's complement of the low part, and `overflow` is raised exactly
when the low part is zero (the register held zero or the most negative value). -/
theorem word_op_negate_spec (r : Word) (n : Nat) (hn : r.length = n + 1)
    (hs : r.is_signed = true) :
    ∃ r', word_op_negate r = some r' ∧ r'.length = r.length ∧ r'.is_signed = true ∧
      r'.underflow = r.underflow ∧
      (r'.overflow = true ↔ (r.overflow = true ∨ uval r.bits % 2 ^ n = 0)) ∧
      BITS r' n = !BITS r n ∧
      uval r'.bits % 2 ^ n = (2 ^ n - uval r.bits % 2 ^ n) % 2 ^ n := by
  have hlen0 : ¬ r.length = 0 := by omega
  have hn1 : r.length - 1 = n := by omega
  obtain ⟨sum', W', h1, h2, h3, h4, h5, h6, h7, h8⟩ :=
    negate_loop_low (!BITS r n) (uval r.bits) n 0 1 r 1 (by omega) (le_refl _)
      (fun j _ => BITS_eq_testBit r j) (by simp [Nat.mod_one])
  simp only [Nat.zero_add] at h1 h7 h8
  have hW'n : W'.length - 1 = n := by omega
  have hW'lt : n < W'.length := by omega
  have htop : BITS W' n = BITS r n := by
    rw [h7 n (le_refl _), ← BITS_eq_testBit]
  have hPpos : 0 < 2 ^ n := by positivity
  have hsplit := uval_split r.bits n hn
  have hsplit' := uval_split W'.bits n (by rw [← hn, ← h2]; rfl)
  have hlow_lt : uval r.bits % 2 ^ n < 2 ^ n := Nat.mod_lt _ hPpos
  have hlow'_lt : uval W'.bits % 2 ^ n < 2 ^ n := Nat.mod_lt _ hPpos
  have htop' : W'.bits.getD n false = r.bits.getD n false := htop
  rw [htop'] at hsplit'
  -- the carry out of the low part and the low part of the result
  have hkey : (sum' = 1 ↔ uval r.bits % 2 ^ n = 0) ∧
      uval W'.bits % 2 ^ n = (2 ^ n - uval r.bits % 2 ^ n) % 2 ^ n := by
    have h8' : uval W'.bits + sum' * 2 ^ n + 2 * (uval r.bits % 2 ^ n)
        = uval r.bits + 2 ^ n := by exact_mod_cast h8
    generalize 2 ^ n = P at *
    generalize uval r.bits % P = low at *
    generalize uval W'.bits % P = low' at *
    have hs' : sum' = 0 ∨ sum' = 1 := by omega
    rcases hs' with h0 | h0
    · subst h0
      have hl : low' + low = P := by omega
      refine ⟨by omega, ?_⟩
      rw [Nat.mod_eq_of_lt (by omega)]
      omega
    · subst h0
      have hl : low = 0 := by omega
      have hl' : low' = 0 := by omega
      refine ⟨by omega, ?_⟩
      rw [hl, hl']
      simp
  refine ⟨negate_loop (!BITS r n) 1 n sum' W', ?_, ?_, ?_, ?_, ?_, ?_, ?_⟩
  · simp only [word_op_negate, if_neg hlen0, hs, Bool.not_true, Bool.false_eq_true, if_false]
    rw [hn1, hn, h1]
  all_goals simp only [negate_loop, hW'n, lt_irrefl, if_false, if_true, hW'lt, true_and]
  · split_ifs <;> simp [length_store, h2] <;> exact h2
  · split_ifs <;> simp [Word.store, h3, hs]
  · split_ifs <;> simp [Word.store, h5]
  · rw [htop]
    have hs' : sum' = 0 ∨ sum' = 1 := by omega
    rw [← hkey.1]
    rcases hs' with h0 | h0 <;> subst h0 <;> cases BITS r n <;> simp [Word.store, h4]
  · split_ifs <;> rw [BITS_store] <;> exact if_pos ⟨rfl, hW'lt⟩
  · rw [← hkey.2]
    split_ifs <;> exact uval_store_top_mod { W' with overflow := true } n _

/-- Integer reading of `word_op_negate` on a signed register of width `n + 1`: every
value other than zero and `-2^n` is negated with `overflow` untouched; zero becomes
`-2^n` and `-2^n` becomes zero, both with `overflow` raised. -/
theorem word_op_negate_value (r : Word) (n : Nat) (hn : r.length = n + 1)
    (hs : r.is_signed = true) :
    ∃ r', word_op_negate r = some r' ∧ r'.length = r.length ∧ r'.is_signed = true ∧
      r'.underflow = r.underflow ∧
      (r.value ≠ 0 → r.value ≠ -2 ^ n → r'.value = -r.value ∧ r'.overflow = r.overflow) ∧
      (r.value = 0 → r'.value = -2 ^ n ∧ r'.overflow = true) ∧
      (r.value = -2 ^ n → r'.value = 0 ∧ r'.overflow = true) := by
  obtain ⟨r', h1, h2, h3, h4, h5, h6, h7⟩ := word_op_negate_spec r n hn hs
  refine ⟨r', h1, h2, h3, h4, ?_⟩
  have hv := Word.value_signed r n hs hn
  have hv' := Word.value_signed r' n h3 (by rw [h2, hn])
  rw [h6, h7] at hv'
  have hPpos : 0 < 2 ^ n := by positivity
  have hlow_lt : uval r.bits % 2 ^ n < 2 ^ n := Nat.mod_lt _ hPpos
  have hP : ((2 ^ n : Nat) : Int) = 2 ^ n := by push_cast; rfl
  rw [← hP] at hv hv' ⊢
  generalize 2 ^ n = P at *
  generalize uval r.bits % P = low at *
  by_cases hl : low = 0
  · subst hl
    simp only [Nat.sub_zero, Nat.mod_self] at hv'
    cases ht : BITS r n <;> simp [ht] at hv hv' <;> rw [hv, hv'] <;>
      simp [h5]
  · have hm : (P - low) % P = P - low := Nat.mod_eq_of_lt (by omega)
    rw [hm, Nat.cast_sub (by omega)] at hv'
    have ho : r'.overflow = r.overflow := by
      cases h : r.overflow
      · cases h' : r'.overflow
        · rfl
        · rw [h'] at h5
          have := h5.1 rfl
          rw [h] at this
          simp [hl] at this
      · exact h5.2 (Or.inl h)
    cases ht : BITS r n <;> simp [ht] at hv hv' <;> rw [hv, hv'] <;>
      refine ⟨fun _ _ => ⟨by ring, ho⟩, fun h => ?_, fun h => ?_⟩ <;> exfalso <;> omega

/-- Claim C12, the code at the failing input: `word_op_negate` on the signed 4-bit
register `0000` (value zero, `overflow` clear) leaves the bits `1000`, whose
two's-complement value is `-8` and not `0`, and it sets `overflow`, although minus
zero is representable. -/
theorem negate_zero_diverges :
    (Word.mk [false, false, false, false] false false true).value = 0 ∧
    ∃ r', word_op_negate ⟨[false, false, false, false], false, false, true⟩ = some r' ∧
      r'.bits = [false, false, false, true] ∧ r'.value = -8 ∧ r'.overflow = true :=
  ⟨by decide, ⟨[false, false, false, true], true, false, true⟩, by decide, rfl, by decide, rfl⟩

/-- What `word_op_abs` returns for any valid register: a register of the same width
with the header of the source (sign mode and flags are those of the duplicate) whose
bits, read positionally, are the absolute value of the source. -/
theorem word_op_abs_spec (r : Word) (hlen : 0 < r.length) :
    ∃ res, word_op_abs r = some res ∧ res.length = r.length ∧
      res.is_signed = r.is_signed ∧ res.overflow = r.overflow ∧
      res.underflow = r.underflow ∧ (uval res.bits : Int) = |r.value| := by
  have hlen0 : ¬ r.length = 0 := by omega
  cases hs : (!r.is_signed || !BITS r (r.length - 1))
  · -- signed and negative
    have hs' := hs
    simp at hs'
    obtain ⟨n, hn⟩ : ∃ n, r.length = n + 1 := ⟨r.length - 1, by omega⟩
    have hn1 : r.length - 1 = n := by omega
    rw [hn1] at hs hs'
    set r1 := r.store n false with hr1
    have hr1len : r1.length = n + 1 := by rw [hr1, length_store, hn]
    have hPpos : 0 < 2 ^ n := by positivity
    have hU1 : (uval r1.bits : Int) = uval r.bits - 2 ^ n := by
      rw [hr1, uval_store r n false (by omega), hs'.2]
      simp
    have hr1top : BITS r1 n = false := by
      rw [hr1, BITS_store, if_pos ⟨rfl, by omega⟩]
    have hA0lt : uval r1.bits < 2 ^ n := by
      have := uval_split r1.bits n hr1len
      have ht : r1.bits.getD n false = false := hr1top
      rw [ht] at this
      simp at this
      rw [this]
      exact Nat.mod_lt _ hPpos
    obtain ⟨sum', W', h1, h2, h3, h4, h5, h6, h7, h8⟩ :=
      abs_loop_low (uval r1.bits) n 0 1 r1 1 (by omega) (le_refl _)
        (fun j _ => BITS_eq_testBit r1 j) (by simp [Nat.mod_one])
    simp only [Nat.zero_add] at h1 h7 h8
    rw [Nat.mod_eq_of_lt hA0lt] at h8
    have hW'len : W'.length = n + 1 := by rw [h2, hr1len]
    have hW'top : BITS W' n = false := by
      rw [h7 n (le_refl _), ← BITS_eq_testBit, hr1top]
    have hres : word_op_abs r = some (abs_loop 1 n sum' W') := by
      simp only [word_op_abs, create_word_duplicate, if_neg hlen0, hn1, hs'.1, hs'.2,
        Bool.and_self, if_true]
      rw [← hr1, hr1len, h1]
    refine ⟨_, hres, ?_, ?_, ?_, ?_, ?_⟩
    · rw [abs_loop_length, hW'len, hn]
    · simp only [abs_loop]
      show W'.is_signed = r.is_signed
      rw [h3]; rfl
    · simp only [abs_loop]
      show W'.overflow = r.overflow
      rw [h4]; rfl
    · simp only [abs_loop]
      show W'.underflow = r.underflow
      rw [h5]; rfl
    · simp only [abs_loop, hW'len, Nat.add_sub_cancel, lt_irrefl, if_false, if_true,
        Nat.add_zero]
      rw [uval_store_of_false W' n _ (by omega) hW'top, bit_decide_toNat,
        Word.value_of_neg r (by rw [hn1]; exact hs), hn]
      have hs01 : sum' % 2 = sum' := by omega
      rw [hs01]
      have hUlt : uval r.bits < 2 ^ (n + 1) := by
        have := uval_lt r.bits
        rw [show r.bits.length = n + 1 from hn] at this
        exact this
      have hneg : (uval r.bits : Int) - 2 ^ (n + 1) < 0 := by
        have : ((uval r.bits : Nat) : Int) < ((2 ^ (n + 1) : Nat) : Int) := by
          exact_mod_cast hUlt
        push_cast at this
        linarith
      rw [abs_of_neg hneg]
      push_cast
      rw [pow_succ]
      linarith
  · -- unsigned, or signed and non-negative: the duplicate is returned as it is
    have hres : word_op_abs r = some r := by
      simp only [word_op_abs, create_word_duplicate, if_neg hlen0]
      have : (r.is_signed && BITS r (r.length - 1)) = false := by
        cases h : r.is_signed <;> simp [h] at hs ⊢
        exact hs
      rw [this]
      simp
    refine ⟨r, hres, rfl, rfl, rfl, rfl, ?_⟩
    rw [Word.value_of_nonneg r hs]
    exact (abs_of_nonneg (by positivity)).symm

/-- Claim C13: for every valid register `r` (any sign mode, the most negative signed
value included), `word_op_abs` returns a register of the same width whose bits, read
as an unsigned positional number, equal `|value(r)|`.  The function reads `r` and
writes only the fresh duplicate it returns. -/
theorem abs_value (r : Word) (hlen : 0 < r.length) :
    ∃ res, word_op_abs r = some res ∧ res.length = r.length ∧
      (uval res.bits : Int) = |r.value| := by
  obtain ⟨res, h1, h2, _, _, _, h6⟩ := word_op_abs_spec r hlen
  exact ⟨res, h1, h2, h6⟩

theorem abs_value_witness :
    0 < (Word.mk [false, false, false, true] false false true).length ∧
    (Word.mk [false, false, false, true] false false true).value = -8 ∧
    ∃ res, word_op_abs ⟨[false, false, false, true], false, false, true⟩ = some res ∧
      res.length = 4 ∧
      (uval res.bits : Int) = |(Word.mk [false, false, false, true] false false true).value| :=
  ⟨by decide, by decide,
    abs_value ⟨[false, false, false, true], false, false, true⟩ (by decide)⟩

/-- Claim C14 as stated fails: for the signed 4-bit register `1011` (minus five) the
register returned by `word_op_abs` holds `0101` (five) and still has `is_signed = 1`;
for the signed non-negative register `0101` the duplicate is returned as it is, also
with `is_signed = 1`. -/
theorem abs_result_still_signed :
    (∃ res, word_op_abs ⟨[true, true, false, true], false, false, true⟩ = some res ∧
      res.bits = [true, false, true, false] ∧ res.is_signed = true) ∧
    (∃ res, word_op_abs ⟨[true, false, true, false], false, false, true⟩ = some res ∧
      res.is_signed = true) :=
  ⟨⟨⟨[true, false, true, false], false, false, true⟩, by decide, rfl, rfl⟩,
    ⟨⟨[true, false, true, false], false, false, true⟩, by decide, rfl⟩⟩

/-- Claim C14, amended: for every valid register `r` the register returned by
`word_op_abs` carries the header of `r`: its `is_signed` flag equals that of `r` (so
it is unsigned exactly when `r` is), and its `overflow` and `underflow` flags are
those of `r`. -/
theorem abs_keeps_sign_mode (r : Word) (hlen : 0 < r.length) :
    ∃ res, word_op_abs r = some res ∧ res.is_signed = r.is_signed ∧
      res.overflow = r.overflow ∧ res.underflow = r.underflow := by
  obtain ⟨res, h1, _, h3, h4, h5, _⟩ := word_op_abs_spec r hlen
  exact ⟨res, h1, h3, h4, h5⟩

theorem abs_keeps_sign_mode_witness :
    0 < (Word.mk [true, true, false, true] false false true).length ∧
    ∃ res, word_op_abs ⟨[true, true, false, true], false, false, true⟩ = some res ∧
      res.is_signed = true ∧ res.overflow = false ∧ res.underflow = false :=
  ⟨by decide, abs_keeps_sign_mode ⟨[true, true, false, true], false, false, true⟩ (by decide)⟩

/-! ### Multiplication into registers of any width -/

/-- The columns from `i` upwards contribute a multiple of `2^i`. -/
theorem columns_value_add (a b : Word) (i : Nat) :
    ∀ d, ∃ K, columns_value a b (i + d) = columns_value a b i + K * 2 ^ i := by
  intro d
  induction d with
  | zero => exact ⟨0, by simp⟩
  | succ d ih =>
    obtain ⟨K, hK⟩ := ih
    refine ⟨K + column_sum a b (i + d) * 2 ^ d, ?_⟩
    rw [← Nat.add_assoc, columns_value_succ, hK, pow_add]
    ring

/-- Run of the outer loop of `word_op_multiply` on an unsigned result register of any
width `w` that is still zero from the current column upwards: the register ends with
the product reduced modulo `2^w`, and `overflow` is raised exactly when the product
does not fit. -/
theorem multiply_loop_trunc (a b : Word) (w : Nat) (ha : 0 < a.length) (hb : 0 < b.length)
    (ha16 : a.length < 65536) (hb16 : b.length < 65536) :
    ∀ (fuel i sum : Nat) (result : Word),
      result.is_signed = false → result.length = w → i ≤ a.length + b.length →
      (∀ j, i ≤ j → BITS result j = false) →
      uval result.bits + sum * 2 ^ i = columns_value a b i → sum ≤ a.length →
      a.length + b.length + 1 ≤ fuel + i →
      ∃ r, multiply_loop a.length b.length a b fuel i sum result = some r ∧
        uval r.bits = (uval a.bits * uval b.bits) % 2 ^ w ∧ r.length = w ∧
        (r.overflow = true ↔ (result.overflow = true ∨ 2 ^ w ≤ uval a.bits * uval b.bits)) ∧
        r.underflow = result.underflow ∧ r.is_signed = false := by
  intro fuel
  induction fuel with
  | zero => intro i sum result _ _ hi _ _ _ hf; omega
  | succ fuel ih =>
    intro i sum result hsg hlen hi hz hinv hsum hf
    have hprod : uval a.bits * uval b.bits < 2 ^ (a.length + b.length) := by
      rw [pow_add]
      exact Nat.mul_lt_mul'' (uval_lt a.bits) (uval_lt b.bits)
    have hRlt : uval result.bits < 2 ^ w := by
      have := uval_lt result.bits
      rw [show result.bits.length = w from hlen] at this
      exact this
    unfold multiply_loop
    by_cases hexit : ¬ (i < a.length + b.length - 1 ∨ sum ≠ 0)
    · rw [if_pos hexit]
      have h1 : a.length + b.length - 1 ≤ i := by omega
      have h2 : sum = 0 := by
        by_contra h; exact hexit (Or.inr h)
      have hval : uval result.bits = uval a.bits * uval b.bits := by
        rw [← columns_value_eq_mul a b i h1 ha hb, ← hinv, h2]; simp
      refine ⟨result, rfl, ?_, hlen, ?_, rfl, hsg⟩
      · rw [← hval, Nat.mod_eq_of_lt hRlt]
      · rw [← hval]
        constructor
        · intro h; exact Or.inl h
        · rintro (h | h)
          · exact h
          · omega
    · rw [if_neg hexit]
      have hilt : i < a.length + b.length := by
        by_contra hc
        have hie : i = a.length + b.length := by omega
        rw [hie, columns_value_eq_mul a b _ (by omega) ha hb] at hinv
        have hpos : 0 < 2 ^ (a.length + b.length) := by positivity
        have hs0 : sum = 0 := by
          by_contra hne
          have : 2 ^ (a.length + b.length) ≤ sum * 2 ^ (a.length + b.length) :=
            Nat.le_mul_of_pos_left _ (Nat.pos_of_ne_zero hne)
          omega
        apply hexit
        intro hh
        rcases hh with hh | hh
        · omega
        · exact hh hs0
      simp only []
      have hcode := multiply_column_code a b i sum ha hb (by omega) (by omega) (by omega)
      rw [hcode]
      have hcs := column_sum_le a b i
      set sum1 := sum + column_sum a b i with hsum1
      have hnosig : ¬ (result.is_signed = true ∧ i ≥ result.length - 1 ∧ sum1 ≠ 0) := by
        rw [hsg]; simp
      rw [if_neg hnosig]
      by_cases hbrk : i ≥ result.length ∧ sum1 ≠ 0
      · -- a carry or a column beyond the register: overflow and stop
        rw [if_pos hbrk]
        obtain ⟨K, hK⟩ := columns_value_add a b (i + 1) (a.length + b.length)
        rw [columns_value_eq_mul a b _ (by omega) ha hb, columns_value_succ, ← hinv] at hK
        have hiw : w ≤ i := by rw [← hlen]; exact hbrk.1
        obtain ⟨e, he⟩ : ∃ e, i = w + e := ⟨i - w, by omega⟩
        have hT : uval a.bits * uval b.bits =
            uval result.bits + 2 ^ w * (2 ^ e * (sum1 + 2 * K)) := by
          have hpw : 2 ^ i = 2 ^ w * 2 ^ e := by rw [he, pow_add]
          rw [hK, hsum1, pow_succ, hpw]
          ring
        have hTpos : 0 < 2 ^ e * (sum1 + 2 * K) := by
          have : 0 < 2 ^ e := by positivity
          have : 0 < sum1 + 2 * K := by omega
          positivity
        have hWpos : 0 < 2 ^ w := by positivity
        refine ⟨_, rfl, ?_, hlen, ?_, rfl, hsg⟩
        · show uval result.bits = _
          rw [hT, Nat.add_mul_mod_self_left, Nat.mod_eq_of_lt hRlt]
        · show true = true ↔ _
          have : 2 ^ w ≤ 2 ^ w * (2 ^ e * (sum1 + 2 * K)) := Nat.le_mul_of_pos_right _ hTpos
          simp only [true_iff]
          right
          omega
      · rw [if_neg hbrk]
        by_cases hil : i < result.length
        · rw [if_pos hil]
          obtain ⟨r, hr1, hr2, hr3, hr4, hr5, hr6⟩ :=
            ih (i + 1) (sum1 / 2) (result.store i (decide (sum1 % 2 = 1))) hsg
              (by rw [length_store, hlen]) (by omega)
              (by
                intro j hj
                rw [BITS_store, if_neg (by omega)]
                exact hz j (by omega))
              (by
                rw [uval_store_of_false result i _ hil (hz i (le_refl _)), bit_decide_toNat,
                  columns_value_succ, ← hinv, hsum1, pow_succ]
                have hdm := Nat.div_add_mod (sum + column_sum a b i) 2
                generalize (sum + column_sum a b i) / 2 = q at *
                generalize (sum + column_sum a b i) % 2 = m at *
                generalize column_sum a b i = c at *
                have e : sum + c = 2 * q + m := by omega
                have e2 : (sum + c) * 2 ^ i = (2 * q + m) * 2 ^ i := by rw [e]
                have e3 : (sum + c) * 2 ^ i = sum * 2 ^ i + c * 2 ^ i := Nat.add_mul _ _ _
                have e4 : (2 * q + m) * 2 ^ i = q * (2 ^ i * 2) + m * 2 ^ i := by ring
                omega)
              (by omega) (by omega)
          exact ⟨r, hr1, hr2, hr3, hr4, hr5, hr6⟩
        · rw [if_neg hil]
          have hs1 : sum1 = 0 := by
            by_contra hne
            exact hbrk ⟨by omega, hne⟩
          have hs0 : sum = 0 := by omega
          have hc0 : column_sum a b i = 0 := by omega
          obtain ⟨r, hr1, hr2, hr3, hr4, hr5, hr6⟩ :=
            ih (i + 1) (sum1 / 2) result hsg hlen (by omega)
              (fun j hj => hz j (by omega))
              (by
                rw [columns_value_succ, ← hinv, hs1, hs0, hc0]
                simp)
              (by omega) (by omega)
          exact ⟨r, hr1, hr2, hr3, hr4, hr5, hr6⟩

/-- Claim C16: for unsigned operands `a`, `b` and an unsigned, all-zero result register
of width `w` with `overflow` clear, `word_op_multiply` returns (for every fuel of at
least `length(a) + length(b) + 1` loop iterations) with the result holding
`(value(a) * value(b)) mod 2^w`, and `overflow` is set exactly when
`value(a) * value(b) ≥ 2^w`.  (Operand widths are `unsigned short`, so below `65536`.) -/
theorem multiply_unsigned_truncates (fuel : Nat) (result a b : Word)
    (hr : 0 < result.length) (ha : 0 < a.length) (hb : 0 < b.length)
    (ha16 : a.length < 65536) (hb16 : b.length < 65536)
    (hru : result.is_signed = false) (hau : a.is_signed = false) (hbu : b.is_signed = false)
    (hz : ∀ j, BITS result j = false) (ho : result.overflow = false)
    (hf : a.length + b.length + 1 ≤ fuel) :
    ∃ r, word_op_multiply fuel result a b = some r ∧ r.length = result.length ∧
      r.is_signed = false ∧
      r.value = (a.value * b.value) % 2 ^ result.length ∧
      uval r.bits = (uval a.bits * uval b.bits) % 2 ^ result.length ∧
      (r.overflow = true ↔ 2 ^ result.length ≤ uval a.bits * uval b.bits) ∧
      (r.overflow = true ↔ 2 ^ result.length ≤ a.value * b.value) := by
  have hU0 : uval result.bits = 0 := uval_eq_of_BITS result 0 (fun j => by rw [hz j]; simp)
  obtain ⟨r, h1, h2, h3, h4, _, h6⟩ :=
    multiply_loop_trunc a b result.length ha hb ha16 hb16 fuel 0 0 result hru rfl (by omega)
      (fun j _ => hz j) (by rw [hU0]; simp [columns_value]) (by omega) (by omega)
  have hov : r.overflow = true ↔ 2 ^ result.length ≤ uval a.bits * uval b.bits := by
    rw [h4, ho]; simp
  refine ⟨r, ?_, h3, h6, ?_, h2, hov, ?_⟩
  · unfold word_op_multiply
    have e1 : ¬ (result.length = 0) := by omega
    have e2 : ¬ (a.length = 0) := by omega
    have e3 : ¬ (b.length = 0) := by omega
    rw [if_neg e1, if_neg e2, if_neg e3]
    simp only [hau, hbu, Bool.false_and, ne_eq, not_true_eq_false, false_and, if_false]
    rw [word_op_abs_unsigned a ha hau, word_op_abs_unsigned b hb hbu]
    simp only [h1]
  · rw [Word.value_unsigned r h6, Word.value_unsigned a hau, Word.value_unsigned b hbu, h2]
    push_cast
    rfl
  · rw [hov, Word.value_unsigned a hau, Word.value_unsigned b hbu]
    constructor
    · intro h; exact_mod_cast h
    · intro h; exact_mod_cast h

theorem multiply_unsigned_truncates_witness :
    0 < (create_word 4).length ∧ 3 + 3 + 1 ≤ 7 ∧
    ∃ r, word_op_multiply 7 (create_word 4) ⟨[true, false, true], false, false, false⟩
        ⟨[false, false, true], false, false, false⟩ = some r ∧
      r.length = (create_word 4).length ∧ r.is_signed = false ∧
      r.value = ((Word.mk [true, false, true] false false false).value *
        (Word.mk [false, false, true] false false false).value) % 2 ^ (create_word 4).length ∧
      uval r.bits = (uval [true, false, true] * uval [false, false, true]) %
        2 ^ (create_word 4).length ∧
      (r.overflow = true ↔
        2 ^ (create_word 4).length ≤ uval [true, false, true] * uval [false, false, true]) ∧
      (r.overflow = true ↔
        2 ^ (create_word 4).length ≤ (Word.mk [true, false, true] false false false).value *
          (Word.mk [false, false, true] false false false).value) :=
  ⟨by decide, by decide,
    multiply_unsigned_truncates 7 (create_word 4) ⟨[true, false, true], false, false, false⟩
      ⟨[false, false, true], false, false, false⟩ (by decide) (by decide) (by decide)
      (by decide) (by decide) rfl rfl rfl (create_word_BITS 4) rfl (by decide)⟩

/-- Claim C17: whenever exactly one operand of `word_op_multiply` is a negative signed
register (`sign1 != sign2`) and the result register is unsigned, the call takes the
error return, for every fuel: no loop iteration runs and nothing is written to the
result register. -/
theorem multiply_rejects_negative_into_unsigned (fuel : Nat) (result a b : Word)
    (hsign : (a.is_signed && BITS a (a.length - 1)) ≠ (b.is_signed && BITS b (b.length - 1)))
    (hru : result.is_signed = false) :
    word_op_multiply fuel result a b = none := by
  unfold word_op_multiply
  by_cases e1 : result.length = 0
  · rw [if_pos e1]
  · rw [if_neg e1]
    by_cases e2 : a.length = 0
    · rw [if_pos e2]
    · rw [if_neg e2]
      by_cases e3 : b.length = 0
      · rw [if_pos e3]
      · rw [if_neg e3]
        simp only []
        rw [if_pos ⟨hsign, hru⟩]

theorem multiply_rejects_negative_into_unsigned_witness :
    ((Word.mk [true, true, true, true] false false true).is_signed &&
        BITS ⟨[true, true, true, true], false, false, true⟩ (4 - 1)) ≠
      ((Word.mk [true, true, false, false] false false false).is_signed &&
        BITS ⟨[true, true, false, false], false, false, false⟩ (4 - 1)) ∧
    word_op_multiply 100 (create_word 8) ⟨[true, true, true, true], false, false, true⟩
      ⟨[true, true, false, false], false, false, false⟩ = none :=
  ⟨by decide,
    multiply_rejects_negative_into_unsigned 100 (create_word 8)
      ⟨[true, true, true, true], false, false, true⟩
      ⟨[true, true, false, false], false, false, false⟩ (by decide) rfl⟩

/-- Claim C15, the code at the failing input: multiplying the signed 4-bit register
`1111` (minus one) by the unsigned 4-bit register `0000` (zero) into a signed, all-zero
8-bit result register with clear flags leaves the bits `00000001` read from the top,
that is the value `-128`, with `overflow` set: the product loop leaves zero, and the
final `word_op_negate` turns zero into the most negative value. -/
theorem multiply_negative_by_zero_diverges :
    (Word.mk [true, true, true, true] false false true).value = -1 ∧
    (Word.mk [false, false, false, false] false false false).value = 0 ∧
    ∃ r', word_op_multiply 9
        ⟨[false, false, false, false, false, false, false, false], false, false, true⟩
        ⟨[true, true, true, true], false, false, true⟩
        ⟨[false, false, false, false], false, false, false⟩ = some r' ∧
      r'.bits = [false, false, false, false, false, false, false, true] ∧
      r'.value = -128 ∧ r'.overflow = true :=
  ⟨by decide, by decide,
    ⟨[false, false, false, false, false, false, false, true], true, false, true⟩,
    by decide, rfl, by decide, rfl⟩

/-! ### Addition at the failing inputs -/

/-- Claim C18, the code at two failing inputs, both with unsigned registers and
`overflow` clear before the call.  (1) Subtracting `0101` (five) from the 4-bit
register `0011` (three) at position 0 leaves `1110` (fourteen) with `overflow` clear,
although `3 - 5 < 0`: the borrow `sum == ~0` is exempt from the overflow test.
(2) Adding the 3-bit register `100` (four) to the 2-bit register `00` at position 0
leaves `00` with `overflow` clear, although `0 + 4 > 3`: the addend bit beyond the
result is added into `sum` and shifted out without any test. -/
theorem add_unsigned_loss_unflagged :
    (∃ r', word_op_add 10 ⟨[true, true, false, false], false, false, false⟩
        ⟨[true, false, true, false], false, false, false⟩ (-1) 0 = some r' ∧
      r'.bits = [false, true, true, true] ∧ r'.value = 14 ∧ r'.overflow = false ∧
      (Word.mk [true, true, false, false] false false false).value +
        (-1) * (Word.mk [true, false, true, false] false false false).value * 2 ^ 0 < 0) ∧
    (∃ r', word_op_add 10 ⟨[false, false], false, false, false⟩
        ⟨[false, false, true], false, false, false⟩ 1 0 = some r' ∧
      r'.bits = [false, false] ∧ r'.value = 0 ∧ r'.overflow = false ∧
      (Word.mk [false, false] false false false).value +
        1 * (Word.mk [false, false, true] false false false).value * 2 ^ 0 > 2 ^ 2 - 1) :=
  ⟨⟨⟨[false, true, true, true], false, false, false⟩, by decide, rfl, by decide, rfl,
      by decide⟩,
    ⟨⟨[false, false], false, false, false⟩, by decide, rfl, by decide, rfl, by decide⟩⟩

/-- Claim C19, the code at the failing input: adding the signed 2-bit register `11`
(minus one) with sign `+1` at position 0 to the signed 4-bit register `0000` leaves
`0011`, the value `3`, which is not congruent to `0 + (-1)` modulo `2^4`: the loop
ends as soon as the addend's own bits are used up and the carry is zero, so the
addend is never sign-extended. -/
theorem add_signed_narrow_addend_diverges :
    (Word.mk [false, false, false, false] false false true).value = 0 ∧
    (Word.mk [true, true] false false true).value = -1 ∧
    ∃ r', word_op_add 10 ⟨[false, false, false, false], false, false, true⟩
        ⟨[true, true], false, false, true⟩ 1 0 = some r' ∧
      r'.bits = [true, true, false, false] ∧ r'.value = 3 ∧
      (r'.value - ((Word.mk [false, false, false, false] false false true).value +
        1 * (Word.mk [true, true] false false true).value)) % 2 ^ 4 ≠ 0 :=
  ⟨by decide, by decide, ⟨[true, true, false, false], false, false, true⟩, by decide, rfl,
    by decide, by decide⟩

/-! ### Loading a register into another -/

/-- The sign used by the kernel (`is_signed && top bit`) is set exactly when the value
of the register is negative. -/
theorem sign_true_iff_value_neg (w : Word) :
    (w.is_signed && BITS w (w.length - 1)) = true ↔ w.value < 0 := by
  cases h : (!w.is_signed || !BITS w (w.length - 1))
  · have hv := Word.value_of_neg w h
    have hlt : (uval w.bits : Int) < 2 ^ w.length := uval_int_lt w
    have h' := h
    simp at h'
    rw [h'.1, h'.2]
    simp
    omega
  · have hv := Word.value_of_nonneg w h
    have : (w.is_signed && BITS w (w.length - 1)) = false := by
      cases h1 : w.is_signed <;> simp [h1] at h ⊢
      exact h
    rw [this, hv]
    simp

/-- Claim C20 as stated fails in both directions.  (1) The destination is the signed
4-bit register `0000` and the source the unsigned 2-bit register `11`: the `is_signed`
flags differ, yet the load is accepted and writes `0011`.  (2) The destination is the
signed 4-bit register `0001` read from the top (`1000`, negative) and the source the
signed 2-bit register `01`: the flags agree, yet the sign check rejects the load. -/
theorem load_sign_mode_not_compared :
    ((Word.mk [false, false, false, false] false false true).is_signed ≠
        (Word.mk [true, true] false false false).is_signed ∧
      word_op_load ⟨[false, false, false, false], false, false, true⟩
        ⟨[true, true], false, false, false⟩ 0 =
        some ⟨[true, true, false, false], false, false, true⟩) ∧
    ((Word.mk [false, false, false, true] false false true).is_signed =
        (Word.mk [true, false] false false true).is_signed ∧
      word_op_load ⟨[false, false, false, true], false, false, true⟩
        ⟨[true, false], false, false, true⟩ 0 = none) :=
  ⟨⟨by decide, by decide⟩, ⟨rfl, by decide⟩⟩

/-- Claim C20, amended: for valid registers `dst` and `src` and every position,
`word_op_load` takes the error return exactly when the signs differ, the sign of a
register being `is_signed && top bit`; equivalently, exactly when one of the two
values is negative and the other is not.  The `is_signed` flags themselves are not
compared. -/
theorem load_sign_check (dst src : Word) (position : Nat) (hd : 0 < dst.length)
    (hs : 0 < src.length) :
    (word_op_load dst src position = none ↔
      (dst.is_signed && BITS dst (dst.length - 1)) ≠
        (src.is_signed && BITS src (src.length - 1))) ∧
    (word_op_load dst src position = none ↔ ¬ (dst.value < 0 ↔ src.value < 0)) := by
  have h1 : word_op_load dst src position = none ↔
      (dst.is_signed && BITS dst (dst.length - 1)) ≠
        (src.is_signed && BITS src (src.length - 1)) := by
    unfold word_op_load
    have e : ¬ (dst.length = 0 ∨ src.length = 0) := by omega
    rw [if_neg e]
    simp only []
    split_ifs with h
    · simp [h]
    · simp only [ne_eq, not_not] at h
      simp [h]
  refine ⟨h1, ?_⟩
  rw [h1, ← sign_true_iff_value_neg dst, ← sign_true_iff_value_neg src]
  cases (dst.is_signed && BITS dst (dst.length - 1)) <;>
    cases (src.is_signed && BITS src (src.length - 1)) <;> simp

theorem load_sign_check_witness :
    0 < (Word.mk [false, false, false, true] false false true).length ∧
    0 < (Word.mk [true, false] false false true).length ∧
    (word_op_load ⟨[false, false, false, true], false, false, true⟩
        ⟨[true, false], false, false, true⟩ 1 = none ↔
      ((Word.mk [false, false, false, true] false false true).is_signed &&
          BITS ⟨[false, false, false, true], false, false, true⟩ (4 - 1)) ≠
        ((Word.mk [true, false] false false true).is_signed &&
          BITS ⟨[true, false], false, false, true⟩ (2 - 1))) ∧
    (word_op_load ⟨[false, false, false, true], false, false, true⟩
        ⟨[true, false], false, false, true⟩ 1 = none ↔
      ¬ ((Word.mk [false, false, false, true] false false true).value < 0 ↔
        (Word.mk [true, false] false false true).value < 0)) :=
  ⟨by decide, by decide,
    load_sign_check ⟨[false, false, false, true], false, false, true⟩
      ⟨[true, false], false, false, true⟩ 1 (by decide) (by decide)⟩

/-! ### Creation, constant load, extraction and register load -/

/-- Claim C25: for every width `n`, `create_word(n)` is a register of length `n` whose
bits are all zero (the bit array is `n` zeros, so every read gives zero), with
`is_signed`, `overflow` and `underflow` all clear. -/
theorem create_word_spec (n : Nat) :
    (create_word n).length = n ∧ (create_word n).bits = List.replicate n false ∧
      (∀ j, BITS (create_word n) j = false) ∧ (create_word n).is_signed = false ∧
      (create_word n).overflow = false ∧ (create_word n).underflow = false :=
  ⟨create_word_length n, rfl, create_word_BITS n, rfl, rfl, rfl⟩

/-- Header fields after the loop of `word_op_load_constant`, for any input: length,
sign mode and `underflow` are kept, `overflow` is never cleared, and bits below the
start index are kept. -/
theorem load_constant_loop_frame (sign : Bool) :
    ∀ (n i value : Nat) (word : Word),
      (load_constant_loop sign n i value word).length = word.length ∧
      (load_constant_loop sign n i value word).is_signed = word.is_signed ∧
      (load_constant_loop sign n i value word).underflow = word.underflow ∧
      (word.overflow = true → (load_constant_loop sign n i value word).overflow = true) := by
  intro n
  induction n with
  | zero => intro i value word; exact ⟨rfl, rfl, rfl, fun h => h⟩
  | succ n ih =>
    intro i value word
    unfold load_constant_loop
    split_ifs with h1 h2
    · exact ⟨rfl, rfl, rfl, fun _ => rfl⟩
    · obtain ⟨a, b, c, d⟩ := ih (i + 1) (value / 2) (word.store i (decide (value % 2 = 1)))
      exact ⟨by rw [a, length_store], by rw [b]; rfl, by rw [c]; rfl, fun h => d h⟩
    · exact ih (i + 1) (value / 2) word

/-- The loop of `word_op_load_constant` when the whole field lies inside the register:
the field receives the low bits of the value, nothing else changes. -/
theorem load_constant_loop_inrange (sign : Bool) :
    ∀ (n i value : Nat) (word : Word), i + n ≤ word.length →
      (load_constant_loop sign n i value word).overflow = word.overflow ∧
      ∀ j, BITS (load_constant_loop sign n i value word) j =
        if i ≤ j ∧ j < i + n then value.testBit (j - i) else BITS word j := by
  intro n
  induction n with
  | zero =>
    intro i value word _
    refine ⟨rfl, fun j => ?_⟩
    have : ¬ (i ≤ j ∧ j < i + 0) := by omega
    rw [if_neg this]; rfl
  | succ n ih =>
    intro i value word h
    unfold load_constant_loop
    have hi : i < word.length := by omega
    rw [if_neg (by omega), if_pos hi]
    obtain ⟨a, b⟩ := ih (i + 1) (value / 2) (word.store i (decide (value % 2 = 1)))
      (by rw [length_store]; omega)
    refine ⟨by rw [a]; rfl, fun j => ?_⟩
    rw [b, BITS_store]
    by_cases hj : j = i
    · subst hj
      have h1 : ¬ (j + 1 ≤ j ∧ j < j + 1 + n) := by omega
      have h2 : j ≤ j ∧ j < j + (n + 1) := by omega
      rw [if_neg h1, if_pos ⟨rfl, hi⟩, if_pos h2, Nat.sub_self]
      rw [Nat.testBit_zero]
    · by_cases hr : i + 1 ≤ j ∧ j < i + 1 + n
      · have h2 : i ≤ j ∧ j < i + (n + 1) := by omega
        rw [if_pos hr, if_pos h2]
        have e : j - i = (j - (i + 1)) + 1 := by omega
        rw [e, Nat.testBit_succ]
      · have h2 : ¬ (i ≤ j ∧ j < i + (n + 1)) := by omega
        rw [if_neg hr, if_neg h2, if_neg (by intro h; exact hj h.1)]

/-- Claim C22: for a valid register `dst`, a 32-bit value `v`, a position `p` and a bit
count `c ≤ 32` with `p + c ≤ length(dst)`, `word_op_load_constant` sets bit `p + i` of
`dst` to bit `i` of `v` for `i < c` and leaves every other bit, the length, the sign
mode and both fault flags as they were; and for every bit count above 32 the call
takes the error return. -/
theorem load_constant_field (dst : Word) (v p c : Nat) (hlen : 0 < dst.length)
    (hv : v < 2 ^ 32) (hc : c ≤ 32) (hpc : p + c ≤ dst.length) :
    (∃ r', word_op_load_constant dst v p c = some r' ∧ r'.length = dst.length ∧
      r'.is_signed = dst.is_signed ∧ r'.overflow = dst.overflow ∧
      r'.underflow = dst.underflow ∧
      (∀ i, i < c → BITS r' (p + i) = v.testBit i) ∧
      (∀ j, ¬ (p ≤ j ∧ j < p + c) → BITS r' j = BITS dst j)) ∧
    (∀ c', 32 < c' → word_op_load_constant dst v p c' = none) := by
  have h0 : ¬ dst.length = 0 := by omega
  constructor
  · refine ⟨load_constant_loop (dst.is_signed && decide (v % 2 ^ 32 ≥ 2 ^ 31)) c p
      (v % 2 ^ 32) dst, ?_, ?_⟩
    · unfold word_op_load_constant
      rw [if_neg h0, if_neg (by omega)]
    · obtain ⟨a, b, d, _⟩ := load_constant_loop_frame
        (dst.is_signed && decide (v % 2 ^ 32 ≥ 2 ^ 31)) c p (v % 2 ^ 32) dst
      obtain ⟨e, f⟩ := load_constant_loop_inrange
        (dst.is_signed && decide (v % 2 ^ 32 ≥ 2 ^ 31)) c p (v % 2 ^ 32) dst hpc
      rw [Nat.mod_eq_of_lt hv] at a b d e f ⊢
      refine ⟨a, b, e, d, ?_, ?_⟩
      · intro i hi
        rw [f, if_pos (by omega), Nat.add_sub_cancel_left]
      · intro j hj
        rw [f, if_neg hj]
  · intro c' hc'
    unfold word_op_load_constant
    rw [if_neg h0, if_pos hc']

theorem load_constant_field_witness :
    0 < (Word.mk [true, true, true, true, true, true] false false false).length ∧
    (∃ r', word_op_load_constant ⟨[true, true, true, true, true, true], false, false, false⟩
        5 1 3 = some r' ∧ r'.length = 6 ∧ r'.is_signed = false ∧ r'.overflow = false ∧
      r'.underflow = false ∧
      (∀ i, i < 3 → BITS r' (1 + i) = (5 : Nat).testBit i) ∧
      (∀ j, ¬ (1 ≤ j ∧ j < 1 + 3) →
        BITS r' j = BITS ⟨[true, true, true, true, true, true], false, false, false⟩ j)) ∧
    (∀ c', 32 < c' →
      word_op_load_constant ⟨[true, true, true, true, true, true], false, false, false⟩
        5 1 c' = none) :=
  ⟨by decide,
    load_constant_field ⟨[true, true, true, true, true, true], false, false, false⟩ 5 1 3
      (by decide) (by decide) (by decide) (by decide)⟩

/-- The loop of `word_op_extract`: header of the sample kept, the visited cells
receive the selected source bits. -/
theorem extract_loop_spec (word : Word) :
    ∀ (n : Nat) (i : Int) (j : Nat) (sample : Word),
      (extract_loop word n i j sample).length = sample.length ∧
      (extract_loop word n i j sample).is_signed = sample.is_signed ∧
      (extract_loop word n i j sample).overflow = sample.overflow ∧
      (extract_loop word n i j sample).underflow = sample.underflow ∧
      ∀ k, BITS (extract_loop word n i j sample) k =
        if j ≤ k ∧ k < j + n ∧ k < sample.length then
          (if i + ((k - j : Nat) : Int) ≥ 0 ∧ i + ((k - j : Nat) : Int) < (word.length : Int)
            then BITS word (i + ((k - j : Nat) : Int)).toNat
            else if i + ((k - j : Nat) : Int) ≥ (word.length : Int)
              then (word.is_signed && BITS word (word.length - 1))
              else false)
        else BITS sample k := by
  intro n
  induction n with
  | zero =>
    intro i j sample
    refine ⟨rfl, rfl, rfl, rfl, fun k => ?_⟩
    have : ¬ (j ≤ k ∧ k < j + 0 ∧ k < sample.length) := by omega
    rw [if_neg this]; rfl
  | succ n ih =>
    intro i j sample
    unfold extract_loop
    simp only []
    obtain ⟨a, b, c, d, e⟩ := ih (i + 1) (j + 1)
      (sample.store j
        (if i ≥ 0 ∧ i < (word.length : Int) then BITS word i.toNat
          else if i ≥ (word.length : Int) then (word.is_signed && BITS word (word.length - 1))
          else false))
    refine ⟨by rw [a, length_store], by rw [b]; rfl, by rw [c]; rfl, by rw [d]; rfl,
      fun k => ?_⟩
    rw [e, length_store, BITS_store]
    by_cases hk : k = j
    · subst hk
      have h1 : ¬ (k + 1 ≤ k ∧ k < k + 1 + n ∧ k < sample.length) := by omega
      rw [if_neg h1]
      by_cases hl : k < sample.length
      · simp [hl]
      · simp [hl]
    · by_cases hr : j + 1 ≤ k ∧ k < j + 1 + n ∧ k < sample.length
      · have h2 : j ≤ k ∧ k < j + (n + 1) ∧ k < sample.length := by omega
        rw [if_pos hr, if_pos h2]
        have e1 : i + 1 + ((k - (j + 1) : Nat) : Int) = i + ((k - j : Nat) : Int) := by omega
        rw [e1]
      · have h2 : ¬ (j ≤ k ∧ k < j + (n + 1) ∧ k < sample.length) := by omega
        rw [if_neg hr, if_neg h2, if_neg (by intro h; exact hk h.1)]

/-- Claim C23: for valid registers `src` and `sample` and every position `p` (negative
positions included), `word_op_extract` sets bit `j` of the sample, for every
`j < length(sample)`, to `0` if `p + j < 0`, to bit `p + j` of `src` if
`0 ≤ p + j < length(src)`, and otherwise to the sign of `src` (its top bit if
`src` is signed, `0` if it is unsigned); the length, the sign mode and both fault
flags of the sample are kept.  The register `src` is only read. -/
theorem extract_bits (src sample : Word) (p : Int) (hsrc : 0 < src.length)
    (hsam : 0 < sample.length) :
    ∃ r', word_op_extract src sample p = some r' ∧ r'.length = sample.length ∧
      r'.is_signed = sample.is_signed ∧ r'.overflow = sample.overflow ∧
      r'.underflow = sample.underflow ∧
      ∀ j, j < sample.length →
        (p + j < 0 → BITS r' j = false) ∧
        (0 ≤ p + j → p + j < src.length → BITS r' j = BITS src (p + j).toNat) ∧
        ((src.length : Int) ≤ p + j → src.is_signed = true →
          BITS r' j = BITS src (src.length - 1)) ∧
        ((src.length : Int) ≤ p + j → src.is_signed = false → BITS r' j = false) := by
  refine ⟨extract_loop src sample.length p 0 sample, ?_, ?_⟩
  · unfold word_op_extract
    rw [if_neg (by omega)]
  · obtain ⟨a, b, c, d, e⟩ := extract_loop_spec src sample.length p 0 sample
    refine ⟨a, b, c, d, fun j hj => ?_⟩
    have hr : 0 ≤ j ∧ j < 0 + sample.length ∧ j < sample.length := by omega
    rw [e, if_pos hr, Nat.sub_zero]
    refine ⟨fun h => ?_, fun h1 h2 => ?_, fun h hs => ?_, fun h hs => ?_⟩
    · rw [if_neg (by omega), if_neg (by omega)]
    · rw [if_pos ⟨h1, h2⟩]
    · rw [if_neg (by omega), if_pos h, hs, Bool.true_and]
    · rw [if_neg (by omega), if_pos h, hs, Bool.false_and]

theorem extract_bits_witness :
    0 < (Word.mk [true, false, true, true] false false true).length ∧
    0 < (Word.mk [false, false, false, false, false, false, false] true false false).length ∧
    ∃ r', word_op_extract ⟨[true, false, true, true], false, false, true⟩
        ⟨[false, false, false, false, false, false, false], true, false, false⟩ (-2) = some r' ∧
      r'.length = 7 ∧ r'.is_signed = false ∧ r'.overflow = true ∧ r'.underflow = false ∧
      ∀ j : Nat, j < 7 →
        ((-2 : Int) + (j : Int) < 0 → BITS r' j = false) ∧
        (0 ≤ (-2 : Int) + (j : Int) → (-2 : Int) + (j : Int) < (4 : Nat) →
          BITS r' j = BITS ⟨[true, false, true, true], false, false, true⟩ ((-2 : Int) + (j : Int)).toNat) ∧
        (((4 : Nat) : Int) ≤ (-2 : Int) + (j : Int) → true = true →
          BITS r' j = BITS ⟨[true, false, true, true], false, false, true⟩ (4 - 1)) ∧
        (((4 : Nat) : Int) ≤ (-2 : Int) + (j : Int) → true = false → BITS r' j = false) :=
  ⟨by decide, by decide,
    extract_bits ⟨[true, false, true, true], false, false, true⟩
      ⟨[false, false, false, false, false, false, false], true, false, false⟩ (-2)
      (by decide) (by decide)⟩

/-- The loop of `word_op_load`: the header apart from `overflow` is kept, `overflow` is
raised exactly when a source bit that falls beyond the destination differs from
`sign1`, and the destination cells in range receive the source bits. -/
theorem load_loop_spec (sign1 : Bool) (value : Word) :
    ∀ (n i j : Nat) (word : Word),
      (load_loop sign1 value n i j word).length = word.length ∧
      (load_loop sign1 value n i j word).is_signed = word.is_signed ∧
      (load_loop sign1 value n i j word).underflow = word.underflow ∧
      ((load_loop sign1 value n i j word).overflow = true ↔
        (word.overflow = true ∨
          ∃ t, t < n ∧ i + t ≥ word.length ∧ BITS value (j + t) ≠ sign1)) ∧
      ∀ k, BITS (load_loop sign1 value n i j word) k =
        if i ≤ k ∧ k < i + n ∧ k < word.length then BITS value (j + (k - i))
        else BITS word k := by
  intro n
  induction n with
  | zero =>
    intro i j word
    refine ⟨rfl, rfl, rfl, ?_, fun k => ?_⟩
    · show word.overflow = true ↔ _
      constructor
      · intro h; exact Or.inl h
      · rintro (h | ⟨t, ht, _⟩)
        · exact h
        · omega
    · have : ¬ (i ≤ k ∧ k < i + 0 ∧ k < word.length) := by omega
      rw [if_neg this]; rfl
  | succ n ih =>
    intro i j word
    unfold load_loop
    by_cases hab : i ≥ word.length ∧ BITS value j ≠ sign1
    · rw [if_pos hab]
      refine ⟨rfl, rfl, rfl, ?_, fun k => ?_⟩
      · show true = true ↔ _
        simp only [true_iff]
        exact Or.inr ⟨0, by omega, by simpa using hab.1, by simpa using hab.2⟩
      · have : ¬ (i ≤ k ∧ k < i + (n + 1) ∧ k < word.length) := by omega
        rw [if_neg this]; rfl
    · rw [if_neg hab]
      by_cases hi : i < word.length
      · rw [if_pos hi]
        obtain ⟨a, b, c, d, e⟩ := ih (i + 1) (j + 1) (word.store i (BITS value j))
        refine ⟨by rw [a, length_store], by rw [b]; rfl, by rw [c]; rfl, ?_, fun k => ?_⟩
        · rw [d, length_store]
          show (word.overflow = true ∨ _) ↔ _
          constructor
          · rintro (h | ⟨t, ht, h1, h2⟩)
            · exact Or.inl h
            · exact Or.inr ⟨t + 1, by omega, by omega, by
                rw [show j + (t + 1) = j + 1 + t by omega]; exact h2⟩
          · rintro (h | ⟨t, ht, h1, h2⟩)
            · exact Or.inl h
            · cases t with
              | zero => omega
              | succ t =>
                exact Or.inr ⟨t, by omega, by omega, by
                  rw [show j + 1 + t = j + (t + 1) by omega]; exact h2⟩
        · rw [e, length_store, BITS_store]
          by_cases hk : k = i
          · subst hk
            simp [hi]
          · by_cases hr : i + 1 ≤ k ∧ k < i + 1 + n ∧ k < word.length
            · have h2 : i ≤ k ∧ k < i + (n + 1) ∧ k < word.length := by omega
              rw [if_pos hr, if_pos h2]
              congr 1
              omega
            · have h2 : ¬ (i ≤ k ∧ k < i + (n + 1) ∧ k < word.length) := by omega
              rw [if_neg hr, if_neg h2, if_neg (by intro h; exact hk h.1)]
      · rw [if_neg hi]
        obtain ⟨a, b, c, d, e⟩ := ih (i + 1) (j + 1) word
        refine ⟨a, b, c, ?_, fun k => ?_⟩
        · rw [d]
          constructor
          · rintro (h | ⟨t, ht, h1, h2⟩)
            · exact Or.inl h
            · exact Or.inr ⟨t + 1, by omega, by omega, by
                rw [show j + (t + 1) = j + 1 + t by omega]; exact h2⟩
          · rintro (h | ⟨t, ht, h1, h2⟩)
            · exact Or.inl h
            · cases t with
              | zero =>
                exfalso
                apply hab
                exact ⟨by omega, by simpa using h2⟩
              | succ t =>
                exact Or.inr ⟨t, by omega, by omega, by
                  rw [show j + 1 + t = j + (t + 1) by omega]; exact h2⟩
        · rw [e]
          have h1 : ¬ (i + 1 ≤ k ∧ k < i + 1 + n ∧ k < word.length) := by omega
          have h2 : ¬ (i ≤ k ∧ k < i + (n + 1) ∧ k < word.length) := by omega
          rw [if_neg h1, if_neg h2]

/-- Claim C21: for every accepted `word_op_load(dst, src, p)` (valid registers whose
signs agree) with `overflow` of `dst` clear before the call: `overflow` ends set
exactly when some bit `j` of `src` with `p + j ≥ length(dst)` differs from the sign of
`dst` at the call (its top bit if `dst` is signed, else `0`); every bit `i` of `dst`
with `p ≤ i < min(length(dst), p + length(src))` ends equal to bit `i - p` of `src`;
every other bit, `underflow`, `is_signed` and the length are unchanged. -/
theorem load_effect (dst src : Word) (p : Nat) (hd : 0 < dst.length) (hs : 0 < src.length)
    (hsign : (dst.is_signed && BITS dst (dst.length - 1)) =
      (src.is_signed && BITS src (src.length - 1)))
    (ho : dst.overflow = false) :
    ∃ r', word_op_load dst src p = some r' ∧ r'.length = dst.length ∧
      r'.is_signed = dst.is_signed ∧ r'.underflow = dst.underflow ∧
      (r'.overflow = true ↔
        ∃ j, j < src.length ∧ p + j ≥ dst.length ∧
          BITS src j ≠ (dst.is_signed && BITS dst (dst.length - 1))) ∧
      (∀ i, p ≤ i → i < min dst.length (p + src.length) → BITS r' i = BITS src (i - p)) ∧
      (∀ i, ¬ (p ≤ i ∧ i < min dst.length (p + src.length)) → BITS r' i = BITS dst i) := by
  refine ⟨load_loop (dst.is_signed && BITS dst (dst.length - 1)) src src.length p 0 dst,
    ?_, ?_⟩
  · unfold word_op_load
    rw [if_neg (by omega)]
    simp only [ne_eq, hsign, not_true_eq_false, if_false]
  · obtain ⟨a, b, c, d, e⟩ :=
      load_loop_spec (dst.is_signed && BITS dst (dst.length - 1)) src src.length p 0 dst
    refine ⟨a, b, c, ?_, ?_, ?_⟩
    · rw [d, ho]
      simp only [Bool.false_eq_true, false_or, Nat.zero_add]
    · intro i h1 h2
      rw [e, if_pos (by omega), Nat.zero_add]
    · intro i h
      rw [e, if_neg (by omega)]

theorem load_effect_witness :
    0 < (Word.mk [true, false, true, false] false true true).length ∧
    0 < (Word.mk [true, true, true] false false false).length ∧
    ∃ r', word_op_load ⟨[true, false, true, false], false, true, true⟩
        ⟨[true, true, true], false, false, false⟩ 2 = some r' ∧
      r'.length = 4 ∧ r'.is_signed = true ∧ r'.underflow = true ∧
      (r'.overflow = true ↔
        ∃ j, j < 3 ∧ 2 + j ≥ 4 ∧
          BITS ⟨[true, true, true], false, false, false⟩ j ≠
            ((Word.mk [true, false, true, false] false true true).is_signed &&
              BITS ⟨[true, false, true, false], false, true, true⟩ (4 - 1))) ∧
      (∀ i, 2 ≤ i → i < min 4 (2 + 3) →
        BITS r' i = BITS ⟨[true, true, true], false, false, false⟩ (i - 2)) ∧
      (∀ i, ¬ (2 ≤ i ∧ i < min 4 (2 + 3)) →
        BITS r' i = BITS ⟨[true, false, true, false], false, true, true⟩ i) :=
  ⟨by decide, by decide,
    load_effect ⟨[true, false, true, false], false, true, true⟩
      ⟨[true, true, true], false, false, false⟩ 2 (by decide) (by decide) (by decide) rfl⟩

/-! ### Random fill -/

/-- The first loop of `word_randomize` ends as soon as a pair of consecutive random
bits differs. -/
theorem randomize_first_some (rnd : Nat → Bool) :
    ∀ (fuel k t : Nat), rnd (k + 2 * t + 1) ≠ rnd (k + 2 * t) → t < fuel →
      ∃ b k', randomize_first rnd fuel k = some (b, k') := by
  intro fuel
  induction fuel with
  | zero => intro k t _ h; omega
  | succ fuel ih =>
    intro k t hd hf
    unfold randomize_first
    simp only []
    by_cases he : rnd (k + 1) = rnd k
    · rw [if_pos he]
      cases t with
      | zero => exact absurd he (by simpa using hd)
      | succ t =>
        apply ih (k + 2) t _ (by omega)
        rw [show k + 2 + 2 * t + 1 = k + 2 * (t + 1) + 1 by omega,
          show k + 2 + 2 * t = k + 2 * (t + 1) by omega]
        exact hd
    · rw [if_neg he]
      exact ⟨_, _, rfl⟩

/-- The fill loop of `word_randomize` writes only cells at or below its start index and
keeps the header. -/
theorem randomize_fill_spec (rnd : Nat → Bool) :
    ∀ (n : Nat) (i : Int) (k : Nat) (w : Word),
      (randomize_fill rnd n i k w).1.length = w.length ∧
      (randomize_fill rnd n i k w).1.is_signed = w.is_signed ∧
      (randomize_fill rnd n i k w).1.overflow = w.overflow ∧
      (randomize_fill rnd n i k w).1.underflow = w.underflow ∧
      ∀ j : Nat, i < (j : Int) → BITS (randomize_fill rnd n i k w).1 j = BITS w j := by
  intro n
  induction n with
  | zero => intro i k w; exact ⟨rfl, rfl, rfl, rfl, fun _ _ => rfl⟩
  | succ n ih =>
    intro i k w
    unfold randomize_fill
    by_cases hi : i ≥ 0
    · rw [if_pos hi]
      obtain ⟨a, b, c, d, e⟩ := ih (i - 1) (k + 1) (w.store i.toNat (rnd k))
      refine ⟨by rw [a, length_store], by rw [b]; rfl, by rw [c]; rfl, by rw [d]; rfl,
        fun j hj => ?_⟩
      rw [e j (by omega), BITS_store, if_neg (by omega)]
    · rw [if_neg hi]
      exact ⟨rfl, rfl, rfl, rfl, fun _ _ => rfl⟩

/-- Claim C26: the random source is a bit stream `rnd` in which some pair of
consecutive draws differs (pair number `t`), which makes the initial `do`/`while` end.
For every register of width at least two, `word_randomize` then returns (for every
fuel above `t`) a register of the same width that is not all-zero; if the register is
unsigned its most-significant bit is one, and if it is signed its sign bit and the
bit below it differ. -/
theorem randomize_normalized (rnd : Nat → Bool) (fuel t : Nat) (word : Word)
    (hw : 2 ≤ word.length) (hd : rnd (2 * t + 1) ≠ rnd (2 * t)) (hf : t < fuel) :
    ∃ res k, word_randomize rnd fuel word = some (res, k) ∧ res.length = word.length ∧
      res.is_signed = word.is_signed ∧
      (∃ j, j < res.length ∧ BITS res j = true) ∧
      (word.is_signed = false → BITS res (word.length - 1) = true) ∧
      (word.is_signed = true → BITS res (word.length - 1) ≠ BITS res (word.length - 2)) := by
  obtain ⟨b, k, hfirst⟩ := randomize_first_some rnd fuel 0 t
    (by simpa using hd) hf
  have h0 : ¬ word.length = 0 := by omega
  have e1 : ((word.length : Int) - 1).toNat = word.length - 1 := by omega
  have e2 : ((word.length : Int) - 1 - 1).toNat = word.length - 2 := by omega
  have g1 : (word.length : Int) - 1 ≥ 0 := by omega
  have g2 : (word.length : Int) - 1 - 1 ≥ 0 := by omega
  unfold word_randomize
  rw [if_neg h0, hfirst]
  simp only [store_int, if_pos g1, if_pos g2, e1, e2]
  cases hs : word.is_signed
  · -- unsigned
    simp only [Bool.false_eq_true, if_false]
    cases b
    · simp only [Bool.false_eq_true, if_false]
      obtain ⟨a, b', _, _, e⟩ := randomize_fill_spec rnd word.length
        ((word.length : Int) - 1 - 1) k (word.store (word.length - 1) true)
      have htop : BITS (randomize_fill rnd word.length ((word.length : Int) - 1 - 1) k
          (word.store (word.length - 1) true)).1 (word.length - 1) = true := by
        rw [e _ (by omega), BITS_store, if_pos ⟨rfl, by omega⟩]
      refine ⟨_, _, rfl, by rw [a, length_store], by rw [b']; exact hs,
        ⟨word.length - 1, by rw [a, length_store]; omega, htop⟩, fun _ => htop,
        fun h => by simp at h⟩
    · simp only [if_true]
      obtain ⟨a, b', _, _, e⟩ := randomize_fill_spec rnd word.length
        ((word.length : Int) - 1 - 2) k
        ((word.store (word.length - 1) true).store (word.length - 2) false)
      have htop : BITS (randomize_fill rnd word.length ((word.length : Int) - 1 - 2) k
          ((word.store (word.length - 1) true).store (word.length - 2) false)).1
          (word.length - 1) = true := by
        rw [e _ (by omega), BITS_store, if_neg (by omega), BITS_store,
          if_pos ⟨rfl, by omega⟩]
      refine ⟨_, _, rfl, by rw [a, length_store, length_store],
        by rw [b']; exact hs,
        ⟨word.length - 1, by rw [a, length_store, length_store]; omega, htop⟩,
        fun _ => htop, fun h => by simp at h⟩
  · -- signed
    simp only [if_true]
    obtain ⟨a, b', _, _, e⟩ := randomize_fill_spec rnd word.length
      ((word.length : Int) - 1 - 2) k
      ((word.store (word.length - 1) b).store (word.length - 2) (!b))
    have htop : BITS (randomize_fill rnd word.length ((word.length : Int) - 1 - 2) k
        ((word.store (word.length - 1) b).store (word.length - 2) (!b))).1
        (word.length - 1) = b := by
      rw [e _ (by omega), BITS_store, if_neg (by omega), BITS_store,
        if_pos ⟨rfl, by omega⟩]
    have hnext : BITS (randomize_fill rnd word.length ((word.length : Int) - 1 - 2) k
        ((word.store (word.length - 1) b).store (word.length - 2) (!b))).1
        (word.length - 2) = !b := by
      rw [e _ (by omega), BITS_store, if_pos ⟨rfl, by rw [length_store]; omega⟩]
    refine ⟨_, _, rfl, by rw [a, length_store, length_store], by rw [b']; exact hs,
      ?_, fun h => by simp at h, fun _ => ?_⟩
    · by_cases hb : b = true
      · exact ⟨word.length - 1, by rw [a, length_store, length_store]; omega,
          by rw [htop]; exact hb⟩
      · exact ⟨word.length - 2, by rw [a, length_store, length_store]; omega,
          by rw [hnext]; simpa using hb⟩
    · rw [htop, hnext]
      cases b <;> simp

theorem randomize_normalized_witness :
    2 ≤ (Word.mk [false, false, false] false false true).length ∧
    (fun n => decide (n % 3 = 0)) (2 * 0 + 1) ≠ (fun n => decide (n % 3 = 0)) (2 * 0) ∧
    ∃ res k, word_randomize (fun n => decide (n % 3 = 0)) 1
        ⟨[false, false, false], false, false, true⟩ = some (res, k) ∧
      res.length = 3 ∧ res.is_signed = true ∧
      (∃ j, j < res.length ∧ BITS res j = true) ∧
      (true = false → BITS res (3 - 1) = true) ∧
      (true = true → BITS res (3 - 1) ≠ BITS res (3 - 2)) :=
  ⟨by decide, by decide,
    randomize_normalized (fun n => decide (n % 3 = 0)) 1 0
      ⟨[false, false, false], false, false, true⟩ (by decide) (by decide) (by decide)⟩

/-! ### Rejection of zero-width registers -/

/-- Claim C27: every kernel operation takes its error return when a register passed to
it has width zero, whichever argument that register is: the pointer-returning
functions give `NULL` (`none`), the two comparisons give the error value `2`, and the
in-place operations return before their first write (`none`), for every fuel and every
other argument.  In addition `word_op_negate` takes its error return on every unsigned
register. -/
theorem zero_width_rejected (z : Word) (hz : z.length = 0) :
    create_word_duplicate z = none ∧
    (∀ rnd fuel, word_randomize rnd fuel z = none) ∧
    word_op_negate z = none ∧
    word_op_abs z = none ∧
    (∀ bits_per_digit, word_makelist z bits_per_digit = none) ∧
    (∀ w, word_op_compare z w = 2 ∧ word_op_compare w z = 2) ∧
    (∀ constant, word_op_compare_constant z constant = 2) ∧
    (∀ k, word_op_leftshift z k = none ∧ word_op_rightshift z k = none) ∧
    word_op_bitinvert z = none ∧
    (∀ w p, word_op_extract z w p = none ∧ word_op_extract w z p = none) ∧
    (∀ w p, word_op_load z w p = none ∧ word_op_load w z p = none) ∧
    (∀ v p c, word_op_load_constant z v p c = none) ∧
    (∀ fuel w sign p, word_op_add fuel z w sign p = none ∧
      word_op_add fuel w z sign p = none) ∧
    (∀ fuel w1 w2, word_op_multiply fuel z w1 w2 = none ∧
      word_op_multiply fuel w1 z w2 = none ∧ word_op_multiply fuel w1 w2 z = none) ∧
    (∀ fuel, word_op_isqrt fuel z = none) ∧
    (∀ u : Word, u.is_signed = false → word_op_negate u = none) := by
  refine ⟨?_, ?_, ?_, ?_, ?_, ?_, ?_, ?_, ?_, ?_, ?_, ?_, ?_, ?_, ?_, ?_⟩
  · simp [create_word_duplicate, hz]
  · intro rnd fuel; simp [word_randomize, hz]
  · simp [word_op_negate, hz]
  · simp [word_op_abs, hz]
  · intro b; simp [word_makelist, hz]
  · intro w; simp [word_op_compare, hz]
  · intro c; simp [word_op_compare_constant, hz]
  · intro k; simp [word_op_leftshift, word_op_rightshift, hz]
  · simp [word_op_bitinvert, hz]
  · intro w p; simp [word_op_extract, hz]
  · intro w p; simp [word_op_load, hz]
  · intro v p c; simp [word_op_load_constant, hz]
  · intro fuel w s p; simp [word_op_add, hz]
  · intro fuel w1 w2
    refine ⟨by simp [word_op_multiply, hz], ?_, ?_⟩
    · unfold word_op_multiply
      split_ifs <;> rfl
    · unfold word_op_multiply
      split_ifs <;> rfl
  · intro fuel; simp [word_op_isqrt, hz]
  · intro u hu
    unfold word_op_negate
    split_ifs with h1 h2
    · rfl
    · rfl
    · simp [hu] at h2

theorem zero_width_rejected_witness :
    (Word.mk [] false false true).length = 0 ∧
    create_word_duplicate ⟨[], false, false, true⟩ = none ∧
    (∀ rnd fuel, word_randomize rnd fuel ⟨[], false, false, true⟩ = none) ∧
    word_op_negate ⟨[], false, false, true⟩ = none ∧
    word_op_abs ⟨[], false, false, true⟩ = none ∧
    (∀ bits_per_digit, word_makelist ⟨[], false, false, true⟩ bits_per_digit = none) ∧
    (∀ w, word_op_compare ⟨[], false, false, true⟩ w = 2 ∧
      word_op_compare w ⟨[], false, false, true⟩ = 2) ∧
    (∀ constant, word_op_compare_constant ⟨[], false, false, true⟩ constant = 2) ∧
    (∀ k, word_op_leftshift ⟨[], false, false, true⟩ k = none ∧
      word_op_rightshift ⟨[], false, false, true⟩ k = none) ∧
    word_op_bitinvert ⟨[], false, false, true⟩ = none ∧
    (∀ w p, word_op_extract ⟨[], false, false, true⟩ w p = none ∧
      word_op_extract w ⟨[], false, false, true⟩ p = none) ∧
    (∀ w p, word_op_load ⟨[], false, false, true⟩ w p = none ∧
      word_op_load w ⟨[], false, false, true⟩ p = none) ∧
    (∀ v p c, word_op_load_constant ⟨[], false, false, true⟩ v p c = none) ∧
    (∀ fuel w sign p, word_op_add fuel ⟨[], false, false, true⟩ w sign p = none ∧
      word_op_add fuel w ⟨[], false, false, true⟩ sign p = none) ∧
    (∀ fuel w1 w2, word_op_multiply fuel ⟨[], false, false, true⟩ w1 w2 = none ∧
      word_op_multiply fuel w1 ⟨[], false, false, true⟩ w2 = none ∧
      word_op_multiply fuel w1 w2 ⟨[], false, false, true⟩ = none) ∧
    (∀ fuel, word_op_isqrt fuel ⟨[], false, false, true⟩ = none) ∧
    (∀ u : Word, u.is_signed = false → word_op_negate u = none) :=
  ⟨rfl, zero_width_rejected ⟨[], false, false, true⟩ rfl⟩

/-! ### Sticky fault flags and termination of the fuel-driven loops -/

/-- Header fields after the loop of `word_op_add`, for any input and any fuel: length,
sign mode and `underflow` are kept and `overflow` is never cleared. -/
theorem add_loop_frame (rs as : Bool) (s : Int) (a : Word) :
    ∀ (fuel i j : Nat) (sum : Int) (R r' : Word),
      add_loop rs as s a fuel i j sum R = some r' →
      r'.length = R.length ∧ r'.is_signed = R.is_signed ∧ r'.underflow = R.underflow ∧
      (R.overflow = true → r'.overflow = true) := by
  intro fuel
  induction fuel with
  | zero => intro i j sum R r' h; simp [add_loop] at h
  | succ fuel ih =>
    intro i j sum R r' h
    unfold add_loop at h
    simp only [] at h
    split_ifs at h with h1 h2 h3 h4 h5 h6
    all_goals first
      | (injection h with h; subst h
         first
           | exact ⟨rfl, rfl, rfl, fun x => x⟩
           | exact ⟨length_store _ _ _, rfl, rfl, fun _ => rfl⟩
           | exact ⟨rfl, rfl, rfl, fun _ => rfl⟩)
      | (obtain ⟨a1, a2, a3, a4⟩ := ih _ _ _ _ _ h
         first
           | exact ⟨by rw [a1, length_store], by rw [a2]; rfl, by rw [a3]; rfl, fun x => a4 x⟩
           | exact ⟨a1, a2, a3, a4⟩)

/-- The carry `sum` of `word_op_add` stays in `{-1, 0, 1}`. -/
theorem add_sum_plus (sum : Int) (x y : Bool) (h : sum = -1 ∨ sum = 0 ∨ sum = 1) :
    ((sum + (x.toNat : Int) + (y.toNat : Int)) / 2 = -1 ∨
      (sum + (x.toNat : Int) + (y.toNat : Int)) / 2 = 0 ∨
      (sum + (x.toNat : Int) + (y.toNat : Int)) / 2 = 1) ∧
    (sum = 1 → (sum + (x.toNat : Int) + (y.toNat : Int)) / 2 = 0 ∨
      (sum + (x.toNat : Int) + (y.toNat : Int)) / 2 = 1) := by
  cases x <;> cases y <;> rcases h with h | h | h <;> subst h <;> simp

theorem add_sum_minus (sum : Int) (x y : Bool) (h : sum = -1 ∨ sum = 0 ∨ sum = 1) :
    ((sum + (x.toNat : Int) - (y.toNat : Int)) / 2 = -1 ∨
      (sum + (x.toNat : Int) - (y.toNat : Int)) / 2 = 0 ∨
      (sum + (x.toNat : Int) - (y.toNat : Int)) / 2 = 1) ∧
    (sum = 1 → (sum + (x.toNat : Int) - (y.toNat : Int)) / 2 = 0 ∨
      (sum + (x.toNat : Int) - (y.toNat : Int)) / 2 = 1) := by
  cases x <;> cases y <;> rcases h with h | h | h <;> subst h <;> simp

/-- One round of the loop of `word_op_add` for `sign = ±1`, with the two conditional
additions merged into `sum + source + sign * added_bit`. -/
theorem add_loop_step (rs as : Bool) (s : Int) (a : Word) (hs : s = 1 ∨ s = -1)
    (fuel i j : Nat) (sum : Int) (R : Word) :
    add_loop rs as s a (fuel + 1) i j sum R =
      if ¬ (i < a.length ∨ sum ≠ 0) then some R
      else if i ≥ a.length ∧ j ≥ R.length ∧ (sum = 0 ∨ sum = -1) then some R
      else
        if j ≥ R.length - 1 ∧
            (sum + ((if j < R.length then BITS R j else rs).toNat : Int) +
              s * ((if i < a.length then BITS a i else as).toNat : Int)) / 2 ≠ 0 ∧
            (sum + ((if j < R.length then BITS R j else rs).toNat : Int) +
              s * ((if i < a.length then BITS a i else as).toNat : Int)) / 2 ≠ -1 ∧
            (rs = false ∨
              (sum + ((if j < R.length then BITS R j else rs).toNat : Int) +
                s * ((if i < a.length then BITS a i else as).toNat : Int)) / 2 ≠
              int_shl_one (Int.toNat ((((R.length : Int) - 1) - (j : Int)) % 2 ^ 32)))
        then some { (if j < R.length then R.store j (decide ((sum +
            ((if j < R.length then BITS R j else rs).toNat : Int) +
            s * ((if i < a.length then BITS a i else as).toNat : Int)) % 2 = 1)) else R)
          with overflow := true }
        else add_loop rs as s a fuel (i + 1) (j + 1)
          ((sum + ((if j < R.length then BITS R j else rs).toNat : Int) +
            s * ((if i < a.length then BITS a i else as).toNat : Int)) / 2)
          (if j < R.length then R.store j (decide ((sum +
            ((if j < R.length then BITS R j else rs).toNat : Int) +
            s * ((if i < a.length then BITS a i else as).toNat : Int)) % 2 = 1)) else R) := by
  rw [add_loop]
  rcases hs with rfl | rfl
  · simp only [if_true, show ¬ ((1 : Int) = -1) by decide, if_false, one_mul, add_assoc]
  · simp only [if_true, show ¬ ((-1 : Int) = 1) by decide, if_false, neg_one_mul,
      ← sub_eq_add_neg]

/-- The carry of `word_op_add` stays in `{-1, 0, 1}`; from `1` it goes to `0` or `1`. -/
theorem add_sum_step (s : Int) (hs : s = 1 ∨ s = -1) (sum : Int) (x y : Bool)
    (h : sum = -1 ∨ sum = 0 ∨ sum = 1) :
    ((sum + (x.toNat : Int) + s * (y.toNat : Int)) / 2 = -1 ∨
      (sum + (x.toNat : Int) + s * (y.toNat : Int)) / 2 = 0 ∨
      (sum + (x.toNat : Int) + s * (y.toNat : Int)) / 2 = 1) ∧
    (sum = 1 → (sum + (x.toNat : Int) + s * (y.toNat : Int)) / 2 = 0 ∨
      (sum + (x.toNat : Int) + s * (y.toNat : Int)) / 2 = 1) := by
  rcases hs with rfl | rfl
  · have := add_sum_plus sum x y h
    simpa using this
  · have := add_sum_minus sum x y h
    simpa [← sub_eq_add_neg] using this

/-- The shift `1 << c` is one only for a count that is a multiple of 32; the counts of
two consecutive rounds of `word_op_add` cannot both be such. -/
theorem int_shl_one_consecutive (len j : Nat)
    (h : int_shl_one (Int.toNat ((((len : Int) - 1) - (j : Int)) % 2 ^ 32)) = 1) :
    int_shl_one (Int.toNat ((((len : Int) - 1) - ((j + 1 : Nat) : Int)) % 2 ^ 32)) ≠ 1 := by
  unfold int_shl_one at h ⊢
  have h32 : (2 : Int) ^ 32 = 4294967296 := by norm_num
  rw [h32] at h ⊢
  have hc : (Int.toNat ((((len : Int) - 1) - (j : Int)) % 4294967296)) % 32 = 0 := by
    by_contra hne
    split_ifs at h with h1
    · have : (0 : Int) < 2 ^ 31 := by positivity
      omega
    · have hpos : 1 ≤ (Int.toNat ((((len : Int) - 1) - (j : Int)) % 4294967296)) % 32 := by
        omega
      have : (2 : Int) ^ 1 ≤ 2 ^ ((Int.toNat ((((len : Int) - 1) - (j : Int)) % 4294967296)) % 32) :=
        pow_le_pow_right₀ (by norm_num) hpos
      omega
  have hc' : (Int.toNat ((((len : Int) - 1) - ((j + 1 : Nat) : Int)) % 4294967296)) % 32 = 31 := by
    omega
  rw [if_pos hc']
  have : (0 : Int) < 2 ^ 31 := by positivity
  omega

/-- Once the added value is used up and the index has left the result register, the
loop of `word_op_add` returns within three rounds. -/
theorem add_loop_end (rs as : Bool) (s : Int) (a : Word) (hs : s = 1 ∨ s = -1) :
    ∀ (fuel i j : Nat) (sum : Int) (R : Word), a.length ≤ i → R.length ≤ j →
      (sum = -1 ∨ sum = 0 ∨ sum = 1) → 3 ≤ fuel →
      ∃ r', add_loop rs as s a fuel i j sum R = some r' := by
  -- carry 0 or -1: the loop ends at once
  have hA : ∀ (fuel i j : Nat) (sum : Int) (R : Word), a.length ≤ i → R.length ≤ j →
      (sum = -1 ∨ sum = 0) → 1 ≤ fuel →
      ∃ r', add_loop rs as s a fuel i j sum R = some r' := by
    intro fuel i j sum R hi hj hsum hf
    obtain ⟨f, rfl⟩ : ∃ f, fuel = f + 1 := ⟨fuel - 1, by omega⟩
    rw [add_loop_step rs as s a hs]
    by_cases h1 : ¬ (i < a.length ∨ sum ≠ 0)
    · rw [if_pos h1]; exact ⟨_, rfl⟩
    · rw [if_neg h1, if_pos ⟨hi, hj, by tauto⟩]; exact ⟨_, rfl⟩
  -- carry 1 and the shift test cannot exempt it: at most two rounds
  have hB : ∀ (fuel i j : Nat) (R : Word), a.length ≤ i → R.length ≤ j →
      (rs = false ∨
        int_shl_one (Int.toNat ((((R.length : Int) - 1) - (j : Int)) % 2 ^ 32)) ≠ 1) →
      2 ≤ fuel →
      ∃ r', add_loop rs as s a fuel i j 1 R = some r' := by
    intro fuel i j R hi hj hex hf
    obtain ⟨f, rfl⟩ : ∃ f, fuel = f + 1 := ⟨fuel - 1, by omega⟩
    rw [add_loop_step rs as s a hs]
    have hjl : ¬ j < R.length := by omega
    have hil : ¬ i < a.length := by omega
    have c1 : ¬ ¬ (i < a.length ∨ (1 : Int) ≠ 0) := by simp
    have c2 : ¬ (i ≥ a.length ∧ j ≥ R.length ∧ ((1 : Int) = 0 ∨ (1 : Int) = -1)) := by simp
    rw [if_neg c1, if_neg c2]
    simp only [if_neg hjl, if_neg hil]
    obtain ⟨_, h3⟩ := add_sum_step s hs 1 rs as (Or.inr (Or.inr rfl))
    split_ifs with h4
    · exact ⟨_, rfl⟩
    · rcases h3 rfl with h0 | h1'
      · rw [h0]
        exact hA f (i + 1) (j + 1) 0 R (by omega) (by omega) (Or.inr rfl) (by omega)
      · exfalso
        apply h4
        refine ⟨by omega, by rw [h1']; decide, by rw [h1']; decide, ?_⟩
        rcases hex with h | h
        · exact Or.inl h
        · right; rw [h1']; exact fun e => h e.symm
  intro fuel i j sum R hi hj hsum hf
  rcases hsum with h | h | h
  · exact hA fuel i j sum R hi hj (Or.inl h) (by omega)
  · exact hA fuel i j sum R hi hj (Or.inr h) (by omega)
  · subst h
    obtain ⟨f, rfl⟩ : ∃ f, fuel = f + 1 := ⟨fuel - 1, by omega⟩
    rw [add_loop_step rs as s a hs]
    have hjl : ¬ j < R.length := by omega
    have hil : ¬ i < a.length := by omega
    have c1 : ¬ ¬ (i < a.length ∨ (1 : Int) ≠ 0) := by simp
    have c2 : ¬ (i ≥ a.length ∧ j ≥ R.length ∧ ((1 : Int) = 0 ∨ (1 : Int) = -1)) := by simp
    rw [if_neg c1, if_neg c2]
    simp only [if_neg hjl, if_neg hil]
    obtain ⟨_, h3⟩ := add_sum_step s hs 1 rs as (Or.inr (Or.inr rfl))
    split_ifs with h4
    · exact ⟨_, rfl⟩
    · rcases h3 rfl with h0 | h1'
      · rw [h0]
        exact hA f (i + 1) (j + 1) 0 R (by omega) (by omega) (Or.inr rfl) (by omega)
      · rw [h1']
        apply hB f (i + 1) (j + 1) R (by omega) (by omega) _ (by omega)
        by_cases hrs : rs = false
        · exact Or.inl hrs
        · right
          apply int_shl_one_consecutive
          by_contra hne
          apply h4
          refine ⟨by omega, by rw [h1']; decide, by rw [h1']; decide, ?_⟩
          right; rw [h1']; exact fun e => hne e.symm

/-- The loop of `word_op_add` returns for every input once the fuel exceeds the number
of cells that the added value and the result register still have ahead by three. -/
theorem add_loop_some (rs as : Bool) (s : Int) (a : Word) (hs : s = 1 ∨ s = -1) :
    ∀ (fuel i j : Nat) (sum : Int) (R : Word),
      (sum = -1 ∨ sum = 0 ∨ sum = 1) → a.length - i + 3 ≤ fuel → R.length - j + 3 ≤ fuel →
      ∃ r', add_loop rs as s a fuel i j sum R = some r' := by
  intro fuel
  induction fuel with
  | zero => intro i j sum R _ h; omega
  | succ fuel ih =>
    intro i j sum R hsum hf hf2
    by_cases hM : a.length ≤ i ∧ R.length ≤ j
    · exact add_loop_end rs as s a hs (fuel + 1) i j sum R hM.1 hM.2 hsum (by omega)
    · rw [add_loop_step rs as s a hs]
      by_cases h1 : ¬ (i < a.length ∨ sum ≠ 0)
      · rw [if_pos h1]; exact ⟨_, rfl⟩
      · rw [if_neg h1]
        by_cases h2 : i ≥ a.length ∧ j ≥ R.length ∧ (sum = 0 ∨ sum = -1)
        · rw [if_pos h2]; exact ⟨_, rfl⟩
        · rw [if_neg h2]
          obtain ⟨h3, _⟩ := add_sum_step s hs sum
            (if j < R.length then BITS R j else rs)
            (if i < a.length then BITS a i else as) hsum
          generalize (if j < R.length then BITS R j else rs) = x at h3 ⊢
          generalize (if i < a.length then BITS a i else as) = y at h3 ⊢
          have hlen1 : (if j < R.length then
              R.store j (decide ((sum + (x.toNat : Int) + s * (y.toNat : Int)) % 2 = 1))
              else R).length = R.length := by
            split_ifs
            · exact length_store _ _ _
            · rfl
          generalize (if j < R.length then
              R.store j (decide ((sum + (x.toNat : Int) + s * (y.toNat : Int)) % 2 = 1))
              else R) = R1 at hlen1 ⊢
          have hM' : i < a.length ∨ j < R.length := by omega
          have hb1 : a.length - (i + 1) + 3 ≤ fuel := by omega
          have hb2 : R1.length - (j + 1) + 3 ≤ fuel := by rw [hlen1]; omega
          split_ifs with h4
          · exact ⟨_, rfl⟩
          · exact ih (i + 1) (j + 1) _ R1 h3 hb1 hb2

/-- Termination of `word_op_add`: for valid registers and `sign = ±1` every fuel of at
least `length(added_value) + length(result) + 3` rounds gives a result. -/
theorem word_op_add_some (fuel : Nat) (result a : Word) (s : Int) (p : Nat)
    (hr : 0 < result.length) (ha : 0 < a.length) (hs : s = 1 ∨ s = -1)
    (hf : a.length + result.length + 3 ≤ fuel) :
    ∃ r', word_op_add fuel result a s p = some r' := by
  unfold word_op_add
  rw [if_neg (by omega), if_neg (by omega)]
  exact add_loop_some _ _ s a hs fuel 0 p 0 result (Or.inr (Or.inl rfl)) (by omega)
    (by omega)

/-- Header fields after `word_op_add`, whenever it returns. -/
theorem word_op_add_frame (fuel : Nat) (result a : Word) (s : Int) (p : Nat) (r' : Word)
    (h : word_op_add fuel result a s p = some r') :
    r'.length = result.length ∧ r'.is_signed = result.is_signed ∧
      r'.underflow = result.underflow ∧ (result.overflow = true → r'.overflow = true) := by
  unfold word_op_add at h
  split_ifs at h
  exact add_loop_frame _ _ s a fuel 0 p 0 result r' h

/-- Header fields after the outer loop of `word_op_multiply`, for any input and fuel. -/
theorem multiply_loop_frame (na nb : Nat) (a b : Word) :
    ∀ (fuel i sum : Nat) (result r' : Word),
      multiply_loop na nb a b fuel i sum result = some r' →
      r'.length = result.length ∧ r'.is_signed = result.is_signed ∧
      r'.underflow = result.underflow ∧ (result.overflow = true → r'.overflow = true) := by
  intro fuel
  induction fuel with
  | zero => intro i sum result r' h; simp [multiply_loop] at h
  | succ fuel ih =>
    intro i sum result r' h
    unfold multiply_loop at h
    simp only [] at h
    generalize (multiply_column a b _ _ _ sum) = sum1 at h
    by_cases h1 : ¬ (i < na + nb - 1 ∨ sum ≠ 0)
    · rw [if_pos h1] at h
      injection h with h; subst h
      exact ⟨rfl, rfl, rfl, fun x => x⟩
    · rw [if_neg h1] at h
      have hR1 : ∀ (c : Prop) [Decidable c],
          (if c then { result with overflow := true } else result).length = result.length ∧
          (if c then { result with overflow := true } else result).is_signed
            = result.is_signed ∧
          (if c then { result with overflow := true } else result).underflow
            = result.underflow ∧
          (result.overflow = true →
            (if c then { result with overflow := true } else result).overflow = true) := by
        intro c _
        split_ifs
        · exact ⟨rfl, rfl, rfl, fun _ => rfl⟩
        · exact ⟨rfl, rfl, rfl, fun x => x⟩
      obtain ⟨q1, q2, q3, q4⟩ :=
        hR1 (result.is_signed = true ∧ i ≥ result.length - 1 ∧ sum1 ≠ 0)
      generalize (if result.is_signed = true ∧ i ≥ result.length - 1 ∧ sum1 ≠ 0
        then { result with overflow := true } else result) = R1 at h q1 q2 q3 q4
      by_cases h2 : i ≥ result.length ∧ sum1 ≠ 0
      · rw [if_pos h2] at h
        injection h with h; subst h
        exact ⟨q1, q2, q3, fun _ => rfl⟩
      · rw [if_neg h2] at h
        obtain ⟨a1, a2, a3, a4⟩ := ih _ _ _ _ h
        by_cases h3 : i < result.length
        · rw [if_pos h3] at a1 a2 a3 a4
          exact ⟨by rw [a1, length_store, q1], by rw [a2]; exact q2, by rw [a3]; exact q3,
            fun x => a4 (q4 x)⟩
        · rw [if_neg h3] at a1 a2 a3 a4
          exact ⟨by rw [a1, q1], by rw [a2, q2], by rw [a3, q3], fun x => a4 (q4 x)⟩

/-- The inner loop of `word_op_multiply` keeps the 32-bit accumulator below `2^32`. -/
theorem multiply_column_lt (a b : Word) :
    ∀ (n alpha beta sum : Nat), sum < 2 ^ 32 → multiply_column a b n alpha beta sum < 2 ^ 32 := by
  intro n
  induction n with
  | zero => intro alpha beta sum h; exact h
  | succ n ih =>
    intro alpha beta sum _
    unfold multiply_column
    exact ih _ _ _ (Nat.mod_lt _ (by norm_num))

/-- Past the last column the accumulator is only halved, so the outer loop of
`word_op_multiply` ends within as many rounds as the accumulator has bits. -/
theorem multiply_loop_tail (na nb : Nat) (a b : Word) (hna : 0 < na) (hnb : 0 < nb) :
    ∀ (k fuel i sum : Nat) (result : Word), na + nb - 1 ≤ i → sum < 2 ^ k → k + 1 ≤ fuel →
      ∃ r', multiply_loop na nb a b fuel i sum result = some r' := by
  intro k
  induction k with
  | zero =>
    intro fuel i sum result hi hs hf
    obtain ⟨f, rfl⟩ : ∃ f, fuel = f + 1 := ⟨fuel - 1, by omega⟩
    unfold multiply_loop
    rw [if_pos (by omega)]
    exact ⟨_, rfl⟩
  | succ k ih =>
    intro fuel i sum result hi hs hf
    obtain ⟨f, rfl⟩ : ∃ f, fuel = f + 1 := ⟨fuel - 1, by omega⟩
    unfold multiply_loop
    by_cases h1 : ¬ (i < na + nb - 1 ∨ sum ≠ 0)
    · rw [if_pos h1]; exact ⟨_, rfl⟩
    · rw [if_neg h1]
      simp only []
      have e1 : ¬ (i ≥ nb ∧ i ≥ na ∧ i < na + nb - 1) := by omega
      have e2 : ¬ (i ≥ nb ∧ i < na) := by omega
      have e3 : ¬ (i < nb ∧ i ≥ na) := by omega
      have e4 : ¬ (i < nb ∧ i < na) := by omega
      rw [if_neg e1, if_neg e2, if_neg e3, if_neg e4]
      have e5 : ∀ x y, multiply_column a b 0 x y sum = sum := fun _ _ => rfl
      rw [e5]
      by_cases h2 : i ≥ result.length ∧ sum ≠ 0
      · rw [if_pos h2]; exact ⟨_, rfl⟩
      · rw [if_neg h2]
        exact ih f (i + 1) (sum / 2) _ (by omega) (by rw [pow_succ] at hs; omega) (by omega)

/-- Termination of the outer loop of `word_op_multiply` for every input. -/
theorem multiply_loop_some (na nb : Nat) (a b : Word) (hna : 0 < na) (hnb : 0 < nb) :
    ∀ (d fuel i sum : Nat) (result : Word), na + nb - 1 - i ≤ d → sum < 2 ^ 32 →
      d + 33 ≤ fuel →
      ∃ r', multiply_loop na nb a b fuel i sum result = some r' := by
  intro d
  induction d with
  | zero =>
    intro fuel i sum result hd hs hf
    exact multiply_loop_tail na nb a b hna hnb 32 fuel i sum result (by omega) hs (by omega)
  | succ d ih =>
    intro fuel i sum result hd hs hf
    obtain ⟨f, rfl⟩ : ∃ f, fuel = f + 1 := ⟨fuel - 1, by omega⟩
    unfold multiply_loop
    by_cases h1 : ¬ (i < na + nb - 1 ∨ sum ≠ 0)
    · rw [if_pos h1]; exact ⟨_, rfl⟩
    · rw [if_neg h1]
      simp only []
      have hlt := multiply_column_lt a b
        (if i ≥ nb ∧ i ≥ na ∧ i < na + nb - 1 then (na + nb - 1) - i
          else if i ≥ nb ∧ i < na then nb
          else if i < nb ∧ i ≥ na then na
          else if i < nb ∧ i < na then i + 1 else 0)
        (if i < nb then 0 else (i - nb + 1) % 65536) (if i < nb then i else nb - 1) sum hs
      generalize multiply_column a b _ _ _ sum = sum1 at hlt ⊢
      generalize (if result.is_signed = true ∧ i ≥ result.length - 1 ∧ sum1 ≠ 0
        then { result with overflow := true } else result) = R1
      by_cases h2 : i ≥ result.length ∧ sum1 ≠ 0
      · rw [if_pos h2]; exact ⟨_, rfl⟩
      · rw [if_neg h2]
        exact ih f (i + 1) (sum1 / 2) _ (by omega) (by omega) (by omega)

/-- Header fields after `word_op_negate`, whenever it returns. -/
theorem word_op_negate_frame (r r' : Word) (h : word_op_negate r = some r') :
    r'.length = r.length ∧ r'.is_signed = r.is_signed ∧ r'.underflow = r.underflow ∧
      (r.overflow = true → r'.overflow = true) := by
  have hl : ¬ r.length = 0 := by
    intro h0; simp [word_op_negate, h0] at h
  have hs : r.is_signed = true := by
    cases hs : r.is_signed
    · simp [word_op_negate, hs] at h
    · rfl
  obtain ⟨r'', h1, h2, h3, h4, h5, _⟩ :=
    word_op_negate_spec r (r.length - 1) (by omega) hs
  rw [h1] at h
  injection h with h; subst h
  exact ⟨h2, by rw [h3, hs], h4, fun x => h5.2 (Or.inl x)⟩

/-- Header fields after `word_op_leftshift`, whenever it returns. -/
theorem word_op_leftshift_frame (r : Word) (k : Nat) (r' : Word)
    (h : word_op_leftshift r k = some r') :
    r'.length = r.length ∧ r'.is_signed = r.is_signed ∧ r'.underflow = r.underflow ∧
      (r.overflow = true → r'.overflow = true) := by
  by_cases h0 : r.length = 0
  · simp [word_op_leftshift, h0] at h
  unfold word_op_leftshift at h
  rw [if_neg h0] at h
  simp only [] at h
  injection h with h; subst h
  obtain ⟨a, b, c, d, _⟩ := leftshift_loop_spec k
    (if r.is_signed then BITS r (r.length - 1) else false)
    (r.length - 1 - (if r.is_signed then 1 else 0))
    (r.length - (if r.is_signed then 1 else 0)) r (by omega)
  exact ⟨a, b, c, fun x => d.2 (Or.inl x)⟩

/-- Header fields after `word_op_rightshift`, whenever it returns. -/
theorem word_op_rightshift_frame (r : Word) (k : Nat) (r' : Word)
    (h : word_op_rightshift r k = some r') :
    r'.length = r.length ∧ r'.is_signed = r.is_signed ∧
      (r.underflow = true → r'.underflow = true) ∧ r'.overflow = r.overflow := by
  by_cases h0 : r.length = 0
  · simp [word_op_rightshift, h0] at h
  unfold word_op_rightshift at h
  rw [if_neg h0] at h
  simp only [] at h
  injection h with h; subst h
  obtain ⟨a, b, c, d, _⟩ := rightshift_loop_spec k
    (if r.is_signed then BITS r (r.length - 1) else false) r.length 0 r (by omega)
  exact ⟨a, b, fun x => d.2 (Or.inl x), c⟩

/-- The loop of `word_op_bitinvert` keeps the header and inverts the visited cells. -/
theorem bitinvert_loop_spec :
    ∀ (n i : Nat) (w : Word),
      (bitinvert_loop n i w).length = w.length ∧
      (bitinvert_loop n i w).is_signed = w.is_signed ∧
      (bitinvert_loop n i w).overflow = w.overflow ∧
      (bitinvert_loop n i w).underflow = w.underflow ∧
      ∀ j, BITS (bitinvert_loop n i w) j =
        if i ≤ j ∧ j < i + n ∧ j < w.length then !BITS w j else BITS w j := by
  intro n
  induction n with
  | zero =>
    intro i w
    refine ⟨rfl, rfl, rfl, rfl, fun j => ?_⟩
    have : ¬ (i ≤ j ∧ j < i + 0 ∧ j < w.length) := by omega
    rw [if_neg this]; rfl
  | succ n ih =>
    intro i w
    unfold bitinvert_loop
    obtain ⟨a, b, c, d, e⟩ := ih (i + 1) (w.store i (!BITS w i))
    refine ⟨by rw [a, length_store], by rw [b]; rfl, by rw [c]; rfl, by rw [d]; rfl,
      fun j => ?_⟩
    rw [e, length_store, BITS_store]
    by_cases hj : j = i
    · subst hj
      by_cases hl : j < w.length
      · simp [hl]
      · simp [hl]
    · by_cases hr : i + 1 ≤ j ∧ j < i + 1 + n ∧ j < w.length
      · have h2 : i ≤ j ∧ j < i + (n + 1) ∧ j < w.length := by omega
        rw [if_pos hr, if_pos h2, if_neg (by intro h; exact hj h.1)]
      · have h2 : ¬ (i ≤ j ∧ j < i + (n + 1) ∧ j < w.length) := by omega
        rw [if_neg hr, if_neg h2, if_neg (by intro h; exact hj h.1)]

/-- Header fields after `word_op_multiply`, whenever it returns. -/
theorem word_op_multiply_frame (fuel : Nat) (result a b r' : Word)
    (h : word_op_multiply fuel result a b = some r') :
    r'.length = result.length ∧ r'.is_signed = result.is_signed ∧
      r'.underflow = result.underflow ∧ (result.overflow = true → r'.overflow = true) := by
  unfold word_op_multiply at h
  split_ifs at h with h1 h2 h3
  simp only [] at h
  cases ha : word_op_abs a with
  | none => rw [ha] at h; simp at h
  | some ac =>
    cases hb : word_op_abs b with
    | none => rw [ha, hb] at h; simp at h
    | some bc =>
      rw [ha, hb] at h
      simp only [] at h
      cases hm : multiply_loop a.length b.length ac bc fuel 0 0 result with
      | none => rw [hm] at h; simp at h
      | some r1 =>
        rw [hm] at h
        simp only [] at h
        obtain ⟨m1, m2, m3, m4⟩ := multiply_loop_frame _ _ _ _ _ _ _ _ _ hm
        split_ifs at h with h5
        · obtain ⟨n1, n2, n3, n4⟩ := word_op_negate_frame r1 r' h
          exact ⟨by rw [n1, m1], by rw [n2, m2], by rw [n3, m3], fun x => n4 (m4 x)⟩
        · injection h with h; subst h
          exact ⟨m1, m2, m3, m4⟩

/-- Termination of `word_op_multiply`: for valid registers, unless the signs differ and
the result register is unsigned (the error return), every fuel of at least
`length(a) + length(b) + 33` rounds gives a result. -/
theorem word_op_multiply_some (fuel : Nat) (result a b : Word) (hr : 0 < result.length)
    (ha : 0 < a.length) (hb : 0 < b.length)
    (hok : ¬ ((a.is_signed && BITS a (a.length - 1)) ≠ (b.is_signed && BITS b (b.length - 1))
      ∧ result.is_signed = false))
    (hf : a.length + b.length + 33 ≤ fuel) :
    ∃ r', word_op_multiply fuel result a b = some r' := by
  unfold word_op_multiply
  rw [if_neg (by omega), if_neg (by omega), if_neg (by omega)]
  simp only []
  rw [if_neg hok]
  obtain ⟨ac, hac, _⟩ := word_op_abs_spec a ha
  obtain ⟨bc, hbc, _⟩ := word_op_abs_spec b hb
  rw [hac, hbc]
  simp only []
  obtain ⟨r1, hr1⟩ := multiply_loop_some a.length b.length ac bc ha hb
    (a.length + b.length) fuel 0 0 result (by omega) (by norm_num) (by omega)
  rw [hr1]
  simp only []
  split_ifs with h5
  · obtain ⟨m1, m2, _, _⟩ := multiply_loop_frame _ _ _ _ _ _ _ _ _ hr1
    have hsg : result.is_signed = true := by
      cases hsr : result.is_signed
      · exact absurd ⟨h5, hsr⟩ hok
      · rfl
    obtain ⟨r'', h1, _⟩ :=
      word_op_negate_spec r1 (r1.length - 1) (by rw [m1]; omega) (by rw [m2, hsg])
    exact ⟨r'', h1⟩
  · exact ⟨_, rfl⟩

/-- Claim C24: the fault flags are sticky.  For each in-place kernel operation on a
register `r` (`word_op_negate`, `word_op_leftshift`, `word_op_rightshift`,
`word_op_bitinvert`, `word_op_load`, `word_op_load_constant`, `word_op_add`,
`word_op_multiply`, and `word_op_extract` with `r` as the sample), for every other
argument and every fuel, whenever the call returns with the register rewritten to
`r'`: the length and `is_signed` of `r'` are those of `r`, and `overflow`
(resp. `underflow`) is set in `r'` if it was set in `r`.  The two operations whose
loops run on fuel do return: `word_op_add` for valid registers and `sign = ±1`,
`word_op_multiply` for valid registers unless it takes its sign error return. -/
theorem flags_sticky (r : Word) :
    (∀ r', word_op_negate r = some r' →
      r'.length = r.length ∧ r'.is_signed = r.is_signed ∧
      (r.overflow = true → r'.overflow = true) ∧
      (r.underflow = true → r'.underflow = true)) ∧
    (∀ k r', word_op_leftshift r k = some r' →
      r'.length = r.length ∧ r'.is_signed = r.is_signed ∧
      (r.overflow = true → r'.overflow = true) ∧
      (r.underflow = true → r'.underflow = true)) ∧
    (∀ k r', word_op_rightshift r k = some r' →
      r'.length = r.length ∧ r'.is_signed = r.is_signed ∧
      (r.overflow = true → r'.overflow = true) ∧
      (r.underflow = true → r'.underflow = true)) ∧
    (∀ r', word_op_bitinvert r = some r' →
      r'.length = r.length ∧ r'.is_signed = r.is_signed ∧
      (r.overflow = true → r'.overflow = true) ∧
      (r.underflow = true → r'.underflow = true)) ∧
    (∀ src p r', word_op_load r src p = some r' →
      r'.length = r.length ∧ r'.is_signed = r.is_signed ∧
      (r.overflow = true → r'.overflow = true) ∧
      (r.underflow = true → r'.underflow = true)) ∧
    (∀ v p c r', word_op_load_constant r v p c = some r' →
      r'.length = r.length ∧ r'.is_signed = r.is_signed ∧
      (r.overflow = true → r'.overflow = true) ∧
      (r.underflow = true → r'.underflow = true)) ∧
    (∀ fuel a s p r', word_op_add fuel r a s p = some r' →
      r'.length = r.length ∧ r'.is_signed = r.is_signed ∧
      (r.overflow = true → r'.overflow = true) ∧
      (r.underflow = true → r'.underflow = true)) ∧
    (∀ fuel a b r', word_op_multiply fuel r a b = some r' →
      r'.length = r.length ∧ r'.is_signed = r.is_signed ∧
      (r.overflow = true → r'.overflow = true) ∧
      (r.underflow = true → r'.underflow = true)) ∧
    (∀ src p r', word_op_extract src r p = some r' →
      r'.length = r.length ∧ r'.is_signed = r.is_signed ∧
      (r.overflow = true → r'.overflow = true) ∧
      (r.underflow = true → r'.underflow = true)) ∧
    (∀ fuel (a : Word) (s : Int) p, 0 < r.length → 0 < a.length → s = 1 ∨ s = -1 →
      a.length + r.length + 3 ≤ fuel → ∃ r', word_op_add fuel r a s p = some r') ∧
    (∀ fuel (a b : Word), 0 < r.length → 0 < a.length → 0 < b.length →
      ¬ ((a.is_signed && BITS a (a.length - 1)) ≠ (b.is_signed && BITS b (b.length - 1))
        ∧ r.is_signed = false) →
      a.length + b.length + 33 ≤ fuel → ∃ r', word_op_multiply fuel r a b = some r') := by
  refine ⟨?_, ?_, ?_, ?_, ?_, ?_, ?_, ?_, ?_, ?_, ?_⟩
  · intro r' h
    obtain ⟨a, b, c, d⟩ := word_op_negate_frame r r' h
    exact ⟨a, b, d, fun x => by rw [c]; exact x⟩
  · intro k r' h
    obtain ⟨a, b, c, d⟩ := word_op_leftshift_frame r k r' h
    exact ⟨a, b, d, fun x => by rw [c]; exact x⟩
  · intro k r' h
    obtain ⟨a, b, c, d⟩ := word_op_rightshift_frame r k r' h
    exact ⟨a, b, fun x => by rw [d]; exact x, c⟩
  · intro r' h
    unfold word_op_bitinvert at h
    split_ifs at h
    injection h with h; subst h
    obtain ⟨a, b, c, d, _⟩ := bitinvert_loop_spec r.length 0 r
    exact ⟨a, b, fun x => by rw [c]; exact x, fun x => by rw [d]; exact x⟩
  · intro src p r' h
    unfold word_op_load at h
    split_ifs at h
    simp only [] at h
    split_ifs at h
    injection h with h; subst h
    obtain ⟨a, b, c, d, _⟩ :=
      load_loop_spec (r.is_signed && BITS r (r.length - 1)) src src.length p 0 r
    exact ⟨a, b, fun x => d.2 (Or.inl x), fun x => by rw [c]; exact x⟩
  · intro v p c r' h
    unfold word_op_load_constant at h
    split_ifs at h
    simp only [] at h
    injection h with h; subst h
    obtain ⟨a, b, c', d⟩ := load_constant_loop_frame
      (r.is_signed && decide (v % 2 ^ 32 ≥ 2 ^ 31)) c p (v % 2 ^ 32) r
    exact ⟨a, b, d, fun x => by rw [c']; exact x⟩
  · intro fuel a s p r' h
    obtain ⟨a1, a2, a3, a4⟩ := word_op_add_frame fuel r a s p r' h
    exact ⟨a1, a2, a4, fun x => by rw [a3]; exact x⟩
  · intro fuel a b r' h
    obtain ⟨a1, a2, a3, a4⟩ := word_op_multiply_frame fuel r a b r' h
    exact ⟨a1, a2, a4, fun x => by rw [a3]; exact x⟩
  · intro src p r' h
    unfold word_op_extract at h
    split_ifs at h
    injection h with h; subst h
    obtain ⟨a, b, c, d, _⟩ := extract_loop_spec src r.length p 0 r
    exact ⟨a, b, fun x => by rw [c]; exact x, fun x => by rw [d]; exact x⟩
  · intro fuel a s p hr ha hs hf
    exact word_op_add_some fuel r a s p hr ha hs hf
  · intro fuel a b hr ha hb hok hf
    exact word_op_multiply_some fuel r a b hr ha hb hok hf

theorem flags_sticky_witness :
    ∃ r', word_op_leftshift ⟨[true, true, false], true, true, false⟩ 1 = some r' ∧
      r'.length = 3 ∧ r'.is_signed = false ∧ r'.overflow = true ∧ r'.underflow = true :=
  ⟨⟨[false, true, true], true, true, false⟩, by decide,
    ((flags_sticky ⟨[true, true, false], true, true, false⟩).2.1 1
      ⟨[false, true, true], true, true, false⟩ (by decide)).1,
    rfl, rfl, rfl⟩

/-! ### The selection table of `main.c` (claims C30, C31, C36) -/

/-- Bounds of the two indices of the look-up, for all contents of the two samples. -/
theorem SRT_indices_bounds (P Sdot : Word) :
    Sregion_index Sdot < 4 ∧ -32 ≤ Pregion P Sdot ∧ Pregion P Sdot ≤ 31 ∧
      Pregion_index P Sdot < 33 := by
  have hb : ∀ b : Bool, ((b.toNat : Nat) : Int) = 0 ∨ ((b.toNat : Nat) : Int) = 1 := by
    intro b; cases b <;> simp
  have hn : ∀ b : Bool, b.toNat = 0 ∨ b.toNat = 1 := by
    intro b; cases b <;> simp
  have hS : Sregion_index Sdot < 4 := by
    unfold Sregion_index loose_bit_signal
    rcases hn (BITS Sdot algorithm_ns) with h | h
    · rw [h]
      simp only [algorithm_ns, Sregion_loop]
      rcases hn (BITS Sdot 1) with h1 | h1 <;> rcases hn (BITS Sdot 0) with h0 | h0 <;>
        simp [h1, h0, Sregion_loop]
    · rw [h]
      simp only [algorithm_ns, Sregion_loop]
      rcases hn (BITS Sdot 2) with h1 | h1 <;> rcases hn (BITS Sdot 1) with h0 | h0 <;>
        simp [h1, h0, Sregion_loop]
  have hP : -32 ≤ Pregion P Sdot ∧ Pregion P Sdot ≤ 31 := by
    unfold Pregion loose_bit_signal
    rcases hn (BITS Sdot algorithm_ns) with h | h
    · rw [h]
      simp only [algorithm_np, Pregion_loop]
      have h5 := hb (BITS P 5)
      have h4 := hb (BITS P 4)
      have h3 := hb (BITS P 3)
      have h2 := hb (BITS P 2)
      have h1 := hb (BITS P 1)
      have h0 := hb (BITS P 0)
      simp
      omega
    · rw [h]
      simp only [algorithm_np, Pregion_loop]
      have h6 := hb (BITS P 6)
      have h5 := hb (BITS P 5)
      have h4 := hb (BITS P 4)
      have h3 := hb (BITS P 3)
      have h2 := hb (BITS P 2)
      have h1 := hb (BITS P 1)
      simp
      omega
  refine ⟨hS, hP.1, hP.2, ?_⟩
  unfold Pregion_index
  simp only [SRT_table_p0, algorithm_np_fractional, algorithm_table_unsigned, true_and]
  split_ifs <;> omega

/-- The look-up never takes its index failure branch: it is the range check applied to
the table cell, negated when the region was negative. -/
theorem SRT_lookup_eq (P Sdot : Word) :
    SRT_lookup P Sdot =
      digit_range_check
        (if was_inverted P Sdot then
          -SRT_table_cell (Pregion_index P Sdot) (Sregion_index Sdot)
        else SRT_table_cell (Pregion_index P Sdot) (Sregion_index Sdot)) := by
  obtain ⟨h1, -, -, h2⟩ := SRT_indices_bounds P Sdot
  unfold SRT_lookup SRT_table_digit
  have e0 : SRT_table_dimensions.getD 0 0 = 33 := rfl
  have e1 : SRT_table_dimensions.getD 1 0 = 4 := rfl
  rw [e0, e1, if_neg (by omega)]
  simp [algorithm_table_unsigned]

/-- Claim C36: in the table look-up of `main.c`, for every content of the samples `P`
and `Sdot` (so for either value of the loose bit `Sdot[ns]`), the row index
`Pregion_index` is below `SRT_table_dimensions[0] = 33` and the column index
`Sregion_index` is below `SRT_table_dimensions[1] = 4`; the look-up therefore never
takes the out-of-range exit and is the digit range check applied to the table cell
(negated for a negative region). -/
theorem lookup_indices_in_range (P Sdot : Word) :
    Pregion_index P Sdot < SRT_table_dimensions.getD 0 0 ∧
    Sregion_index Sdot < SRT_table_dimensions.getD 1 0 ∧
    Pregion_index P Sdot < 33 ∧ Sregion_index Sdot < 4 ∧
    SRT_lookup P Sdot =
      digit_range_check
        (if was_inverted P Sdot then
          -SRT_table_cell (Pregion_index P Sdot) (Sregion_index Sdot)
        else SRT_table_cell (Pregion_index P Sdot) (Sregion_index Sdot)) := by
  obtain ⟨h1, -, -, h2⟩ := SRT_indices_bounds P Sdot
  exact ⟨h2, h1, h2, h1, SRT_lookup_eq P Sdot⟩

/-- Counterexample to claim C30: the cell in row 0, column 0 of `SRT_table` holds `4`,
which is above `algorithm_beta = 3`. -/
theorem SRT_table_has_forbidden_cell :
    SRT_table_cell 0 0 = 4 ∧ ¬ (-algorithm_alpha ≤ SRT_table_cell 0 0 ∧
      SRT_table_cell 0 0 ≤ algorithm_beta) := by
  decide

/-- Claim C30 (amended): every cell of the 33 rows by 4 columns of `SRT_table` lies in
`[0, 4]`; a cell holds `4`, a value outside `[-alpha, +beta] = [-3, 3]`, exactly in
row `r < 12` at column `c < 3 - r / 4`, and every other cell lies in `[0, 3]`; and
every digit that the look-up delivers, after the sign change and the digit range check,
lies in `[-alpha, +beta]`. -/
theorem SRT_table_entries :
    (∀ r, r < 33 → ∀ c, c < 4 →
      0 ≤ SRT_table_cell r c ∧ SRT_table_cell r c ≤ 4 ∧
      (SRT_table_cell r c = 4 ↔ r < 12 ∧ c < 3 - r / 4) ∧
      (¬ (r < 12 ∧ c < 3 - r / 4) → SRT_table_cell r c ≤ algorithm_beta)) ∧
    (∀ row column inverted d, SRT_table_digit row column inverted = some d →
      -algorithm_alpha ≤ d ∧ d ≤ algorithm_beta) := by
  constructor
  · decide
  · intro row column inverted d h
    have key : ∀ c : Int, digit_range_check c = some d →
        -algorithm_alpha ≤ d ∧ d ≤ algorithm_beta := by
      intro c hc
      unfold digit_range_check at hc
      split_ifs at hc with h2
      injection hc with hc
      subst hc
      omega
    unfold SRT_table_digit at h
    split_ifs at h with h1 h3
    · exact key _ h
    · exact key _ h

theorem SRT_table_entries_witness :
    (0 ≤ SRT_table_cell 12 3 ∧ SRT_table_cell 12 3 ≤ 4 ∧
      (SRT_table_cell 12 3 = 4 ↔ 12 < 12 ∧ 3 < 3 - 12 / 4) ∧
      (¬ (12 < 12 ∧ 3 < 3 - 12 / 4) → SRT_table_cell 12 3 ≤ algorithm_beta)) ∧
    SRT_table_digit 12 3 true = some (-3) ∧
    (-algorithm_alpha ≤ (-3 : Int) ∧ (-3 : Int) ≤ algorithm_beta) :=
  ⟨SRT_table_entries.1 12 (by decide) 3 (by decide), by decide,
    SRT_table_entries.2 12 3 true (-3) (by decide)⟩

/-- Claim C31: in the table look-up of `main.c` (symmetric table enabled), for every
sample `Sdot` (so for either loose-bit value) and every region `x` with
`1 ≤ x ≤ 31`: a residual sample with signed region `+x` and one with signed region
`-x` both read the cell in row `p0 - x` and column `Sregion_index`; the first gets the
digit of that cell, the second its negation (both pass or both fail the digit range
check). -/
theorem lookup_symmetric (P1 P2 Sdot : Word) (x : Nat) (hx1 : 1 ≤ x) (hx2 : x ≤ 31)
    (h1 : Pregion P1 Sdot = x) (h2 : Pregion P2 Sdot = -(x : Int)) :
    Pregion_index P1 Sdot = SRT_table_p0 - x ∧ Pregion_index P2 Sdot = SRT_table_p0 - x ∧
    was_inverted P1 Sdot = false ∧ was_inverted P2 Sdot = true ∧
    SRT_lookup P1 Sdot =
      digit_range_check (SRT_table_cell (SRT_table_p0 - x) (Sregion_index Sdot)) ∧
    SRT_lookup P2 Sdot =
      digit_range_check (-SRT_table_cell (SRT_table_p0 - x) (Sregion_index Sdot)) ∧
    (∀ d, SRT_lookup P1 Sdot = some d ↔ SRT_lookup P2 Sdot = some (-d)) := by
  have hp0 : SRT_table_p0 = 32 := rfl
  have e1 : Pregion_index P1 Sdot = SRT_table_p0 - x := by
    unfold Pregion_index
    rw [h1, hp0]
    simp only [algorithm_table_unsigned, true_and]
    split_ifs <;> omega
  have e2 : Pregion_index P2 Sdot = SRT_table_p0 - x := by
    unfold Pregion_index
    rw [h2, hp0]
    simp only [algorithm_table_unsigned, true_and]
    split_ifs <;> omega
  have w1 : was_inverted P1 Sdot = false := by
    unfold was_inverted
    rw [h1]
    simp
  have w2 : was_inverted P2 Sdot = true := by
    unfold was_inverted
    rw [h2]
    simp [algorithm_table_unsigned]
    omega
  have l1 := SRT_lookup_eq P1 Sdot
  have l2 := SRT_lookup_eq P2 Sdot
  rw [e1, w1] at l1
  rw [e2, w2] at l2
  simp only [Bool.false_eq_true, if_false] at l1
  simp only [if_true] at l2
  refine ⟨e1, e2, w1, w2, l1, l2, ?_⟩
  intro d
  rw [l1, l2]
  unfold digit_range_check
  simp only [algorithm_alpha, algorithm_beta]
  generalize SRT_table_cell (SRT_table_p0 - x) (Sregion_index Sdot) = c
  constructor
  · intro h
    split_ifs at h with hc
    injection h with h
    subst h
    rw [if_neg (by omega)]
  · intro h
    split_ifs at h with hc
    injection h with h
    rw [if_neg (by omega)]
    congr 1
    omega

theorem lookup_symmetric_witness :
    Pregion ⟨[false, false, true, true, false, false, false], false, false, true⟩
      ⟨[false, false, false, false], false, false, false⟩ = (12 : Nat) ∧
    Pregion ⟨[false, false, true, false, true, true, false], false, false, true⟩
      ⟨[false, false, false, false], false, false, false⟩ = -((12 : Nat) : Int) ∧
    SRT_lookup ⟨[false, false, true, true, false, false, false], false, false, true⟩
      ⟨[false, false, false, false], false, false, false⟩ = some 3 ∧
    SRT_lookup ⟨[false, false, true, false, true, true, false], false, false, true⟩
      ⟨[false, false, false, false], false, false, false⟩ = some (-3) :=
  have h := lookup_symmetric
    ⟨[false, false, true, true, false, false, false], false, false, true⟩
    ⟨[false, false, true, false, true, true, false], false, false, true⟩
    ⟨[false, false, false, false], false, false, false⟩ 12 (by decide) (by decide)
    (by decide) (by decide)
  ⟨by decide, by decide, (h.2.2.2.2.2.2 3).mpr (by decide), (h.2.2.2.2.2.2 3).mp (by decide)⟩

/-! ### Further kernel properties (claims C33, C35, C37, C38, C39) -/

/-- Two registers of the same width with the same unsigned value have the same bits. -/
theorem bits_eq_of_uval_eq (a b : List Bool) (hl : a.length = b.length)
    (h : uval a = uval b) : a = b := by
  apply bits_ext a b hl
  intro j _
  rw [← testBit_uval, ← testBit_uval, h]

/-- Claim C39: for every valid signed register `r` and every shift count `k`,
`word_op_leftshift(r, k)` returns with the sign bit (bit `length - 1`) unchanged; the
loop rewrites only bits `0 .. length - 2`, so the register is negative after the call
exactly when it was before. -/
theorem leftshift_keeps_sign_bit (r : Word) (k : Nat) (hlen : 0 < r.length)
    (hs : r.is_signed = true) :
    ∃ r', word_op_leftshift r k = some r' ∧ r'.length = r.length ∧
      r'.is_signed = true ∧
      BITS r' (r.length - 1) = BITS r (r.length - 1) ∧
      (∀ j, r.length - 1 ≤ j → BITS r' j = BITS r j) ∧
      (r'.value < 0 ↔ r.value < 0) := by
  refine ⟨_, word_op_leftshift_signed_eq r k hlen hs, ?_⟩
  obtain ⟨h1, h2, _, _, h5⟩ :=
    leftshift_loop_spec k (BITS r (r.length - 1)) (r.length - 1 - 1) (r.length - 1) r
      (by omega)
  have hb : ∀ j, r.length - 1 ≤ j →
      BITS (leftshift_loop k (BITS r (r.length - 1)) (r.length - 1 - 1) (r.length - 1) r) j
        = BITS r j := by
    intro j hj
    rw [h5, if_neg (by omega)]
  refine ⟨h1, by rw [h2, hs], hb _ (le_refl _), hb, ?_⟩
  rw [← sign_true_iff_value_neg, ← sign_true_iff_value_neg, h1, h2, hb _ (le_refl _)]

theorem leftshift_keeps_sign_bit_witness :
    0 < (Word.mk [true, true, false, true] false false true).length ∧
    ∃ r', word_op_leftshift ⟨[true, true, false, true], false, false, true⟩ 2 = some r' ∧
      r'.length = 4 ∧ r'.is_signed = true ∧
      BITS r' (4 - 1) = BITS ⟨[true, true, false, true], false, false, true⟩ (4 - 1) ∧
      (∀ j, 4 - 1 ≤ j → BITS r' j = BITS ⟨[true, true, false, true], false, false, true⟩ j) ∧
      (r'.value < 0 ↔ (Word.mk [true, true, false, true] false false true).value < 0) :=
  ⟨by decide,
    leftshift_keeps_sign_bit ⟨[true, true, false, true], false, false, true⟩ 2 (by decide) rfl⟩

/-- Claim C38: for every valid signed register `r` (zero and the most negative value
included), two calls of `word_op_negate` in a row both return, and the second leaves
exactly the bit pattern that `r` had before the first; the length, the sign mode and
`underflow` are unchanged as well. -/
theorem negate_twice_restores_bits (r : Word) (hlen : 0 < r.length)
    (hs : r.is_signed = true) :
    ∃ r1 r2, word_op_negate r = some r1 ∧ word_op_negate r1 = some r2 ∧
      r2.bits = r.bits ∧ r2.length = r.length ∧ r2.is_signed = true ∧
      r2.underflow = r.underflow := by
  obtain ⟨n, hn⟩ : ∃ n, r.length = n + 1 := ⟨r.length - 1, by omega⟩
  obtain ⟨r1, e1, l1, s1, u1, _, b1, v1⟩ := word_op_negate_spec r n hn hs
  obtain ⟨r2, e2, l2, s2, u2, _, b2, v2⟩ := word_op_negate_spec r1 n (by rw [l1, hn]) s1
  refine ⟨r1, r2, e1, e2, ?_, by rw [l2, l1], s2, by rw [u2, u1]⟩
  apply bits_eq_of_uval_eq
  · have := l2; have := l1
    unfold Word.length at *
    omega
  · have hr2 : r2.bits.length = n + 1 := by
      have := l2; have := l1
      unfold Word.length at *
      omega
    have hr : r.bits.length = n + 1 := hn
    rw [uval_split r2.bits n hr2, uval_split r.bits n hr]
    have hb : r2.bits.getD n false = r.bits.getD n false := by
      have : BITS r2 n = BITS r n := by rw [b2, b1]; simp
      exact this
    rw [hb, v2, v1]
    have hlt : uval r.bits % 2 ^ n < 2 ^ n := Nat.mod_lt _ (by positivity)
    generalize uval r.bits % 2 ^ n = a at hlt
    generalize 2 ^ n = P at hlt
    have : (P - (P - a) % P) % P = a := by
      by_cases ha : a = 0
      · subst ha
        simp
      · rw [Nat.mod_eq_of_lt (by omega : P - a < P), Nat.mod_eq_of_lt (by omega)]
        omega
    rw [this]

theorem negate_twice_restores_bits_witness :
    0 < (Word.mk [false, false, false, false] false false true).length ∧
    ∃ r1 r2, word_op_negate ⟨[false, false, false, false], false, false, true⟩ = some r1 ∧
      word_op_negate r1 = some r2 ∧
      r2.bits = [false, false, false, false] ∧ r2.length = 4 ∧ r2.is_signed = true ∧
      r2.underflow = false :=
  ⟨by decide,
    negate_twice_restores_bits ⟨[false, false, false, false], false, false, true⟩
      (by decide) rfl⟩

/-- Claim C35: for an unsigned result register `r` of width `w` with `overflow` clear,
an unsigned addend `a` and a position `p` with `p + length(a) ≤ w`,
`word_op_add(r, a, +1, p)` returns (for every fuel of at least `w + 1` loop
iterations) with the value `(value(r) + value(a) * 2^p) mod 2^w`, and `overflow` ends
set exactly when `value(r) + value(a) * 2^p ≥ 2^w`; `underflow` is unchanged. -/
theorem add_unsigned_in_range (fuel : Nat) (r a : Word) (p : Nat)
    (hr : r.is_signed = false) (ha : a.is_signed = false) (hal : 0 < a.length)
    (hfit : p + a.length ≤ r.length) (ho : r.overflow = false)
    (hf : r.length + 1 ≤ fuel) :
    ∃ r', word_op_add fuel r a 1 p = some r' ∧ r'.length = r.length ∧
      r'.is_signed = false ∧ r'.underflow = r.underflow ∧
      r'.value = (r.value + a.value * 2 ^ p) % 2 ^ r.length ∧
      (r'.overflow = true ↔ 2 ^ r.length ≤ r.value + a.value * 2 ^ p) := by
  obtain ⟨r', c, e, hl, hsg, hun, hval, hc, hc1, _, hov⟩ :=
    word_op_add_unsigned fuel r a 1 p (Or.inl rfl) hr ha hal hfit (by omega)
  refine ⟨r', e, hl, hsg, hun, ?_, ?_⟩
  · rw [Word.value_unsigned r' hsg, Word.value_unsigned r hr, Word.value_unsigned a ha]
    have hlt := uval_int_lt r'
    rw [hl] at hlt
    have h0 : (0 : Int) ≤ uval r'.bits := Int.ofNat_nonneg _
    have e2 : (uval r.bits : Int) + (uval a.bits : Int) * 2 ^ p =
        (uval r'.bits : Int) + c * 2 ^ r.length := by
      rw [hval]; ring
    rw [e2, Int.add_mul_emod_self, Int.emod_eq_of_lt h0 hlt]
  · rw [Word.value_unsigned r hr, Word.value_unsigned a ha, hov, ho]
    have hlt := uval_int_lt r'
    rw [hl] at hlt
    have h0 : (0 : Int) ≤ uval r'.bits := Int.ofNat_nonneg _
    have hpos : (0 : Int) < 2 ^ r.length := by positivity
    have hc' := hc1 rfl
    simp only [Bool.false_or, decide_eq_true_eq]
    generalize (2 : Int) ^ r.length = P at *
    rcases hc with h | h | h
    · subst h
      constructor
      · intro h; exact absurd h (by decide)
      · intro h; exfalso; linarith
    · subst h
      constructor
      · intro _; linarith
      · intro _; rfl
    · exact absurd h hc'

theorem add_unsigned_in_range_witness :
    (2 : Nat) + (Word.mk [true, true] false false false).length ≤
      (Word.mk [true, false, true, true] false false false).length ∧
    ∃ r', word_op_add 5 ⟨[true, false, true, true], false, false, false⟩
        ⟨[true, true], false, false, false⟩ 1 2 = some r' ∧
      r'.length = 4 ∧ r'.is_signed = false ∧ r'.underflow = false ∧
      r'.value = ((Word.mk [true, false, true, true] false false false).value +
        (Word.mk [true, true] false false false).value * 2 ^ 2) % 2 ^ 4 ∧
      (r'.overflow = true ↔
        2 ^ 4 ≤ (Word.mk [true, false, true, true] false false false).value +
          (Word.mk [true, true] false false false).value * 2 ^ 2) :=
  ⟨by decide,
    add_unsigned_in_range 5 ⟨[true, false, true, true], false, false, false⟩
      ⟨[true, true], false, false, false⟩ 2 rfl rfl (by decide) (by decide) rfl
      (by decide)⟩

/-- Claim C33: the first-digit selector of `main.c` (the branch `iteration == delta` of
the digit selection).  For every valid practical residual register the 3-bit unsigned
sample is extracted, and the selected digit is `3` when the sample value is at least
`3`, `2` when it is `1` or `2`, and `1` when it is `0`; so the digit is always one of
`1, 2, 3`.  The sample holds the three bits of the residual from position
`m (n + 1) + 2 Z - 3` upwards (when these lie inside the register).  The digit selection at `iteration = delta` is this selector whatever the
samples `P` and `Sdot` hold. -/
theorem first_digit_selector_spec (algorithm_m algorithm_n algorithm_Z : Nat) (W : Word)
    (hW : 0 < W.length) :
    ∃ sample d,
      word_op_extract W (create_word 3)
        (((algorithm_m * (algorithm_n + 1) + 2 * algorithm_Z : Nat) : Int) - 3)
          = some sample ∧
      sample.length = 3 ∧ sample.is_signed = false ∧
      (∀ j, j < 3 → 3 ≤ algorithm_m * (algorithm_n + 1) + 2 * algorithm_Z →
        algorithm_m * (algorithm_n + 1) + 2 * algorithm_Z - 3 + j < W.length →
        BITS sample j = BITS W (algorithm_m * (algorithm_n + 1) + 2 * algorithm_Z - 3 + j)) ∧
      first_digit_selector algorithm_m algorithm_n algorithm_Z W = some d ∧
      (3 ≤ uval sample.bits → d = 3) ∧
      (uval sample.bits = 1 ∨ uval sample.bits = 2 → d = 2) ∧
      (uval sample.bits = 0 → d = 1) ∧
      (d = 1 ∨ d = 2 ∨ d = 3) ∧
      (∀ delta P Sdot, select_digit algorithm_m algorithm_n algorithm_Z delta delta W P Sdot
        = some d) := by
  have hex : word_op_extract W (create_word 3)
      (((algorithm_m * (algorithm_n + 1) + 2 * algorithm_Z : Nat) : Int) - 3) =
      some (extract_loop W 3
        (((algorithm_m * (algorithm_n + 1) + 2 * algorithm_Z : Nat) : Int) - 3) 0
        (create_word 3)) := by
    unfold word_op_extract
    rw [create_word_length, if_neg (by omega)]
  obtain ⟨l, sg, _, _, hbits⟩ := extract_loop_spec W 3
    (((algorithm_m * (algorithm_n + 1) + 2 * algorithm_Z : Nat) : Int) - 3) 0 (create_word 3)
  rw [create_word_length] at l
  have sg' : (extract_loop W 3
      (((algorithm_m * (algorithm_n + 1) + 2 * algorithm_Z : Nat) : Int) - 3) 0
      (create_word 3)).is_signed = false := by rw [sg]; rfl
  have hsel : first_digit_selector algorithm_m algorithm_n algorithm_Z W =
      some (if (3 : Int) ≤ uval (extract_loop W 3
          (((algorithm_m * (algorithm_n + 1) + 2 * algorithm_Z : Nat) : Int) - 3) 0
          (create_word 3)).bits then 3
        else if (1 : Int) ≤ uval (extract_loop W 3
          (((algorithm_m * (algorithm_n + 1) + 2 * algorithm_Z : Nat) : Int) - 3) 0
          (create_word 3)).bits then 2 else 1) := by
    unfold first_digit_selector
    rw [hex]
    simp only [Option.bind_eq_bind, Option.some_bind]
    rw [word_op_compare_constant_value _ 2 (by rw [l]; omega) (by norm_num) (by norm_num),
      word_op_compare_constant_value _ 0 (by rw [l]; omega) (by norm_num) (by norm_num),
      Word.value_unsigned _ sg']
    generalize (uval (extract_loop W 3
      (((algorithm_m * (algorithm_n + 1) + 2 * algorithm_Z : Nat) : Int) - 3) 0
      (create_word 3)).bits : Int) = v
    split_ifs <;> first | rfl | contradiction | (exfalso; omega)
  refine ⟨_, _, hex, l, sg', ?_, hsel, ?_, ?_, ?_, ?_, ?_⟩
  · intro j hj h3 hlt
    rw [hbits j, create_word_length, if_pos (by omega), if_pos (by omega)]
    congr 1
    omega
  · intro h
    rw [if_pos (by exact_mod_cast h)]
  · intro h
    rw [if_neg (by omega), if_pos (by omega)]
  · intro h
    rw [if_neg (by omega), if_neg (by omega)]
  · split_ifs <;> simp
  · intro delta P Sdot
    unfold select_digit
    rw [if_pos rfl, hsel]

theorem first_digit_selector_spec_witness :
    0 < (Word.mk [false, true, true, false, true] false false true).length ∧
    ∃ sample d,
      word_op_extract ⟨[false, true, true, false, true], false, false, true⟩ (create_word 3)
        (((1 * (1 + 1) + 2 * 1 : Nat) : Int) - 3) = some sample ∧
      sample.length = 3 ∧ sample.is_signed = false ∧
      (∀ j, j < 3 → 3 ≤ 1 * (1 + 1) + 2 * 1 → 1 * (1 + 1) + 2 * 1 - 3 + j <
          (Word.mk [false, true, true, false, true] false false true).length →
        BITS sample j =
          BITS ⟨[false, true, true, false, true], false, false, true⟩
            (1 * (1 + 1) + 2 * 1 - 3 + j)) ∧
      first_digit_selector 1 1 1 ⟨[false, true, true, false, true], false, false, true⟩
        = some d ∧
      (3 ≤ uval sample.bits → d = 3) ∧
      (uval sample.bits = 1 ∨ uval sample.bits = 2 → d = 2) ∧
      (uval sample.bits = 0 → d = 1) ∧
      (d = 1 ∨ d = 2 ∨ d = 3) ∧
      (∀ delta P Sdot, select_digit 1 1 1 delta delta
        ⟨[false, true, true, false, true], false, false, true⟩ P Sdot = some d) :=
  ⟨by decide,
    first_digit_selector_spec 1 1 1 ⟨[false, true, true, false, true], false, false, true⟩
      (by decide)⟩

/-- Two runs of the column loop of `word_op_multiply` on two unsigned result registers of
the same width: the results agree wherever the registers agreed at the start and at
every column below `na + nb - 1` that is still to be visited; the `overflow` flags
agree if they did at the start. -/
theorem multiply_loop_rel (na nb : Nat) (a b : Word) :
    ∀ (fuel i sum : Nat) (R1 R2 r1 r2 : Word),
      R1.length = R2.length → R1.is_signed = false → R2.is_signed = false →
      multiply_loop na nb a b fuel i sum R1 = some r1 →
      multiply_loop na nb a b fuel i sum R2 = some r2 →
      (R1.overflow = R2.overflow → r1.overflow = r2.overflow) ∧
      ∀ j, (BITS R1 j = BITS R2 j ∨ (i ≤ j ∧ j < na + nb - 1)) → BITS r1 j = BITS r2 j := by
  intro fuel
  induction fuel with
  | zero => intro i sum R1 R2 r1 r2 _ _ _ h; simp [multiply_loop] at h
  | succ fuel ih =>
    intro i sum R1 R2 r1 r2 hl hs1 hs2 h1 h2
    unfold multiply_loop at h1 h2
    simp only [] at h1 h2
    generalize (multiply_column a b _ _ _ sum) = sum1 at h1 h2
    by_cases hc : ¬ (i < na + nb - 1 ∨ sum ≠ 0)
    · rw [if_pos hc] at h1 h2
      injection h1 with h1; subst h1
      injection h2 with h2; subst h2
      refine ⟨fun x => x, ?_⟩
      intro j hj
      rcases hj with h | ⟨h, h'⟩
      · exact h
      · exact absurd (Or.inl (by omega)) hc
    · rw [if_neg hc] at h1 h2
      simp only [hs1, hs2, Bool.false_eq_true, false_and, if_false] at h1 h2
      by_cases h3 : i ≥ R1.length ∧ sum1 ≠ 0
      · rw [if_pos h3] at h1
        rw [if_pos (by rw [← hl]; exact h3)] at h2
        injection h1 with h1; subst h1
        injection h2 with h2; subst h2
        refine ⟨fun _ => rfl, ?_⟩
        intro j hj
        rcases hj with h | ⟨h, h'⟩
        · exact h
        · have e1 : BITS R1 j = false := BITS_of_length_le R1 j (by omega)
          have e2 : BITS R2 j = false := BITS_of_length_le R2 j (by omega)
          show BITS R1 j = BITS R2 j
          rw [e1, e2]
      · rw [if_neg h3] at h1
        rw [if_neg (by rw [← hl]; exact h3)] at h2
        by_cases h4 : i < R1.length
        · rw [if_pos h4] at h1
          rw [if_pos (by rw [← hl]; exact h4)] at h2
          obtain ⟨q1, q2⟩ := ih (i + 1) (sum1 / 2) (R1.store i (decide (sum1 % 2 = 1)))
            (R2.store i (decide (sum1 % 2 = 1))) r1 r2
            (by rw [length_store, length_store, hl]) hs1 hs2 h1 h2
          refine ⟨q1, ?_⟩
          intro j hj
          apply q2
          rw [BITS_store, BITS_store]
          by_cases hji : j = i
          · left
            rw [if_pos ⟨hji, h4⟩, if_pos ⟨hji, by rw [← hl]; exact h4⟩]
          · rcases hj with h | ⟨h, h'⟩
            · left
              rw [if_neg (by tauto), if_neg (by tauto)]
              exact h
            · right
              omega
        · rw [if_neg h4] at h1
          rw [if_neg (by rw [← hl]; exact h4)] at h2
          obtain ⟨q1, q2⟩ := ih _ _ _ _ _ _ hl hs1 hs2 h1 h2
          refine ⟨q1, ?_⟩
          intro j hj
          apply q2
          rcases hj with h | ⟨h, h'⟩
          · left; exact h
          · by_cases hji : j = i
            · left
              rw [BITS_of_length_le R1 j (by omega), BITS_of_length_le R2 j (by omega)]
            · right
              omega

/-- Counterexample to claim C37: `1 * 1` multiplied into the unsigned 4-bit register
`1111` leaves `1111`, multiplied into `0000` it leaves `0001`; both registers have
clear flags and the same width. -/
theorem multiply_keeps_stale_bits :
    word_op_multiply 40 ⟨[true, true, true, true], false, false, false⟩
        ⟨[true], false, false, false⟩ ⟨[true], false, false, false⟩ =
      some ⟨[true, true, true, true], false, false, false⟩ ∧
    word_op_multiply 40 ⟨[false, false, false, false], false, false, false⟩
        ⟨[true], false, false, false⟩ ⟨[true], false, false, false⟩ =
      some ⟨[true, false, false, false], false, false, false⟩ := by
  decide

/-- Claim C37 (amended): for valid unsigned operands `a`, `b` and two unsigned result
registers of the same width, both calls of `word_op_multiply` return (for every fuel of
at least `length(a) + length(b) + 33` loop iterations), and the two results agree at
every bit position below `length(a) + length(b) - 1` and at every position where the
two registers agreed before the call; equal `overflow` flags stay equal.  So the two
results have identical bits when the width is at most `length(a) + length(b) - 1`, or
when the registers agreed from position `length(a) + length(b) - 1` upwards. -/
theorem multiply_result_dependence (fuel : Nat) (a b R1 R2 : Word)
    (ha : 0 < a.length) (hb : 0 < b.length) (hR : 0 < R1.length)
    (hl : R1.length = R2.length) (hau : a.is_signed = false) (hbu : b.is_signed = false)
    (h1u : R1.is_signed = false) (h2u : R2.is_signed = false)
    (hf : a.length + b.length + 33 ≤ fuel) :
    ∃ r1 r2, word_op_multiply fuel R1 a b = some r1 ∧
      word_op_multiply fuel R2 a b = some r2 ∧ r1.length = r2.length ∧
      (R1.overflow = R2.overflow → r1.overflow = r2.overflow) ∧
      (∀ j, BITS R1 j = BITS R2 j ∨ j < a.length + b.length - 1 → BITS r1 j = BITS r2 j) ∧
      (R1.length ≤ a.length + b.length - 1 → r1.bits = r2.bits) ∧
      ((∀ j, a.length + b.length - 1 ≤ j → BITS R1 j = BITS R2 j) → r1.bits = r2.bits) := by
  have hsig : (a.is_signed && BITS a (a.length - 1)) = (b.is_signed && BITS b (b.length - 1)) := by
    rw [hau, hbu]; rfl
  obtain ⟨r1, e1⟩ := word_op_multiply_some fuel R1 a b hR ha hb
    (by rw [hsig]; simp) hf
  obtain ⟨r2, e2⟩ := word_op_multiply_some fuel R2 a b (by omega) ha hb
    (by rw [hsig]; simp) hf
  obtain ⟨l1, _, _, _⟩ := word_op_multiply_frame fuel R1 a b r1 e1
  obtain ⟨l2, _, _, _⟩ := word_op_multiply_frame fuel R2 a b r2 e2
  have e1' := e1
  have e2' := e2
  unfold word_op_multiply at e1' e2'
  rw [if_neg (by omega), if_neg (by omega), if_neg (by omega)] at e1' e2'
  simp only [hsig, ne_eq, not_true_eq_false, false_and, if_false] at e1' e2'
  rw [word_op_abs_unsigned a ha hau, word_op_abs_unsigned b hb hbu] at e1' e2'
  simp only [] at e1' e2'
  cases hm1 : multiply_loop a.length b.length a b fuel 0 0 R1 with
  | none => rw [hm1] at e1'; simp at e1'
  | some x1 =>
    cases hm2 : multiply_loop a.length b.length a b fuel 0 0 R2 with
    | none => rw [hm2] at e2'; simp at e2'
    | some x2 =>
      rw [hm1] at e1'
      rw [hm2] at e2'
      simp only [Option.some.injEq] at e1' e2'
      subst e1' e2'
      obtain ⟨q1, q2⟩ := multiply_loop_rel a.length b.length a b fuel 0 0 R1 R2 x1 x2 hl
        h1u h2u hm1 hm2
      have hbits : ∀ j, BITS R1 j = BITS R2 j ∨ j < a.length + b.length - 1 →
          BITS x1 j = BITS x2 j := by
        intro j hj
        apply q2
        rcases hj with h | h
        · left; exact h
        · right; exact ⟨Nat.zero_le _, h⟩
      have hlen : x1.bits.length = x2.bits.length := by
        have : x1.length = x2.length := by rw [l1, l2, hl]
        exact this
      refine ⟨x1, x2, e1, e2, by rw [l1, l2, hl], q1, hbits, ?_, ?_⟩
      · intro hw
        apply bits_ext _ _ hlen
        intro j hj
        have hj' : j < x1.length := hj
        exact hbits j (Or.inr (by rw [l1] at hj'; omega))
      · intro hag
        apply bits_ext _ _ hlen
        intro j hj
        by_cases hjc : j < a.length + b.length - 1
        · exact hbits j (Or.inr hjc)
        · exact hbits j (Or.inl (hag j (by omega)))

theorem multiply_result_dependence_witness :
    (Word.mk [true, false, true] false false false).length =
      (Word.mk [false, true, false] false false false).length ∧
    ∃ r1 r2, word_op_multiply 40 ⟨[true, false, true], false, false, false⟩
        ⟨[true, true], false, false, false⟩ ⟨[true, true], false, false, false⟩ = some r1 ∧
      word_op_multiply 40 ⟨[false, true, false], false, false, false⟩
        ⟨[true, true], false, false, false⟩ ⟨[true, true], false, false, false⟩ = some r2 ∧
      r1.length = r2.length ∧
      ((Word.mk [true, false, true] false false false).overflow =
        (Word.mk [false, true, false] false false false).overflow →
        r1.overflow = r2.overflow) ∧
      (∀ j, BITS (Word.mk [true, false, true] false false false) j =
          BITS (Word.mk [false, true, false] false false false) j ∨
          j < (Word.mk [true, true] false false false).length +
            (Word.mk [true, true] false false false).length - 1 → BITS r1 j = BITS r2 j) ∧
      ((Word.mk [true, false, true] false false false).length ≤
        (Word.mk [true, true] false false false).length +
          (Word.mk [true, true] false false false).length - 1 → r1.bits = r2.bits) ∧
      ((∀ j, (Word.mk [true, true] false false false).length +
          (Word.mk [true, true] false false false).length - 1 ≤ j →
          BITS (Word.mk [true, false, true] false false false) j =
            BITS (Word.mk [false, true, false] false false false) j) → r1.bits = r2.bits) :=
  ⟨by decide,
    multiply_result_dependence 40 ⟨[true, true], false, false, false⟩
      ⟨[true, true], false, false, false⟩ ⟨[true, false, true], false, false, false⟩
      ⟨[false, true, false], false, false, false⟩ (by decide) (by decide) (by decide)
      (by decide) rfl rfl rfl rfl (by decide)⟩

/-! ### Value-level behaviour of shift and load; the on-the-fly conversion (claims C32, C40) -/

/-- Left shift of a valid unsigned register: the bits and the value after the call. -/
theorem word_op_leftshift_unsigned_spec (r : Word) (k : Nat) (hlen : 0 < r.length)
    (hu : r.is_signed = false) :
    ∃ r', word_op_leftshift r k = some r' ∧ r'.length = r.length ∧ r'.is_signed = false ∧
      r'.underflow = r.underflow ∧
      (r'.overflow = true ↔
        (r.overflow = true ∨ ∃ j, j < r.length ∧ r.length - 1 - j < k ∧ BITS r j = true)) ∧
      (∀ j, BITS r' j = if j < r.length ∧ k ≤ j then BITS r (j - k) else false) ∧
      uval r'.bits = (uval r.bits * 2 ^ k) % 2 ^ r.length := by
  refine ⟨_, word_op_leftshift_unsigned_eq r k hlen hu, ?_⟩
  obtain ⟨h1, h2, h3, h4, h5⟩ :=
    leftshift_loop_spec k false (r.length - 1) r.length r (le_refl _)
  have hb : ∀ j, BITS (leftshift_loop k false (r.length - 1) r.length r) j =
      if j < r.length ∧ k ≤ j then BITS r (j - k) else false := by
    intro j
    rw [h5]
    by_cases hj : j < r.length
    · by_cases hk : k ≤ j
      · rw [if_pos hj, if_pos hk, if_pos ⟨hj, hk⟩]
      · rw [if_pos hj, if_neg hk, if_neg (by tauto)]
    · rw [if_neg hj, if_neg (by tauto)]
      exact BITS_of_length_le r j (by omega)
  refine ⟨h1, by rw [h2, hu], h3, ?_, hb, ?_⟩
  · rw [h4]
    constructor
    · rintro (h | ⟨j, ha, hb', hc⟩)
      · exact Or.inl h
      · exact Or.inr ⟨j, ha, hb', by simpa using hc⟩
    · rintro (h | ⟨j, ha, hb', hc⟩)
      · exact Or.inl h
      · exact Or.inr ⟨j, ha, hb', by simp [hc]⟩
  · apply Nat.eq_of_testBit_eq
    intro j
    rw [← BITS_eq_testBit, hb, Nat.testBit_mod_two_pow, mul_comm, Nat.testBit_mul_pow_two,
      ← BITS_eq_testBit]
    by_cases hj : j < r.length <;> by_cases hk : k ≤ j <;> simp [hj, hk]

/-- Load of a valid unsigned register into a valid unsigned register: always accepted;
the bits after the call. -/
theorem word_op_load_unsigned_spec (dst src : Word) (p : Nat) (hd : 0 < dst.length)
    (hs : 0 < src.length) (hdu : dst.is_signed = false) (hsu : src.is_signed = false) :
    ∃ r', word_op_load dst src p = some r' ∧ r'.length = dst.length ∧
      r'.is_signed = false ∧ r'.underflow = dst.underflow ∧
      (r'.overflow = true ↔
        (dst.overflow = true ∨
          ∃ t, t < src.length ∧ p + t ≥ dst.length ∧ BITS src t = true)) ∧
      ∀ j, BITS r' j =
        if p ≤ j ∧ j < p + src.length ∧ j < dst.length then BITS src (j - p)
        else BITS dst j := by
  refine ⟨load_loop false src src.length p 0 dst, ?_, ?_⟩
  · unfold word_op_load
    rw [if_neg (by omega)]
    simp [hdu, hsu]
  · obtain ⟨a, b, c, d, e⟩ := load_loop_spec false src src.length p 0 dst
    refine ⟨a, by rw [b, hdu], c, ?_, ?_⟩
    · rw [d]
      constructor
      · rintro (h | ⟨t, h1, h2, h3⟩)
        · exact Or.inl h
        · exact Or.inr ⟨t, h1, h2, by simpa using h3⟩
      · rintro (h | ⟨t, h1, h2, h3⟩)
        · exact Or.inl h
        · exact Or.inr ⟨t, h1, h2, by simp [h3]⟩
    · intro j
      rw [e]
      simp only [Nat.zero_add]

/-- Load of a 32-bit constant into a field that lies inside a valid register: the call
returns, and only the bits of the field change. -/
theorem word_op_load_constant_spec (dst : Word) (v p c : Nat) (hlen : 0 < dst.length)
    (hv : v < 2 ^ 32) (hc : c ≤ 32) (hpc : p + c ≤ dst.length) :
    ∃ r', word_op_load_constant dst v p c = some r' ∧ r'.length = dst.length ∧
      r'.is_signed = dst.is_signed ∧ r'.overflow = dst.overflow ∧
      r'.underflow = dst.underflow ∧
      ∀ j, BITS r' j = if p ≤ j ∧ j < p + c then v.testBit (j - p) else BITS dst j := by
  refine ⟨load_constant_loop (dst.is_signed && decide (v % 2 ^ 32 ≥ 2 ^ 31)) c p
    (v % 2 ^ 32) dst, ?_, ?_⟩
  · unfold word_op_load_constant
    rw [if_neg (by omega), if_neg (by omega)]
  · obtain ⟨a, b, d, _⟩ := load_constant_loop_frame
      (dst.is_signed && decide (v % 2 ^ 32 ≥ 2 ^ 31)) c p (v % 2 ^ 32) dst
    obtain ⟨e, f⟩ := load_constant_loop_inrange
      (dst.is_signed && decide (v % 2 ^ 32 ≥ 2 ^ 31)) c p (v % 2 ^ 32) dst hpc
    rw [Nat.mod_eq_of_lt hv] at a b d e f ⊢
    exact ⟨a, b, e, d, f⟩

/-- Load of a constant into a register that is exactly as wide as the field: the
register then holds the low bits of the constant. -/
theorem word_op_load_constant_full (dst : Word) (v c : Nat) (hc0 : 0 < c)
    (hlen : dst.length = c) (hv : v < 2 ^ 32) (hc : c ≤ 32) :
    ∃ r', word_op_load_constant dst v 0 c = some r' ∧ r'.length = c ∧
      r'.is_signed = dst.is_signed ∧ r'.overflow = dst.overflow ∧
      r'.underflow = dst.underflow ∧ uval r'.bits = v % 2 ^ c := by
  obtain ⟨r', e, l, s, o, u, b⟩ :=
    word_op_load_constant_spec dst v 0 c (by omega) hv hc (by omega)
  refine ⟨r', e, by rw [l, hlen], s, o, u, ?_⟩
  apply Nat.eq_of_testBit_eq
  intro j
  rw [← BITS_eq_testBit, b, Nat.testBit_mod_two_pow]
  by_cases hj : j < c
  · simp [hj]
  · rw [if_neg (by omega)]
    simp only [hj, decide_False, Bool.false_and]
    exact BITS_of_length_le dst j (by omega)

/-- Value of a register whose bits are those of `D` below `k` and those of `R`, moved up
by `k`, from `k` upwards. -/
theorem uval_shift_append (r2 R D : Word) (k : Nat) (hl : r2.length = R.length)
    (hD : D.length ≤ k)
    (hb : ∀ j, j < R.length → BITS r2 j = if j < k then BITS D j else BITS R (j - k)) :
    uval r2.bits = (uval R.bits * 2 ^ k + uval D.bits) % 2 ^ R.length := by
  apply Nat.eq_of_testBit_eq
  intro j
  have hDlt : uval D.bits < 2 ^ k :=
    lt_of_lt_of_le (uval_lt D.bits) (Nat.pow_le_pow_right (by norm_num) hD)
  rw [Nat.testBit_mod_two_pow, mul_comm, Nat.testBit_mul_pow_two_add _ hDlt,
    ← BITS_eq_testBit]
  by_cases hj : j < R.length
  · rw [hb j hj]
    simp only [hj, decide_True, Bool.true_and]
    by_cases hk : j < k
    · rw [if_pos hk, if_pos hk, BITS_eq_testBit]
    · rw [if_neg hk, if_neg hk, BITS_eq_testBit]
  · simp only [hj, decide_False, Bool.false_and]
    exact BITS_of_length_le r2 j (by omega)

/-- Shift an unsigned register left by `k` and load a digit register of at most `k`
bits at position 0: both calls return and the register holds
`(value * 2^k + digit) mod 2^w`. -/
theorem shift_append_spec (R D : Word) (k : Nat) (hR : 0 < R.length) (hD : 0 < D.length)
    (hRu : R.is_signed = false) (hDu : D.is_signed = false) (hDk : D.length ≤ k) :
    ∃ r1 r2, word_op_leftshift R k = some r1 ∧ word_op_load r1 D 0 = some r2 ∧
      r2.length = R.length ∧ r2.is_signed = false ∧ r2.underflow = R.underflow ∧
      uval r2.bits = (uval R.bits * 2 ^ k + uval D.bits) % 2 ^ R.length := by
  obtain ⟨r1, e1, l1, s1, u1, _, b1, _⟩ := word_op_leftshift_unsigned_spec R k hR hRu
  obtain ⟨r2, e2, l2, s2, u2, _, b2⟩ :=
    word_op_load_unsigned_spec r1 D 0 (by omega) hD s1 hDu
  refine ⟨r1, r2, e1, e2, by rw [l2, l1], s2, by rw [u2, u1], ?_⟩
  apply uval_shift_append r2 R D k (by rw [l2, l1]) hDk
  intro j hj
  rw [b2, b1]
  simp only [Nat.zero_le, true_and, Nat.zero_add, Nat.sub_zero]
  by_cases h1 : j < D.length
  · rw [if_pos ⟨h1, by omega⟩, if_pos (by omega)]
  · rw [if_neg (by tauto)]
    by_cases h2 : j < k
    · rw [if_neg (by omega), if_pos h2]
      exact (BITS_of_length_le D j (by omega)).symm
    · rw [if_pos ⟨hj, by omega⟩, if_neg h2]

/-- Copy an unsigned register `src` into a register `dst` that is at least as wide,
shift left by `k` and load a digit register of at most `k` bits: if the bits of `dst`
above `src` are shifted out (`length(dst) ≤ length(src) + k`), the register holds
`(value(src) * 2^k + digit) mod 2^length(dst)`. -/
theorem copy_shift_append_spec (dst src D : Word) (k : Nat) (hd : 0 < dst.length)
    (hs : 0 < src.length) (hD : 0 < D.length) (hdu : dst.is_signed = false)
    (hsu : src.is_signed = false) (hDu : D.is_signed = false) (hDk : D.length ≤ k)
    (hsd : src.length ≤ dst.length) (hfit : dst.length ≤ src.length + k) :
    ∃ r0 r1 r2, word_op_load dst src 0 = some r0 ∧ word_op_leftshift r0 k = some r1 ∧
      word_op_load r1 D 0 = some r2 ∧
      r0.length = dst.length ∧ r0.is_signed = false ∧
      (∀ j, j < src.length → BITS r0 j = BITS src j) ∧
      r2.length = dst.length ∧ r2.is_signed = false ∧ r2.underflow = dst.underflow ∧
      uval r2.bits = (uval src.bits * 2 ^ k + uval D.bits) % 2 ^ dst.length := by
  obtain ⟨r0, e0, l0, s0, u0, _, b0⟩ := word_op_load_unsigned_spec dst src 0 hd hs hdu hsu
  obtain ⟨r1, r2, e1, e2, l2, s2, u2, v2⟩ :=
    shift_append_spec r0 D k (by omega) hD s0 hDu hDk
  have hb0 : ∀ j, j < src.length → BITS r0 j = BITS src j := by
    intro j hj
    rw [b0, if_pos ⟨Nat.zero_le _, by omega, by omega⟩, Nat.sub_zero]
  refine ⟨r0, r1, r2, e0, e1, e2, l0, s0, hb0, by rw [l2, l0], s2, by rw [u2, u0], ?_⟩
  rw [v2, l0]
  -- only the low bits of `r0` matter
  have hlow : uval r0.bits % 2 ^ src.length = uval src.bits := by
    apply Nat.eq_of_testBit_eq
    intro j
    rw [Nat.testBit_mod_two_pow, ← BITS_eq_testBit, ← BITS_eq_testBit]
    by_cases hj : j < src.length
    · simp [hj, hb0 j hj]
    · simp only [hj, decide_False, Bool.false_and]
      exact (BITS_of_length_le src j (by omega)).symm
  have hsplit := Nat.div_add_mod (uval r0.bits) (2 ^ src.length)
  rw [hlow] at hsplit
  have hpow : 2 ^ src.length * 2 ^ k = 2 ^ dst.length * 2 ^ (src.length + k - dst.length) := by
    rw [← pow_add, ← pow_add]
    congr 1
    omega
  have : uval r0.bits * 2 ^ k + uval D.bits =
      uval src.bits * 2 ^ k + uval D.bits +
        2 ^ dst.length * (2 ^ (src.length + k - dst.length) *
          (uval r0.bits / 2 ^ src.length)) := by
    calc uval r0.bits * 2 ^ k + uval D.bits
        = (2 ^ src.length * (uval r0.bits / 2 ^ src.length) + uval src.bits) * 2 ^ k
            + uval D.bits := by rw [hsplit]
      _ = uval src.bits * 2 ^ k + uval D.bits +
            (2 ^ src.length * 2 ^ k) * (uval r0.bits / 2 ^ src.length) := by ring
      _ = _ := by rw [hpow]; ring
  rw [this, Nat.add_mul_mod_self_left]

theorem to_unsigned_lt (x : Int) : to_unsigned x < 2 ^ 32 := by
  unfold to_unsigned
  have h1 : 0 ≤ x % 2 ^ 32 := Int.emod_nonneg _ (by norm_num)
  have h2 : x % 2 ^ 32 < 2 ^ 32 := Int.emod_lt_of_pos _ (by norm_num)
  omega

theorem to_unsigned_of_nonneg (x : Int) (h0 : 0 ≤ x) (h1 : x < 2 ^ 32) :
    ((to_unsigned x : Nat) : Int) = x := by
  unfold to_unsigned
  rw [Int.emod_eq_of_lt h0 h1]
  omega

/-- Load of a small non-negative `int` into a digit register of exactly `c` bits. -/
theorem load_digit_spec (dst : Word) (x : Int) (c : Nat) (hc0 : 0 < c) (hc : c ≤ 32)
    (hlen : dst.length = c) (h0 : 0 ≤ x) (h1 : x < 2 ^ c) :
    ∃ r', word_op_load_constant dst (to_unsigned x) 0 c = some r' ∧ r'.length = c ∧
      r'.is_signed = dst.is_signed ∧ (uval r'.bits : Int) = x := by
  obtain ⟨r', e, l, s, _, _, v⟩ :=
    word_op_load_constant_full dst (to_unsigned x) c hc0 hlen (to_unsigned_lt x) hc
  refine ⟨r', e, l, s, ?_⟩
  have hx32 : x < 2 ^ 32 :=
    lt_of_lt_of_le h1 (by exact_mod_cast Nat.pow_le_pow_right (by norm_num : 0 < 2) hc)
  rw [v]
  push_cast
  rw [to_unsigned_of_nonneg x h0 hx32]
  exact Int.emod_eq_of_lt h0 h1

/-- Part 1 of the on-the-fly conversion for `m = 2` and a digit in `[-3, 3]`: the call
returns, and the digit registers hold `d` or `4 + d`, `d - 1` or `4 + d - 1`, and for
the doubled registers `2 d` or `2 (4 + d)`, `2 (d - 1) + 1` or `2 (4 + d - 1) + 1`. -/
theorem onthefly_part1_spec (d : Int) (regs : PracticalRegisters) (hd1 : -3 ≤ d)
    (hd2 : d ≤ 3) (h0 : regs.digit_multiplier_S_practical.length = 3)
    (h1 : regs.onthefly_appended_digit.length = 2)
    (h2 : regs.onthefly_appended_digit_m1.length = 2)
    (h3 : regs.onthefly_appended_digit_t2.length = 3)
    (h4 : regs.onthefly_appended_digit_t2m1.length = 3) :
    ∃ digits, onthefly_part1 2 d regs = some digits ∧
      digits.onthefly_select = (if d ≥ 0 then 0 else 1) ∧
      digits.onthefly_select_m1 = (if d > 0 then 0 else 1) ∧
      digits.onthefly_appended_digit.length = 2 ∧
      digits.onthefly_appended_digit_m1.length = 2 ∧
      digits.onthefly_appended_digit_t2.length = 3 ∧
      digits.onthefly_appended_digit_t2m1.length = 3 ∧
      digits.onthefly_appended_digit.is_signed = regs.onthefly_appended_digit.is_signed ∧
      digits.onthefly_appended_digit_m1.is_signed =
        regs.onthefly_appended_digit_m1.is_signed ∧
      digits.onthefly_appended_digit_t2.is_signed =
        regs.onthefly_appended_digit_t2.is_signed ∧
      digits.onthefly_appended_digit_t2m1.is_signed =
        regs.onthefly_appended_digit_t2m1.is_signed ∧
      (uval digits.onthefly_appended_digit.bits : Int) = (if d ≥ 0 then d else 2 ^ 2 + d) ∧
      (uval digits.onthefly_appended_digit_m1.bits : Int) =
        (if d > 0 then d - 1 else 2 ^ 2 + d - 1) ∧
      (uval digits.onthefly_appended_digit_t2.bits : Int) =
        (if d ≥ 0 then d * 2 else (2 ^ 2 + d) * 2) ∧
      (uval digits.onthefly_appended_digit_t2m1.bits : Int) =
        (if d > 0 then (d - 1) * 2 + 1 else (2 ^ 2 + d - 1) * 2 + 1) := by
  obtain ⟨q0, e0, -⟩ :=
    word_op_load_constant_full regs.digit_multiplier_S_practical (to_unsigned d) 3
      (by norm_num) h0 (to_unsigned_lt d) (by norm_num)
  obtain ⟨q1, e1, l1, s1, v1⟩ :=
    load_digit_spec regs.onthefly_appended_digit (if d ≥ 0 then d else 2 ^ 2 + d) 2
      (by norm_num) (by norm_num) h1 (by split_ifs <;> omega) (by split_ifs <;> omega)
  obtain ⟨q2, e2, l2, s2, v2⟩ :=
    load_digit_spec regs.onthefly_appended_digit_t2
      (if d ≥ 0 then d * 2 else (2 ^ 2 + d) * 2) 3
      (by norm_num) (by norm_num) h3 (by split_ifs <;> omega) (by split_ifs <;> omega)
  obtain ⟨q3, e3, l3, s3, v3⟩ :=
    load_digit_spec regs.onthefly_appended_digit_m1 (if d > 0 then d - 1 else 2 ^ 2 + d - 1) 2
      (by norm_num) (by norm_num) h2 (by split_ifs <;> omega) (by split_ifs <;> omega)
  obtain ⟨q4, e4, l4, s4, v4⟩ :=
    load_digit_spec regs.onthefly_appended_digit_t2m1
      (if d > 0 then (d - 1) * 2 + 1 else (2 ^ 2 + d - 1) * 2 + 1) 3
      (by norm_num) (by norm_num) h4 (by split_ifs <;> omega) (by split_ifs <;> omega)
  refine ⟨{ digit_multiplier_S_practical := q0, onthefly_appended_digit := q1,
            onthefly_appended_digit_m1 := q3, onthefly_appended_digit_t2 := q2,
            onthefly_appended_digit_t2m1 := q4,
            onthefly_select := if d ≥ 0 then 0 else 1,
            onthefly_select_m1 := if d > 0 then 0 else 1 }, ?_,
    rfl, rfl, l1, l3, l2, l4, s1, s3, s2, s4, v1, v3, v2, v4⟩
  unfold onthefly_part1
  simp only [Option.bind_eq_bind]
  rw [show (2 + 1 : Nat) = 3 from rfl, e0]
  simp only [Option.some_bind]
  by_cases hp : d ≥ 0
  · simp only [hp, if_true] at e1 e2 ⊢
    rw [e1]
    simp only [Option.some_bind]
    rw [e2]
    simp only [Option.some_bind]
    by_cases hq : d > 0
    · simp only [hq, if_true] at e3 e4 ⊢
      rw [e3]
      simp only [Option.some_bind]
      rw [e4]
      simp only [Option.some_bind]
    · simp only [hq, if_false] at e3 e4 ⊢
      rw [e3]
      simp only [Option.some_bind]
      rw [e4]
      simp only [Option.some_bind]
  · have hq : ¬ d > 0 := by omega
    simp only [hp, hq, if_false] at e1 e2 e3 e4 ⊢
    rw [e1]
    simp only [Option.some_bind]
    rw [e2]
    simp only [Option.some_bind]
    rw [e3]
    simp only [Option.some_bind]
    rw [e4]
    simp only [Option.some_bind]

/-- Part 3 of the on-the-fly conversion for `m = 2`, for the three selector pairs that
part 1 can produce: the call returns, and each root register holds its source (`S` or
`S - 1`, by the selectors) shifted left with the digit register appended. -/
theorem onthefly_part3_spec (w : Nat) (digits : OntheflyDigits) (regs : PracticalRegisters)
    (hw : 0 < w)
    (hS : regs.register_S_practical.length = w)
    (hSu : regs.register_S_practical.is_signed = false)
    (hM : regs.register_S_m1.length = w) (hMu : regs.register_S_m1.is_signed = false)
    (hT : regs.register_2S.length = w + 1) (hTu : regs.register_2S.is_signed = false)
    (hN : regs.register_2S_m1.length = w + 1) (hNu : regs.register_2S_m1.is_signed = false)
    (d1 : digits.onthefly_appended_digit.length = 2)
    (d1u : digits.onthefly_appended_digit.is_signed = false)
    (d2 : digits.onthefly_appended_digit_m1.length = 2)
    (d2u : digits.onthefly_appended_digit_m1.is_signed = false)
    (d3 : digits.onthefly_appended_digit_t2.length = 3)
    (d3u : digits.onthefly_appended_digit_t2.is_signed = false)
    (d4 : digits.onthefly_appended_digit_t2m1.length = 3)
    (d4u : digits.onthefly_appended_digit_t2m1.is_signed = false)
    (hcase : (digits.onthefly_select = 0 ∧ digits.onthefly_select_m1 = 0) ∨
      (digits.onthefly_select = 0 ∧ digits.onthefly_select_m1 = 1) ∨
      (digits.onthefly_select = 1 ∧ digits.onthefly_select_m1 = 1)) :
    ∃ roots, onthefly_part3 2 digits regs = some roots ∧
      roots.register_S_practical.length = w ∧ roots.register_S_m1.length = w ∧
      roots.register_2S.length = w + 1 ∧ roots.register_2S_m1.length = w + 1 ∧
      roots.register_S_practical.is_signed = false ∧ roots.register_S_m1.is_signed = false ∧
      roots.register_2S.is_signed = false ∧ roots.register_2S_m1.is_signed = false ∧
      uval roots.register_S_practical.bits =
        ((if digits.onthefly_select = 1 then uval regs.register_S_m1.bits
          else uval regs.register_S_practical.bits) * 2 ^ 2 +
          uval digits.onthefly_appended_digit.bits) % 2 ^ w ∧
      uval roots.register_S_m1.bits =
        ((if digits.onthefly_select_m1 = 0 then uval regs.register_S_practical.bits
          else uval regs.register_S_m1.bits) * 2 ^ 2 +
          uval digits.onthefly_appended_digit_m1.bits) % 2 ^ w ∧
      uval roots.register_2S.bits =
        ((if digits.onthefly_select = 1 then uval regs.register_S_m1.bits
          else uval regs.register_S_practical.bits) * 2 ^ 3 +
          uval digits.onthefly_appended_digit_t2.bits) % 2 ^ (w + 1) ∧
      uval roots.register_2S_m1.bits =
        ((if digits.onthefly_select_m1 = 0 then uval regs.register_S_practical.bits
          else uval regs.register_S_m1.bits) * 2 ^ 3 +
          uval digits.onthefly_appended_digit_t2m1.bits) % 2 ^ (w + 1) := by
  rcases hcase with ⟨c1, c2⟩ | ⟨c1, c2⟩ | ⟨c1, c2⟩
  · -- positive digit: everything is seeded from `S`
    obtain ⟨a1, a2, ea1, ea2, la, sa, _, va⟩ :=
      shift_append_spec regs.register_S_practical digits.onthefly_appended_digit 2
        (by omega) (by omega) hSu d1u (by omega)
    obtain ⟨b0, b1, b2, eb0, eb1, eb2, _, _, _, lb, sb, _, vb⟩ :=
      copy_shift_append_spec regs.register_2S regs.register_S_practical
        digits.onthefly_appended_digit_t2 3 (by omega) (by omega) (by omega) hTu hSu d3u
        (by omega) (by omega) (by omega)
    obtain ⟨c0, c1', c2', ec0, ec1, ec2, _, _, _, lc, sc, _, vc⟩ :=
      copy_shift_append_spec regs.register_S_m1 regs.register_S_practical
        digits.onthefly_appended_digit_m1 2 (by omega) (by omega) (by omega) hMu hSu d2u
        (by omega) (by omega) (by omega)
    obtain ⟨f0, f1, f2, ef0, ef1, ef2, _, _, _, lf, sf, _, vf⟩ :=
      copy_shift_append_spec regs.register_2S_m1 regs.register_S_practical
        digits.onthefly_appended_digit_t2m1 3 (by omega) (by omega) (by omega) hNu hSu d4u
        (by omega) (by omega) (by omega)
    refine ⟨{ register_S_practical := a2, register_S_m1 := c2', register_2S := b2,
              register_2S_m1 := f2 }, ?_, by rw [la, hS], by rw [lc, hM], by rw [lb, hT],
      by rw [lf, hN], sa, sc, sb, sf, ?_, ?_, ?_, ?_⟩
    · unfold onthefly_part3
      simp only [Option.bind_eq_bind, c1, c2, Nat.zero_ne_one, if_false, if_true,
        Option.some_bind, eb0, ec0, ef0, ea1, ec1, ea2, ec2, eb1, ef1, eb2, ef2,
        show (2 + 1 : Nat) = 3 from rfl]
    · rw [va, c1, hS]; simp
    · rw [vc, c2, hM]; simp
    · rw [vb, c1, hT]; simp
    · rw [vf, c2, hN]; simp
  · -- digit zero: `S` from `S`, `S - 1` from `S - 1`
    obtain ⟨a1, a2, ea1, ea2, la, sa, _, va⟩ :=
      shift_append_spec regs.register_S_practical digits.onthefly_appended_digit 2
        (by omega) (by omega) hSu d1u (by omega)
    obtain ⟨b0, b1, b2, eb0, eb1, eb2, _, _, _, lb, sb, _, vb⟩ :=
      copy_shift_append_spec regs.register_2S regs.register_S_practical
        digits.onthefly_appended_digit_t2 3 (by omega) (by omega) (by omega) hTu hSu d3u
        (by omega) (by omega) (by omega)
    obtain ⟨c1', c2', ec1, ec2, lc, sc, _, vc⟩ :=
      shift_append_spec regs.register_S_m1 digits.onthefly_appended_digit_m1 2
        (by omega) (by omega) hMu d2u (by omega)
    obtain ⟨f0, f1, f2, ef0, ef1, ef2, _, _, _, lf, sf, _, vf⟩ :=
      copy_shift_append_spec regs.register_2S_m1 regs.register_S_m1
        digits.onthefly_appended_digit_t2m1 3 (by omega) (by omega) (by omega) hNu hMu d4u
        (by omega) (by omega) (by omega)
    refine ⟨{ register_S_practical := a2, register_S_m1 := c2', register_2S := b2,
              register_2S_m1 := f2 }, ?_, by rw [la, hS], by rw [lc, hM], by rw [lb, hT],
      by rw [lf, hN], sa, sc, sb, sf, ?_, ?_, ?_, ?_⟩
    · unfold onthefly_part3
      simp only [Option.bind_eq_bind, c1, c2, Nat.zero_ne_one, Nat.one_ne_zero, if_false,
        if_true, Option.some_bind, eb0, ef0, ea1, ec1, ea2, ec2, eb1, ef1, eb2, ef2,
        show (2 + 1 : Nat) = 3 from rfl]
    · rw [va, c1, hS]; simp
    · rw [vc, c2, hM]; simp
    · rw [vb, c1, hT]; simp
    · rw [vf, c2, hN]; simp
  · -- negative digit: everything is seeded from `S - 1`
    obtain ⟨a0, a1, a2, ea0, ea1, ea2, _, _, _, la, sa, _, va⟩ :=
      copy_shift_append_spec regs.register_S_practical regs.register_S_m1
        digits.onthefly_appended_digit 2 (by omega) (by omega) (by omega) hSu hMu d1u
        (by omega) (by omega) (by omega)
    obtain ⟨b0, b1, b2, eb0, eb1, eb2, _, _, _, lb, sb, _, vb⟩ :=
      copy_shift_append_spec regs.register_2S regs.register_S_m1
        digits.onthefly_appended_digit_t2 3 (by omega) (by omega) (by omega) hTu hMu d3u
        (by omega) (by omega) (by omega)
    obtain ⟨c1', c2', ec1, ec2, lc, sc, _, vc⟩ :=
      shift_append_spec regs.register_S_m1 digits.onthefly_appended_digit_m1 2
        (by omega) (by omega) hMu d2u (by omega)
    obtain ⟨f0, f1, f2, ef0, ef1, ef2, _, _, _, lf, sf, _, vf⟩ :=
      copy_shift_append_spec regs.register_2S_m1 regs.register_S_m1
        digits.onthefly_appended_digit_t2m1 3 (by omega) (by omega) (by omega) hNu hMu d4u
        (by omega) (by omega) (by omega)
    refine ⟨{ register_S_practical := a2, register_S_m1 := c2', register_2S := b2,
              register_2S_m1 := f2 }, ?_, by rw [la, hS], by rw [lc, hM], by rw [lb, hT],
      by rw [lf, hN], sa, sc, sb, sf, ?_, ?_, ?_, ?_⟩
    · unfold onthefly_part3
      simp only [Option.bind_eq_bind, c1, c2, Nat.zero_ne_one, Nat.one_ne_zero, if_false,
        if_true, Option.some_bind, ea0, eb0, ef0, ea1, ec1, ea2, ec2, eb1, ef1, eb2, ef2,
        show (2 + 1 : Nat) = 3 from rfl]
    · rw [va, c1, hS]; simp
    · rw [vc, c2, hM]; simp
    · rw [vb, c1, hT]; simp
    · rw [vf, c2, hN]; simp

theorem emod_pred_src (P S M c t : Int) (hM : M = (S - 1) % P) :
    (M * c + t) % P = ((S - 1) * c + t) % P := by
  have h : M = (S - 1) - P * ((S - 1) / P) := by rw [hM]; exact Int.emod_def _ _
  have e : M * c + t = ((S - 1) * c + t) + P * (-((S - 1) / P) * c) := by rw [h]; ring
  rw [e, Int.add_mul_emod_self_left]

theorem emod_pred_src_double (P S M t : Int) (hM : M = (S - 1) % P) :
    (M * 8 + t) % (2 * P) = ((S - 1) * 8 + t) % (2 * P) := by
  have h : M = (S - 1) - P * ((S - 1) / P) := by rw [hM]; exact Int.emod_def _ _
  have e : M * 8 + t = ((S - 1) * 8 + t) + (2 * P) * (-((S - 1) / P) * 4) := by
    rw [h]; ring
  rw [e, Int.add_mul_emod_self_left]

/-- The arithmetic of one conversion step: from the selectors and the appended digits
that part 1 produces, the four shifted-and-appended values are `4 S + d`, `4 S + d - 1`,
`2 (4 S + d)` and `2 (4 S + d) - 1` modulo the register sizes. -/
theorem onthefly_arith (P : Nat) (S M : Nat) (d : Int) (sel selm1 a b c e R1 R2 R3 R4 : Nat)
    (hinv : (M : Int) = ((S : Int) - 1) % P)
    (hs1 : sel = if d ≥ 0 then 0 else 1) (hs2 : selm1 = if d > 0 then 0 else 1)
    (va : (a : Int) = if d ≥ 0 then d else 2 ^ 2 + d)
    (vb : (b : Int) = if d > 0 then d - 1 else 2 ^ 2 + d - 1)
    (vc : (c : Int) = if d ≥ 0 then d * 2 else (2 ^ 2 + d) * 2)
    (ve : (e : Int) = if d > 0 then (d - 1) * 2 + 1 else (2 ^ 2 + d - 1) * 2 + 1)
    (r1 : R1 = ((if sel = 1 then M else S) * 2 ^ 2 + a) % P)
    (r2 : R2 = ((if selm1 = 0 then S else M) * 2 ^ 2 + b) % P)
    (r3 : R3 = ((if sel = 1 then M else S) * 2 ^ 3 + c) % (2 * P))
    (r4 : R4 = ((if selm1 = 0 then S else M) * 2 ^ 3 + e) % (2 * P)) :
    (R1 : Int) = ((S : Int) * 2 ^ 2 + d) % P ∧
    (R2 : Int) = ((S : Int) * 2 ^ 2 + d - 1) % P ∧
    (R3 : Int) = (2 * ((S : Int) * 2 ^ 2 + d)) % (2 * P) ∧
    (R4 : Int) = (2 * ((S : Int) * 2 ^ 2 + d) - 1) % (2 * P) := by
  by_cases hp : d > 0
  · have hz : d ≥ 0 := by omega
    rw [if_pos hz] at hs1 va vc
    rw [if_pos hp] at hs2 vb ve
    subst hs1 hs2
    rw [if_neg (by decide)] at r1 r3
    rw [if_pos rfl] at r2 r4
    subst r1 r2 r3 r4
    push_cast
    rw [va, vb, vc, ve]
    refine ⟨rfl, ?_, ?_, ?_⟩ <;> (congr 1; ring)
  · by_cases hz : d ≥ 0
    · rw [if_pos hz] at hs1 va vc
      rw [if_neg hp] at hs2 vb ve
      subst hs1 hs2
      rw [if_neg (by decide)] at r1 r3
      rw [if_neg (by decide)] at r2 r4
      subst r1 r2 r3 r4
      push_cast
      rw [va, vb, vc, ve]
      refine ⟨rfl, ?_, ?_, ?_⟩
      · rw [emod_pred_src _ _ _ _ _ hinv]
        congr 1; ring
      · congr 1; ring
      · rw [emod_pred_src_double _ _ _ _ hinv]
        congr 1; ring
    · rw [if_neg hz] at hs1 va vc
      rw [if_neg hp] at hs2 vb ve
      subst hs1 hs2
      rw [if_pos rfl] at r1 r3
      rw [if_neg (by decide)] at r2 r4
      subst r1 r2 r3 r4
      push_cast
      rw [va, vb, vc, ve]
      refine ⟨?_, ?_, ?_, ?_⟩
      · rw [emod_pred_src _ _ _ _ _ hinv]
        congr 1; ring
      · rw [emod_pred_src _ _ _ _ _ hinv]
        congr 1; ring
      · rw [emod_pred_src_double _ _ _ _ hinv]
        congr 1; ring
      · rw [emod_pred_src_double _ _ _ _ hinv]
        congr 1; ring

/-- One step of the on-the-fly conversion (parts 1 and 3) for `m = 2`, a digit `d` in
`[-3, 3]` and root registers with `S_m1 = S - 1 (mod 2^w)`: both parts return, and the
four root registers hold `4 S + d`, `4 S + d - 1` (mod `2^w`) and `2 (4 S + d)`,
`2 (4 S + d) - 1` (mod `2^(w+1)`). -/
theorem onthefly_step_spec (w : Nat) (d : Int) (regs : PracticalRegisters) (hw : 0 < w)
    (hd1 : -3 ≤ d) (hd2 : d ≤ 3)
    (hS : regs.register_S_practical.length = w)
    (hSu : regs.register_S_practical.is_signed = false)
    (hM : regs.register_S_m1.length = w) (hMu : regs.register_S_m1.is_signed = false)
    (hT : regs.register_2S.length = w + 1) (hTu : regs.register_2S.is_signed = false)
    (hN : regs.register_2S_m1.length = w + 1) (hNu : regs.register_2S_m1.is_signed = false)
    (h0 : regs.digit_multiplier_S_practical.length = 3)
    (h1 : regs.onthefly_appended_digit.length = 2)
    (h1u : regs.onthefly_appended_digit.is_signed = false)
    (h2 : regs.onthefly_appended_digit_m1.length = 2)
    (h2u : regs.onthefly_appended_digit_m1.is_signed = false)
    (h3 : regs.onthefly_appended_digit_t2.length = 3)
    (h3u : regs.onthefly_appended_digit_t2.is_signed = false)
    (h4 : regs.onthefly_appended_digit_t2m1.length = 3)
    (h4u : regs.onthefly_appended_digit_t2m1.is_signed = false)
    (hinv : (uval regs.register_S_m1.bits : Int) =
      ((uval regs.register_S_practical.bits : Int) - 1) % 2 ^ w) :
    ∃ digits roots, onthefly_part1 2 d regs = some digits ∧
      onthefly_part3 2 digits regs = some roots ∧
      roots.register_S_practical.length = w ∧ roots.register_S_m1.length = w ∧
      roots.register_2S.length = w + 1 ∧ roots.register_2S_m1.length = w + 1 ∧
      roots.register_S_practical.is_signed = false ∧ roots.register_S_m1.is_signed = false ∧
      roots.register_2S.is_signed = false ∧ roots.register_2S_m1.is_signed = false ∧
      (uval digits.onthefly_appended_digit.bits : Int) = (if d ≥ 0 then d else 2 ^ 2 + d) ∧
      (uval digits.onthefly_appended_digit_m1.bits : Int) =
        (if d > 0 then d - 1 else 2 ^ 2 + d - 1) ∧
      (uval roots.register_S_practical.bits : Int) =
        ((uval regs.register_S_practical.bits : Int) * 2 ^ 2 + d) % 2 ^ w ∧
      (uval roots.register_S_m1.bits : Int) =
        ((uval regs.register_S_practical.bits : Int) * 2 ^ 2 + d - 1) % 2 ^ w ∧
      (uval roots.register_2S.bits : Int) =
        (2 * ((uval regs.register_S_practical.bits : Int) * 2 ^ 2 + d)) % 2 ^ (w + 1) ∧
      (uval roots.register_2S_m1.bits : Int) =
        (2 * ((uval regs.register_S_practical.bits : Int) * 2 ^ 2 + d) - 1) % 2 ^ (w + 1) := by
  obtain ⟨digits, e1, s1, s2, l1, l2, l3, l4, u1, u2, u3, u4, v1, v2, v3, v4⟩ :=
    onthefly_part1_spec d regs hd1 hd2 h0 h1 h2 h3 h4
  rw [h1u] at u1
  rw [h2u] at u2
  rw [h3u] at u3
  rw [h4u] at u4
  have hcase : (digits.onthefly_select = 0 ∧ digits.onthefly_select_m1 = 0) ∨
      (digits.onthefly_select = 0 ∧ digits.onthefly_select_m1 = 1) ∨
      (digits.onthefly_select = 1 ∧ digits.onthefly_select_m1 = 1) := by
    rw [s1, s2]
    by_cases hp : d > 0
    · left; rw [if_pos (by omega), if_pos hp]; exact ⟨rfl, rfl⟩
    · by_cases hz : d ≥ 0
      · right; left; rw [if_pos hz, if_neg hp]; exact ⟨rfl, rfl⟩
      · right; right; rw [if_neg hz, if_neg hp]; exact ⟨rfl, rfl⟩
  obtain ⟨roots, e3, m1, m2, m3, m4, n1, n2, n3, n4, r1, r2, r3, r4⟩ :=
    onthefly_part3_spec w digits regs hw hS hSu hM hMu hT hTu hN hNu l1 u1 l2 u2 l3 u3 l4 u4
      hcase
  have hP2 : (2 : Nat) ^ (w + 1) = 2 * 2 ^ w := by rw [pow_succ]; ring
  rw [hP2] at r3 r4
  have hinv' : (uval regs.register_S_m1.bits : Int) =
      ((uval regs.register_S_practical.bits : Int) - 1) % ((2 ^ w : Nat) : Int) := by
    rw [hinv]; push_cast; rfl
  obtain ⟨t1, t2, t3, t4⟩ := onthefly_arith (2 ^ w) _ _ d _ _ _ _ _ _ _ _ _ _ hinv' s1 s2
    v1 v2 v3 v4 r1 r2 r3 r4
  push_cast at t1 t2 t3 t4
  have hP2' : (2 : Int) ^ (w + 1) = 2 * 2 ^ w := by rw [pow_succ]; ring
  rw [hP2']
  exact ⟨digits, roots, e1, e3, m1, m2, m3, m4, n1, n2, n3, n4, v1, v2, t1, t2, t3, t4⟩

/-- Claim C32: one step of the on-the-fly conversion of `main.c` (parts 1 and 3) for
`m = 2`.  For every selected digit `d` in `[-3, 3]` and unsigned root registers `S`,
`S_m1` of equal width `w` with `S_m1 = S - 1 (mod 2^w)` (the doubled registers have
width `w + 1`, the four digit registers widths 2, 2, 3, 3): both parts return, the
appended digits are `d` or `2^m + d` and `d - 1` or `2^m + d - 1`, and the new root
registers hold `S' = S * 2^m + d (mod 2^w)` and `S_m1' = S' - 1 (mod 2^w)`. -/
theorem onthefly_conversion_step (w : Nat) (d : Int) (regs : PracticalRegisters) (hw : 0 < w)
    (hd1 : -3 ≤ d) (hd2 : d ≤ 3)
    (hS : regs.register_S_practical.length = w)
    (hSu : regs.register_S_practical.is_signed = false)
    (hM : regs.register_S_m1.length = w) (hMu : regs.register_S_m1.is_signed = false)
    (hT : regs.register_2S.length = w + 1) (hTu : regs.register_2S.is_signed = false)
    (hN : regs.register_2S_m1.length = w + 1) (hNu : regs.register_2S_m1.is_signed = false)
    (h0 : regs.digit_multiplier_S_practical.length = 3)
    (h1 : regs.onthefly_appended_digit.length = 2)
    (h1u : regs.onthefly_appended_digit.is_signed = false)
    (h2 : regs.onthefly_appended_digit_m1.length = 2)
    (h2u : regs.onthefly_appended_digit_m1.is_signed = false)
    (h3 : regs.onthefly_appended_digit_t2.length = 3)
    (h3u : regs.onthefly_appended_digit_t2.is_signed = false)
    (h4 : regs.onthefly_appended_digit_t2m1.length = 3)
    (h4u : regs.onthefly_appended_digit_t2m1.is_signed = false)
    (hinv : (uval regs.register_S_m1.bits : Int) =
      ((uval regs.register_S_practical.bits : Int) - 1) % 2 ^ w) :
    ∃ digits roots, onthefly_part1 2 d regs = some digits ∧
      onthefly_part3 2 digits regs = some roots ∧
      roots.register_S_practical.length = w ∧ roots.register_S_m1.length = w ∧
      roots.register_S_practical.is_signed = false ∧ roots.register_S_m1.is_signed = false ∧
      (uval digits.onthefly_appended_digit.bits : Int) = (if d ≥ 0 then d else 2 ^ 2 + d) ∧
      (uval digits.onthefly_appended_digit_m1.bits : Int) =
        (if d > 0 then d - 1 else 2 ^ 2 + d - 1) ∧
      (uval roots.register_S_practical.bits : Int) =
        ((uval regs.register_S_practical.bits : Int) * 2 ^ 2 + d) % 2 ^ w ∧
      (uval roots.register_S_m1.bits : Int) =
        ((uval roots.register_S_practical.bits : Int) - 1) % 2 ^ w := by
  obtain ⟨digits, roots, e1, e3, m1, m2, _, _, n1, n2, _, _, v1, v2, t1, t2, _, _⟩ :=
    onthefly_step_spec w d regs hw hd1 hd2 hS hSu hM hMu hT hTu hN hNu h0 h1 h1u h2 h2u h3 h3u h4 h4u hinv
  refine ⟨digits, roots, e1, e3, m1, m2, n1, n2, v1, v2, t1, ?_⟩
  rw [t2, t1, Int.sub_emod (_ % _) 1, Int.emod_emod_of_dvd _ (dvd_refl _), ← Int.sub_emod]

theorem onthefly_conversion_step_witness :
    (uval [false, false, true, false] : Int) =
      ((uval [true, false, true, false] : Int) - 1) % 2 ^ 4 ∧
    ∃ digits roots, onthefly_part1 2 (-2)
        { register_S := create_word 4, register_A := create_word 4,
          register_W := create_word 4,
          register_S_practical := ⟨[true, false, true, false], false, false, false⟩,
          register_S_m1 := ⟨[false, false, true, false], false, false, false⟩,
          register_2S := create_word 5, register_2S_m1 := create_word 5,
          register_W_practical := create_word 4, P_mask := create_word 4,
          P := create_word 7, Sdot := create_word 4, P_cursor := 0,
          digit_multiplier_B := create_word 2, digit_multiplier_S := create_word 2,
          digit_multiplier_S_practical := create_word 3,
          onthefly_appended_digit := create_word 2,
          onthefly_appended_digit_m1 := create_word 2,
          onthefly_appended_digit_t2 := create_word 3,
          onthefly_appended_digit_t2m1 := create_word 3,
          onthefly_select := 0, onthefly_select_m1 := 0 } = some digits ∧
      onthefly_part3 2 digits
        { register_S := create_word 4, register_A := create_word 4,
          register_W := create_word 4,
          register_S_practical := ⟨[true, false, true, false], false, false, false⟩,
          register_S_m1 := ⟨[false, false, true, false], false, false, false⟩,
          register_2S := create_word 5, register_2S_m1 := create_word 5,
          register_W_practical := create_word 4, P_mask := create_word 4,
          P := create_word 7, Sdot := create_word 4, P_cursor := 0,
          digit_multiplier_B := create_word 2, digit_multiplier_S := create_word 2,
          digit_multiplier_S_practical := create_word 3,
          onthefly_appended_digit := create_word 2,
          onthefly_appended_digit_m1 := create_word 2,
          onthefly_appended_digit_t2 := create_word 3,
          onthefly_appended_digit_t2m1 := create_word 3,
          onthefly_select := 0, onthefly_select_m1 := 0 } = some roots ∧
      roots.register_S_practical.length = 4 ∧ roots.register_S_m1.length = 4 ∧
      roots.register_S_practical.is_signed = false ∧ roots.register_S_m1.is_signed = false ∧
      (uval digits.onthefly_appended_digit.bits : Int) =
        (if (-2 : Int) ≥ 0 then -2 else 2 ^ 2 + -2) ∧
      (uval digits.onthefly_appended_digit_m1.bits : Int) =
        (if (-2 : Int) > 0 then -2 - 1 else 2 ^ 2 + -2 - 1) ∧
      (uval roots.register_S_practical.bits : Int) =
        ((uval (Word.mk [true, false, true, false] false false false).bits : Int) * 2 ^ 2
          + -2) % 2 ^ 4 ∧
      (uval roots.register_S_m1.bits : Int) =
        ((uval roots.register_S_practical.bits : Int) - 1) % 2 ^ 4 :=
  ⟨by decide,
    onthefly_conversion_step 4 (-2)
      { register_S := create_word 4, register_A := create_word 4,
        register_W := create_word 4,
        register_S_practical := ⟨[true, false, true, false], false, false, false⟩,
        register_S_m1 := ⟨[false, false, true, false], false, false, false⟩,
        register_2S := create_word 5, register_2S_m1 := create_word 5,
        register_W_practical := create_word 4, P_mask := create_word 4,
        P := create_word 7, Sdot := create_word 4, P_cursor := 0,
        digit_multiplier_B := create_word 2, digit_multiplier_S := create_word 2,
        digit_multiplier_S_practical := create_word 3,
        onthefly_appended_digit := create_word 2,
        onthefly_appended_digit_m1 := create_word 2,
        onthefly_appended_digit_t2 := create_word 3,
        onthefly_appended_digit_t2m1 := create_word 3,
        onthefly_select := 0, onthefly_select_m1 := 0 }
      (by decide) (by decide) (by decide) rfl rfl rfl rfl rfl rfl rfl rfl rfl rfl rfl rfl rfl rfl rfl rfl rfl (by decide)⟩

/-- Claim C40: the doubled root registers of the on-the-fly conversion of `main.c`.
For `m = 2`, every digit `d` in `[-3, 3]` and root registers with
`S_m1 = S - 1 (mod 2^w)` before the step, parts 1 and 3 return and leave
`register_2S = 2 * S'` and `register_2S_m1 = 2 * S' - 1` modulo `2^(w+1)`, where
`S' = S * 2^m + d` is the updated root; `register_2S` is exactly twice the value of the
updated root register. -/
theorem onthefly_doubled_roots (w : Nat) (d : Int) (regs : PracticalRegisters) (hw : 0 < w)
    (hd1 : -3 ≤ d) (hd2 : d ≤ 3)
    (hS : regs.register_S_practical.length = w)
    (hSu : regs.register_S_practical.is_signed = false)
    (hM : regs.register_S_m1.length = w) (hMu : regs.register_S_m1.is_signed = false)
    (hT : regs.register_2S.length = w + 1) (hTu : regs.register_2S.is_signed = false)
    (hN : regs.register_2S_m1.length = w + 1) (hNu : regs.register_2S_m1.is_signed = false)
    (h0 : regs.digit_multiplier_S_practical.length = 3)
    (h1 : regs.onthefly_appended_digit.length = 2)
    (h1u : regs.onthefly_appended_digit.is_signed = false)
    (h2 : regs.onthefly_appended_digit_m1.length = 2)
    (h2u : regs.onthefly_appended_digit_m1.is_signed = false)
    (h3 : regs.onthefly_appended_digit_t2.length = 3)
    (h3u : regs.onthefly_appended_digit_t2.is_signed = false)
    (h4 : regs.onthefly_appended_digit_t2m1.length = 3)
    (h4u : regs.onthefly_appended_digit_t2m1.is_signed = false)
    (hinv : (uval regs.register_S_m1.bits : Int) =
      ((uval regs.register_S_practical.bits : Int) - 1) % 2 ^ w) :
    ∃ digits roots, onthefly_part1 2 d regs = some digits ∧
      onthefly_part3 2 digits regs = some roots ∧
      roots.register_2S.length = w + 1 ∧ roots.register_2S_m1.length = w + 1 ∧
      roots.register_2S.is_signed = false ∧ roots.register_2S_m1.is_signed = false ∧
      (uval roots.register_2S.bits : Int) =
        (2 * ((uval regs.register_S_practical.bits : Int) * 2 ^ 2 + d)) % 2 ^ (w + 1) ∧
      (uval roots.register_2S_m1.bits : Int) =
        (2 * ((uval regs.register_S_practical.bits : Int) * 2 ^ 2 + d) - 1) % 2 ^ (w + 1) ∧
      uval roots.register_2S.bits = 2 * uval roots.register_S_practical.bits ∧
      (uval roots.register_2S_m1.bits : Int) =
        (2 * (uval roots.register_S_practical.bits : Int) - 1) % 2 ^ (w + 1) := by
  obtain ⟨digits, roots, e1, e3, _, _, m3, m4, _, _, n3, n4, _, _, t1, _, t3, t4⟩ :=
    onthefly_step_spec w d regs hw hd1 hd2 hS hSu hM hMu hT hTu hN hNu h0 h1 h1u h2 h2u h3 h3u h4 h4u hinv
  have hP2 : (2 : Int) ^ (w + 1) = 2 * 2 ^ w := by rw [pow_succ]; ring
  have hdbl : (uval roots.register_2S.bits : Int) =
      2 * (uval roots.register_S_practical.bits : Int) := by
    rw [t3, t1, hP2, Int.mul_emod_mul_of_pos _ _ (by norm_num)]
  refine ⟨digits, roots, e1, e3, m3, m4, n3, n4, t3, t4, by exact_mod_cast hdbl, ?_⟩
  rw [t4, ← hdbl, t3, Int.sub_emod (_ % _) 1, Int.emod_emod_of_dvd _ (dvd_refl _),
    ← Int.sub_emod]

theorem onthefly_doubled_roots_witness :
    (uval [true, true, true, true] : Int) =
      ((uval [false, false, false, false] : Int) - 1) % 2 ^ 4 ∧
    ∃ digits roots, onthefly_part1 2 0
        { register_S := create_word 4, register_A := create_word 4,
          register_W := create_word 4,
          register_S_practical := ⟨[false, false, false, false], false, false, false⟩,
          register_S_m1 := ⟨[true, true, true, true], false, false, false⟩,
          register_2S := create_word 5, register_2S_m1 := create_word 5,
          register_W_practical := create_word 4, P_mask := create_word 4,
          P := create_word 7, Sdot := create_word 4, P_cursor := 0,
          digit_multiplier_B := create_word 2, digit_multiplier_S := create_word 2,
          digit_multiplier_S_practical := create_word 3,
          onthefly_appended_digit := create_word 2,
          onthefly_appended_digit_m1 := create_word 2,
          onthefly_appended_digit_t2 := create_word 3,
          onthefly_appended_digit_t2m1 := create_word 3,
          onthefly_select := 0, onthefly_select_m1 := 0 } = some digits ∧
      onthefly_part3 2 digits
        { register_S := create_word 4, register_A := create_word 4,
          register_W := create_word 4,
          register_S_practical := ⟨[false, false, false, false], false, false, false⟩,
          register_S_m1 := ⟨[true, true, true, true], false, false, false⟩,
          register_2S := create_word 5, register_2S_m1 := create_word 5,
          register_W_practical := create_word 4, P_mask := create_word 4,
          P := create_word 7, Sdot := create_word 4, P_cursor := 0,
          digit_multiplier_B := create_word 2, digit_multiplier_S := create_word 2,
          digit_multiplier_S_practical := create_word 3,
          onthefly_appended_digit := create_word 2,
          onthefly_appended_digit_m1 := create_word 2,
          onthefly_appended_digit_t2 := create_word 3,
          onthefly_appended_digit_t2m1 := create_word 3,
          onthefly_select := 0, onthefly_select_m1 := 0 } = some roots ∧
      roots.register_2S.length = 4 + 1 ∧ roots.register_2S_m1.length = 4 + 1 ∧
      roots.register_2S.is_signed = false ∧ roots.register_2S_m1.is_signed = false ∧
      (uval roots.register_2S.bits : Int) =
        (2 * ((uval (Word.mk [false, false, false, false] false false false).bits : Int)
          * 2 ^ 2 + 0)) % 2 ^ (4 + 1) ∧
      (uval roots.register_2S_m1.bits : Int) =
        (2 * ((uval (Word.mk [false, false, false, false] false false false).bits : Int)
          * 2 ^ 2 + 0) - 1) % 2 ^ (4 + 1) ∧
      uval roots.register_2S.bits = 2 * uval roots.register_S_practical.bits ∧
      (uval roots.register_2S_m1.bits : Int) =
        (2 * (uval roots.register_S_practical.bits : Int) - 1) % 2 ^ (4 + 1) :=
  ⟨by decide,
    onthefly_doubled_roots 4 0
      { register_S := create_word 4, register_A := create_word 4,
        register_W := create_word 4,
        register_S_practical := ⟨[false, false, false, false], false, false, false⟩,
        register_S_m1 := ⟨[true, true, true, true], false, false, false⟩,
        register_2S := create_word 5, register_2S_m1 := create_word 5,
        register_W_practical := create_word 4, P_mask := create_word 4,
        P := create_word 7, Sdot := create_word 4, P_cursor := 0,
        digit_multiplier_B := create_word 2, digit_multiplier_S := create_word 2,
        digit_multiplier_S_practical := create_word 3,
        onthefly_appended_digit := create_word 2,
        onthefly_appended_digit_m1 := create_word 2,
        onthefly_appended_digit_t2 := create_word 3,
        onthefly_appended_digit_t2m1 := create_word 3,
        onthefly_select := 0, onthefly_select_m1 := 0 }
      (by decide) (by decide) (by decide) rfl rfl rfl rfl rfl rfl rfl rfl rfl rfl rfl rfl rfl rfl rfl rfl rfl (by decide)⟩

/-! ### The root register of basic mode (claim C34) -/

/-- Value of a register whose bits are those of the number `D` below `k` and those of
`R`, moved up by `k`, from `k` upwards. -/
theorem uval_shift_append_nat (r2 R : Word) (D k : Nat) (hl : r2.length = R.length)
    (hD : D < 2 ^ k)
    (hb : ∀ j, j < R.length → BITS r2 j = if j < k then D.testBit j else BITS R (j - k)) :
    uval r2.bits = (uval R.bits * 2 ^ k + D) % 2 ^ R.length := by
  apply Nat.eq_of_testBit_eq
  intro j
  rw [Nat.testBit_mod_two_pow, mul_comm, Nat.testBit_mul_pow_two_add _ hD,
    ← BITS_eq_testBit]
  by_cases hj : j < R.length
  · rw [hb j hj]
    simp only [hj, decide_True, Bool.true_and]
    by_cases hk : j < k
    · rw [if_pos hk, if_pos hk]
    · rw [if_neg hk, if_neg hk, BITS_eq_testBit]
  · simp only [hj, decide_False, Bool.false_and]
    exact BITS_of_length_le r2 j (by omega)

/-- The update of the root register in one round (`word_op_leftshift` by `m`, then
`word_op_load_constant` of the digit): if the shifted value fits, both calls return,
the flags stay clear and the register holds `value * 2^m + digit`. -/
theorem result_update_spec (m dig : Nat) (reg : Word) (hm0 : 0 < m) (hm : m ≤ 32)
    (hmw : m ≤ reg.length) (hu : reg.is_signed = false) (ho : reg.overflow = false)
    (hdig : dig < 2 ^ m) (hfit : uval reg.bits * 2 ^ m < 2 ^ reg.length) :
    ∃ reg', result_update m dig reg = some reg' ∧ reg'.length = reg.length ∧
      reg'.is_signed = false ∧ reg'.overflow = false ∧ reg'.underflow = reg.underflow ∧
      uval reg'.bits = uval reg.bits * 2 ^ m + dig := by
  have hlen : 0 < reg.length := by omega
  have e1 := word_op_leftshift_unsigned_eq reg m hlen hu
  obtain ⟨l1, s1, u1, o1, b1⟩ :=
    leftshift_loop_spec m false (reg.length - 1) reg.length reg (le_refl _)
  generalize leftshift_loop m false (reg.length - 1) reg.length reg = r1 at e1 l1 s1 u1 o1 b1
  have ho1 : r1.overflow = false := by
    cases hov : r1.overflow with
    | false => rfl
    | true =>
      exfalso
      rcases o1.mp hov with h | ⟨j, ha, hb, hc⟩
      · rw [ho] at h; exact absurd h (by simp)
      · have hc' : BITS reg j = true := by simpa using hc
        rw [BITS_eq_testBit] at hc'
        have h2 := Nat.testBit_implies_ge hc'
        have : 2 ^ reg.length ≤ uval reg.bits * 2 ^ m :=
          calc 2 ^ reg.length ≤ 2 ^ (j + m) := Nat.pow_le_pow_right (by norm_num) (by omega)
            _ = 2 ^ j * 2 ^ m := by rw [pow_add]
            _ ≤ uval reg.bits * 2 ^ m := Nat.mul_le_mul_right _ h2
        omega
  have hdig32 : dig < 2 ^ 32 :=
    lt_of_lt_of_le hdig (Nat.pow_le_pow_right (by norm_num) hm)
  have e2 : word_op_load_constant r1 dig 0 m =
      some (load_constant_loop (r1.is_signed && decide (dig % 2 ^ 32 ≥ 2 ^ 31)) m 0
        (dig % 2 ^ 32) r1) := by
    unfold word_op_load_constant
    rw [if_neg (by omega), if_neg (by omega)]
  obtain ⟨a, b, d, _⟩ := load_constant_loop_frame
    (r1.is_signed && decide (dig % 2 ^ 32 ≥ 2 ^ 31)) m 0 (dig % 2 ^ 32) r1
  obtain ⟨e, f⟩ := load_constant_loop_inrange
    (r1.is_signed && decide (dig % 2 ^ 32 ≥ 2 ^ 31)) m 0 (dig % 2 ^ 32) r1 (by omega)
  rw [Nat.mod_eq_of_lt hdig32] at a b d e f e2
  generalize load_constant_loop (r1.is_signed && decide (dig ≥ 2 ^ 31)) m 0 dig r1 = r2
    at a b d e f e2
  refine ⟨r2, ?_, by rw [a, l1], by rw [b, s1, hu], by rw [e, ho1], by rw [d, u1], ?_⟩
  · unfold result_update
    simp only [Option.bind_eq_bind]
    rw [e1]
    simp only [Option.some_bind]
    exact e2
  · have hv := uval_shift_append_nat r2 reg dig m (by rw [a, l1]) hdig (by
      intro j hj
      rw [f, b1]
      simp only [Nat.zero_le, true_and, Nat.zero_add, Nat.sub_zero]
      by_cases h2 : j < m
      · rw [if_pos h2, if_pos h2]
      · rw [if_neg h2, if_neg h2, if_pos hj, if_pos (by omega)])
    rw [hv]
    apply Nat.mod_eq_of_lt
    have h512 : uval reg.bits * 2 ^ m + 2 ^ m ≤ 2 ^ reg.length := by
      have hpw : 2 ^ reg.length = 2 ^ (reg.length - m) * 2 ^ m := by
        rw [← pow_add]; congr 1; omega
      rw [hpw] at hfit ⊢
      have := Nat.lt_of_mul_lt_mul_right hfit
      calc uval reg.bits * 2 ^ m + 2 ^ m = (uval reg.bits + 1) * 2 ^ m := by ring
        _ ≤ 2 ^ (reg.length - m) * 2 ^ m := Nat.mul_le_mul_right _ this
    omega

/-- The digit list of a valid unsigned register: entry 0 is the digit count
`ceil(length / bits_per_digit)`, entry `j` (for `1 ≤ j ≤ count`) the digit of weight
`2^(bits_per_digit * (count - j))`. -/
theorem word_makelist_unsigned_spec (r : Word) (bpd : Nat) (hr : 0 < r.length)
    (hu : r.is_signed = false) (hb0 : 0 < bpd) (hb : bpd ≤ 32) :
    ∃ L, word_makelist r bpd = some L ∧
      L.getD 0 0 = (r.length + bpd - 1) / bpd ∧
      ∀ j, 1 ≤ j → j ≤ (r.length + bpd - 1) / bpd →
        L.getD j 0 = uval r.bits / 2 ^ (((r.length + bpd - 1) / bpd - j) * bpd) % 2 ^ bpd := by
  have e := word_makelist_eq r r bpd hr hb0 (word_op_abs_unsigned r hr hu)
  refine ⟨_, e, ?_, ?_⟩
  · rw [makelist_loop_getD r bpd _ _ 0 _ (by simp) (by omega) 0, if_neg (by omega)]
    rfl
  · intro j h1 h2
    rw [makelist_loop_getD r bpd _ _ 0 _ (by simp) (by omega) j,
      if_pos ⟨h1, h2, Nat.zero_le _, by omega⟩, makelist_digit_eq r bpd _ hb0 (Or.inl hb)]

/-- Every valid register has a digit list. -/
theorem word_makelist_some (r : Word) (bpd : Nat) (hr : 0 < r.length) (hb0 : 0 < bpd) :
    ∃ L, word_makelist r bpd = some L := by
  obtain ⟨amp, ha, _⟩ := word_op_abs_length r hr
  exact ⟨_, word_makelist_eq r amp bpd hr hb0 ha⟩

/-- Load of a valid unsigned register into a fresh register at bit offset `p`: the
fresh register holds `value * 2^p` when the source fits. -/
theorem load_into_fresh_spec (src : Word) (W p : Nat) (hs : 0 < src.length)
    (hsu : src.is_signed = false) (hfit : p + src.length ≤ W) :
    ∃ r', word_op_load (create_word W) src p = some r' ∧ r'.length = W ∧
      r'.is_signed = false ∧ uval r'.bits = uval src.bits * 2 ^ p := by
  obtain ⟨r', e, l, s, _, _, b⟩ :=
    word_op_load_unsigned_spec (create_word W) src p
      (by rw [create_word_length]; omega) hs rfl hsu
  rw [create_word_length] at l b
  refine ⟨r', e, l, s, ?_⟩
  apply Nat.eq_of_testBit_eq
  intro j
  rw [← BITS_eq_testBit, b, mul_comm, Nat.testBit_mul_pow_two, ← BITS_eq_testBit,
    create_word_BITS]
  by_cases h1 : p ≤ j
  · by_cases h2 : j < p + src.length
    · rw [if_pos ⟨h1, h2, by omega⟩]
      simp [h1]
    · rw [if_neg (by tauto), BITS_of_length_le src (j - p) (by omega)]
      simp
  · rw [if_neg (by tauto)]
    simp [h1]

/-- In one round of `main.VERY-BASIC.c` the root register is updated from the round's
digit alone. -/
theorem basic_iteration_register_S (m n Z oh Wsz fuel : Nat) (Bd Sd : List Nat) (it : Nat)
    (regs regs1 : BasicRegisters)
    (h : basic_iteration m n Z oh Wsz fuel Bd Sd it regs = some regs1) :
    result_update m (Sd.getD it 0) regs.register_S = some regs1.register_S := by
  unfold basic_iteration at h
  simp only [Option.bind_eq_bind, Option.bind_eq_some] at h
  obtain ⟨_, _, _, _, _, _, _, _, _, _, rS, hS, _, _, h⟩ := h
  simp only [Option.some.injEq] at h
  rw [← h]
  exact hS

/-- Through the whole recurrence loop of `main.VERY-BASIC.c` the root register is the
result of feeding the digits, one `result_update` per round. -/
theorem basic_loop_register_S (m n Z oh Wsz fuel : Nat) (Bd Sd : List Nat) :
    ∀ (k it : Nat) (regs0 regs : BasicRegisters),
      basic_loop m n Z oh Wsz fuel Bd Sd k it regs0 = some regs →
      (List.range' it k).foldlM
        (fun reg iteration => result_update m (Sd.getD iteration 0) reg) regs0.register_S
        = some regs.register_S := by
  intro k
  induction k with
  | zero =>
    intro it regs0 regs h
    simp only [basic_loop, Option.some.injEq] at h
    rw [h]
    rfl
  | succ k ih =>
    intro it regs0 regs h
    unfold basic_loop at h
    cases hi : basic_iteration m n Z oh Wsz fuel Bd Sd it regs0 with
    | none => rw [hi] at h; simp at h
    | some regs1 =>
      rw [hi] at h
      simp only [] at h
      have h1 := basic_iteration_register_S m n Z oh Wsz fuel Bd Sd it regs0 regs1 hi
      have h2 := ih (it + 1) regs1 regs h
      rw [List.range'_succ, List.foldlM_cons, h1]
      exact h2

/-- Feeding the ten base-`2^9` digits of a number `U < 2^79` to an 81-bit root register,
starting in round `it` from the digits already fed, ends with the register holding `U`
and both flags clear. -/
theorem root_chain (U : Nat) (L : List Nat) (hU : U < 2 ^ 79)
    (hL : ∀ j, 1 ≤ j → j ≤ 10 → L.getD j 0 = U / 2 ^ ((10 - j) * 9) % 2 ^ 9) :
    ∀ (k it : Nat) (reg : Word), it + k = 11 → 1 ≤ it → reg.length = 81 →
      reg.is_signed = false → reg.overflow = false → reg.underflow = false →
      uval reg.bits = U / 2 ^ ((11 - it) * 9) →
      ∃ reg', (List.range' it k).foldlM
          (fun reg iteration => result_update 9 (L.getD iteration 0) reg) reg = some reg' ∧
        reg'.length = 81 ∧ reg'.is_signed = false ∧ reg'.overflow = false ∧
        reg'.underflow = false ∧ uval reg'.bits = U := by
  intro k
  induction k with
  | zero =>
    intro it reg hk h1 hl hs ho hu hv
    have : it = 11 := by omega
    subst this
    refine ⟨reg, rfl, hl, hs, ho, hu, ?_⟩
    rw [hv]
    simp
  | succ k ih =>
    intro it reg hk h1 hl hs ho hu hv
    have hdig := hL it h1 (by omega)
    have hsplit : U / 2 ^ ((11 - it) * 9) = U / 2 ^ ((10 - it) * 9) / 2 ^ 9 := by
      rw [Nat.div_div_eq_div_mul, ← pow_add]
      congr 2
      omega
    have hX : U / 2 ^ ((10 - it) * 9) ≤ U := Nat.div_le_self _ _
    generalize hXd : U / 2 ^ ((10 - it) * 9) = X at hdig hsplit hX
    have hdm := Nat.div_add_mod X (2 ^ 9)
    have hfit : uval reg.bits * 2 ^ 9 < 2 ^ reg.length := by
      rw [hl, hv, hsplit]
      have : X / 2 ^ 9 * 2 ^ 9 ≤ X := Nat.div_mul_le_self _ _
      have h79 : (2 : Nat) ^ 79 < 2 ^ 81 := by norm_num
      omega
    obtain ⟨reg1, e1, l1, s1, o1, u1, v1⟩ :=
      result_update_spec 9 (L.getD it 0) reg (by norm_num) (by norm_num) (by omega) hs ho
        (by rw [hdig]; exact Nat.mod_lt _ (by norm_num)) hfit
    obtain ⟨reg', e2, r2⟩ := ih (it + 1) reg1 (by omega) (by omega) (by rw [l1, hl]) s1 o1
      (by rw [u1, hu]) (by
        rw [v1, hv, hsplit, hdig]
        have : 11 - (it + 1) = 10 - it := by omega
        rw [this, hXd]
        omega)
    refine ⟨reg', ?_, r2⟩
    rw [List.range'_succ, List.foldlM_cons, e1]
    exact e2

/-- The root part of `main.VERY-BASIC.c` for the parameters `m = 9`, `n = 8`, `Z = 11`
(2 overhead iterations, 7 excess bits, an 81-bit root register): the digit lists exist,
feeding the ten digits of `S' = S * 2^7` gives a register that holds `S * 2^7`, and the
final right shift leaves `S` with both flags clear. -/
theorem basic_root_spec (operands : Operands) (hS : operands.S.length = 72)
    (hSu : operands.S.is_signed = false) (hB : 0 < operands.B.length) :
    ∃ digit_lists reg reg', basic_digits 9 8 2 7 operands = some digit_lists ∧
      (List.range' 1 10).foldlM
        (fun r iteration => result_update 9 (digit_lists.1.getD iteration 0) r)
        (create_word 81) = some reg ∧
      word_op_rightshift reg 7 = some reg' ∧
      word_op_compare reg' operands.S = 0 ∧ reg'.overflow = false ∧
      reg'.underflow = false ∧ reg'.value = operands.S.value := by
  have hlt72 : uval operands.S.bits < 2 ^ 72 := by
    have := uval_lt operands.S.bits
    have e : operands.S.bits.length = 72 := hS
    rw [e] at this
    exact this
  obtain ⟨Sp, eSp, lSp, sSp, vSp⟩ :=
    load_into_fresh_spec operands.S 90 7 (by omega) hSu (by omega)
  obtain ⟨L, eL, L0, Lj⟩ :=
    word_makelist_unsigned_spec Sp 9 (by omega) sSp (by norm_num) (by norm_num)
  rw [lSp] at L0 Lj
  have h10 : (90 + 9 - 1) / 9 = 10 := by norm_num
  rw [h10] at L0 Lj
  obtain ⟨Bd, eBd⟩ := word_makelist_some operands.B 9 hB (by norm_num)
  have hU : uval Sp.bits < 2 ^ 79 := by
    rw [vSp]
    have : (2 : Nat) ^ 79 = 2 ^ 72 * 2 ^ 7 := by norm_num
    rw [this]
    exact Nat.mul_lt_mul_of_pos_right hlt72 (by norm_num)
  obtain ⟨reg, ereg, lreg, sreg, oreg, ureg, vreg⟩ :=
    root_chain (uval Sp.bits) L hU Lj 10 1 (create_word 81) (by norm_num) (le_refl _)
      (create_word_length 81) rfl rfl rfl (by
        have h0 : uval (create_word 81).bits = 0 :=
          uval_eq_of_BITS (create_word 81) 0 (fun j => by rw [create_word_BITS]; simp)
        rw [h0]
        symm
        apply Nat.div_eq_of_lt
        have : (2 : Nat) ^ 79 < 2 ^ ((11 - 1) * 9) := by norm_num
        omega)
  obtain ⟨reg', ers, lrs, srs, ors, vrs, urs, _⟩ := word_op_rightshift_value reg 7 (by omega)
  have hregv : reg.value = (uval operands.S.bits : Int) * 2 ^ 7 := by
    rw [Word.value_unsigned reg sreg, vreg, vSp]
    push_cast
    rfl
  have hval : reg'.value = operands.S.value := by
    rw [vrs, hregv, Word.value_unsigned operands.S hSu]
    exact Int.mul_ediv_cancel _ (by norm_num)
  refine ⟨(L, Bd), reg, reg', ?_, ereg, ers, ?_, by rw [ors, oreg], ?_, hval⟩
  · unfold basic_digits
    simp only [Option.bind_eq_bind]
    rw [show 9 * 8 + 9 * 2 = 90 from rfl, eSp]
    simp only [Option.some_bind]
    rw [eL]
    simp only [Option.some_bind]
    rw [L0, if_neg (by decide)]
    simp only [Option.some_bind, eBd]
    rfl
  · rw [word_op_compare_value reg' operands.S (by omega) (by omega), hval]
    simp
  · cases hu : reg'.underflow with
    | false => rfl
    | true =>
      exfalso
      rcases urs.mp hu with h | h
      · rw [ureg] at h; exact absurd h (by simp)
      · apply h
        rw [hregv]
        exact Int.mul_emod_left _ _

/-- Claim C34: basic mode with `m = 9`, `n = 8`, `Z = 11` (2 overhead iterations,
`excess_bits = 7`, an 81-bit root register).  For every unsigned 72-bit register `S`:
the digit list of `S' = S * 2^7` exists and has the ten digits the loop expects;
feeding them to the root register (`result_update`: left shift by `m`, then load of
the digit, once per iteration) returns; the final right shift by `excess_bits` returns
a register that compares equal to `S`, with `overflow` and `underflow` clear.  This is
independent of the residual arithmetic: whenever the recurrence loop of the program
returns, from any initial registers whose root register is the fresh 81-bit one and
for any fuel, its root register is the one obtained by feeding the digits, and the
terminal check reports the root as recovered. -/
theorem basic_root_recovered (operands : Operands) (hS : operands.S.length = 72)
    (hSu : operands.S.is_signed = false) (hB : 0 < operands.B.length) :
    ∃ digit_lists reg reg', basic_digits 9 8 2 7 operands = some digit_lists ∧
      (List.range' 1 10).foldlM
        (fun r iteration => result_update 9 (digit_lists.1.getD iteration 0) r)
        (create_word 81) = some reg ∧
      word_op_rightshift reg 7 = some reg' ∧
      word_op_compare reg' operands.S = 0 ∧ reg'.overflow = false ∧
      reg'.underflow = false ∧ reg'.value = operands.S.value ∧
      (∀ fuel regs0 regs, regs0.register_S = create_word 81 →
        basic_loop 9 8 11 2 192 fuel digit_lists.2 digit_lists.1 10 1 regs0 = some regs →
        regs.register_S = reg ∧
        ∃ out, basic_checks 7 operands.S regs = some out ∧ out.register_S = reg' ∧
          out.root_compare = 0) := by
  obtain ⟨dl, reg, reg', e1, e2, e3, hc, ho, hu, hv⟩ := basic_root_spec operands hS hSu hB
  refine ⟨dl, reg, reg', e1, e2, e3, hc, ho, hu, hv, ?_⟩
  intro fuel regs0 regs h0 hloop
  have hl := basic_loop_register_S 9 8 11 2 192 fuel dl.2 dl.1 10 1 regs0 regs hloop
  rw [h0, e2] at hl
  have hreg : regs.register_S = reg := (Option.some.inj hl).symm
  refine ⟨hreg, ?_⟩
  unfold basic_checks
  simp only [Option.bind_eq_bind]
  rw [hreg, e3]
  simp only [Option.some_bind]
  exact ⟨_, rfl, rfl, hc⟩

theorem basic_root_recovered_witness :
    (Operands.mk (create_word 72) (create_word 72) (word_of_nat 72 4722366482594767306755)).S.length
      = 72 ∧
    ∃ digit_lists reg reg',
      basic_digits 9 8 2 7
        (Operands.mk (create_word 72) (create_word 72)
          (word_of_nat 72 4722366482594767306755)) = some digit_lists ∧
      (List.range' 1 10).foldlM
        (fun r iteration => result_update 9 (digit_lists.1.getD iteration 0) r)
        (create_word 81) = some reg ∧
      word_op_rightshift reg 7 = some reg' ∧
      word_op_compare reg' (Operands.mk (create_word 72) (create_word 72)
        (word_of_nat 72 4722366482594767306755)).S = 0 ∧ reg'.overflow = false ∧
      reg'.underflow = false ∧
      reg'.value = (Operands.mk (create_word 72) (create_word 72)
        (word_of_nat 72 4722366482594767306755)).S.value ∧
      (∀ fuel regs0 regs, regs0.register_S = create_word 81 →
        basic_loop 9 8 11 2 192 fuel digit_lists.2 digit_lists.1 10 1 regs0 = some regs →
        regs.register_S = reg ∧
        ∃ out, basic_checks 7 (Operands.mk (create_word 72) (create_word 72)
            (word_of_nat 72 4722366482594767306755)).S regs = some out ∧
          out.register_S = reg' ∧ out.root_compare = 0) :=
  ⟨by simp [word_of_nat, Word.length],
    basic_root_recovered
      (Operands.mk (create_word 72) (create_word 72) (word_of_nat 72 4722366482594767306755))
      (by simp [word_of_nat, Word.length]) rfl (by simp [create_word, Word.length])⟩

/-! ### Value-level behaviour of basic mode (claim C28) -/

/-- The loop of `word_op_add` on a result register whose sign is set (`result_sign = 1`),
with an unsigned added value that fits below the top of the result: the loop returns,
and the result register and the carry `c` out of its top bit account for the exact
sum. -/
theorem add_loop_run_neg (a : Word) (s : Int) (w p : Nat) (hs : s = 1 ∨ s = -1)
    (hpa : p + a.length ≤ w) :
    ∀ (fuel i : Nat) (sum : Int) (R : Word), R.length = w → i + p ≤ w →
      (s = 1 → sum = 0 ∨ sum = 1) → (s = -1 → sum = 0 ∨ sum = -1) →
      w + 3 ≤ fuel + (i + p) →
      ∃ (R' : Word) (c : Int), add_loop true false s a fuel i (i + p) sum R = some R' ∧
        R'.length = w ∧ R'.is_signed = R.is_signed ∧ R'.underflow = R.underflow ∧
        (uval R'.bits : Int) + c * 2 ^ w =
          uval R.bits + sum * 2 ^ (i + p) +
            s * ((uval a.bits / 2 ^ i : Nat) : Int) * 2 ^ (i + p) ∧
        (c = 0 ∨ c = 1 ∨ c = -1) := by
  intro fuel
  induction fuel with
  | zero => intro i sum R _ hi _ _ hf; omega
  | succ fuel ih =>
    intro i sum R hlen hi hr1 hr2 hf
    rw [add_loop_step true false s a hs]
    by_cases hA : ¬ (i < a.length ∨ sum ≠ 0)
    · rw [if_pos hA]
      have h1 : a.length ≤ i := by omega
      have h2 : sum = 0 := by
        by_contra h; exact hA (Or.inr h)
      refine ⟨R, 0, rfl, hlen, rfl, rfl, ?_, Or.inl rfl⟩
      rw [uval_div_eq_zero a i h1, h2]; simp
    · rw [if_neg hA]
      by_cases hB : i ≥ a.length ∧ i + p ≥ R.length ∧ (sum = 0 ∨ sum = -1)
      · rw [if_pos hB]
        have hj : i + p = w := by omega
        refine ⟨R, sum, rfl, hlen, rfl, rfl, ?_, ?_⟩
        · rw [uval_div_eq_zero a i hB.1, hj]; simp
        · rcases hB.2.2 with h | h
          · exact Or.inl h
          · exact Or.inr (Or.inr h)
      · rw [if_neg hB]
        by_cases hjw : i + p < w
        · -- inside the register
          have hjl : i + p < R.length := by omega
          simp only [if_pos hjl]
          have hab : (if i < a.length then BITS a i else false) = BITS a i := by
            by_cases h : i < a.length
            · rw [if_pos h]
            · rw [if_neg h, BITS_of_length_le a i (by omega)]
          rw [hab]
          generalize hsum2 : sum + ((BITS R (i + p)).toNat : Int) +
            s * ((BITS a i).toNat : Int) = sum2
          have hsrc : ((BITS R (i + p)).toNat : Int) = 0 ∨
              ((BITS R (i + p)).toNat : Int) = 1 := by
            cases BITS R (i + p) <;> simp
          have hadd : ((BITS a i).toNat : Int) = 0 ∨ ((BITS a i).toNat : Int) = 1 := by
            cases BITS a i <;> simp
          have hstep : (uval (R.store (i + p) (decide (sum2 % 2 = 1))).bits : Int) +
              (sum2 / 2) * 2 ^ (i + 1 + p) +
                s * ((uval a.bits / 2 ^ (i + 1) : Nat) : Int) * 2 ^ (i + 1 + p) =
              uval R.bits + sum * 2 ^ (i + p) +
                s * ((uval a.bits / 2 ^ i : Nat) : Int) * 2 ^ (i + p) := by
            rw [uval_store R (i + p) _ hjl, int_bit_decide_toNat]
            have e1 : i + 1 + p = (i + p) + 1 := by omega
            rw [e1, pow_succ]
            have e2 := uval_div_succ (uval a.bits) i
            rw [← BITS_eq_testBit] at e2
            have e3 : ((uval a.bits / 2 ^ i : Nat) : Int) =
                ((BITS a i).toNat : Int) + 2 * ((uval a.bits / 2 ^ (i + 1) : Nat) : Int) := by
              exact_mod_cast e2
            rw [e3]
            have e4 : sum2 % 2 = sum2 - 2 * (sum2 / 2) := by omega
            rw [e4, ← hsum2]
            ring
          have hs3 : (s = 1 → sum2 / 2 = 0 ∨ sum2 / 2 = 1) ∧
              (s = -1 → sum2 / 2 = 0 ∨ sum2 / 2 = -1) := by
            constructor
            · intro h1
              have := hr1 h1
              rw [h1] at hsum2
              omega
            · intro h1
              have := hr2 h1
              rw [h1] at hsum2
              omega
          have hO : ¬ (i + p ≥ R.length - 1 ∧ sum2 / 2 ≠ 0 ∧ sum2 / 2 ≠ -1 ∧
              (true = false ∨ sum2 / 2 ≠
                int_shl_one (Int.toNat ((((R.length : Int) - 1) - ((i + p : Nat) : Int))
                  % 2 ^ 32)))) := by
            rintro ⟨h1, h2, h3, h4⟩
            have hj : i + p = R.length - 1 := by omega
            have hz : (((R.length : Int) - 1) - ((i + p : Nat) : Int)) = 0 := by
              rw [hj]
              have : 1 ≤ R.length := by omega
              push_cast [this]
              ring
            rw [hz] at h4
            have h1' : int_shl_one (Int.toNat ((0 : Int) % 2 ^ 32)) = 1 := by decide
            rw [h1'] at h4
            rcases h4 with h4 | h4
            · exact absurd h4 (by decide)
            · rcases hs with h | h
              · rcases hs3.1 h with h' | h'
                · exact h2 h'
                · exact h4 h'
              · rcases hs3.2 h with h' | h'
                · exact h2 h'
                · exact h3 h'
          rw [if_neg hO]
          obtain ⟨R', c, g1, g2, g3, g4, g5, g6⟩ :=
            ih (i + 1) (sum2 / 2) (R.store (i + p) (decide (sum2 % 2 = 1)))
              (by rw [length_store, hlen]) (by omega) hs3.1 hs3.2 (by omega)
          have e6 : i + p + 1 = i + 1 + p := by omega
          rw [e6]
          exact ⟨R', c, g1, g2, g3, g4, by rw [g5, hstep], g6⟩
        · -- one round beyond the register: only a carry of one gets here
          have hj : i + p = w := by omega
          have hia : a.length ≤ i := by omega
          have hsum1 : sum = 1 := by
            have hne0 : sum ≠ 0 := by
              intro h0
              exact hA (by rw [h0]; simp; omega)
            have hnem : sum ≠ -1 := by
              intro h0
              exact hB ⟨hia, by omega, Or.inr h0⟩
            rcases hs with h | h
            · rcases hr1 h with h' | h'
              · exact absurd h' hne0
              · exact h'
            · rcases hr2 h with h' | h'
              · exact absurd h' hne0
              · exact absurd h' hnem
          have hjl : ¬ (i + p < R.length) := by omega
          have hil : ¬ (i < a.length) := by omega
          simp only [if_neg hjl, if_neg hil, hsum1]
          have hv : ((1 : Int) + ((true).toNat : Int) + s * ((false).toNat : Int)) / 2 = 1 := by
            simp
          rw [hv]
          have hshl : int_shl_one (Int.toNat ((((R.length : Int) - 1) -
              ((i + p : Nat) : Int)) % 2 ^ 32)) = -(2 : Int) ^ 31 := by
            have hz : (((R.length : Int) - 1) - ((i + p : Nat) : Int)) = -1 := by
              rw [hj, hlen]
              ring
            rw [hz]
            decide
          rw [hshl, if_pos ⟨by omega, by norm_num, by norm_num, Or.inr (by norm_num)⟩]
          refine ⟨{ R with overflow := true }, 1, rfl, hlen, rfl, rfl, ?_, Or.inr (Or.inl rfl)⟩
          show (uval R.bits : Int) + 1 * 2 ^ w = _
          rw [uval_div_eq_zero a i hia, hj]
          simp

/-- The function `word_op_add` with an unsigned added value that fits below the top of
the result register, for a result register of either sign mode: the call returns, and
the result register and the carry `c` out of its top bit account for the exact sum, so
the register holds the sum modulo `2^w`. -/
theorem word_op_add_value (fuel : Nat) (r a : Word) (s : Int) (p : Nat)
    (hs : s = 1 ∨ s = -1) (ha : a.is_signed = false) (hal : 0 < a.length)
    (hfit : p + a.length ≤ r.length) (hf : r.length + 3 ≤ fuel + p) :
    ∃ (r' : Word), word_op_add fuel r a s p = some r' ∧ r'.length = r.length ∧
      r'.is_signed = r.is_signed ∧ r'.underflow = r.underflow ∧
      (uval r'.bits : Int) =
        ((uval r.bits : Int) + s * (uval a.bits : Int) * 2 ^ p) % 2 ^ r.length := by
  have e1 : ¬ (r.length = 0 ∨ a.length = 0) := by omega
  have e2 : ¬ (s ≠ 1 ∧ s ≠ -1) := by
    rcases hs with h | h <;> simp [h]
  have key : ∀ (r' : Word) (c : Int),
      (uval r'.bits : Int) + c * 2 ^ r.length =
        uval r.bits + 0 * 2 ^ (0 + p) + s * ((uval a.bits / 2 ^ 0 : Nat) : Int) * 2 ^ (0 + p) →
      r'.length = r.length →
      (uval r'.bits : Int) =
        ((uval r.bits : Int) + s * (uval a.bits : Int) * 2 ^ p) % 2 ^ r.length := by
    intro r' c h hl
    have hlt := uval_int_lt r'
    rw [hl] at hlt
    have h0 : (0 : Int) ≤ uval r'.bits := Int.ofNat_nonneg _
    have e : (uval r.bits : Int) + s * (uval a.bits : Int) * 2 ^ p =
        (uval r'.bits : Int) + c * 2 ^ r.length := by
      rw [h]; simp
    rw [e, Int.add_mul_emod_self, Int.emod_eq_of_lt h0 hlt]
  cases hrs : (r.is_signed && BITS r (r.length - 1)) with
  | false =>
    obtain ⟨r', c, h1, h2, h3, h4, h5, _⟩ :=
      add_loop_run a s r.length p hs hfit fuel 0 0 r rfl (by omega) (fun _ => Or.inl rfl)
        (fun _ => Or.inl rfl) (fun _ => Or.inl rfl) (by omega)
    refine ⟨r', ?_, h2, h3, h4, key r' c h5 h2⟩
    unfold word_op_add
    rw [if_neg e1, if_neg e2]
    simp only [hrs, ha, Bool.false_and]
    rw [Nat.zero_add] at h1
    exact h1
  | true =>
    obtain ⟨r', c, h1, h2, h3, h4, h5, _⟩ :=
      add_loop_run_neg a s r.length p hs hfit fuel 0 0 r rfl (by omega)
        (fun _ => Or.inl rfl) (fun _ => Or.inl rfl) (by omega)
    refine ⟨r', ?_, h2, h3, h4, key r' c h5 h2⟩
    unfold word_op_add
    rw [if_neg e1, if_neg e2]
    simp only [hrs, ha, Bool.false_and]
    rw [Nat.zero_add] at h1
    exact h1

/-- Two runs of the column loop of `word_op_multiply` on two result registers of the same
width (of any sign mode): the resulting bits agree wherever the registers agreed at the
start and at every column below `na + nb - 1` that is still to be visited. -/
theorem multiply_loop_bits_rel (na nb : Nat) (a b : Word) :
    ∀ (fuel i sum : Nat) (R1 R2 r1 r2 : Word),
      R1.length = R2.length →
      multiply_loop na nb a b fuel i sum R1 = some r1 →
      multiply_loop na nb a b fuel i sum R2 = some r2 →
      ∀ j, (BITS R1 j = BITS R2 j ∨ (i ≤ j ∧ j < na + nb - 1)) → BITS r1 j = BITS r2 j := by
  intro fuel
  induction fuel with
  | zero => intro i sum R1 R2 r1 r2 _ h; simp [multiply_loop] at h
  | succ fuel ih =>
    intro i sum R1 R2 r1 r2 hl h1 h2
    unfold multiply_loop at h1 h2
    simp only [] at h1 h2
    generalize (multiply_column a b _ _ _ sum) = sum1 at h1 h2
    by_cases hc : ¬ (i < na + nb - 1 ∨ sum ≠ 0)
    · rw [if_pos hc] at h1 h2
      injection h1 with h1; subst h1
      injection h2 with h2; subst h2
      intro j hj
      rcases hj with h | ⟨h, h'⟩
      · exact h
      · exact absurd (Or.inl (by omega)) hc
    · rw [if_neg hc] at h1 h2
      have hR : ∀ (R : Word) (c : Prop) [Decidable c],
          (if c then { R with overflow := true } else R).length = R.length ∧
          ∀ j, BITS (if c then { R with overflow := true } else R) j = BITS R j := by
        intro R c _
        split_ifs
        · exact ⟨rfl, fun _ => rfl⟩
        · exact ⟨rfl, fun _ => rfl⟩
      obtain ⟨p1, p2⟩ := hR R1 (R1.is_signed = true ∧ i ≥ R1.length - 1 ∧ sum1 ≠ 0)
      obtain ⟨q1, q2⟩ := hR R2 (R2.is_signed = true ∧ i ≥ R2.length - 1 ∧ sum1 ≠ 0)
      generalize (if R1.is_signed = true ∧ i ≥ R1.length - 1 ∧ sum1 ≠ 0
        then { R1 with overflow := true } else R1) = R1' at h1 p1 p2
      generalize (if R2.is_signed = true ∧ i ≥ R2.length - 1 ∧ sum1 ≠ 0
        then { R2 with overflow := true } else R2) = R2' at h2 q1 q2
      by_cases h3 : i ≥ R1.length ∧ sum1 ≠ 0
      · rw [if_pos h3] at h1
        rw [if_pos (by rw [← hl]; exact h3)] at h2
        injection h1 with h1; subst h1
        injection h2 with h2; subst h2
        intro j hj
        show BITS R1' j = BITS R2' j
        rw [p2, q2]
        rcases hj with h | ⟨h, h'⟩
        · exact h
        · rw [BITS_of_length_le R1 j (by omega), BITS_of_length_le R2 j (by omega)]
      · rw [if_neg h3] at h1
        rw [if_neg (by rw [← hl]; exact h3)] at h2
        by_cases h4 : i < R1.length
        · rw [if_pos h4] at h1
          rw [if_pos (by rw [← hl]; exact h4)] at h2
          have q := ih (i + 1) (sum1 / 2) (R1'.store i (decide (sum1 % 2 = 1)))
            (R2'.store i (decide (sum1 % 2 = 1))) r1 r2
            (by rw [length_store, length_store, p1, q1, hl]) h1 h2
          intro j hj
          apply q
          rw [BITS_store, BITS_store, p2, q2]
          by_cases hji : j = i
          · left
            rw [if_pos ⟨hji, by omega⟩, if_pos ⟨hji, by omega⟩]
          · rcases hj with h | ⟨h, h'⟩
            · left
              rw [if_neg (by tauto), if_neg (by tauto)]
              exact h
            · right
              omega
        · rw [if_neg h4] at h1
          rw [if_neg (by rw [← hl]; exact h4)] at h2
          have q := ih (i + 1) (sum1 / 2) R1' R2' r1 r2 (by rw [p1, q1, hl]) h1 h2
          intro j hj
          apply q
          rw [p2, q2]
          rcases hj with h | ⟨h, h'⟩
          · left; exact h
          · by_cases hji : j = i
            · left
              rw [BITS_of_length_le R1 j (by omega), BITS_of_length_le R2 j (by omega)]
            · right
              omega

/-- The function `word_op_multiply` on valid unsigned operands, for a result register of
either sign mode that is all-zero or not wider than `length(a) + length(b) - 1`: the
call returns and the result register holds the product modulo `2^w`. -/
theorem word_op_multiply_value (fuel : Nat) (result a b : Word) (hr : 0 < result.length)
    (ha : 0 < a.length) (hb : 0 < b.length) (ha16 : a.length < 65536)
    (hb16 : b.length < 65536) (hau : a.is_signed = false) (hbu : b.is_signed = false)
    (hz : (∀ j, BITS result j = false) ∨ result.length ≤ a.length + b.length - 1)
    (hf : a.length + b.length + 33 ≤ fuel) :
    ∃ r, word_op_multiply fuel result a b = some r ∧ r.length = result.length ∧
      r.is_signed = result.is_signed ∧
      uval r.bits = (uval a.bits * uval b.bits) % 2 ^ result.length := by
  have hsig : (a.is_signed && BITS a (a.length - 1)) = (b.is_signed && BITS b (b.length - 1)) := by
    rw [hau, hbu]; rfl
  obtain ⟨r, e⟩ := word_op_multiply_some fuel result a b hr ha hb (by rw [hsig]; simp) hf
  obtain ⟨l, sg, _, _⟩ := word_op_multiply_frame fuel result a b r e
  refine ⟨r, e, l, sg, ?_⟩
  have e' := e
  unfold word_op_multiply at e'
  rw [if_neg (by omega), if_neg (by omega), if_neg (by omega)] at e'
  simp only [hsig, ne_eq, not_true_eq_false, false_and, if_false] at e'
  rw [word_op_abs_unsigned a ha hau, word_op_abs_unsigned b hb hbu] at e'
  simp only [] at e'
  cases hm1 : multiply_loop a.length b.length a b fuel 0 0 result with
  | none => rw [hm1] at e'; simp at e'
  | some x1 =>
    rw [hm1] at e'
    simp only [Option.some.injEq] at e'
    subst e'
    -- the same loop on a fresh register
    obtain ⟨x2, hm2, v2, l2, _, _, _⟩ :=
      multiply_loop_trunc a b result.length ha hb ha16 hb16 fuel 0 0
        (create_word result.length) rfl (create_word_length _) (by omega)
        (fun j _ => create_word_BITS _ j)
        (by rw [create_word_uval]; simp [columns_value])
        (by omega) (by omega)
    have hbits := multiply_loop_bits_rel a.length b.length a b fuel 0 0 result
      (create_word result.length) x1 x2 (by rw [create_word_length]) hm1 hm2
    rw [← v2]
    apply congrArg
    apply bits_ext
    · have : x1.length = x2.length := by rw [l, l2]
      exact this
    · intro j hj
      apply hbits
      rcases hz with h | h
      · left
        rw [h j, create_word_BITS]
      · right
        have hj' : j < x1.length := hj
        rw [l] at hj'
        exact ⟨Nat.zero_le _, by omega⟩

/-- Left shift of a valid signed register: the sign bit stays, the bits below it are
shifted; in terms of the unsigned reading of the bits. -/
theorem word_op_leftshift_signed_uval (r : Word) (k n : Nat) (hn : r.length = n + 1)
    (hs : r.is_signed = true) :
    ∃ r', word_op_leftshift r k = some r' ∧ r'.length = r.length ∧ r'.is_signed = true ∧
      uval r'.bits = (uval r.bits * 2 ^ k) % 2 ^ n + (uval r.bits / 2 ^ n) * 2 ^ n := by
  refine ⟨_, word_op_leftshift_signed_eq r k (by omega) hs, ?_⟩
  obtain ⟨h1, h2, _, _, h5⟩ :=
    leftshift_loop_spec k (BITS r (r.length - 1)) (r.length - 1 - 1) (r.length - 1) r
      (by omega)
  refine ⟨h1, by rw [h2, hs], ?_⟩
  apply Nat.eq_of_testBit_eq
  intro j
  have hlt : (uval r.bits * 2 ^ k) % 2 ^ n < 2 ^ n := Nat.mod_lt _ (by positivity)
  rw [← BITS_eq_testBit, h5, add_comm, mul_comm (uval r.bits / 2 ^ n),
    Nat.testBit_mul_pow_two_add _ hlt, Nat.testBit_mod_two_pow, mul_comm,
    Nat.testBit_mul_pow_two, testBit_div_two_pow, ← BITS_eq_testBit, ← BITS_eq_testBit]
  have e : r.length - 1 = n := by omega
  rw [e]
  by_cases hj : j < n
  · rw [if_pos hj, if_pos hj]
    by_cases hk : k ≤ j <;> simp [hj, hk]
  · rw [if_neg hj, if_neg hj]
    congr 1
    omega

/-- Load of a constant into the low field of a register whose low field is zero: the
value grows by the constant. -/
theorem word_op_load_constant_low (dst : Word) (v c : Nat) (hlen : 0 < dst.length)
    (hc : c ≤ 32) (hcl : c ≤ dst.length) (hv : v < 2 ^ c)
    (hz : uval dst.bits % 2 ^ c = 0) :
    ∃ r', word_op_load_constant dst v 0 c = some r' ∧ r'.length = dst.length ∧
      r'.is_signed = dst.is_signed ∧ uval r'.bits = uval dst.bits + v := by
  have hv32 : v < 2 ^ 32 := lt_of_lt_of_le hv (Nat.pow_le_pow_right (by norm_num) hc)
  obtain ⟨r', e, l, s, _, _, b⟩ :=
    word_op_load_constant_spec dst v 0 c hlen hv32 hc (by omega)
  refine ⟨r', e, l, s, ?_⟩
  apply Nat.eq_of_testBit_eq
  intro j
  have hsplit := Nat.div_add_mod (uval dst.bits) (2 ^ c)
  rw [hz, Nat.add_zero] at hsplit
  rw [← BITS_eq_testBit, b, ← hsplit, Nat.testBit_mul_pow_two_add _ hv,
    testBit_div_two_pow, ← BITS_eq_testBit]
  simp only [Nat.zero_le, true_and, Nat.zero_add, Nat.sub_zero]
  by_cases hj : j < c
  · rw [if_pos hj, if_pos hj]
  · rw [if_neg hj, if_neg hj]
    congr 1
    omega

/-- The partial-product term of a round: `(digit * A mod 2^w) * 2^m mod 2^w` in a fresh
unsigned register of `w` bits. -/
theorem partial_product_value (m w fuel : Nat) (dB A : Word) (hw : 0 < w)
    (hd : 0 < dB.length) (hA : 0 < A.length) (hd16 : dB.length < 65536)
    (hA16 : A.length < 65536) (hdu : dB.is_signed = false) (hAu : A.is_signed = false)
    (hf : dB.length + A.length + 33 ≤ fuel) :
    ∃ t, partial_product m w fuel dB A = some t ∧ t.length = w ∧ t.is_signed = false ∧
      uval t.bits = ((uval dB.bits * uval A.bits) % 2 ^ w * 2 ^ m) % 2 ^ w := by
  obtain ⟨t1, e1, l1, s1, v1⟩ :=
    word_op_multiply_value fuel (create_word w) dB A (by rw [create_word_length]; exact hw)
      hd hA hd16 hA16 hdu hAu (Or.inl (fun j => create_word_BITS w j)) hf
  rw [create_word_length] at l1 v1
  have s1' : t1.is_signed = false := by rw [s1]; rfl
  obtain ⟨t2, e2, l2, s2, _, _, _, v2⟩ :=
    word_op_leftshift_unsigned_spec t1 m (by omega) s1'
  refine ⟨t2, ?_, by rw [l2, l1], s2, by rw [v2, v1, l1]⟩
  unfold partial_product
  simp only [Option.bind_eq_bind, e1, Option.some_bind, e2]

/-- The theoretical linear-quadratic term of a round: with `[2S | s] = S * 2^(m+1) + s`,
the register holds `(digit * [2S | s] mod 2^w) * 2^(m (n+1) + 2 Z) mod 2^w`. -/
theorem linearquadratic_value (m n Z w fuel s : Nat) (dS S : Word) (hm0 : 0 < m)
    (hm : m ≤ 32) (hs : s < 2 ^ m) (hd : 0 < dS.length) (hd16 : dS.length < 65536)
    (hw16 : w < 65536) (hdu : dS.is_signed = false) (hS : 0 < S.length)
    (hSu : S.is_signed = false) (hfit : m + 1 + S.length ≤ w)
    (hf : dS.length + w + 33 ≤ fuel) :
    ∃ t, linearquadratic m n Z w fuel s dS S = some t ∧ t.length = w ∧
      t.is_signed = false ∧
      uval t.bits =
        ((uval dS.bits * (uval S.bits * 2 ^ (m + 1) + s)) % 2 ^ w *
          2 ^ (m * (n + 1) + 2 * Z)) % 2 ^ w := by
  obtain ⟨t1, e1, l1, s1, v1⟩ := load_into_fresh_spec S w (m + 1) hS hSu hfit
  obtain ⟨t2, e2, l2, s2, v2⟩ :=
    word_op_load_constant_low t1 s m (by omega) hm (by omega) hs (by
      rw [v1, pow_succ, mul_comm (2 ^ m) 2, ← mul_assoc]
      exact Nat.mul_mod_left _ _)
  rw [s1] at s2
  rw [l1] at l2
  rw [v1] at v2
  obtain ⟨t3, e3, l3, s3, v3⟩ :=
    word_op_multiply_value fuel t2 dS t2 (by omega) hd (by omega) hd16 (by omega) hdu s2
      (Or.inr (by omega)) (by omega)
  rw [s2] at s3
  rw [l2] at l3 v3
  rw [v2] at v3
  obtain ⟨t4, e4, l4, s4, _, _, _, v4⟩ :=
    word_op_leftshift_unsigned_spec t3 (m * (n + 1) + 2 * Z) (by omega) s3
  refine ⟨t4, ?_, by rw [l4, l3], s4, by rw [v4, v3, l3]⟩
  unfold linearquadratic
  simp only [Option.bind_eq_bind, e1, Option.some_bind, e2, e3, e4]

/-- The update of a signed residual register in a round: the shift keeps the sign bit,
the two additions wrap modulo `2^w`. -/
theorem residual_update_value (m fuel n : Nat) (W pp lq : Word) (hW : W.length = n + 1)
    (hWs : W.is_signed = true) (hp : 0 < pp.length) (hpl : pp.length ≤ n + 1)
    (hpu : pp.is_signed = false) (hq : 0 < lq.length) (hql : lq.length ≤ n + 1)
    (hqu : lq.is_signed = false) (hf : n + 1 + 3 ≤ fuel) :
    ∃ W', residual_update m fuel W pp lq = some W' ∧ W'.length = n + 1 ∧
      W'.is_signed = true ∧
      (uval W'.bits : Int) =
        ((((uval W.bits * 2 ^ (m * 2)) % 2 ^ n + (uval W.bits / 2 ^ n) * 2 ^ n : Nat) : Int)
          + (uval pp.bits : Int) - (uval lq.bits : Int)) % 2 ^ (n + 1) := by
  obtain ⟨W1, e1, l1, s1, v1⟩ := word_op_leftshift_signed_uval W (m * 2) n hW hWs
  rw [hW] at l1
  obtain ⟨W2, e2, l2, s2, _, v2⟩ :=
    word_op_add_value fuel W1 pp 1 0 (Or.inl rfl) hpu hp (by omega) (by omega)
  rw [l1] at l2 v2
  rw [s1] at s2
  obtain ⟨W3, e3, l3, s3, _, v3⟩ :=
    word_op_add_value fuel W2 lq (-1) 0 (Or.inr rfl) hqu hq (by omega) (by omega)
  rw [l2] at l3 v3
  rw [s2] at s3
  refine ⟨W3, ?_, l3, s3, ?_⟩
  · unfold residual_update
    simp only [Option.bind_eq_bind, e1, Option.some_bind, e2, e3]
  · rw [v3, v2, v1]
    simp only [pow_zero, mul_one, one_mul]
    rw [Int.emod_add_emod]
    congr 1
    ring

/-- One round of `main.VERY-BASIC.c` (`m = 9`, `n = 8`, `Z = 11`, 192-bit residual) at
the level of register values: with `b` the multiplier digit and `s` the root digit of
the round, the round returns; the root register holds `S * 2^9 + s`, the multiplicand
register is shifted by 9 in the first nine rounds, and the residual register holds the
sign-preserving shift of `W` by 18, plus the partial product, minus the
linear-quadratic term, modulo `2^192`. -/
theorem basic_iteration_value (fuel it : Nat) (Bd Sd : List Nat) (regs : BasicRegisters)
    (Sv Av Wv b s : Nat) (hf : 234 ≤ fuel)
    (hb : (if it < Bd.getD 0 0 then Bd.getD (it + 1) 0 else 0) = b) (hb9 : b < 2 ^ 9)
    (hs : Sd.getD it 0 = s) (hs9 : s < 2 ^ 9)
    (hS1 : regs.register_S.length = 81) (hS2 : regs.register_S.is_signed = false)
    (hS3 : regs.register_S.overflow = false) (hS4 : uval regs.register_S.bits = Sv)
    (hS5 : Sv * 2 ^ 9 < 2 ^ 81)
    (hA1 : regs.register_A.length = 153) (hA2 : regs.register_A.is_signed = false)
    (hA4 : uval regs.register_A.bits = Av)
    (hW1 : regs.register_W.length = 192) (hW2 : regs.register_W.is_signed = true)
    (hW4 : uval regs.register_W.bits = Wv)
    (hB1 : regs.digit_multiplier_B.length = 9)
    (hB2 : regs.digit_multiplier_B.is_signed = false)
    (hD1 : regs.digit_multiplier_S.length = 9)
    (hD2 : regs.digit_multiplier_S.is_signed = false) :
    ∃ regs', basic_iteration 9 8 11 2 192 fuel Bd Sd it regs = some regs' ∧
      regs'.register_S.length = 81 ∧ regs'.register_S.is_signed = false ∧
      regs'.register_S.overflow = false ∧ uval regs'.register_S.bits = Sv * 2 ^ 9 + s ∧
      regs'.register_A.length = 153 ∧ regs'.register_A.is_signed = false ∧
      uval regs'.register_A.bits = (if it < 10 then (Av * 2 ^ 9) % 2 ^ 153 else Av) ∧
      regs'.register_W.length = 192 ∧ regs'.register_W.is_signed = true ∧
      (uval regs'.register_W.bits : Int) =
        ((((Wv * 2 ^ 18) % 2 ^ 191 + (Wv / 2 ^ 191) * 2 ^ 191 : Nat) : Int) +
          ((((b * Av) % 2 ^ 192 * 2 ^ 9) % 2 ^ 192 : Nat) : Int) -
          ((((s * (Sv * 2 ^ 10 + s)) % 2 ^ 192 * 2 ^ 103) % 2 ^ 192 : Nat) : Int))
          % 2 ^ 192 ∧
      regs'.digit_multiplier_B.length = 9 ∧ regs'.digit_multiplier_B.is_signed = false ∧
      regs'.digit_multiplier_S.length = 9 ∧ regs'.digit_multiplier_S.is_signed = false := by
  have hb32 : b < 2 ^ 32 := lt_of_lt_of_le hb9 (by norm_num)
  have hs32 : s < 2 ^ 32 := lt_of_lt_of_le hs9 (by norm_num)
  -- the two digit registers
  obtain ⟨dB, eB, lB, sB, _, _, vB⟩ :=
    word_op_load_constant_full regs.digit_multiplier_B b 9 (by norm_num) hB1 hb32
      (by norm_num)
  rw [hB2] at sB
  rw [Nat.mod_eq_of_lt hb9] at vB
  have eB' : (if it < Bd.getD 0 0 then
      word_op_load_constant regs.digit_multiplier_B (Bd.getD (it + 1) 0) 0 9
      else word_op_load_constant regs.digit_multiplier_B 0 0 9) = some dB := by
    rw [← eB, ← hb]
    split_ifs <;> rfl
  obtain ⟨dS, eS, lS, sS, _, _, vS⟩ :=
    word_op_load_constant_full regs.digit_multiplier_S s 9 (by norm_num) hD1 hs32
      (by norm_num)
  rw [hD2] at sS
  rw [Nat.mod_eq_of_lt hs9] at vS
  -- the two terms
  obtain ⟨pp, ep, lp, sp, vp⟩ :=
    partial_product_value 9 192 fuel dB regs.register_A (by norm_num) (by omega) (by omega)
      (by omega) (by omega) sB hA2 (by omega)
  rw [vB, hA4] at vp
  obtain ⟨lq, eq, ll, sl, vl⟩ :=
    linearquadratic_value 9 8 11 192 fuel s dS regs.register_S (by norm_num) (by norm_num)
      hs9 (by omega) (by omega) (by norm_num) sS (by omega) hS2 (by omega) (by omega)
  rw [vS, hS4] at vl
  -- the residual
  obtain ⟨W', eW, lW, sW, vW⟩ :=
    residual_update_value 9 fuel 191 regs.register_W pp lq hW1 hW2 (by omega) (by omega) sp
      (by omega) (by omega) sl (by omega)
  rw [hW4, vp, vl] at vW
  -- the root and the multiplicand
  obtain ⟨S', eS', lS', sS', oS', _, vS'⟩ :=
    result_update_spec 9 s regs.register_S (by norm_num) (by norm_num) (by omega) hS2 hS3
      hs9 (by rw [hS4, hS1]; exact hS5)
  rw [hS4] at vS'
  rw [hS1] at lS'
  obtain ⟨A', eA', lA', sA', _, _, _, vA'⟩ :=
    word_op_leftshift_unsigned_spec regs.register_A 9 (by omega) hA2
  rw [hA4, hA1] at vA'
  rw [hA1] at lA'
  by_cases hit : it < 10
  · refine ⟨{ register_S := S', register_A := A', register_W := W',
              digit_multiplier_B := dB, digit_multiplier_S := dS }, ?_, lS', sS', oS', vS',
      lA', sA', by rw [if_pos hit]; exact vA', lW, sW, vW, lB, sB, lS, sS⟩
    unfold basic_iteration
    simp only [Option.bind_eq_bind, eB', Option.some_bind, hs, eS, ep, eq, eW, eS',
      show it < 8 + 2 from hit, if_true, eA']
  · refine ⟨{ register_S := S', register_A := regs.register_A, register_W := W',
              digit_multiplier_B := dB, digit_multiplier_S := dS }, ?_, lS', sS', oS', vS',
      hA1, hA2, by rw [if_neg hit]; exact hA4, lW, sW, vW, lB, sB, lS, sS⟩
    unfold basic_iteration
    simp only [Option.bind_eq_bind, eB', Option.some_bind, hs, eS, ep, eq, eW, eS',
      show ¬ it < 8 + 2 from hit, if_false]

/-- The function `word_op_multiply` on valid unsigned operands into a fresh register that
is wide enough for the product: the register holds the product and both flags stay
clear. -/
theorem word_op_multiply_fresh (fuel w : Nat) (a b : Word) (hw : 0 < w) (ha : 0 < a.length)
    (hb : 0 < b.length) (ha16 : a.length < 65536) (hb16 : b.length < 65536)
    (hau : a.is_signed = false) (hbu : b.is_signed = false)
    (hfit : uval a.bits * uval b.bits < 2 ^ w) (hf : a.length + b.length + 1 ≤ fuel) :
    ∃ r, word_op_multiply fuel (create_word w) a b = some r ∧ r.length = w ∧
      r.is_signed = false ∧ r.overflow = false ∧ r.underflow = false ∧
      uval r.bits = uval a.bits * uval b.bits := by
  obtain ⟨r, h1, h2, h3, h4, h5, h6⟩ :=
    multiply_loop_trunc a b w ha hb ha16 hb16 fuel 0 0 (create_word w) rfl
      (create_word_length w) (by omega) (fun j _ => create_word_BITS w j)
      (by rw [create_word_uval]; simp [columns_value]) (by omega) (by omega)
  refine ⟨r, ?_, h3, h6, ?_, by rw [h5]; rfl, by rw [h2, Nat.mod_eq_of_lt hfit]⟩
  · unfold word_op_multiply
    rw [create_word_length, if_neg (by omega), if_neg (by omega), if_neg (by omega)]
    simp only [hau, hbu, Bool.false_and, ne_eq, not_true_eq_false, false_and, if_false]
    rw [word_op_abs_unsigned a ha hau, word_op_abs_unsigned b hb hbu]
    simp only [h1]
  · cases ho : r.overflow with
    | false => rfl
    | true =>
      exfalso
      rcases h4.mp ho with h | h
      · exact absurd h (by simp [create_word])
      · omega

/-- Construction of the operands from two valid unsigned seeds of `k` bits into
registers of `2 k` bits: `A = seed1^2`, `B = seed2^2`, `S = seed1 * seed2`. -/
theorem make_operands_value (k fuel : Nat) (seed1 seed2 : Word) (hk : 0 < k)
    (hk16 : k < 65536) (h1 : seed1.length = k) (h2 : seed2.length = k)
    (h1u : seed1.is_signed = false) (h2u : seed2.is_signed = false)
    (hf : k + k + 1 ≤ fuel) :
    ∃ operands, make_operands (2 * k) fuel seed1 seed2 = some operands ∧
      operands.A.length = 2 * k ∧ operands.A.is_signed = false ∧
      uval operands.A.bits = uval seed1.bits * uval seed1.bits ∧
      operands.B.length = 2 * k ∧ operands.B.is_signed = false ∧
      uval operands.B.bits = uval seed2.bits * uval seed2.bits ∧
      operands.S.length = 2 * k ∧ operands.S.is_signed = false ∧
      uval operands.S.bits = uval seed1.bits * uval seed2.bits := by
  have b1 : uval seed1.bits < 2 ^ k := by
    have := uval_lt seed1.bits
    have e : seed1.bits.length = k := h1
    rw [e] at this
    exact this
  have b2 : uval seed2.bits < 2 ^ k := by
    have := uval_lt seed2.bits
    have e : seed2.bits.length = k := h2
    rw [e] at this
    exact this
  have hpow : (2 : Nat) ^ (2 * k) = 2 ^ k * 2 ^ k := by rw [← pow_add]; congr 1; omega
  have hprod : ∀ x y : Nat, x < 2 ^ k → y < 2 ^ k → x * y < 2 ^ (2 * k) := by
    intro x y hx hy
    rw [hpow]
    exact Nat.mul_lt_mul'' hx hy
  obtain ⟨A, eA, lA, sA, oA, uA, vA⟩ :=
    word_op_multiply_fresh fuel (2 * k) seed1 seed1 (by omega) (by omega) (by omega)
      (by omega) (by omega) h1u h1u (hprod _ _ b1 b1) (by omega)
  obtain ⟨B, eB, lB, sB, oB, uB, vB⟩ :=
    word_op_multiply_fresh fuel (2 * k) seed2 seed2 (by omega) (by omega) (by omega)
      (by omega) (by omega) h2u h2u (hprod _ _ b2 b2) (by omega)
  obtain ⟨S, eS, lS, sS, oS, uS, vS⟩ :=
    word_op_multiply_fresh fuel (2 * k) seed1 seed2 (by omega) (by omega) (by omega)
      (by omega) (by omega) h1u h2u (hprod _ _ b1 b2) (by omega)
  refine ⟨{ A := A, B := B, S := S }, ?_, lA, sA, vA, lB, sB, vB, lS, sS, vS⟩
  unfold make_operands
  simp only [Option.bind_eq_bind]
  rw [if_neg (by omega)]
  simp only [eA, eB, eS, Option.some_bind, oA, uA, oB, uB, oS, uS, Bool.or_self,
    Bool.false_eq_true, if_false]
  rfl

/-- The digit lists of `main.VERY-BASIC.c` (`m = 9`, `n = 8`, two overhead iterations,
seven excess bits) for unsigned 72-bit operands: ten digits of `S * 2^7` and eight
digits of `B`, most-significant first. -/
theorem basic_digits_value (operands : Operands) (hS : operands.S.length = 72)
    (hSu : operands.S.is_signed = false) (hB : operands.B.length = 72)
    (hBu : operands.B.is_signed = false) :
    ∃ dl, basic_digits 9 8 2 7 operands = some dl ∧
      (∀ j, 1 ≤ j → j ≤ 10 →
        dl.1.getD j 0 = uval operands.S.bits * 2 ^ 7 / 2 ^ ((10 - j) * 9) % 2 ^ 9) ∧
      dl.2.getD 0 0 = 8 ∧
      (∀ j, 1 ≤ j → j ≤ 8 →
        dl.2.getD j 0 = uval operands.B.bits / 2 ^ ((8 - j) * 9) % 2 ^ 9) := by
  obtain ⟨Sp, eSp, lSp, sSp, vSp⟩ :=
    load_into_fresh_spec operands.S 90 7 (by omega) hSu (by omega)
  obtain ⟨L, eL, L0, Lj⟩ :=
    word_makelist_unsigned_spec Sp 9 (by omega) sSp (by norm_num) (by norm_num)
  rw [lSp] at L0 Lj
  have h10 : (90 + 9 - 1) / 9 = 10 := by norm_num
  rw [h10] at L0 Lj
  rw [vSp] at Lj
  obtain ⟨Bd, eBd, B0, Bj⟩ :=
    word_makelist_unsigned_spec operands.B 9 (by omega) hBu (by norm_num) (by norm_num)
  rw [hB] at B0 Bj
  have h8 : (72 + 9 - 1) / 9 = 8 := by norm_num
  rw [h8] at B0 Bj
  refine ⟨(L, Bd), ?_, Lj, B0, Bj⟩
  unfold basic_digits
  simp only [Option.bind_eq_bind]
  rw [show 9 * 8 + 9 * 2 = 90 from rfl, eSp]
  simp only [Option.some_bind]
  rw [eL]
  simp only [Option.some_bind]
  rw [L0, if_neg (by decide)]
  simp only [Option.some_bind, eBd]
  rfl

/-- The registers of `main.VERY-BASIC.c` after the initialization step, for an unsigned
72-bit `A`: `{S} = 0`, `{A} = A`, `{W} = b1 * A` in a signed 192-bit register. -/
theorem basic_init_value (fuel : Nat) (Bd : List Nat) (A : Word) (hA : A.length = 72)
    (hAu : A.is_signed = false) (hb : Bd.getD 1 0 < 2 ^ 9) (hf : 234 ≤ fuel) :
    ∃ regs0, basic_init 9 8 11 2 7 fuel Bd A = some regs0 ∧
      regs0.register_S = create_word 81 ∧
      regs0.register_A.length = 153 ∧ regs0.register_A.is_signed = false ∧
      uval regs0.register_A.bits = uval A.bits ∧
      regs0.register_W.length = 192 ∧ regs0.register_W.is_signed = true ∧
      uval regs0.register_W.bits = (Bd.getD 1 0 * uval A.bits) % 2 ^ 192 ∧
      regs0.digit_multiplier_B.length = 9 ∧ regs0.digit_multiplier_B.is_signed = false ∧
      regs0.digit_multiplier_S.length = 9 ∧ regs0.digit_multiplier_S.is_signed = false := by
  obtain ⟨rA, eA, lA, sA, vA⟩ := load_into_fresh_spec A 153 0 (by omega) hAu (by omega)
  rw [pow_zero, mul_one] at vA
  obtain ⟨dB, eB, lB, sB, _, _, vB⟩ :=
    word_op_load_constant_full (create_word 9) (Bd.getD 1 0) 9 (by norm_num)
      (create_word_length 9) (lt_of_lt_of_le hb (by norm_num)) (by norm_num)
  have sB' : dB.is_signed = false := by rw [sB]; rfl
  rw [Nat.mod_eq_of_lt hb] at vB
  obtain ⟨W, eW, lW, sW, vW⟩ :=
    word_op_multiply_value fuel { create_word 192 with is_signed := true } dB A
      (by show 0 < (create_word 192).length; rw [create_word_length]; norm_num)
      (by omega) (by omega) (by omega) (by omega) sB' hAu
      (Or.inl (fun j => create_word_BITS 192 j)) (by omega)
  have hl192 : ({ create_word 192 with is_signed := true } : Word).length = 192 :=
    create_word_length 192
  rw [hl192] at lW vW
  have lW' : W.length = 192 := lW
  have vW' : uval W.bits = (Bd.getD 1 0 * uval A.bits) % 2 ^ 192 := by
    rw [vW, vB]
  refine ⟨{ register_S := create_word 81, register_A := rA, register_W := W,
            digit_multiplier_B := dB, digit_multiplier_S := create_word 9 }, ?_, rfl,
    lA, sA, vA, lW', sW, vW', lB, sB', create_word_length 9, rfl⟩
  unfold basic_init
  simp only [Option.bind_eq_bind]
  rw [show 9 * (2 * 8 + 2 - 1) = 153 from rfl, eA]
  simp only [Option.some_bind]
  rw [eB]
  simp only [Option.some_bind]
  rw [show 2 * 9 * (8 + 1) + 2 * 11 + 7 + 1 = 192 from rfl, eW]
  rfl

/-- One step of the recurrence loop: a round that returns is followed by the rest of
the loop. -/
theorem basic_loop_succ (m n Z oh Wsz fuel : Nat) (Bd Sd : List Nat) (k it : Nat)
    (regs regs1 : BasicRegisters)
    (h : basic_iteration m n Z oh Wsz fuel Bd Sd it regs = some regs1) :
    basic_loop m n Z oh Wsz fuel Bd Sd (k + 1) it regs =
      basic_loop m n Z oh Wsz fuel Bd Sd k (it + 1) regs1 := by
  show (match basic_iteration m n Z oh Wsz fuel Bd Sd it regs with
    | none => none
    | some regs1 => basic_loop m n Z oh Wsz fuel Bd Sd k (it + 1) regs1) = _
  rw [h]

/-- The program `main.VERY-BASIC.c` is the composition of its five stages (`m = 9`,
`n = 8`, `Z = 11`: 72-bit operands, two overhead iterations, seven excess bits, a 192-bit
residual register, ten rounds). -/
theorem basic_mode_stages (fuel : Nat) (seed1 seed2 : Word) :
    basic_mode 9 8 11 fuel seed1 seed2 =
      (make_operands (2 * 36) fuel seed1 seed2).bind (fun operands =>
        (basic_digits 9 8 2 7 operands).bind (fun digit_lists =>
          (basic_init 9 8 11 2 7 fuel digit_lists.2 operands.A).bind (fun regs0 =>
            (basic_loop 9 8 11 2 192 fuel digit_lists.2 digit_lists.1 10 1 regs0).bind
              (fun regs => basic_checks 7 operands.S regs)))) := rfl

/-- Claim C28 fails for the seeds `2^36 - 1` and `2^36 - 3` (36-bit registers with the top
bit set): the run of `main.VERY-BASIC.c` with `m = 9`, `n = 8`, `Z = 11` returns, the
root register compares equal to `S`, but the residual register `W` ends with only its
sign bit set (the value `-2^191`), so `word_op_compare_constant(W, 0)` gives `-1`, not
`0`.  The signed left shift by `2 m` in the tenth round moves a set bit of `W` past the
top of the 192-bit register. -/
theorem basic_residual_diverges :
    ∃ out, basic_mode 9 8 11 400 (word_of_nat 36 68719476735) (word_of_nat 36 68719476733) = some out ∧
      out.residual_compare = -1 ∧ uval out.register_W.bits = 2 ^ 191 ∧
      out.register_W.value = -2 ^ 191 ∧ out.root_compare = 0 := by
  have hs1v : uval (word_of_nat 36 68719476735).bits = 68719476735 := by decide
  have hs2v : uval (word_of_nat 36 68719476733).bits = 68719476733 := by decide
  obtain ⟨ops, eops, lA, sA, vA, lB, sB, vB, lS, sS, vS⟩ :=
    make_operands_value 36 400 (word_of_nat 36 68719476735) (word_of_nat 36 68719476733) (by norm_num)
      (by norm_num) (by decide) (by decide) rfl rfl (by norm_num)
  rw [hs1v] at vA vS
  rw [hs2v] at vB vS
  have vA' : uval ops.A.bits = 4722366482732206260225 := by rw [vA]
  have vB' : uval ops.B.bits = 4722366482457328353289 := by rw [vB]
  have vS' : uval ops.S.bits = 4722366482594767306755 := by rw [vS]
  have l72 : 2 * 36 = 72 := rfl
  rw [l72] at lA lB lS
  obtain ⟨dl, edl, Sdj, Bd0, Bdj⟩ := basic_digits_value ops lS sS lB sB
  rw [vS'] at Sdj
  rw [vB'] at Bdj
  have hb1 : dl.2.getD 1 0 = 511 := by
    rw [Bdj 1 (by norm_num) (by norm_num)]; norm_num
  obtain ⟨regs0, e0, p0, lA0, sA0, vA0, lW0, sW0, vW0, lB0, sB0, lD0, sD0⟩ :=
    basic_init_value 400 dl.2 ops.A lA sA (by rw [hb1]; norm_num) (by norm_num)
  rw [hb1, vA'] at vW0
  rw [vA'] at vA0
  have hW0 : uval regs0.register_W.bits = 2413129272676157398974975 := by
    rw [vW0]; norm_num
  have lS0 : regs0.register_S.length = 81 := by rw [p0]; exact create_word_length 81
  have sS0 : regs0.register_S.is_signed = false := by rw [p0]; rfl
  have oS0 : regs0.register_S.overflow = false := by rw [p0]; rfl
  have vS0 : uval regs0.register_S.bits = 0 := by rw [p0]; exact create_word_uval 81
  -- round 1
  obtain ⟨regs1, e1, lS1, sS1, oS1, vS1, lA1, sA1, vA1, lW1, sW1, vW1, lB1, sB1,
      lD1, sD1⟩ :=
    basic_iteration_value 400 1 dl.2 dl.1 regs0 0 4722366482732206260225
      2413129272676157398974975 511 0 (by norm_num)
      (by rw [Bd0, if_pos (by norm_num), Bdj 2 (by norm_num) (by norm_num)]; norm_num)
      (by norm_num) (by rw [Sdj 1 (by norm_num) (by norm_num)]; norm_num) (by norm_num)
      lS0 sS0 oS0 vS0 (by norm_num) lA0 sA0 vA0 lW0 sW0 hW0 lB0 sB0 lD0 sD0
  have hS1 : uval regs1.register_S.bits = 0 := by rw [vS1]; norm_num
  have hA1 : uval regs1.register_A.bits = 2417851639158889605235200 := by rw [vA1]; norm_num
  have hW1 : uval regs1.register_W.bits = 633822882244028797785171033600 := by
    have h : (uval regs1.register_W.bits : Int) = ((633822882244028797785171033600 : Nat) : Int) := by
      rw [vW1]; norm_num
    exact_mod_cast h
  -- round 2
  obtain ⟨regs2, e2, lS2, sS2, oS2, vS2, lA2, sA2, vA2, lW2, sW2, vW2, lB2, sB2,
      lD2, sD2⟩ :=
    basic_iteration_value 400 2 dl.2 dl.1 regs1 0 2417851639158889605235200
      633822882244028797785171033600 511 127 (by norm_num)
      (by rw [Bd0, if_pos (by norm_num), Bdj 3 (by norm_num) (by norm_num)]; norm_num)
      (by norm_num) (by rw [Sdj 2 (by norm_num) (by norm_num)]; norm_num) (by norm_num)
      lS1 sS1 oS1 hS1 (by norm_num) lA1 sA1 hA1 lW1 sW1 hW1 lB1 sB1 lD1 sD1
  have hS2 : uval regs2.register_S.bits = 127 := by rw [vS2]; norm_num
  have hA2 : uval regs2.register_A.bits = 1237940039249351477880422400 := by rw [vA2]; norm_num
  have hW2 : uval regs2.register_W.bits = 2586005981689845451278464331808768 := by
    have h : (uval regs2.register_W.bits : Int) = ((2586005981689845451278464331808768 : Nat) : Int) := by
      rw [vW2]; norm_num
    exact_mod_cast h
  -- round 3
  obtain ⟨regs3, e3, lS3, sS3, oS3, vS3, lA3, sA3, vA3, lW3, sW3, vW3, lB3, sB3,
      lD3, sD3⟩ :=
    basic_iteration_value 400 3 dl.2 dl.1 regs2 127 1237940039249351477880422400
      2586005981689845451278464331808768 506 511 (by norm_num)
      (by rw [Bd0, if_pos (by norm_num), Bdj 4 (by norm_num) (by norm_num)]; norm_num)
      (by norm_num) (by rw [Sdj 3 (by norm_num) (by norm_num)]; norm_num) (by norm_num)
      lS2 sS2 oS2 hS2 (by norm_num) lA2 sA2 hA2 lW2 sW2 hW2 lB2 sB2 lD2 sD2
  have hS3 : uval regs3.register_S.bits = 65535 := by rw [vS3]; norm_num
  have hA3 : uval regs3.register_A.bits = 633825300095667956674776268800 := by rw [vA3]; norm_num
  have hW3 : uval regs3.register_W.bits = 1329212783977713254054825578148659200 := by
    have h : (uval regs3.register_W.bits : Int) = ((1329212783977713254054825578148659200 : Nat) : Int) := by
      rw [vW3]; norm_num
    exact_mod_cast h
  -- round 4
  obtain ⟨regs4, e4, lS4, sS4, oS4, vS4, lA4, sA4, vA4, lW4, sW4, vW4, lB4, sB4,
      lD4, sD4⟩ :=
    basic_iteration_value 400 4 dl.2 dl.1 regs3 65535 633825300095667956674776268800
      1329212783977713254054825578148659200 0 511 (by norm_num)
      (by rw [Bd0, if_pos (by norm_num), Bdj 5 (by norm_num) (by norm_num)]; norm_num)
      (by norm_num) (by rw [Sdj 4 (by norm_num) (by norm_num)]; norm_num) (by norm_num)
      lS3 sS3 oS3 hS3 (by norm_num) lA3 sA3 hA3 lW3 sW3 hW3 lB3 sB3 lD3 sD3
  have hS4 : uval regs4.register_S.bits = 33554431 := by rw [vS4]; norm_num
  have hA4 : uval regs4.register_A.bits = 324518553648981993817485449625600 := by rw [vA4]; norm_num
  have hW4 : uval regs4.register_W.bits = 679235495704918641299319965081940262912 := by
    have h : (uval regs4.register_W.bits : Int) = ((679235495704918641299319965081940262912 : Nat) : Int) := by
      rw [vW4]; norm_num
    exact_mod_cast h
  -- round 5
  obtain ⟨regs5, e5, lS5, sS5, oS5, vS5, lA5, sA5, vA5, lW5, sW5, vW5, lB5, sB5,
      lD5, sD5⟩ :=
    basic_iteration_value 400 5 dl.2 dl.1 regs4 33554431 324518553648981993817485449625600
      679235495704918641299319965081940262912 0 511 (by norm_num)
      (by rw [Bd0, if_pos (by norm_num), Bdj 6 (by norm_num) (by norm_num)]; norm_num)
      (by norm_num) (by rw [Sdj 5 (by norm_num) (by norm_num)]; norm_num) (by norm_num)
      lS4 sS4 oS4 hS4 (by norm_num) lA4 sA4 hA4 lW4 sW4 hW4 lB4 sB4 lD4 sD4
  have hS5 : uval regs5.register_S.bits = 17179869183 := by rw [vS5]; norm_num
  have hA5 : uval regs5.register_A.bits = 166153499468278780834552550208307200 := by rw [vA5]; norm_num
  have hW5 : uval regs5.register_W.bits = 6277101735386680763835789421306190515704671109997851049984 := by
    have h : (uval regs5.register_W.bits : Int) = ((6277101735386680763835789421306190515704671109997851049984 : Nat) : Int) := by
      rw [vW5]; norm_num
    exact_mod_cast h
  -- round 6
  obtain ⟨regs6, e6, lS6, sS6, oS6, vS6, lA6, sA6, vA6, lW6, sW6, vW6, lB6, sB6,
      lD6, sD6⟩ :=
    basic_iteration_value 400 6 dl.2 dl.1 regs5 17179869183 166153499468278780834552550208307200
      6277101735386680763835789421306190515704671109997851049984 0 0 (by norm_num)
      (by rw [Bd0, if_pos (by norm_num), Bdj 7 (by norm_num) (by norm_num)]; norm_num)
      (by norm_num) (by rw [Sdj 6 (by norm_num) (by norm_num)]; norm_num) (by norm_num)
      lS5 sS5 oS5 hS5 (by norm_num) lA5 sA5 hA5 lW5 sW5 hW5 lB5 sB5 lD5 sD5
  have hS6 : uval regs6.register_S.bits = 8796093021696 := by rw [vS6]; norm_num
  have hA6 : uval regs6.register_A.bits = 85070591727758735787290905706653286400 := by rw [vA6]; norm_num
  have hW6 : uval regs6.register_W.bits = 6277101735386680763835290962709232565540181141266332909568 := by
    have h : (uval regs6.register_W.bits : Int) = ((6277101735386680763835290962709232565540181141266332909568 : Nat) : Int) := by
      rw [vW6]; norm_num
    exact_mod_cast h
  -- round 7
  obtain ⟨regs7, e7, lS7, sS7, oS7, vS7, lA7, sA7, vA7, lW7, sW7, vW7, lB7, sB7,
      lD7, sD7⟩ :=
    basic_iteration_value 400 7 dl.2 dl.1 regs6 8796093021696 85070591727758735787290905706653286400
      6277101735386680763835290962709232565540181141266332909568 9 0 (by norm_num)
      (by rw [Bd0, if_pos (by norm_num), Bdj 8 (by norm_num) (by norm_num)]; norm_num)
      (by norm_num) (by rw [Sdj 7 (by norm_num) (by norm_num)]; norm_num) (by norm_num)
      lS6 sS6 oS6 hS6 (by norm_num) lA6 sA6 hA6 lW6 sW6 hW6 lB6 sB6 lD6 sD6
  have hS7 : uval regs7.register_S.bits = 4503599627108352 := by rw [vS7]; norm_num
  have hA7 : uval regs7.register_A.bits = 43556142964612472723092943721806482636800 := by rw [vA7]; norm_num
  have hW7 : uval regs7.register_W.bits = 261336857780068932737215956037969240915968 := by
    have h : (uval regs7.register_W.bits : Int) = ((261336857780068932737215956037969240915968 : Nat) : Int) := by
      rw [vW7]; norm_num
    exact_mod_cast h
  -- round 8
  obtain ⟨regs8, e8, lS8, sS8, oS8, vS8, lA8, sA8, vA8, lW8, sW8, vW8, lB8, sB8,
      lD8, sD8⟩ :=
    basic_iteration_value 400 8 dl.2 dl.1 regs7 4503599627108352 43556142964612472723092943721806482636800
      261336857780068932737215956037969240915968 0 0 (by norm_num)
      (by rw [Bd0, if_neg (by norm_num)])
      (by norm_num) (by rw [Sdj 8 (by norm_num) (by norm_num)]; norm_num) (by norm_num)
      lS7 sS7 oS7 hS7 (by norm_num) lA7 sA7 hA7 lW7 sW7 hW7 lB7 sB7 lD7 sD7
  have hS8 : uval regs8.register_S.bits = 2305843009079476224 := by rw [vS8]; norm_num
  have hA8 : uval regs8.register_A.bits = 22300745197881586034223587185564919110041600 := by rw [vA8]; norm_num
  have hW8 : uval regs8.register_W.bits = 68507889245898390303464739579617408690675515392 := by
    have h : (uval regs8.register_W.bits : Int) = ((68507889245898390303464739579617408690675515392 : Nat) : Int) := by
      rw [vW8]; norm_num
    exact_mod_cast h
  -- round 9
  obtain ⟨regs9, e9, lS9, sS9, oS9, vS9, lA9, sA9, vA9, lW9, sW9, vW9, lB9, sB9,
      lD9, sD9⟩ :=
    basic_iteration_value 400 9 dl.2 dl.1 regs8 2305843009079476224 22300745197881586034223587185564919110041600
      68507889245898390303464739579617408690675515392 0 0 (by norm_num)
      (by rw [Bd0, if_neg (by norm_num)])
      (by norm_num) (by rw [Sdj 9 (by norm_num) (by norm_num)]; norm_num) (by norm_num)
      lS8 sS8 oS8 hS8 (by norm_num) lA8 sA8 hA8 lW8 sW8 hW8 lB8 sB8 lD8 sD8
  have hS9 : uval regs9.register_S.bits = 1180591620648691826688 := by rw [vS9]; norm_num
  have hA9 : uval regs9.register_A.bits = 11417981541315372049522476639009238584341299200 := by rw [vA9]; norm_num
  have hW9 : uval regs9.register_W.bits = 17958932118476787627711460692359225983808442306920448 := by
    have h : (uval regs9.register_W.bits : Int) = ((17958932118476787627711460692359225983808442306920448 : Nat) : Int) := by
      rw [vW9]; norm_num
    exact_mod_cast h
  -- round 10
  obtain ⟨regs10, e10, lS10, sS10, oS10, vS10, lA10, sA10, vA10, lW10, sW10, vW10, lB10, sB10,
      lD10, sD10⟩ :=
    basic_iteration_value 400 10 dl.2 dl.1 regs9 1180591620648691826688 11417981541315372049522476639009238584341299200
      17958932118476787627711460692359225983808442306920448 0 384 (by norm_num)
      (by rw [Bd0, if_neg (by norm_num)])
      (by norm_num) (by rw [Sdj 10 (by norm_num) (by norm_num)]; norm_num) (by norm_num)
      lS9 sS9 oS9 hS9 (by norm_num) lA9 sA9 hA9 lW9 sW9 hW9 lB9 sB9 lD9 sD9
  have hS10 : uval regs10.register_S.bits = 604462909772130215264640 := by rw [vS10]; norm_num
  have hA10 : uval regs10.register_A.bits = 11417981541315372049522476639009238584341299200 := by rw [vA10]; norm_num
  have hW10 : uval regs10.register_W.bits = 3138550867693340381917894711603833208051177722232017256448 := by
    have h : (uval regs10.register_W.bits : Int) = ((3138550867693340381917894711603833208051177722232017256448 : Nat) : Int) := by
      rw [vW10]; norm_num
    exact_mod_cast h
  -- the loop
  have hloop : basic_loop 9 8 11 2 192 400 dl.2 dl.1 10 1 regs0 = some regs10 := by
    rw [basic_loop_succ _ _ _ _ _ _ _ _ 9 1 regs0 regs1 e1,
      basic_loop_succ _ _ _ _ _ _ _ _ 8 2 regs1 regs2 e2,
      basic_loop_succ _ _ _ _ _ _ _ _ 7 3 regs2 regs3 e3,
      basic_loop_succ _ _ _ _ _ _ _ _ 6 4 regs3 regs4 e4,
      basic_loop_succ _ _ _ _ _ _ _ _ 5 5 regs4 regs5 e5,
      basic_loop_succ _ _ _ _ _ _ _ _ 4 6 regs5 regs6 e6,
      basic_loop_succ _ _ _ _ _ _ _ _ 3 7 regs6 regs7 e7,
      basic_loop_succ _ _ _ _ _ _ _ _ 2 8 regs7 regs8 e8,
      basic_loop_succ _ _ _ _ _ _ _ _ 1 9 regs8 regs9 e9,
      basic_loop_succ _ _ _ _ _ _ _ _ 0 10 regs9 regs10 e10]
    rfl
  -- the terminal checks
  obtain ⟨dl', reg, reg', edl', efold, ers, hcmp, _, _, _⟩ :=
    basic_root_spec ops lS sS (by omega)
  have hdl : dl' = dl := Option.some.inj (edl'.symm.trans edl)
  rw [hdl] at efold
  have hfold := basic_loop_register_S 9 8 11 2 192 400 dl.2 dl.1 10 1 regs0 regs10 hloop
  rw [p0, efold] at hfold
  have hreg : regs10.register_S = reg := (Option.some.inj hfold).symm
  have hval : regs10.register_W.value = -2 ^ 191 := by
    have e191 : 3138550867693340381917894711603833208051177722232017256448 = 2 ^ 191 := by norm_num
    rw [Word.value_signed regs10.register_W 191 sW10 lW10, BITS_eq_testBit, hW10, e191,
      Nat.testBit_two_pow_self, Nat.mod_self]
    simp
  have hres : word_op_compare_constant regs10.register_W 0 = -1 := by
    rw [word_op_compare_constant_value regs10.register_W 0 (by omega) (by norm_num)
      (by norm_num), hval]
    norm_num
  refine ⟨{ register_W := regs10.register_W, register_S := reg', residual_compare := -1,
            root_compare := 0 }, ?_, rfl, ?_, hval, rfl⟩
  · rw [basic_mode_stages, eops]
    simp only [Option.some_bind, Option.bind_eq_bind]
    rw [edl]
    simp only [Option.some_bind]
    rw [e0]
    simp only [Option.some_bind]
    rw [hloop]
    simp only [Option.some_bind]
    unfold basic_checks
    simp only [Option.bind_eq_bind]
    rw [hreg, ers]
    simp only [Option.some_bind, hres, hcmp]
  · show uval regs10.register_W.bits = 2 ^ 191
    rw [hW10]
    norm_num

/-! ### The run of practical mode for the seeds 576 and 795 (claim C29) -/

/-- The program `main.c` is the composition of its five stages (`m = 2`, `n = 10`,
`Z = 4`: 20-bit operands, 13 iterations, `delta = 3`, no padding `mb`, 55-bit residual
registers). -/
theorem practical_mode_stages (fuel : Nat) (seed1 seed2 : Word) :
    practical_mode 2 10 4 fuel seed1 seed2 =
      (make_operands 20 fuel seed1 seed2).bind (fun operands =>
        (practical_digits 2 10 4 0 operands).bind (fun digit_lists =>
          (practical_init 2 10 4 13 fuel digit_lists.2 operands.A).bind (fun regs0 =>
            (practical_loop 2 10 4 13 3 55 fuel digit_lists.2 digit_lists.1 13 1 regs0).bind
              (fun regs => practical_checks 0 operands.S regs)))) := rfl

/-- One step of the recurrence loop of `main.c`: a round that returns is followed by the
rest of the loop. -/
theorem practical_loop_succ (m n Z its delta Wsz fuel : Nat) (Bd Sd : List Nat) (k it : Nat)
    (regs regs1 : PracticalRegisters)
    (h : practical_iteration m n Z its delta Wsz fuel Bd Sd it regs = some regs1) :
    practical_loop m n Z its delta Wsz fuel Bd Sd (k + 1) it regs =
      practical_loop m n Z its delta Wsz fuel Bd Sd k (it + 1) regs1 := by
  show (match practical_iteration m n Z its delta Wsz fuel Bd Sd it regs with
    | none => none
    | some regs1 => practical_loop m n Z its delta Wsz fuel Bd Sd k (it + 1) regs1) = _
  rw [h]

/-- A run of `main.c` whose four stages return ends in the terminal checks on the final
registers. -/
theorem practical_mode_of_stages (fuel : Nat) (seed1 seed2 : Word) (operands : Operands)
    (digit_lists : List Nat × List Nat) (regs0 regs : PracticalRegisters)
    (h1 : make_operands 20 fuel seed1 seed2 = some operands)
    (h2 : practical_digits 2 10 4 0 operands = some digit_lists)
    (h3 : practical_init 2 10 4 13 fuel digit_lists.2 operands.A = some regs0)
    (h4 : practical_loop 2 10 4 13 3 55 fuel digit_lists.2 digit_lists.1 13 1 regs0
      = some regs) :
    practical_mode 2 10 4 fuel seed1 seed2 = practical_checks 0 operands.S regs := by
  rw [practical_mode_stages, h1]
  simp only [Option.some_bind]
  rw [h2]
  simp only [Option.some_bind]
  rw [h3]
  simp only [Option.some_bind]
  rw [h4]
  simp only [Option.some_bind]

/-! The run of `main.c` for the seeds 576 and 795, stage by stage: the operands, the
digit lists, the initial registers and the registers after each of the 13 rounds. -/

theorem practical_run_operands :
    make_operands 20 200 (word_of_nat 10 576) (word_of_nat 10 795) =
      some { A := word_of_nat 20 331776, B := word_of_nat 20 632025, S := word_of_nat 20 457920 } := by
  decide!

theorem practical_run_digits :
    practical_digits 2 10 4 0
      { A := word_of_nat 20 331776, B := word_of_nat 20 632025, S := word_of_nat 20 457920 } =
      some ([12, 0, 0, 1, 2, 3, 3, 3, 0, 3, 0, 0, 0],
        [10, 2, 1, 2, 2, 1, 0, 3, 1, 2, 1]) := by
  decide!

theorem practical_run_init :
    practical_init 2 10 4 13 200 [10, 2, 1, 2, 2, 1, 0, 3, 1, 2, 1] (word_of_nat 20 331776) =
    some
      { register_S := word_of_nat 22 0,
        register_A := word_of_nat 42 331776,
        register_W := { word_of_nat 55 663552 with is_signed := true },
        register_S_practical := word_of_nat 22 0,
        register_S_m1 := word_of_nat 22 0,
        register_2S := word_of_nat 23 0,
        register_2S_m1 := word_of_nat 23 0,
        register_W_practical := { word_of_nat 55 663552 with is_signed := true },
        P_mask := word_of_nat 55 266338304,
        P := { word_of_nat 7 0 with is_signed := true },
        Sdot := word_of_nat 4 0,
        P_cursor := 21,
        digit_multiplier_B := word_of_nat 2 2,
        digit_multiplier_S := word_of_nat 2 0,
        digit_multiplier_S_practical := { word_of_nat 3 0 with is_signed := true },
        onthefly_appended_digit := word_of_nat 2 0,
        onthefly_appended_digit_m1 := word_of_nat 2 0,
        onthefly_appended_digit_t2 := word_of_nat 3 0,
        onthefly_appended_digit_t2m1 := word_of_nat 3 0,
        onthefly_select := 0,
        onthefly_select_m1 := 0 } := by
  decide!

theorem practical_round_1 :
    practical_iteration 2 10 4 13 3 55 200 [10, 2, 1, 2, 2, 1, 0, 3, 1, 2, 1]
      [12, 0, 0, 1, 2, 3, 3, 3, 0, 3, 0, 0, 0] 1
      { register_S := word_of_nat 22 0,
        register_A := word_of_nat 42 331776,
        register_W := { word_of_nat 55 663552 with is_signed := true },
        register_S_practical := word_of_nat 22 0,
        register_S_m1 := word_of_nat 22 0,
        register_2S := word_of_nat 23 0,
        register_2S_m1 := word_of_nat 23 0,
        register_W_practical := { word_of_nat 55 663552 with is_signed := true },
        P_mask := word_of_nat 55 266338304,
        P := { word_of_nat 7 0 with is_signed := true },
        Sdot := word_of_nat 4 0,
        P_cursor := 21,
        digit_multiplier_B := word_of_nat 2 2,
        digit_multiplier_S := word_of_nat 2 0,
        digit_multiplier_S_practical := { word_of_nat 3 0 with is_signed := true },
        onthefly_appended_digit := word_of_nat 2 0,
        onthefly_appended_digit_m1 := word_of_nat 2 0,
        onthefly_appended_digit_t2 := word_of_nat 3 0,
        onthefly_appended_digit_t2m1 := word_of_nat 3 0,
        onthefly_select := 0,
        onthefly_select_m1 := 0 } =
    some
      { register_S := word_of_nat 22 0,
        register_A := word_of_nat 42 1327104,
        register_W := { word_of_nat 55 11943936 with is_signed := true },
        register_S_practical := word_of_nat 22 0,
        register_S_m1 := word_of_nat 22 3,
        register_2S := word_of_nat 23 0,
        register_2S_m1 := word_of_nat 23 7,
        register_W_practical := { word_of_nat 55 11943936 with is_signed := true },
        P_mask := word_of_nat 55 1065353216,
        P := { word_of_nat 7 0 with is_signed := true },
        Sdot := word_of_nat 4 0,
        P_cursor := 23,
        digit_multiplier_B := word_of_nat 2 1,
        digit_multiplier_S := word_of_nat 2 0,
        digit_multiplier_S_practical := { word_of_nat 3 0 with is_signed := true },
        onthefly_appended_digit := word_of_nat 2 0,
        onthefly_appended_digit_m1 := word_of_nat 2 3,
        onthefly_appended_digit_t2 := word_of_nat 3 0,
        onthefly_appended_digit_t2m1 := word_of_nat 3 7,
        onthefly_select := 0,
        onthefly_select_m1 := 1 } := by
  decide!

theorem practical_round_2 :
    practical_iteration 2 10 4 13 3 55 200 [10, 2, 1, 2, 2, 1, 0, 3, 1, 2, 1]
      [12, 0, 0, 1, 2, 3, 3, 3, 0, 3, 0, 0, 0] 2
      { register_S := word_of_nat 22 0,
        register_A := word_of_nat 42 1327104,
        register_W := { word_of_nat 55 11943936 with is_signed := true },
        register_S_practical := word_of_nat 22 0,
        register_S_m1 := word_of_nat 22 3,
        register_2S := word_of_nat 23 0,
        register_2S_m1 := word_of_nat 23 7,
        register_W_practical := { word_of_nat 55 11943936 with is_signed := true },
        P_mask := word_of_nat 55 1065353216,
        P := { word_of_nat 7 0 with is_signed := true },
        Sdot := word_of_nat 4 0,
        P_cursor := 23,
        digit_multiplier_B := word_of_nat 2 1,
        digit_multiplier_S := word_of_nat 2 0,
        digit_multiplier_S_practical := { word_of_nat 3 0 with is_signed := true },
        onthefly_appended_digit := word_of_nat 2 0,
        onthefly_appended_digit_m1 := word_of_nat 2 3,
        onthefly_appended_digit_t2 := word_of_nat 3 0,
        onthefly_appended_digit_t2m1 := word_of_nat 3 7,
        onthefly_select := 0,
        onthefly_select_m1 := 1 } =
    some
      { register_S := word_of_nat 22 0,
        register_A := word_of_nat 42 5308416,
        register_W := { word_of_nat 55 201719808 with is_signed := true },
        register_S_practical := word_of_nat 22 0,
        register_S_m1 := word_of_nat 22 15,
        register_2S := word_of_nat 23 0,
        register_2S_m1 := word_of_nat 23 31,
        register_W_practical := { word_of_nat 55 201719808 with is_signed := true },
        P_mask := word_of_nat 55 4261412864,
        P := { word_of_nat 7 1 with is_signed := true },
        Sdot := word_of_nat 4 0,
        P_cursor := 25,
        digit_multiplier_B := word_of_nat 2 2,
        digit_multiplier_S := word_of_nat 2 0,
        digit_multiplier_S_practical := { word_of_nat 3 0 with is_signed := true },
        onthefly_appended_digit := word_of_nat 2 0,
        onthefly_appended_digit_m1 := word_of_nat 2 3,
        onthefly_appended_digit_t2 := word_of_nat 3 0,
        onthefly_appended_digit_t2m1 := word_of_nat 3 7,
        onthefly_select := 0,
        onthefly_select_m1 := 1 } := by
  decide!

theorem practical_round_3 :
    practical_iteration 2 10 4 13 3 55 200 [10, 2, 1, 2, 2, 1, 0, 3, 1, 2, 1]
      [12, 0, 0, 1, 2, 3, 3, 3, 0, 3, 0, 0, 0] 3
      { register_S := word_of_nat 22 0,
        register_A := word_of_nat 42 5308416,
        register_W := { word_of_nat 55 201719808 with is_signed := true },
        register_S_practical := word_of_nat 22 0,
        register_S_m1 := word_of_nat 22 15,
        register_2S := word_of_nat 23 0,
        register_2S_m1 := word_of_nat 23 31,
        register_W_practical := { word_of_nat 55 201719808 with is_signed := true },
        P_mask := word_of_nat 55 4261412864,
        P := { word_of_nat 7 1 with is_signed := true },
        Sdot := word_of_nat 4 0,
        P_cursor := 25,
        digit_multiplier_B := word_of_nat 2 2,
        digit_multiplier_S := word_of_nat 2 0,
        digit_multiplier_S_practical := { word_of_nat 3 0 with is_signed := true },
        onthefly_appended_digit := word_of_nat 2 0,
        onthefly_appended_digit_m1 := word_of_nat 2 3,
        onthefly_appended_digit_t2 := word_of_nat 3 0,
        onthefly_appended_digit_t2m1 := word_of_nat 3 7,
        onthefly_select := 0,
        onthefly_select_m1 := 1 } =
    some
      { register_S := word_of_nat 22 1,
        register_A := word_of_nat 42 21233664,
        register_W := { word_of_nat 55 2196242432 with is_signed := true },
        register_S_practical := word_of_nat 22 2,
        register_S_m1 := word_of_nat 22 1,
        register_2S := word_of_nat 23 4,
        register_2S_m1 := word_of_nat 23 3,
        register_W_practical := { word_of_nat 55 36028795993980928 with is_signed := true },
        P_mask := word_of_nat 55 17045651456,
        P := { word_of_nat 7 6 with is_signed := true },
        Sdot := word_of_nat 4 0,
        P_cursor := 27,
        digit_multiplier_B := word_of_nat 2 2,
        digit_multiplier_S := word_of_nat 2 1,
        digit_multiplier_S_practical := { word_of_nat 3 2 with is_signed := true },
        onthefly_appended_digit := word_of_nat 2 2,
        onthefly_appended_digit_m1 := word_of_nat 2 1,
        onthefly_appended_digit_t2 := word_of_nat 3 4,
        onthefly_appended_digit_t2m1 := word_of_nat 3 3,
        onthefly_select := 0,
        onthefly_select_m1 := 0 } := by
  decide!

theorem practical_round_4 :
    practical_iteration 2 10 4 13 3 55 200 [10, 2, 1, 2, 2, 1, 0, 3, 1, 2, 1]
      [12, 0, 0, 1, 2, 3, 3, 3, 0, 3, 0, 0, 0] 4
      { register_S := word_of_nat 22 1,
        register_A := word_of_nat 42 21233664,
        register_W := { word_of_nat 55 2196242432 with is_signed := true },
        register_S_practical := word_of_nat 22 2,
        register_S_m1 := word_of_nat 22 1,
        register_2S := word_of_nat 23 4,
        register_2S_m1 := word_of_nat 23 3,
        register_W_practical := { word_of_nat 55 36028795993980928 with is_signed := true },
        P_mask := word_of_nat 55 17045651456,
        P := { word_of_nat 7 6 with is_signed := true },
        Sdot := word_of_nat 4 0,
        P_cursor := 27,
        digit_multiplier_B := word_of_nat 2 2,
        digit_multiplier_S := word_of_nat 2 1,
        digit_multiplier_S_practical := { word_of_nat 3 2 with is_signed := true },
        onthefly_appended_digit := word_of_nat 2 2,
        onthefly_appended_digit_m1 := word_of_nat 2 1,
        onthefly_appended_digit_t2 := word_of_nat 3 4,
        onthefly_appended_digit_t2m1 := word_of_nat 3 3,
        onthefly_select := 0,
        onthefly_select_m1 := 0 } =
    some
      { register_S := word_of_nat 22 6,
        register_A := word_of_nat 42 84934656,
        register_W := { word_of_nat 55 13749977088 with is_signed := true },
        register_S_practical := word_of_nat 22 7,
        register_S_m1 := word_of_nat 22 6,
        register_2S := word_of_nat 23 14,
        register_2S_m1 := word_of_nat 23 13,
        register_W_practical := { word_of_nat 55 36028796810297344 with is_signed := true },
        P_mask := word_of_nat 55 68182605824,
        P := { word_of_nat 7 120 with is_signed := true },
        Sdot := word_of_nat 4 8,
        P_cursor := 29,
        digit_multiplier_B := word_of_nat 2 1,
        digit_multiplier_S := word_of_nat 2 2,
        digit_multiplier_S_practical := { word_of_nat 3 7 with is_signed := true },
        onthefly_appended_digit := word_of_nat 2 3,
        onthefly_appended_digit_m1 := word_of_nat 2 2,
        onthefly_appended_digit_t2 := word_of_nat 3 6,
        onthefly_appended_digit_t2m1 := word_of_nat 3 5,
        onthefly_select := 1,
        onthefly_select_m1 := 1 } := by
  decide!

theorem practical_round_5 :
    practical_iteration 2 10 4 13 3 55 200 [10, 2, 1, 2, 2, 1, 0, 3, 1, 2, 1]
      [12, 0, 0, 1, 2, 3, 3, 3, 0, 3, 0, 0, 0] 5
      { register_S := word_of_nat 22 6,
        register_A := word_of_nat 42 84934656,
        register_W := { word_of_nat 55 13749977088 with is_signed := true },
        register_S_practical := word_of_nat 22 7,
        register_S_m1 := word_of_nat 22 6,
        register_2S := word_of_nat 23 14,
        register_2S_m1 := word_of_nat 23 13,
        register_W_practical := { word_of_nat 55 36028796810297344 with is_signed := true },
        P_mask := word_of_nat 55 68182605824,
        P := { word_of_nat 7 120 with is_signed := true },
        Sdot := word_of_nat 4 8,
        P_cursor := 29,
        digit_multiplier_B := word_of_nat 2 1,
        digit_multiplier_S := word_of_nat 2 2,
        digit_multiplier_S_practical := { word_of_nat 3 7 with is_signed := true },
        onthefly_appended_digit := word_of_nat 2 3,
        onthefly_appended_digit_m1 := word_of_nat 2 2,
        onthefly_appended_digit_t2 := word_of_nat 3 6,
        onthefly_appended_digit_t2m1 := word_of_nat 3 5,
        onthefly_select := 1,
        onthefly_select_m1 := 1 } =
    some
      { register_S := word_of_nat 22 27,
        register_A := word_of_nat 42 339738624,
        register_W := { word_of_nat 55 55717134336 with is_signed := true },
        register_S_practical := word_of_nat 22 28,
        register_S_m1 := word_of_nat 22 27,
        register_2S := word_of_nat 23 56,
        register_2S_m1 := word_of_nat 23 55,
        register_W_practical := { word_of_nat 55 36028793680297984 with is_signed := true },
        P_mask := word_of_nat 55 272730423296,
        P := { word_of_nat 7 127 with is_signed := true },
        Sdot := word_of_nat 4 7,
        P_cursor := 31,
        digit_multiplier_B := word_of_nat 2 0,
        digit_multiplier_S := word_of_nat 2 3,
        digit_multiplier_S_practical := { word_of_nat 3 0 with is_signed := true },
        onthefly_appended_digit := word_of_nat 2 0,
        onthefly_appended_digit_m1 := word_of_nat 2 3,
        onthefly_appended_digit_t2 := word_of_nat 3 0,
        onthefly_appended_digit_t2m1 := word_of_nat 3 7,
        onthefly_select := 0,
        onthefly_select_m1 := 1 } := by
  decide!

theorem practical_round_6 :
    practical_iteration 2 10 4 13 3 55 200 [10, 2, 1, 2, 2, 1, 0, 3, 1, 2, 1]
      [12, 0, 0, 1, 2, 3, 3, 3, 0, 3, 0, 0, 0] 6
      { register_S := word_of_nat 22 27,
        register_A := word_of_nat 42 339738624,
        register_W := { word_of_nat 55 55717134336 with is_signed := true },
        register_S_practical := word_of_nat 22 28,
        register_S_m1 := word_of_nat 22 27,
        register_2S := word_of_nat 23 56,
        register_2S_m1 := word_of_nat 23 55,
        register_W_practical := { word_of_nat 55 36028793680297984 with is_signed := true },
        P_mask := word_of_nat 55 272730423296,
        P := { word_of_nat 7 127 with is_signed := true },
        Sdot := word_of_nat 4 7,
        P_cursor := 31,
        digit_multiplier_B := word_of_nat 2 0,
        digit_multiplier_S := word_of_nat 2 3,
        digit_multiplier_S_practical := { word_of_nat 3 0 with is_signed := true },
        onthefly_appended_digit := word_of_nat 2 0,
        onthefly_appended_digit_m1 := word_of_nat 2 3,
        onthefly_appended_digit_t2 := word_of_nat 3 0,
        onthefly_appended_digit_t2m1 := word_of_nat 3 7,
        onthefly_select := 0,
        onthefly_select_m1 := 1 } =
    some
      { register_S := word_of_nat 22 111,
        register_A := word_of_nat 42 1358954496,
        register_W := { word_of_nat 55 190102634496 with is_signed := true },
        register_S_practical := word_of_nat 22 112,
        register_S_m1 := word_of_nat 22 111,
        register_2S := word_of_nat 23 224,
        register_2S_m1 := word_of_nat 23 223,
        register_W_practical := { word_of_nat 55 36028747677171712 with is_signed := true },
        P_mask := word_of_nat 55 1090921693184,
        P := { word_of_nat 7 126 with is_signed := true },
        Sdot := word_of_nat 4 7,
        P_cursor := 33,
        digit_multiplier_B := word_of_nat 2 3,
        digit_multiplier_S := word_of_nat 2 3,
        digit_multiplier_S_practical := { word_of_nat 3 0 with is_signed := true },
        onthefly_appended_digit := word_of_nat 2 0,
        onthefly_appended_digit_m1 := word_of_nat 2 3,
        onthefly_appended_digit_t2 := word_of_nat 3 0,
        onthefly_appended_digit_t2m1 := word_of_nat 3 7,
        onthefly_select := 0,
        onthefly_select_m1 := 1 } := by
  decide!

theorem practical_round_7 :
    practical_iteration 2 10 4 13 3 55 200 [10, 2, 1, 2, 2, 1, 0, 3, 1, 2, 1]
      [12, 0, 0, 1, 2, 3, 3, 3, 0, 3, 0, 0, 0] 7
      { register_S := word_of_nat 22 111,
        register_A := word_of_nat 42 1358954496,
        register_W := { word_of_nat 55 190102634496 with is_signed := true },
        register_S_practical := word_of_nat 22 112,
        register_S_m1 := word_of_nat 22 111,
        register_2S := word_of_nat 23 224,
        register_2S_m1 := word_of_nat 23 223,
        register_W_practical := { word_of_nat 55 36028747677171712 with is_signed := true },
        P_mask := word_of_nat 55 1090921693184,
        P := { word_of_nat 7 126 with is_signed := true },
        Sdot := word_of_nat 4 7,
        P_cursor := 33,
        digit_multiplier_B := word_of_nat 2 3,
        digit_multiplier_S := word_of_nat 2 3,
        digit_multiplier_S_practical := { word_of_nat 3 0 with is_signed := true },
        onthefly_appended_digit := word_of_nat 2 0,
        onthefly_appended_digit_m1 := word_of_nat 2 3,
        onthefly_appended_digit_t2 := word_of_nat 3 0,
        onthefly_appended_digit_t2m1 := word_of_nat 3 7,
        onthefly_select := 0,
        onthefly_select_m1 := 1 } =
    some
      { register_S := word_of_nat 22 447,
        register_A := word_of_nat 42 5435817984,
        register_W := { word_of_nat 55 176966074368 with is_signed := true },
        register_S_practical := word_of_nat 22 447,
        register_S_m1 := word_of_nat 22 446,
        register_2S := word_of_nat 23 894,
        register_2S_m1 := word_of_nat 23 893,
        register_W_practical := { word_of_nat 55 176966074368 with is_signed := true },
        P_mask := word_of_nat 55 4363686772736,
        P := { word_of_nat 7 122 with is_signed := true },
        Sdot := word_of_nat 4 7,
        P_cursor := 35,
        digit_multiplier_B := word_of_nat 2 1,
        digit_multiplier_S := word_of_nat 2 3,
        digit_multiplier_S_practical := { word_of_nat 3 7 with is_signed := true },
        onthefly_appended_digit := word_of_nat 2 3,
        onthefly_appended_digit_m1 := word_of_nat 2 2,
        onthefly_appended_digit_t2 := word_of_nat 3 6,
        onthefly_appended_digit_t2m1 := word_of_nat 3 5,
        onthefly_select := 1,
        onthefly_select_m1 := 1 } := by
  decide!

theorem practical_round_8 :
    practical_iteration 2 10 4 13 3 55 200 [10, 2, 1, 2, 2, 1, 0, 3, 1, 2, 1]
      [12, 0, 0, 1, 2, 3, 3, 3, 0, 3, 0, 0, 0] 8
      { register_S := word_of_nat 22 447,
        register_A := word_of_nat 42 5435817984,
        register_W := { word_of_nat 55 176966074368 with is_signed := true },
        register_S_practical := word_of_nat 22 447,
        register_S_m1 := word_of_nat 22 446,
        register_2S := word_of_nat 23 894,
        register_2S_m1 := word_of_nat 23 893,
        register_W_practical := { word_of_nat 55 176966074368 with is_signed := true },
        P_mask := word_of_nat 55 4363686772736,
        P := { word_of_nat 7 122 with is_signed := true },
        Sdot := word_of_nat 4 7,
        P_cursor := 35,
        digit_multiplier_B := word_of_nat 2 1,
        digit_multiplier_S := word_of_nat 2 3,
        digit_multiplier_S_practical := { word_of_nat 3 7 with is_signed := true },
        onthefly_appended_digit := word_of_nat 2 3,
        onthefly_appended_digit_m1 := word_of_nat 2 2,
        onthefly_appended_digit_t2 := word_of_nat 3 6,
        onthefly_appended_digit_t2m1 := word_of_nat 3 5,
        onthefly_select := 1,
        onthefly_select_m1 := 1 } =
    some
      { register_S := word_of_nat 22 1788,
        register_A := word_of_nat 42 21743271936,
        register_W := { word_of_nat 55 2874943733760 with is_signed := true },
        register_S_practical := word_of_nat 22 1789,
        register_S_m1 := word_of_nat 22 1788,
        register_2S := word_of_nat 23 3578,
        register_2S_m1 := word_of_nat 23 3577,
        register_W_practical := { word_of_nat 55 36027831188193280 with is_signed := true },
        P_mask := word_of_nat 55 17454747090944,
        P := { word_of_nat 7 5 with is_signed := true },
        Sdot := word_of_nat 4 6,
        P_cursor := 37,
        digit_multiplier_B := word_of_nat 2 2,
        digit_multiplier_S := word_of_nat 2 0,
        digit_multiplier_S_practical := { word_of_nat 3 1 with is_signed := true },
        onthefly_appended_digit := word_of_nat 2 1,
        onthefly_appended_digit_m1 := word_of_nat 2 0,
        onthefly_appended_digit_t2 := word_of_nat 3 2,
        onthefly_appended_digit_t2m1 := word_of_nat 3 1,
        onthefly_select := 0,
        onthefly_select_m1 := 0 } := by
  decide!

theorem practical_round_9 :
    practical_iteration 2 10 4 13 3 55 200 [10, 2, 1, 2, 2, 1, 0, 3, 1, 2, 1]
      [12, 0, 0, 1, 2, 3, 3, 3, 0, 3, 0, 0, 0] 9
      { register_S := word_of_nat 22 1788,
        register_A := word_of_nat 42 21743271936,
        register_W := { word_of_nat 55 2874943733760 with is_signed := true },
        register_S_practical := word_of_nat 22 1789,
        register_S_m1 := word_of_nat 22 1788,
        register_2S := word_of_nat 23 3578,
        register_2S_m1 := word_of_nat 23 3577,
        register_W_practical := { word_of_nat 55 36027831188193280 with is_signed := true },
        P_mask := word_of_nat 55 17454747090944,
        P := { word_of_nat 7 5 with is_signed := true },
        Sdot := word_of_nat 4 6,
        P_cursor := 37,
        digit_multiplier_B := word_of_nat 2 2,
        digit_multiplier_S := word_of_nat 2 0,
        digit_multiplier_S_practical := { word_of_nat 3 1 with is_signed := true },
        onthefly_appended_digit := word_of_nat 2 1,
        onthefly_appended_digit_m1 := word_of_nat 2 0,
        onthefly_appended_digit_t2 := word_of_nat 3 2,
        onthefly_appended_digit_t2m1 := word_of_nat 3 1,
        onthefly_select := 0,
        onthefly_select_m1 := 0 } =
    some
      { register_S := word_of_nat 22 7155,
        register_A := word_of_nat 42 86973087744,
        register_W := { word_of_nat 55 0 with is_signed := true },
        register_S_practical := word_of_nat 22 7154,
        register_S_m1 := word_of_nat 22 7153,
        register_2S := word_of_nat 23 14308,
        register_2S_m1 := word_of_nat 23 14307,
        register_W_practical := { word_of_nat 55 15364171759616 with is_signed := true },
        P_mask := word_of_nat 55 69818988363776,
        P := { word_of_nat 7 120 with is_signed := true },
        Sdot := word_of_nat 4 6,
        P_cursor := 39,
        digit_multiplier_B := word_of_nat 2 1,
        digit_multiplier_S := word_of_nat 2 3,
        digit_multiplier_S_practical := { word_of_nat 3 6 with is_signed := true },
        onthefly_appended_digit := word_of_nat 2 2,
        onthefly_appended_digit_m1 := word_of_nat 2 1,
        onthefly_appended_digit_t2 := word_of_nat 3 4,
        onthefly_appended_digit_t2m1 := word_of_nat 3 3,
        onthefly_select := 1,
        onthefly_select_m1 := 1 } := by
  decide!

theorem practical_round_10 :
    practical_iteration 2 10 4 13 3 55 200 [10, 2, 1, 2, 2, 1, 0, 3, 1, 2, 1]
      [12, 0, 0, 1, 2, 3, 3, 3, 0, 3, 0, 0, 0] 10
      { register_S := word_of_nat 22 7155,
        register_A := word_of_nat 42 86973087744,
        register_W := { word_of_nat 55 0 with is_signed := true },
        register_S_practical := word_of_nat 22 7154,
        register_S_m1 := word_of_nat 22 7153,
        register_2S := word_of_nat 23 14308,
        register_2S_m1 := word_of_nat 23 14307,
        register_W_practical := { word_of_nat 55 15364171759616 with is_signed := true },
        P_mask := word_of_nat 55 69818988363776,
        P := { word_of_nat 7 120 with is_signed := true },
        Sdot := word_of_nat 4 6,
        P_cursor := 39,
        digit_multiplier_B := word_of_nat 2 1,
        digit_multiplier_S := word_of_nat 2 3,
        digit_multiplier_S_practical := { word_of_nat 3 6 with is_signed := true },
        onthefly_appended_digit := word_of_nat 2 2,
        onthefly_appended_digit_m1 := word_of_nat 2 1,
        onthefly_appended_digit_t2 := word_of_nat 3 4,
        onthefly_appended_digit_t2m1 := word_of_nat 3 3,
        onthefly_select := 1,
        onthefly_select_m1 := 1 } =
    some
      { register_S := word_of_nat 22 28620,
        register_A := word_of_nat 42 347892350976,
        register_W := { word_of_nat 55 0 with is_signed := true },
        register_S_practical := word_of_nat 22 28619,
        register_S_m1 := word_of_nat 22 28618,
        register_2S := word_of_nat 23 57238,
        register_2S_m1 := word_of_nat 23 57237,
        register_W_practical := { word_of_nat 55 61459908263936 with is_signed := true },
        P_mask := word_of_nat 55 279275953455104,
        P := { word_of_nat 7 27 with is_signed := true },
        Sdot := word_of_nat 4 6,
        P_cursor := 41,
        digit_multiplier_B := word_of_nat 2 0,
        digit_multiplier_S := word_of_nat 2 0,
        digit_multiplier_S_practical := { word_of_nat 3 3 with is_signed := true },
        onthefly_appended_digit := word_of_nat 2 3,
        onthefly_appended_digit_m1 := word_of_nat 2 2,
        onthefly_appended_digit_t2 := word_of_nat 3 6,
        onthefly_appended_digit_t2m1 := word_of_nat 3 5,
        onthefly_select := 0,
        onthefly_select_m1 := 0 } := by
  decide!

theorem practical_round_11 :
    practical_iteration 2 10 4 13 3 55 200 [10, 2, 1, 2, 2, 1, 0, 3, 1, 2, 1]
      [12, 0, 0, 1, 2, 3, 3, 3, 0, 3, 0, 0, 0] 11
      { register_S := word_of_nat 22 28620,
        register_A := word_of_nat 42 347892350976,
        register_W := { word_of_nat 55 0 with is_signed := true },
        register_S_practical := word_of_nat 22 28619,
        register_S_m1 := word_of_nat 22 28618,
        register_2S := word_of_nat 23 57238,
        register_2S_m1 := word_of_nat 23 57237,
        register_W_practical := { word_of_nat 55 61459908263936 with is_signed := true },
        P_mask := word_of_nat 55 279275953455104,
        P := { word_of_nat 7 27 with is_signed := true },
        Sdot := word_of_nat 4 6,
        P_cursor := 41,
        digit_multiplier_B := word_of_nat 2 0,
        digit_multiplier_S := word_of_nat 2 0,
        digit_multiplier_S_practical := { word_of_nat 3 3 with is_signed := true },
        onthefly_appended_digit := word_of_nat 2 3,
        onthefly_appended_digit_m1 := word_of_nat 2 2,
        onthefly_appended_digit_t2 := word_of_nat 3 6,
        onthefly_appended_digit_t2m1 := word_of_nat 3 5,
        onthefly_select := 0,
        onthefly_select_m1 := 0 } =
    some
      { register_S := word_of_nat 22 114480,
        register_A := word_of_nat 42 1391569403904,
        register_W := { word_of_nat 55 0 with is_signed := true },
        register_S_practical := word_of_nat 22 114479,
        register_S_m1 := word_of_nat 22 114478,
        register_2S := word_of_nat 23 228958,
        register_2S_m1 := word_of_nat 23 228957,
        register_W_practical := { word_of_nat 55 245842854281216 with is_signed := true },
        P_mask := word_of_nat 55 1117103813820416,
        P := { word_of_nat 7 27 with is_signed := true },
        Sdot := word_of_nat 4 6,
        P_cursor := 43,
        digit_multiplier_B := word_of_nat 2 0,
        digit_multiplier_S := word_of_nat 2 0,
        digit_multiplier_S_practical := { word_of_nat 3 3 with is_signed := true },
        onthefly_appended_digit := word_of_nat 2 3,
        onthefly_appended_digit_m1 := word_of_nat 2 2,
        onthefly_appended_digit_t2 := word_of_nat 3 6,
        onthefly_appended_digit_t2m1 := word_of_nat 3 5,
        onthefly_select := 0,
        onthefly_select_m1 := 0 } := by
  decide!

theorem practical_round_12 :
    practical_iteration 2 10 4 13 3 55 200 [10, 2, 1, 2, 2, 1, 0, 3, 1, 2, 1]
      [12, 0, 0, 1, 2, 3, 3, 3, 0, 3, 0, 0, 0] 12
      { register_S := word_of_nat 22 114480,
        register_A := word_of_nat 42 1391569403904,
        register_W := { word_of_nat 55 0 with is_signed := true },
        register_S_practical := word_of_nat 22 114479,
        register_S_m1 := word_of_nat 22 114478,
        register_2S := word_of_nat 23 228958,
        register_2S_m1 := word_of_nat 23 228957,
        register_W_practical := { word_of_nat 55 245842854281216 with is_signed := true },
        P_mask := word_of_nat 55 1117103813820416,
        P := { word_of_nat 7 27 with is_signed := true },
        Sdot := word_of_nat 4 6,
        P_cursor := 43,
        digit_multiplier_B := word_of_nat 2 0,
        digit_multiplier_S := word_of_nat 2 0,
        digit_multiplier_S_practical := { word_of_nat 3 3 with is_signed := true },
        onthefly_appended_digit := word_of_nat 2 3,
        onthefly_appended_digit_m1 := word_of_nat 2 2,
        onthefly_appended_digit_t2 := word_of_nat 3 6,
        onthefly_appended_digit_t2m1 := word_of_nat 3 5,
        onthefly_select := 0,
        onthefly_select_m1 := 0 } =
    some
      { register_S := word_of_nat 22 457920,
        register_A := { word_of_nat 42 1168231104512 with overflow := true },
        register_W := { word_of_nat 55 0 with is_signed := true },
        register_S_practical := word_of_nat 22 457919,
        register_S_m1 := word_of_nat 22 457918,
        register_2S := word_of_nat 23 915838,
        register_2S_m1 := word_of_nat 23 915837,
        register_W_practical := { word_of_nat 55 983374638350336 with is_signed := true },
        P_mask := word_of_nat 55 4468415255281664,
        P := { word_of_nat 7 27 with is_signed := true },
        Sdot := word_of_nat 4 6,
        P_cursor := 45,
        digit_multiplier_B := word_of_nat 2 0,
        digit_multiplier_S := word_of_nat 2 0,
        digit_multiplier_S_practical := { word_of_nat 3 3 with is_signed := true },
        onthefly_appended_digit := word_of_nat 2 3,
        onthefly_appended_digit_m1 := word_of_nat 2 2,
        onthefly_appended_digit_t2 := word_of_nat 3 6,
        onthefly_appended_digit_t2m1 := word_of_nat 3 5,
        onthefly_select := 0,
        onthefly_select_m1 := 0 } := by
  decide!

theorem practical_round_13 :
    practical_iteration 2 10 4 13 3 55 200 [10, 2, 1, 2, 2, 1, 0, 3, 1, 2, 1]
      [12, 0, 0, 1, 2, 3, 3, 3, 0, 3, 0, 0, 0] 13
      { register_S := word_of_nat 22 457920,
        register_A := { word_of_nat 42 1168231104512 with overflow := true },
        register_W := { word_of_nat 55 0 with is_signed := true },
        register_S_practical := word_of_nat 22 457919,
        register_S_m1 := word_of_nat 22 457918,
        register_2S := word_of_nat 23 915838,
        register_2S_m1 := word_of_nat 23 915837,
        register_W_practical := { word_of_nat 55 983374638350336 with is_signed := true },
        P_mask := word_of_nat 55 4468415255281664,
        P := { word_of_nat 7 27 with is_signed := true },
        Sdot := word_of_nat 4 6,
        P_cursor := 45,
        digit_multiplier_B := word_of_nat 2 0,
        digit_multiplier_S := word_of_nat 2 0,
        digit_multiplier_S_practical := { word_of_nat 3 3 with is_signed := true },
        onthefly_appended_digit := word_of_nat 2 3,
        onthefly_appended_digit_m1 := word_of_nat 2 2,
        onthefly_appended_digit_t2 := word_of_nat 3 6,
        onthefly_appended_digit_t2m1 := word_of_nat 3 5,
        onthefly_select := 0,
        onthefly_select_m1 := 0 } =
    some
      { register_S := word_of_nat 22 1831680,
        register_A := { word_of_nat 42 1168231104512 with overflow := true },
        register_W := { word_of_nat 55 0 with is_signed := true },
        register_S_practical := word_of_nat 22 1831679,
        register_S_m1 := word_of_nat 22 1831678,
        register_2S := word_of_nat 23 3663358,
        register_2S_m1 := word_of_nat 23 3663357,
        register_W_practical := { word_of_nat 55 3933501774626816 with is_signed := true },
        P_mask := word_of_nat 55 17873661021126656,
        P := { word_of_nat 7 27 with is_signed := true },
        Sdot := word_of_nat 4 6,
        P_cursor := 47,
        digit_multiplier_B := word_of_nat 2 0,
        digit_multiplier_S := word_of_nat 2 0,
        digit_multiplier_S_practical := { word_of_nat 3 3 with is_signed := true },
        onthefly_appended_digit := word_of_nat 2 3,
        onthefly_appended_digit_m1 := word_of_nat 2 2,
        onthefly_appended_digit_t2 := word_of_nat 3 6,
        onthefly_appended_digit_t2m1 := word_of_nat 3 5,
        onthefly_select := 0,
        onthefly_select_m1 := 0 } := by
  decide!

theorem practical_run_loop :
    practical_loop 2 10 4 13 3 55 200 [10, 2, 1, 2, 2, 1, 0, 3, 1, 2, 1]
      [12, 0, 0, 1, 2, 3, 3, 3, 0, 3, 0, 0, 0] 13 1
      { register_S := word_of_nat 22 0,
        register_A := word_of_nat 42 331776,
        register_W := { word_of_nat 55 663552 with is_signed := true },
        register_S_practical := word_of_nat 22 0,
        register_S_m1 := word_of_nat 22 0,
        register_2S := word_of_nat 23 0,
        register_2S_m1 := word_of_nat 23 0,
        register_W_practical := { word_of_nat 55 663552 with is_signed := true },
        P_mask := word_of_nat 55 266338304,
        P := { word_of_nat 7 0 with is_signed := true },
        Sdot := word_of_nat 4 0,
        P_cursor := 21,
        digit_multiplier_B := word_of_nat 2 2,
        digit_multiplier_S := word_of_nat 2 0,
        digit_multiplier_S_practical := { word_of_nat 3 0 with is_signed := true },
        onthefly_appended_digit := word_of_nat 2 0,
        onthefly_appended_digit_m1 := word_of_nat 2 0,
        onthefly_appended_digit_t2 := word_of_nat 3 0,
        onthefly_appended_digit_t2m1 := word_of_nat 3 0,
        onthefly_select := 0,
        onthefly_select_m1 := 0 } =
    some
      { register_S := word_of_nat 22 1831680,
        register_A := { word_of_nat 42 1168231104512 with overflow := true },
        register_W := { word_of_nat 55 0 with is_signed := true },
        register_S_practical := word_of_nat 22 1831679,
        register_S_m1 := word_of_nat 22 1831678,
        register_2S := word_of_nat 23 3663358,
        register_2S_m1 := word_of_nat 23 3663357,
        register_W_practical := { word_of_nat 55 3933501774626816 with is_signed := true },
        P_mask := word_of_nat 55 17873661021126656,
        P := { word_of_nat 7 27 with is_signed := true },
        Sdot := word_of_nat 4 6,
        P_cursor := 47,
        digit_multiplier_B := word_of_nat 2 0,
        digit_multiplier_S := word_of_nat 2 0,
        digit_multiplier_S_practical := { word_of_nat 3 3 with is_signed := true },
        onthefly_appended_digit := word_of_nat 2 3,
        onthefly_appended_digit_m1 := word_of_nat 2 2,
        onthefly_appended_digit_t2 := word_of_nat 3 6,
        onthefly_appended_digit_t2m1 := word_of_nat 3 5,
        onthefly_select := 0,
        onthefly_select_m1 := 0 } := by
  rw [practical_loop_succ _ _ _ _ _ _ _ _ _ 12 1 _ _ practical_round_1,
      practical_loop_succ _ _ _ _ _ _ _ _ _ 11 2 _ _ practical_round_2,
      practical_loop_succ _ _ _ _ _ _ _ _ _ 10 3 _ _ practical_round_3,
      practical_loop_succ _ _ _ _ _ _ _ _ _ 9 4 _ _ practical_round_4,
      practical_loop_succ _ _ _ _ _ _ _ _ _ 8 5 _ _ practical_round_5,
      practical_loop_succ _ _ _ _ _ _ _ _ _ 7 6 _ _ practical_round_6,
      practical_loop_succ _ _ _ _ _ _ _ _ _ 6 7 _ _ practical_round_7,
      practical_loop_succ _ _ _ _ _ _ _ _ _ 5 8 _ _ practical_round_8,
      practical_loop_succ _ _ _ _ _ _ _ _ _ 4 9 _ _ practical_round_9,
      practical_loop_succ _ _ _ _ _ _ _ _ _ 3 10 _ _ practical_round_10,
      practical_loop_succ _ _ _ _ _ _ _ _ _ 2 11 _ _ practical_round_11,
      practical_loop_succ _ _ _ _ _ _ _ _ _ 1 12 _ _ practical_round_12,
      practical_loop_succ _ _ _ _ _ _ _ _ _ 0 13 _ _ practical_round_13]
  rfl

/-- Claim C29 fails for the seeds `576` and `795` (10-bit registers with the top bit
set): the run of `main.c` with `m = 2`, `n = 10`, `Z = 4` completes without a fatal
exit; the theoretical residual `register_W` ends zero (`residual_compare = 0`) while
the practical residual `register_W_practical` ends non-zero (it compares greater than
zero); the exact root is `S = 457920`, the theoretical root register ends at
`4 S = 1831680`, the practical root register at `4 S - 1 = 1831679`, and after a right
shift by the two guard bits it compares below `S` (the last entry; `2` would be the
error value). -/
theorem practical_residuals_disagree :
    (practical_mode 2 10 4 200 (word_of_nat 10 576) (word_of_nat 10 795)).map
      (fun out => [out.residual_compare,
        word_op_compare_constant out.regs.register_W_practical 0,
        (uval out.S.bits : Int), (uval out.register_S.bits : Int),
        (uval out.regs.register_S_practical.bits : Int),
        ((word_op_rightshift out.regs.register_S_practical 2).map
          (fun r => word_op_compare r out.S)).getD 2]) =
      some [0, 1, 457920, 1831680, 1831679, -1] := by
  rw [practical_mode_of_stages 200 _ _ _ _ _ _ practical_run_operands practical_run_digits
    practical_run_init practical_run_loop]
  decide!

end WordLib
